import Mathlib

namespace PromotionForecaster

/-! ## JavaScript runtime model: numbers, strings and `Date` at calendar-day granularity -/

/-- Days from 1970-01-01 to 1 January of year `y` (ECMAScript `DayFromYear`). -/
def dayFromYear (y : Int) : Int :=
  365 * (y - 1970) + (y - 1969) / 4 - (y - 1901) / 100 + (y - 1601) / 400

/-- ECMAScript `InLeapYear`: 1 in a Gregorian leap year, else 0. -/
def inLeapYear (y : Int) : Int :=
  if y % 4 = 0 ∧ (y % 100 ≠ 0 ∨ y % 400 = 0) then 1 else 0

/-- Day within the year of the first day of month index `m` (0 = January),
for a year with leap-day count `leap` (the table of ECMAScript `MonthFromTime`). -/
def daysBeforeMonth (leap : Int) (m : Int) : Int :=
  if m ≤ 0 then 0
  else if m = 1 then 31
  else if m = 2 then 59 + leap
  else if m = 3 then 90 + leap
  else if m = 4 then 120 + leap
  else if m = 5 then 151 + leap
  else if m = 6 then 181 + leap
  else if m = 7 then 212 + leap
  else if m = 8 then 243 + leap
  else if m = 9 then 273 + leap
  else if m = 10 then 304 + leap
  else 334 + leap

/-- ECMAScript `MakeDay(year, month, date)`: months outside 0..11 carry into the year and
days outside the month carry into neighbouring months. -/
def makeDay (year month date : Int) : Int :=
  let ym := year + month / 12
  let mn := month % 12
  dayFromYear ym + daysBeforeMonth (inLeapYear ym) mn + date - 1

/-- ECMAScript `YearFromTime` on a day number: the year `y` with
`dayFromYear y ≤ n < dayFromYear (y + 1)`, computed by 400/100/4/1-year cycles from 1601. -/
def yearFromDay (n : Int) : Int :=
  let N := n + 134774
  let q := N / 146097
  let r := N % 146097
  let b := min (r / 36524) 3
  let r2 := r - b * 36524
  let c := r2 / 1461
  let r3 := r2 % 1461
  let d := min (r3 / 365) 3
  1601 + 400 * q + 100 * b + 4 * c + d

/-- ECMAScript `DayWithinYear`. -/
def dayWithinYear (n : Int) : Int := n - dayFromYear (yearFromDay n)

/-- ECMAScript `MonthFromTime` (0 = January). -/
def monthFromDay (n : Int) : Int :=
  let d := dayWithinYear n
  let leap := inLeapYear (yearFromDay n)
  if d < 31 then 0
  else if d < 59 + leap then 1
  else if d < 90 + leap then 2
  else if d < 120 + leap then 3
  else if d < 151 + leap then 4
  else if d < 181 + leap then 5
  else if d < 212 + leap then 6
  else if d < 243 + leap then 7
  else if d < 273 + leap then 8
  else if d < 304 + leap then 9
  else if d < 334 + leap then 10
  else 11

/-- ECMAScript `DateFromTime` (day of the month, 1-based). -/
def dateFromDay (n : Int) : Int :=
  dayWithinYear n - daysBeforeMonth (inLeapYear (yearFromDay n)) (monthFromDay n) + 1

/-- A JavaScript number that is an integer or NaN (`none`). -/
abbrev JsNum := Option Int

/-- A JavaScript `Date` at calendar-day granularity: the local day number counted from
1970-01-01, or `none` for an Invalid Date (time value NaN). Every date the simulation builds
is a local midnight, and comparing a midnight with any instant of a day agrees with comparing
the two day numbers. -/
abbrev JsDate := Option Int

/-- The constructor call `new Date(year, monthIndex, day)`: NaN arguments give an Invalid Date, years
0..99 mean 1900..1999, and `TimeClip` rejects days beyond 100,000,000 from the epoch. -/
def newDate (year monthIndex day : JsNum) : JsDate :=
  match year, monthIndex, day with
  | some y, some m, some d =>
    let yr := if 0 ≤ y ∧ y ≤ 99 then 1900 + y else y
    let n := makeDay yr m d
    if -100000000 ≤ n ∧ n ≤ 100000000 then some n else none
  | _, _, _ => none

def getFullYear (d : JsDate) : JsNum := d.map yearFromDay
def getMonth (d : JsDate) : JsNum := d.map monthFromDay
def getDate (d : JsDate) : JsNum := d.map dateFromDay

/-- The relational comparison `a <= b` of two Dates (false when either is invalid). -/
def JsDate.le (a b : JsDate) : Bool :=
  match a, b with
  | some x, some y => decide (x ≤ y)
  | _, _ => false

/-- The subtraction `a - b` of two Dates (NaN when either is invalid), in days. -/
def JsDate.sub (a b : JsDate) : JsNum :=
  match a, b with
  | some x, some y => some (x - y)
  | _, _ => none


/-- The white-space code points that `parseInt` skips (ECMAScript `StrWhiteSpaceChar`). -/
def isStrWhiteSpace (c : Char) : Bool :=
  c.toNat ∈ [9, 10, 11, 12, 13, 32, 160, 5760, 8192, 8193, 8194, 8195, 8196, 8197, 8198, 8199,
    8200, 8201, 8202, 8232, 8233, 8239, 8287, 12288, 65279]

/-- Value of a decimal digit character. -/
def digitValue (c : Char) : Option Nat :=
  if 48 ≤ c.toNat ∧ c.toNat ≤ 57 then some (c.toNat - 48) else none

/-- Reads the longest prefix of decimal digits: the value so far and whether a digit was seen. -/
def readDigits : List Char → Nat → Bool → Nat × Bool
  | [], acc, seen => (acc, seen)
  | c :: cs, acc, seen =>
    match digitValue c with
    | some v => readDigits cs (10 * acc + v) true
    | none => (acc, seen)

/-- The optional sign that `parseInt` reads before the digits. -/
def stripSign : List Char → Int × List Char
  | '-' :: r => (-1, r)
  | '+' :: r => (1, r)
  | s => (1, s)

/-- The call `parseInt(s, 10)`: skip leading white space, read an optional sign and the longest
run of digits; NaN when there is no digit. -/
def parseInt (s : List Char) : JsNum :=
  let signed := stripSign (s.dropWhile isStrWhiteSpace)
  match readDigits signed.2 0 false with
  | (v, true) => some (signed.1 * v)
  | (_, false) => none

/-- The call `s.split(sep)` for a one-character separator. -/
def split (sep : Char) : List Char → List (List Char)
  | [] => [[]]
  | c :: cs =>
    if c = sep then [] :: split sep cs
    else
      match split sep cs with
      | [] => [[c]]
      | p :: ps => (c :: p) :: ps

/-- Element `i` of the array `dateStr.split('-').map(num => parseInt(num, 10))`; a missing
element is `undefined`, which `new Date` turns into NaN. -/
def dateField (dateStr : String) (i : Nat) : JsNum :=
  (((split '-' dateStr.toList).map parseInt)[i]?).join

def RETIREMENT_AGE : Int := 60

/-- The function `parseDate` of dateUtils.js. -/
def parseDate (dateStr : String) : JsDate :=
  let day := dateField dateStr 0
  let month := dateField dateStr 1
  let year := dateField dateStr 2
  newDate year (month.map (· - 1)) day

/-- The function `getLastDayOfMonth` of dateUtils.js: `new Date(year, month, 0).getDate()`. -/
def getLastDayOfMonth (year month : JsNum) : JsNum :=
  getDate (newDate year month (some 0))

/-- The function `getRetirementDate` of dateUtils.js. -/
def getRetirementDate (dobStr : String) : JsDate :=
  let dob := parseDate dobStr
  let retireYear := (getFullYear dob).map (· + RETIREMENT_AGE)
  let month := (getMonth dob).map (· + 1)
  let lastDay := getLastDayOfMonth retireYear month
  newDate retireYear (getMonth dob) lastDay

/-- The function `isOfficerRetired` of dateUtils.js. -/
def isOfficerRetired (dobStr : String) (currentDate : JsDate) : Bool :=
  (getRetirementDate dobStr).le currentDate

namespace Simplified

/-- The function `getRetirementDate` of simplified-simulation.js. -/
def getRetirementDate (dobStr : String) : JsDate :=
  let day := dateField dobStr 0
  let month := dateField dobStr 1
  let year := dateField dobStr 2
  let dob := newDate year (month.map (· - 1)) day
  let retireYear := (getFullYear dob).map (· + 60)
  let retireMonth := getMonth dob
  let lastDay := getDate (newDate retireYear (retireMonth.map (· + 1)) (some 0))
  newDate retireYear retireMonth lastDay

end Simplified

/-- The character of decimal digit `k`. -/
def digitChar (k : Nat) : Char := Char.ofNat (48 + k)

/-- The zero-padded text `DD-MM-YYYY` of day `d`, month `m` (1..12) and year `y`. -/
def formatDMY (d m y : Nat) : String :=
  String.mk [digitChar (d / 10), digitChar (d % 10), '-', digitChar (m / 10), digitChar (m % 10), '-',
    digitChar (y / 1000), digitChar (y / 100 % 10), digitChar (y / 10 % 10), digitChar (y % 10)]

/-- Gregorian length of month `m` (1..12) of year `y`. -/
def monthLength (y : Int) (m : Int) : Int :=
  if m = 2 then 28 + inLeapYear y
  else if m = 4 ∨ m = 6 ∨ m = 9 ∨ m = 11 then 30
  else 31


/-! ## Configuration (data/config.js) -/

/-- Rank hierarchy from highest to lowest. -/
def RANK_ORDER : List String := ["ADG", "IG", "DIG", "Commandant", "2IC", "DC", "AC"]

/-- Number of slots available in each rank (a rank without an entry reads `undefined`, against
which every `length < SLOTS[rank]` test is false, as it is against 0). -/
def SLOTS (rank : String) : Nat :=
  if rank = "ADG" then 1
  else if rank = "IG" then 27
  else if rank = "DIG" then 202
  else if rank = "Commandant" then 398
  else if rank = "2IC" then 586
  else if rank = "DC" then 935
  else if rank = "AC" then 2300
  else 0

/-! ## Data model -/

/-- What a field of a roster entry can hold after `JSON.parse(JSON.stringify(...))`, as far
as the code tells values apart (it tests truthiness and strict equality): nothing (the field
is absent and reads `undefined`), null, a boolean, a number or a string. -/
inductive JsValue where
  | undefined
  | null
  | bool (b : Bool)
  | number (n : Int)
  | string (s : String)
deriving DecidableEq, Repr

instance : Inhabited JsValue := ⟨.bool false⟩

/-- Truthiness of a value, as `!value` and `value ? x : y` test it. -/
def JsValue.truthy : JsValue → Bool
  | .undefined => false
  | .null => false
  | .bool b => b
  | .number n => n != 0
  | .string s => s != ""

/-- The expression `value || false`. -/
def JsValue.orFalse (v : JsValue) : JsValue := if v.truthy then v else .bool false

/-- A roster entry as the roster source supplies it. `Frozen` is the field as it stands in
the entry; `Retired` tells whether the entry carries a truthy `Retired` field (the code only
ever tests that field for truthiness). -/
structure Member where
  IRLA : String
  Name : String
  DOB : String
  Rank : String
  order_index : Int
  Frozen : JsValue
  Retired : Bool
deriving DecidableEq, Repr

/-- An officer object inside a simulation: the roster fields plus the flag the display pass
adds (`Retired` and `displayRetired` tell whether the field is truthy). -/
structure Officer where
  IRLA : String
  Name : String
  DOB : String
  Rank : String
  order_index : Int
  Frozen : JsValue
  Retired : Bool
  displayRetired : Bool
deriving DecidableEq, Repr, Inhabited

/-- The object `JSON.parse(JSON.stringify(...))` makes of a roster entry, and every spread
copy `{...officer}` of it: the entry's fields as they stand. -/
def Member.toOfficer (m : Member) : Officer :=
  { IRLA := m.IRLA, Name := m.Name, DOB := m.DOB, Rank := m.Rank, order_index := m.order_index,
    Frozen := m.Frozen, Retired := m.Retired, displayRetired := false }

/-- The writes `officer.Retired = false; officer.Frozen = officer.Frozen || false` of
`runFullSimulation`. -/
def Officer.initialise (o : Officer) : Officer :=
  { o with Retired := false, Frozen := o.Frozen.orFalse }

/-- One ledger entry `[rank, date, causeIRLA, causeName]`. -/
structure PromotionRecord where
  rank : String
  date : JsDate
  causeIRLA : String
  causeName : String
deriving DecidableEq, Repr

/-- The ledger object by its own properties: IRLA to the array of that member's records, a
key the object has not got reading as the empty list. (The engines create a key only to push
a record onto it, so an array of the object is never empty.) What the object inherits is
told by `inheritedKeys`. -/
abbrev Ledger := String → List PromotionRecord

/-- The property names a plain object `{}` inherits from `Object.prototype`. Under each of
them `ledger[key]` reads a function (under `__proto__` the prototype object) where the ledger
has no property of its own: a truthy value without `push`, `map`, `filter` or `forEach`. -/
def inheritedKeys : List String :=
  ["constructor", "__defineGetter__", "__defineSetter__", "hasOwnProperty", "__lookupGetter__",
    "__lookupSetter__", "isPrototypeOf", "propertyIsEnumerable", "toString", "valueOf",
    "__proto__", "toLocaleString"]

/-- The `length` of the value a plain object inherits under `key`: the number of parameters of
the function (`undefined` for the prototype object under `__proto__` and for a key that is
not inherited). -/
def inheritedLength (key : String) : Option Nat :=
  if key = "constructor" ∨ key = "hasOwnProperty" ∨ key = "__lookupGetter__" ∨
      key = "__lookupSetter__" ∨ key = "isPrototypeOf" ∨ key = "propertyIsEnumerable" then
    some 1
  else if key = "__defineGetter__" ∨ key = "__defineSetter__" then some 2
  else if key = "toString" ∨ key = "valueOf" ∨ key = "toLocaleString" then some 0
  else none

/-- A retirement event `{date, officer}`. -/
structure RetirementEvent where
  date : JsDate
  officer : Officer
deriving DecidableEq, Repr

/-- Ways a run can fail to return: a JavaScript `TypeError` (a lookup on `undefined`), or the
recursion budget of the model running out. -/
inductive SimError where
  | typeError
  | outOfFuel
deriving DecidableEq, Repr

/-- Equality of results is decidable when equality of errors and of values is. -/
instance instDecidableEqExcept {ε α : Type} [DecidableEq ε] [DecidableEq α] :
    DecidableEq (Except ε α)
  | .ok a, .ok b => if h : a = b then isTrue (by rw [h]) else isFalse (fun h' => h (Except.ok.inj h'))
  | .error a, .error b =>
    if h : a = b then isTrue (by rw [h]) else isFalse (fun h' => h (Except.error.inj h'))
  | .ok _, .error _ => isFalse (fun h => Except.noConfusion h)
  | .error _, .ok _ => isFalse (fun h => Except.noConfusion h)

/-- A rank structure: rank name to the array held under it (no key reads as empty). -/
abbrev RankStructure (α : Type) := String → List α

/-- Assignment of the array held under `rank`. -/
def setRank {α : Type} (rs : RankStructure α) (rank : String) (l : List α) : RankStructure α :=
  fun k => if k = rank then l else rs k

/-- The call `rs[rank].push(o)`. -/
def pushRank {α : Type} (rs : RankStructure α) (rank : String) (o : α) : RankStructure α :=
  fun k => if k = rank then rs k ++ [o] else rs k

/-- The call `array.findIndex(p)`, with `none` for -1. -/
def findIndex {α : Type} (p : α → Bool) : List α → Option Nat
  | [] => none
  | a :: l => if p a then some 0 else (findIndex p l).map (· + 1)

/-- The expression `name || 'Unknown'`. -/
def orUnknown (name : String) : String := if name = "" then "Unknown" else name

/-- How `Array.prototype.sort` reads a comparator result: `a` may stay before `b` unless the
result is positive (NaN counts as 0). -/
def sortLE {α : Type} (cmp : α → α → JsNum) (a b : α) : Bool :=
  match cmp a b with
  | some v => decide (v ≤ 0)
  | none => true

/-- The test `order < 0` on a comparator result as the sort of the V8 engine reads it (NaN
counts as 0). -/
def sortLT {α : Type} (cmp : α → α → JsNum) (a b : α) : Bool :=
  match cmp a b with
  | some v => decide (v < 0)
  | none => false

/-- The loop of V8's `CountAndMakeRun`: the elements after `prev` that continue the run (each
compared with its predecessor: below it in a descending run, not below it in an ascending
one), and the elements left over. -/
def runTail {α : Type} (cmp : α → α → JsNum) (desc : Bool) : α → List α → List α × List α
  | _, [] => ([], [])
  | prev, cur :: rest =>
    if sortLT cmp cur prev = desc then
      ((runTail cmp desc cur rest).1.cons cur, (runTail cmp desc cur rest).2)
    else ([], cur :: rest)

/-- V8's `CountAndMakeRun` on a whole array: the initial run, reversed if it descends, and the
elements after it. -/
def countAndMakeRun {α : Type} (cmp : α → α → JsNum) : List α → List α × List α
  | [] => ([], [])
  | [a] => ([a], [])
  | a₀ :: a₁ :: rest =>
    let desc := sortLT cmp a₁ a₀
    let run := a₀ :: a₁ :: (runTail cmp desc a₁ rest).1
    (if desc then run.reverse else run, (runTail cmp desc a₁ rest).2)

/-- The binary search of V8's `BinaryInsertionSort` for the place of `pivot` among the
elements `sorted[left..right)`; each halving spends one unit of `fuel`. -/
def insertionPoint {α : Type} (cmp : α → α → JsNum) (pivot : α) (sorted : List α) :
    Nat → Nat → Nat → Nat
  | 0, left, _ => left
  | fuel + 1, left, right =>
    if left < right then
      let mid := left + (right - left) / 2
      match sorted[mid]? with
      | none => left
      | some x =>
        if sortLT cmp pivot x then insertionPoint cmp pivot sorted fuel left mid
        else insertionPoint cmp pivot sorted fuel (mid + 1) right
    else left

/-- One round of V8's `BinaryInsertionSort`: `pivot` goes to the place the binary search
finds. -/
def binaryInsert {α : Type} (cmp : α → α → JsNum) (sorted : List α) (pivot : α) : List α :=
  let k := insertionPoint cmp pivot sorted sorted.length 0 sorted.length
  sorted.take k ++ pivot :: sorted.drop k

/-- The call `array.sort(cmp)` as the V8 engine runs it on an array of fewer than 64 elements:
`CountAndMakeRun`, then `BinaryInsertionSort` for the elements after the run. For a
comparator that is consistent on the array this is the stable sort, which the language
prescribes for every engine and every length; for an inconsistent one the order is left to the
engine, and this is V8's for arrays of fewer than 64 elements (longer arrays are merged run by
run, which is not modelled). -/
def jsSort {α : Type} (cmp : α → α → JsNum) (l : List α) : List α :=
  (countAndMakeRun cmp l).2.foldl (binaryInsert cmp) (countAndMakeRun cmp l).1

/-- The rank comparator: frozen officers last, otherwise by `order_index`. The flags are
compared with `!==` as they stand in the two objects. -/
def seniorityCompare (a b : Officer) : JsNum :=
  if a.Frozen ≠ b.Frozen then (if a.Frozen.truthy then some 1 else some (-1))
  else some (a.order_index - b.order_index)

/-- The event comparator `a.date - b.date`. -/
def dateCompare (a b : RetirementEvent) : JsNum := a.date.sub b.date

/-! ## simulation.js: the timeline pass of `runFullSimulation` -/

/-- State of the timeline pass: the rank structure and the ledger. `history` is a ghost field,
absent from the source: every rank structure the pass has held, newest first. -/
structure TimelineState where
  ranks : RankStructure Officer
  records : Ledger
  history : List (RankStructure Officer)

/-- Replaces the rank structure, remembering the new one in the ghost history. -/
def TimelineState.withRanks (st : TimelineState) (rs : RankStructure Officer) : TimelineState :=
  { st with ranks := rs, history := rs :: st.history }

/-- The candidate search of `fillVacancy`: index of the first officer whose `Frozen` and
`Retired` fields are both falsy. -/
def candidateIndex (l : List Officer) : Option Nat :=
  findIndex (fun o => !o.Frozen.truthy && !o.Retired) l

/-- One promotion inside `fillVacancy`: splice the candidate out of the lower rank, set its
rank, push it onto the vacancy rank and append the ledger record (for a candidate whose IRLA
is not an inherited property name: `fillVacancy` throws otherwise). -/
def promote (st : TimelineState) (vacancyRank lowerRank : String) (i : Nat) (candidate : Officer)
    (date : JsDate) (causeOfficer : Officer) : TimelineState :=
  let st1 := st.withRanks (setRank st.ranks lowerRank ((st.ranks lowerRank).eraseIdx i))
  let st2 := st1.withRanks (pushRank st1.ranks vacancyRank { candidate with Rank := vacancyRank })
  { st2 with
    records := fun k =>
      if k = candidate.IRLA then
        st2.records k ++ [⟨vacancyRank, date, causeOfficer.IRLA, orUnknown causeOfficer.Name⟩]
      else st2.records k }

/-- The function `fillVacancy`. Each loop iteration and each recursive call spends one unit of
`fuel`. Under an inherited property name the ledger reads a truthy value, no array is
created and the `push` throws; nothing catches the exception, so what was written before it
is never seen. -/
def fillVacancy (RANK_ORDER : List String) (SLOTS : String → Nat) :
    Nat → TimelineState → String → JsDate → Officer → Except SimError TimelineState
  | 0, _, _, _, _ => .error .outOfFuel
  | fuel + 1, st, vacancyRank, date, causeOfficer =>
    if vacancyRank ∉ RANK_ORDER then .error .typeError
    else if (st.ranks vacancyRank).length < SLOTS vacancyRank then
      let rankIndex := RANK_ORDER.indexOf vacancyRank
      if rankIndex = RANK_ORDER.length - 1 then .ok st
      else
        match RANK_ORDER[rankIndex + 1]? with
        | none => .error .typeError
        | some lowerRank =>
          if (st.ranks lowerRank).length = 0 then .ok st
          else
            match candidateIndex (st.ranks lowerRank) with
            | none => .ok st
            | some i =>
              match (st.ranks lowerRank)[i]? with
              | none => .ok st
              | some candidate =>
                if candidate.IRLA ∈ inheritedKeys then .error .typeError
                else
                  match fillVacancy RANK_ORDER SLOTS fuel
                      (promote st vacancyRank lowerRank i candidate date causeOfficer)
                      lowerRank date causeOfficer with
                  | .error e => .error e
                  | .ok st' =>
                    fillVacancy RANK_ORDER SLOTS fuel st' vacancyRank date causeOfficer
    else .ok st

/-- Adds every officer to its starting rank; a rank outside the ladder has no array to push
onto and the run throws. -/
def addToRanks {α : Type} (RANK_ORDER : List String) (rankOf : α → String) :
    List α → RankStructure α → Except SimError (RankStructure α)
  | [], rs => .ok rs
  | o :: os, rs =>
    if rankOf o ∈ RANK_ORDER then addToRanks RANK_ORDER rankOf os (pushRank rs (rankOf o) o)
    else .error .typeError

/-- The initial timeline structure: officers under their ranks, each rank sorted by seniority. -/
def buildTimelineStructure (RANK_ORDER : List String) (officersCopy : List Officer) :
    Except SimError (RankStructure Officer) :=
  match addToRanks RANK_ORDER (fun o => o.Rank) officersCopy (fun _ => []) with
  | .error e => .error e
  | .ok rs => .ok (fun k => jsSort seniorityCompare (rs k))

/-- The list `allRetirementEvents`: one event per officer whose `Frozen` field is falsy,
sorted by date. -/
def allRetirementEvents (officersCopy : List Officer) : List RetirementEvent :=
  jsSort dateCompare
    ((officersCopy.filter (fun o => !o.Frozen.truthy)).map
      (fun o => { date := getRetirementDate o.DOB, officer := o }))

/-- The body of `allRetirementEvents.forEach`: find the officer under the rank the event
carries, splice it out and fill the vacancy. -/
def processTimelineEvent (RANK_ORDER : List String) (SLOTS : String → Nat) (fuel : Nat)
    (st : TimelineState) (event : RetirementEvent) : Except SimError TimelineState :=
  let rankList := st.ranks event.officer.Rank
  match findIndex (fun o => o.IRLA == event.officer.IRLA) rankList with
  | none => .ok st
  | some index =>
    fillVacancy RANK_ORDER SLOTS fuel
      (st.withRanks (setRank st.ranks event.officer.Rank (rankList.eraseIdx index)))
      event.officer.Rank event.date event.officer

/-- The loop `allRetirementEvents.forEach`. -/
def processTimelineEvents (RANK_ORDER : List String) (SLOTS : String → Nat) (fuel : Nat) :
    TimelineState → List RetirementEvent → Except SimError TimelineState
  | st, [] => .ok st
  | st, event :: rest =>
    match processTimelineEvent RANK_ORDER SLOTS fuel st event with
    | .error e => .error e
    | .ok st' => processTimelineEvents RANK_ORDER SLOTS fuel st' rest

/-- The working copy `officersCopy` after the first loop: `Retired` reset and `Frozen` set. -/
def officersCopy (officers : List Member) : List Officer :=
  officers.map (fun m => m.toOfficer.initialise)

/-- The copies `{...officer}` that the first loop files under the ranks: each is made
before the loop body resets `Retired` and sets `Frozen`, so it carries both fields as the
roster entry has them. -/
def timelineEntries (officers : List Member) : List Officer := officers.map Member.toOfficer

/-- The state in which the timeline pass starts. -/
def initialTimeline (RANK_ORDER : List String) (officers : List Member) :
    Except SimError TimelineState :=
  match buildTimelineStructure RANK_ORDER (timelineEntries officers) with
  | .error e => .error e
  | .ok rs => .ok { ranks := rs, records := fun _ => [], history := [rs] }

/-- Phase 1 of `runFullSimulation`: all retirement events on the timeline structure. -/
def runTimeline (RANK_ORDER : List String) (SLOTS : String → Nat) (fuel : Nat)
    (officers : List Member) : Except SimError TimelineState :=
  match initialTimeline RANK_ORDER officers with
  | .error e => .error e
  | .ok st =>
    processTimelineEvents RANK_ORDER SLOTS fuel st (allRetirementEvents (officersCopy officers))

/-! ## simulation.js: the display pass of `runFullSimulation`

The display structure holds the objects of `officersCopy` themselves, and so do the display
events: an object is modelled by its position in `officersCopy` (the `heap`), and a write to a
field of an object is a write to the heap. -/

/-- State of the display pass: the objects of `officersCopy` and the rank structure of
references to them. `history` is a ghost field: every (heap, structure) pair the pass has
held, newest first. -/
structure DisplayState where
  heap : List Officer
  ranks : RankStructure Nat
  history : List (List Officer × RankStructure Nat)

/-- The object behind a reference. -/
def DisplayState.obj (st : DisplayState) (ref : Nat) : Officer := st.heap.getD ref default

/-- Replaces heap and rank structure, remembering the new pair in the ghost history. -/
def DisplayState.update (st : DisplayState) (heap : List Officer) (rs : RankStructure Nat) :
    DisplayState :=
  { heap := heap, ranks := rs, history := (heap, rs) :: st.history }

/-- The expression `rankStructure[rank].filter(o => !o.displayRetired)` over given objects. -/
def activeIn (heap : List Officer) (rs : RankStructure Nat) (rank : String) : List Nat :=
  (rs rank).filter (fun r => !(heap.getD r default).displayRetired)

/-- The expression `rankStructure[rank].filter(o => !o.displayRetired)`. -/
def DisplayState.active (st : DisplayState) (rank : String) : List Nat :=
  activeIn st.heap st.ranks rank

/-- The splice of `fillDisplayVacancy`: the first entry of the lower rank with the candidate's
IRLA is taken out (nothing is, when `findIndex` returns -1). -/
def spliceCandidate (st : DisplayState) (lowerRank : String) (candidate : Nat) :
    RankStructure Nat :=
  match findIndex (fun r => (st.obj r).IRLA == (st.obj candidate).IRLA) (st.ranks lowerRank) with
  | none => st.ranks
  | some index => setRank st.ranks lowerRank ((st.ranks lowerRank).eraseIdx index)

/-- One promotion inside `fillDisplayVacancy`: splice the first entry with the candidate's IRLA
out of the lower rank, set the candidate's rank and push it onto the vacancy rank. -/
def promoteDisplay (st : DisplayState) (vacancyRank lowerRank : String) (candidate : Nat) :
    DisplayState :=
  let st1 := st.update st.heap (spliceCandidate st lowerRank candidate)
  let heap2 := st1.heap.modify (fun o => { o with Rank := vacancyRank }) candidate
  st1.update heap2 (pushRank st1.ranks vacancyRank candidate)

/-- The function `fillDisplayVacancy` (its `causeOfficer` argument is never read). Each loop
iteration and each recursive call spends one unit of `fuel`. -/
def fillDisplayVacancy (RANK_ORDER : List String) (SLOTS : String → Nat) :
    Nat → DisplayState → String → Except SimError DisplayState
  | 0, _, _ => .error .outOfFuel
  | fuel + 1, st, vacancyRank =>
    if vacancyRank ∉ RANK_ORDER then .error .typeError
    else if (st.active vacancyRank).length < SLOTS vacancyRank then
      let rankIndex := RANK_ORDER.indexOf vacancyRank
      if rankIndex = RANK_ORDER.length - 1 then .ok st
      else
        match RANK_ORDER[rankIndex + 1]? with
        | none => .error .typeError
        | some lowerRank =>
          let eligibleOfficers :=
            (st.ranks lowerRank).filter
              (fun r => !(st.obj r).Frozen.truthy && !(st.obj r).displayRetired)
          match eligibleOfficers with
          | [] => .ok st
          | candidate :: _ =>
            match fillDisplayVacancy RANK_ORDER SLOTS fuel
                (promoteDisplay st vacancyRank lowerRank candidate) lowerRank with
            | .error e => .error e
            | .ok st' => fillDisplayVacancy RANK_ORDER SLOTS fuel st' vacancyRank
    else .ok st

/-- A display event `{date, officer}`, the officer being a reference. -/
structure DisplayEvent where
  date : JsDate
  officer : Nat
deriving DecidableEq, Repr

/-- The list `displayEvents`: the officers that are not frozen and retire on or before
`currentDate`, sorted by date. -/
def displayEvents (heap : List Officer) (currentDate : JsDate) : List DisplayEvent :=
  jsSort (fun a b => a.date.sub b.date)
    (((List.range heap.length).filter (fun r => !(heap.getD r default).Frozen.truthy)).filterMap
      (fun r =>
        let retirementDate := getRetirementDate (heap.getD r default).DOB
        if retirementDate.le currentDate then some { date := retirementDate, officer := r }
        else none))

/-- The body of `displayEvents.forEach`: find a live entry with the officer's IRLA under the
officer's present rank, splice it out, mark it and fill the vacancy. -/
def processDisplayEvent (RANK_ORDER : List String) (SLOTS : String → Nat) (fuel : Nat)
    (st : DisplayState) (event : DisplayEvent) : Except SimError DisplayState :=
  let officer := st.obj event.officer
  let rankList := st.ranks officer.Rank
  match findIndex (fun r => (st.obj r).IRLA == officer.IRLA && !(st.obj r).displayRetired)
      rankList with
  | none => .ok st
  | some index =>
    let retiredOfficer := rankList.getD index 0
    fillDisplayVacancy RANK_ORDER SLOTS fuel
      (st.update (st.heap.modify (fun o => { o with displayRetired := true }) retiredOfficer)
        (setRank st.ranks officer.Rank (rankList.eraseIdx index)))
      officer.Rank

/-- The loop `displayEvents.forEach`. -/
def processDisplayEvents (RANK_ORDER : List String) (SLOTS : String → Nat) (fuel : Nat) :
    DisplayState → List DisplayEvent → Except SimError DisplayState
  | st, [] => .ok st
  | st, event :: rest =>
    match processDisplayEvent RANK_ORDER SLOTS fuel st event with
    | .error e => .error e
    | .ok st' => processDisplayEvents RANK_ORDER SLOTS fuel st' rest

/-- The state in which the display pass starts: every object under its starting rank, each
rank sorted by seniority. -/
def initialDisplay (RANK_ORDER : List String) (heap : List Officer) :
    Except SimError DisplayState :=
  match addToRanks RANK_ORDER (fun r => (heap.getD r default).Rank) (List.range heap.length)
      (fun _ => []) with
  | .error e => .error e
  | .ok rs =>
    let sorted : RankStructure Nat := fun k =>
      jsSort (fun a b => seniorityCompare (heap.getD a default) (heap.getD b default)) (rs k)
    .ok { heap := heap, ranks := sorted, history := [(heap, sorted)] }

/-- Phase 2 of `runFullSimulation`: the events up to `currentDate` on the display structure. -/
def runDisplay (RANK_ORDER : List String) (SLOTS : String → Nat) (fuel : Nat)
    (officers : List Member) (currentDate : JsDate) : Except SimError DisplayState :=
  match initialDisplay RANK_ORDER (officersCopy officers) with
  | .error e => .error e
  | .ok st =>
    processDisplayEvents RANK_ORDER SLOTS fuel st
      (displayEvents (officersCopy officers) currentDate)

/-- The object `runFullSimulation` returns. `timeline` and `display` are ghost fields: the
final states of the two passes, with their histories. -/
structure SimulationResult where
  displayRanks : RankStructure Officer
  updatedOfficers : List Officer
  promotionRecords : Ledger
  timeline : TimelineState
  display : DisplayState

/-- The function `runFullSimulation`, with `RANK_ORDER` and `SLOTS` as parameters. -/
def runFullSimulation (RANK_ORDER : List String) (SLOTS : String → Nat) (fuel : Nat)
    (officers : List Member) (currentDate : JsDate) : Except SimError SimulationResult :=
  match runTimeline RANK_ORDER SLOTS fuel officers with
  | .error e => .error e
  | .ok timeline =>
    match runDisplay RANK_ORDER SLOTS fuel officers currentDate with
    | .error e => .error e
    | .ok display =>
      .ok { displayRanks := fun rank =>
              if rank ∈ RANK_ORDER then (display.active rank).map display.obj else []
            updatedOfficers := display.heap
            promotionRecords := timeline.records
            timeline := timeline
            display := display }

/-! ## simplified-simulation.js -/

namespace Simplified

/-- The working copy `officersCopy` of `simulatePromotions` after its first loop: the copy of
the roster with `Retired` reset (`Frozen` stays as the roster entry has it). -/
def officersCopy (officers : List Member) : List Officer :=
  officers.map (fun m => { m.toOfficer with Retired := false })

/-- The function `buildRankStructures`: copies of the officers under their ranks, each rank
sorted with the rank comparator. -/
def buildRankStructures (RANK_ORDER : List String) (officers : List Officer) :
    Except SimError (RankStructure Officer) :=
  match addToRanks RANK_ORDER (fun o => o.Rank) officers (fun _ => []) with
  | .error e => .error e
  | .ok rankMap => .ok (fun k => jsSort seniorityCompare (rankMap k))

/-- The function `buildRetirementEvents`: one `[retirementDate, officer]` pair per officer
whose `Frozen` field is falsy, sorted by date. -/
def buildRetirementEvents (officers : List Officer) : List RetirementEvent :=
  jsSort dateCompare
    ((officers.filter (fun o => !o.Frozen.truthy)).map
      (fun o => { date := getRetirementDate o.DOB, officer := o }))

/-- The function `fillRankUpwards`. Each loop iteration and each recursive call spends one unit
of `fuel`. The `push` onto the ledger throws for a candidate whose IRLA is an inherited
property name. -/
def fillRankUpwards (RANK_ORDER : List String) (SLOTS : String → Nat) :
    Nat → TimelineState → String → JsDate → Officer → Except SimError TimelineState
  | 0, _, _, _, _ => .error .outOfFuel
  | fuel + 1, st, rank, eventDate, cause =>
    if rank ∉ RANK_ORDER then .error .typeError
    else if (st.ranks rank).length < SLOTS rank then
      let rankIndex := RANK_ORDER.indexOf rank
      if rankIndex = RANK_ORDER.length - 1 then .ok st
      else
        match RANK_ORDER[rankIndex + 1]? with
        | none => .ok st
        | some lowerRank =>
          if (st.ranks lowerRank).length = 0 then .ok st
          else
            match findIndex (fun o => !o.Retired && !o.Frozen.truthy) (st.ranks lowerRank) with
            | none => .ok st
            | some i =>
              match (st.ranks lowerRank)[i]? with
              | none => .ok st
              | some candidate =>
                if candidate.IRLA ∈ inheritedKeys then .error .typeError
                else
                  match fillRankUpwards RANK_ORDER SLOTS fuel
                      (promote st rank lowerRank i candidate eventDate cause)
                      lowerRank eventDate cause with
                  | .error e => .error e
                  | .ok st' => fillRankUpwards RANK_ORDER SLOTS fuel st' rank eventDate cause
    else .ok st

/-- The body of `events.forEach` in `simulatePromotions`. The event's officer is an object of
`officersCopy`; it occurs in this one event only, so its `Retired` flag and its `Rank` are read
as the loop over `officersCopy` and the roster left them. The cascade runs whether or not the
officer was found under that rank. -/
def processEvent (RANK_ORDER : List String) (SLOTS : String → Nat) (fuel : Nat)
    (st : TimelineState) (event : RetirementEvent) : Except SimError TimelineState :=
  if event.officer.Retired then .ok st
  else
    let rank := event.officer.Rank
    let rankList := st.ranks rank
    let st1 :=
      match findIndex (fun o => o.IRLA == event.officer.IRLA) rankList with
      | none => st
      | some i => st.withRanks (setRank st.ranks rank (rankList.eraseIdx i))
    fillRankUpwards RANK_ORDER SLOTS fuel st1 rank event.date event.officer

/-- The loop `events.forEach` of `simulatePromotions`. -/
def processEvents (RANK_ORDER : List String) (SLOTS : String → Nat) (fuel : Nat) :
    TimelineState → List RetirementEvent → Except SimError TimelineState
  | st, [] => .ok st
  | st, event :: rest =>
    match processEvent RANK_ORDER SLOTS fuel st event with
    | .error e => .error e
    | .ok st' => processEvents RANK_ORDER SLOTS fuel st' rest

/-- The run of `simulatePromotions`, keeping the final state of the rank map. -/
def simulate (RANK_ORDER : List String) (SLOTS : String → Nat) (fuel : Nat)
    (officers : List Member) : Except SimError TimelineState :=
  match buildRankStructures RANK_ORDER (officersCopy officers) with
  | .error e => .error e
  | .ok rankMap =>
    processEvents RANK_ORDER SLOTS fuel
      { ranks := rankMap, records := fun _ => [], history := [rankMap] }
      (buildRetirementEvents (officersCopy officers))

/-- The function `simulatePromotions`: the ledger `promotions`. -/
def simulatePromotions (RANK_ORDER : List String) (SLOTS : String → Nat) (fuel : Nat)
    (officers : List Member) : Except SimError Ledger :=
  match simulate RANK_ORDER SLOTS fuel officers with
  | .error e => .error e
  | .ok st => .ok st.records

/-- The rank `filterByDate` files an officer under: that of the last record dated on or
before `currentDate`, else the officer's own. -/
def currentRank (promotions : Ledger) (currentDate : JsDate) (officer : Member) : String :=
  match ((promotions officer.IRLA).filter (fun promo => promo.date.le currentDate)).getLast? with
  | some promo => promo.rank
  | none => officer.Rank

/-- The officers `filterByDate` does not skip: those whose retirement date is not on or
before `currentDate`, and those whose `Frozen` field is truthy. -/
def keptByDate (officers : List Member) (currentDate : JsDate) : List Member :=
  officers.filter
    (fun officer => !((getRetirementDate officer.DOB).le currentDate && !officer.Frozen.truthy))

/-- The function `filterByDate`. For an officer it does not skip, `promotions[officer.IRLA]`
is truthy under an inherited property name for which the ledger has no array, and the call
of `filter` on it throws; so does the `push` under a rank outside the ladder. Both are
TypeErrors and nothing is returned in either case, so the first test is made for all
officers at once. -/
def filterByDate (RANK_ORDER : List String) (officers : List Member) (promotions : Ledger)
    (currentDate : JsDate) : Except SimError (RankStructure Member) :=
  if (keptByDate officers currentDate).any
      (fun officer =>
        decide (promotions officer.IRLA = []) && decide (officer.IRLA ∈ inheritedKeys))
  then .error .typeError
  else
    addToRanks RANK_ORDER (fun o => o.Rank)
      ((keptByDate officers currentDate).map
        (fun officer => { officer with Rank := currentRank promotions currentDate officer }))
      (fun _ => [])

end Simplified

/-! ## promotionUtils.js

This engine works on the caller's officer objects themselves: an object is its position in
the roster (the `heap`), and the roster as the call leaves it is part of the result. -/

namespace PromotionUtils

/-- State of `simulatePromotions`: the caller's objects, the rank map of references to them and
the ledger. -/
structure State where
  heap : List Officer
  rankMap : RankStructure Nat
  promotions : Ledger

/-- The object behind a reference. -/
def State.obj (st : State) (ref : Nat) : Officer := st.heap.getD ref default

/-- The function `buildRankStructures`: every officer under its rank, in roster order. -/
def buildRankStructures (RANK_ORDER : List String) (officers : List Officer) :
    Except SimError (RankStructure Nat) :=
  addToRanks RANK_ORDER (fun r => (officers.getD r default).Rank) (List.range officers.length)
    (fun _ => [])

/-- An event `[retirementDate, officer]`, the officer being a reference. -/
structure Event where
  date : JsDate
  officer : Nat
deriving DecidableEq, Repr

/-- The function `buildRetirementEvents`: one event per officer, sorted by date. -/
def buildRetirementEvents (officers : List Officer) : List Event :=
  jsSort (fun a b => a.date.sub b.date)
    ((List.range officers.length).map
      (fun r => { date := getRetirementDate (officers.getD r default).DOB, officer := r }))

/-- One promotion inside `fillRankUpwards`. -/
def promote (st : State) (rank lowerRank : String) (candidate : Nat) (eventDate : JsDate)
    (cause : Officer) : State :=
  let spliced :=
    match findIndex (fun r => r == candidate) (st.rankMap lowerRank) with
    | none => (st.rankMap lowerRank).dropLast
    | some index => (st.rankMap lowerRank).eraseIdx index
  let rankMap1 := setRank st.rankMap lowerRank spliced
  { heap := st.heap.modify (fun o => { o with Rank := rank }) candidate
    rankMap := pushRank rankMap1 rank candidate
    promotions := fun k =>
      if k = (st.obj candidate).IRLA then
        st.promotions k ++ [⟨rank, eventDate, cause.IRLA, orUnknown cause.Name⟩]
      else st.promotions k }

/-- The function `fillRankUpwards`. Each loop iteration and each recursive call spends one unit
of `fuel`. The `push` onto the ledger throws for a candidate whose IRLA is an inherited
property name. -/
def fillRankUpwards (RANK_ORDER : List String) (SLOTS : String → Nat) :
    Nat → State → String → JsDate → Officer → Except SimError State
  | 0, _, _, _, _ => .error .outOfFuel
  | fuel + 1, st, rank, eventDate, cause =>
    if rank ∉ RANK_ORDER then .error .typeError
    else if (st.rankMap rank).length < SLOTS rank then
      let idx := RANK_ORDER.indexOf rank
      if idx = RANK_ORDER.length - 1 then .ok st
      else
        match RANK_ORDER[idx + 1]? with
        | none => .ok st
        | some lowerRank =>
          if (st.rankMap lowerRank).length = 0 then .ok st
          else
            match (st.rankMap lowerRank).find? (fun r => !(st.obj r).Retired) with
            | none => .ok st
            | some candidate =>
              if (st.obj candidate).IRLA ∈ inheritedKeys then .error .typeError
              else
                match fillRankUpwards RANK_ORDER SLOTS fuel
                    (promote st rank lowerRank candidate eventDate cause) lowerRank eventDate
                    cause with
                | .error e => .error e
                | .ok st' => fillRankUpwards RANK_ORDER SLOTS fuel st' rank eventDate cause
    else .ok st

/-- The body of `events.forEach` in `simulatePromotions`. -/
def processEvent (RANK_ORDER : List String) (SLOTS : String → Nat) (fuel : Nat) (st : State)
    (event : Event) : Except SimError State :=
  let retiringOfficer := st.obj event.officer
  if retiringOfficer.Retired then .ok st
  else
    let heap1 := st.heap.modify (fun o => { o with Retired := true }) event.officer
    let rank := retiringOfficer.Rank
    let rankList := st.rankMap rank
    let rankMap1 :=
      match findIndex (fun r => (st.obj r).IRLA == retiringOfficer.IRLA) rankList with
      | none => st.rankMap
      | some i => setRank st.rankMap rank (rankList.eraseIdx i)
    fillRankUpwards RANK_ORDER SLOTS fuel { st with heap := heap1, rankMap := rankMap1 } rank
      event.date { retiringOfficer with Retired := true }

/-- The loop `events.forEach` of `simulatePromotions`. -/
def processEvents (RANK_ORDER : List String) (SLOTS : String → Nat) (fuel : Nat) :
    State → List Event → Except SimError State
  | st, [] => .ok st
  | st, event :: rest =>
    match processEvent RANK_ORDER SLOTS fuel st event with
    | .error e => .error e
    | .ok st' => processEvents RANK_ORDER SLOTS fuel st' rest

/-- The function `simulatePromotions`: the ledger it returns, together with the caller's
officer objects as the call leaves them. -/
def simulatePromotions (RANK_ORDER : List String) (SLOTS : String → Nat) (fuel : Nat)
    (officers : List Officer) : Except SimError (Ledger × List Officer) :=
  match buildRankStructures RANK_ORDER officers with
  | .error e => .error e
  | .ok rankMap =>
    match processEvents RANK_ORDER SLOTS fuel
        { heap := officers, rankMap := rankMap, promotions := fun _ => [] }
        (buildRetirementEvents officers) with
    | .error e => .error e
    | .ok st => .ok (st.promotions, st.heap)

end PromotionUtils

/-! ## Text: `String(number)`, `padStart`, `formatDate`, the timeline renderers -/

/-- Decimal digits of a natural number, most significant first (one unit of fuel per digit). -/
def decimalDigits : Nat → Nat → List Char
  | 0, _ => []
  | fuel + 1, n =>
    if n < 10 then [digitChar n] else decimalDigits fuel (n / 10) ++ [digitChar (n % 10)]

/-- The conversion `String(x)` of an integer Number or NaN. -/
def numberToString (x : JsNum) : List Char :=
  match x with
  | none => ['N', 'a', 'N']
  | some n =>
    if n < 0 then '-' :: decimalDigits (n.natAbs + 1) n.natAbs
    else decimalDigits (n.toNat + 1) n.toNat

/-- The call `s.padStart(2, '0')`. -/
def padStart2 (s : List Char) : List Char := List.replicate (2 - s.length) '0' ++ s

/-- The function `formatDate` of dateUtils.js. -/
def formatDate (date : JsDate) : String :=
  let day := padStart2 (numberToString (getDate date))
  let month := padStart2 (numberToString ((getMonth date).map (· + 1)))
  let year := getFullYear date
  String.mk (day ++ '-' :: month ++ '-' :: numberToString year)

/-- The call `lines.join(sep)`. -/
def join (sep : List Char) : List (List Char) → List Char
  | [] => []
  | [l] => l
  | l :: ls => l ++ sep ++ join sep ls

/-- The text "No promotions recorded." -/
def noPromotions : String := "No promotions recorded."

namespace Simulation

/-- The function `formatDate` local to simulation.js. -/
def formatDate (date : JsDate) : String :=
  let day := padStart2 (numberToString (getDate date))
  let month := padStart2 (numberToString ((getMonth date).map (· + 1)))
  let year := getFullYear date
  String.mk (day ++ '-' :: month ++ '-' :: numberToString year)

end Simulation

/-- What the guard `!ledger[key] || ledger[key].length === 0` of the timeline renderers lets
through although the ledger has no array under `key`: an inherited property name whose value
does not report the length 0. That value has no `map` or `forEach` and is not iterable, so
the call that follows throws. -/
def readsInherited (key : String) : Bool :=
  decide (key ∈ inheritedKeys) && decide (inheritedLength key ≠ some 0)

/-- The function `generateTimeline` of simulation.js. -/
def generateTimeline (irla : String) (promotionRecords : Ledger) : Except SimError String :=
  if (promotionRecords irla).length = 0 then
    if readsInherited irla then .error .typeError else .ok noPromotions
  else
    let lines := (promotionRecords irla).map (fun r =>
      let dateStr := Simulation.formatDate r.date
      "Promoted to ".toList ++ r.rank.toList ++ " on ".toList ++ dateStr.toList ++
        " (triggered by retirement of ".toList ++ r.causeName.toList ++ " [".toList ++
        r.causeIRLA.toList ++ "])".toList)
    .ok (String.mk (join ['\n'] lines))

namespace Simplified

/-- The function `formatDate` of simplified-simulation.js. -/
def formatDate (date : JsDate) : String :=
  let day := padStart2 (numberToString (getDate date))
  let month := padStart2 (numberToString ((getMonth date).map (· + 1)))
  let year := getFullYear date
  String.mk (day ++ '-' :: month ++ '-' :: numberToString year)

/-- The function `computePromotionTimeline` of simplified-simulation.js. -/
def computePromotionTimeline (irla : String) (promotions : Ledger) :
    Except SimError String :=
  if (promotions irla).length = 0 then
    if readsInherited irla then .error .typeError else .ok noPromotions
  else
    let lines := (promotions irla).foldl (fun lines r =>
      let dateStr := formatDate r.date
      lines ++ ["Promoted to ".toList ++ r.rank.toList ++ " on ".toList ++ dateStr.toList ++
        " (triggered by retirement of ".toList ++ r.causeName.toList ++ " [".toList ++
        r.causeIRLA.toList ++ "])".toList]) []
    .ok (String.mk (join ['\n'] lines))

end Simplified

namespace PromotionUtils

/-- The function `computePromotionTimeline` of promotionUtils.js. -/
def computePromotionTimeline (officerIRLA : String) (promotions : Ledger) :
    Except SimError String :=
  if (promotions officerIRLA).length = 0 then
    if readsInherited officerIRLA then .error .typeError else .ok noPromotions
  else
    let timelineLines := (promotions officerIRLA).foldl (fun timelineLines record =>
      timelineLines ++ ["Promoted to ".toList ++ record.rank.toList ++ " on ".toList ++
        (formatDate record.date).toList ++ " (triggered by retirement of ".toList ++
        record.causeName.toList ++ " [".toList ++ record.causeIRLA.toList ++ "])".toList]) []
    .ok (String.mk (join ['\n'] timelineLines))

end PromotionUtils

/-- The line the spec asks for one ledger record: its rank, its date as `DD-MM-YYYY`, the name
and the IRLA of the cause. -/
def timelineLine (r : PromotionRecord) : List Char :=
  "Promoted to ".toList ++ r.rank.toList ++ " on ".toList ++ (formatDate r.date).toList ++
    " (triggered by retirement of ".toList ++ r.causeName.toList ++ " [".toList ++
    r.causeIRLA.toList ++ "])".toList

/-! ## App.js: the display filter, the simulation and the rank `selectOfficer` shows

The roster (`getAllOfficers` of data/officerData, which is not among the sources) is a
parameter. Objects are positions in `officersCopy` (the `heap`), as in the display pass of
`runFullSimulation`. -/

namespace App

/-- An officer object of App.js: the roster fields and the flag `isRetired` the code adds
(`isRetired` and `Retired` tell whether the field is truthy). -/
structure Officer where
  IRLA : String
  Name : String
  DOB : String
  Rank : String
  order_index : Int
  Frozen : JsValue
  isRetired : Bool
  Retired : Bool
deriving DecidableEq, Repr, Inhabited

/-- The copy `JSON.parse(JSON.stringify(officer))` of a roster entry, as the code first reads
it: `applyCurrentDateFilter` sets `isRetired` and `runSimulation` resets `Retired` on every
copy before either field is read. -/
def copy (m : Member) : Officer :=
  { IRLA := m.IRLA, Name := m.Name, DOB := m.DOB, Rank := m.Rank, order_index := m.order_index,
    Frozen := m.Frozen, isRetired := false, Retired := false }

/-- The function `getRetirementDate` of App.js. -/
def getRetirementDate (dobStr : String) : JsDate :=
  let day := dateField dobStr 0
  let month := dateField dobStr 1
  let year := dateField dobStr 2
  let dob := newDate year (month.map (· - 1)) day
  let retireYear := (getFullYear dob).map (· + 60)
  let retireMonth := getMonth dob
  let lastDay := getDate (newDate retireYear (retireMonth.map (· + 1)) (some 0))
  newDate retireYear retireMonth lastDay

/-- State of the display filter: the objects and the rank structure of references. -/
structure Display where
  heap : List Officer
  rankStructure : RankStructure Nat

/-- The object behind a reference. -/
def Display.obj (st : Display) (ref : Nat) : Officer := st.heap.getD ref default

/-- The `for` loop of `fillVacanciesForDisplay`: each round sorts the remaining officers of the
lower rank by `order_index`, shifts the first one out, splices the first entry with its IRLA out
of the lower rank, sets its rank and pushes it onto the rank being filled. -/
def promoteLoop (rank lowerRank : String) :
    Nat → Display → List Nat → Except SimError Display
  | 0, st, _ => .ok st
  | n + 1, st, lowerRankOfficers =>
    match jsSort (fun a b => some ((st.obj a).order_index - (st.obj b).order_index))
        lowerRankOfficers with
    | [] => .error .typeError
    | officerToPromote :: rest =>
      let lower := st.rankStructure lowerRank
      let spliced :=
        match findIndex (fun r => (st.obj r).IRLA == (st.obj officerToPromote).IRLA) lower with
        | none => st.rankStructure
        | some index => setRank st.rankStructure lowerRank (lower.eraseIdx index)
      promoteLoop rank lowerRank n
        { heap := st.heap.modify (fun o => { o with Rank := rank }) officerToPromote
          rankStructure := pushRank spliced rank officerToPromote }
        rest

/-- The function `fillVacanciesForDisplay`. Each recursive call spends one unit of `fuel`. -/
def fillVacanciesForDisplay (RANK_ORDER : List String) (SLOTS : String → Nat) :
    Nat → Display → String → Nat → Except SimError Display
  | 0, _, _, _ => .error .outOfFuel
  | fuel + 1, st, rank, count =>
    if rank ∉ RANK_ORDER then .error .typeError
    else
      let rankIndex := RANK_ORDER.indexOf rank
      if rankIndex = RANK_ORDER.length - 1 then .ok st
      else
        match RANK_ORDER[rankIndex + 1]? with
        | none => .error .typeError
        | some lowerRank =>
          let lowerRankOfficers :=
            (st.rankStructure lowerRank).filter (fun r => !(st.obj r).isRetired)
          if lowerRankOfficers.length = 0 then .ok st
          else
            let promoteCount := min count lowerRankOfficers.length
            match promoteLoop rank lowerRank promoteCount st lowerRankOfficers with
            | .error e => .error e
            | .ok st1 =>
              let lowerRankVacancies : Int :=
                (SLOTS lowerRank : Int) - ((st1.rankStructure lowerRank).length : Int)
              if lowerRankVacancies > 0 then
                fillVacanciesForDisplay RANK_ORDER SLOTS fuel st1 lowerRank
                  lowerRankVacancies.toNat
              else .ok st1

/-- Step 4 of `applyCurrentDateFilter`: for each rank from the top, drop the retired officers
and fill the vacancies. -/
def filterRanks (RANK_ORDER : List String) (SLOTS : String → Nat) (fuel : Nat) :
    List String → Display → Except SimError Display
  | [], st => .ok st
  | rank :: ranks, st =>
    let activeOfficers := (st.rankStructure rank).filter (fun r => !(st.obj r).isRetired)
    let st1 : Display := { st with rankStructure := setRank st.rankStructure rank activeOfficers }
    let vacancies : Int := (SLOTS rank : Int) - (activeOfficers.length : Int)
    if vacancies > 0 then
      match fillVacanciesForDisplay RANK_ORDER SLOTS fuel st1 rank vacancies.toNat with
      | .error e => .error e
      | .ok st2 => filterRanks RANK_ORDER SLOTS fuel ranks st2
    else filterRanks RANK_ORDER SLOTS fuel ranks st1

/-- The function `applyCurrentDateFilter`: the rank structure it hands to `setDisplayRanks`,
as the officers listed under each rank. -/
def applyCurrentDateFilter (RANK_ORDER : List String) (SLOTS : String → Nat) (fuel : Nat)
    (allOfficers : List Member) (currentDate : JsDate) :
    Except SimError (RankStructure Officer) :=
  let officersCopy := (allOfficers.map copy).map (fun officer =>
    { officer with isRetired := (getRetirementDate officer.DOB).le currentDate })
  match addToRanks RANK_ORDER (fun r => (officersCopy.getD r default).Rank)
      (List.range officersCopy.length) (fun _ => []) with
  | .error e => .error e
  | .ok rankStructure =>
    match filterRanks RANK_ORDER SLOTS fuel RANK_ORDER
        { heap := officersCopy, rankStructure := rankStructure } with
    | .error e => .error e
    | .ok st => .ok (fun rank => (st.rankStructure rank).map st.obj)

/-- State of `runSimulation`: the objects, the rank map of references and the ledger. -/
structure Sim where
  heap : List Officer
  rankMap : RankStructure Nat
  promotions : Ledger

/-- The object behind a reference. -/
def Sim.obj (st : Sim) (ref : Nat) : Officer := st.heap.getD ref default

/-- The function `fillVacancy` of App.js. Each loop iteration and each recursive call spends
one unit of `fuel`. The `push` onto the ledger throws for a candidate whose IRLA is an
inherited property name. -/
def fillVacancy (RANK_ORDER : List String) (SLOTS : String → Nat) :
    Nat → Sim → String → JsDate → Officer → Except SimError Sim
  | 0, _, _, _, _ => .error .outOfFuel
  | fuel + 1, st, rank, date, causeOfficer =>
    if rank ∉ RANK_ORDER then .error .typeError
    else if (st.rankMap rank).length < SLOTS rank then
      let rankIndex := RANK_ORDER.indexOf rank
      if rankIndex = RANK_ORDER.length - 1 then .ok st
      else
        match RANK_ORDER[rankIndex + 1]? with
        | none => .ok st
        | some lowerRank =>
          if (st.rankMap lowerRank).length = 0 then .ok st
          else
            match findIndex (fun r => !(st.obj r).Retired) (st.rankMap lowerRank) with
            | none => .ok st
            | some candidateIndex =>
              match (st.rankMap lowerRank)[candidateIndex]? with
              | none => .ok st
              | some candidate =>
                if (st.obj candidate).IRLA ∈ inheritedKeys then .error .typeError
                else
                  let rankMap1 := setRank st.rankMap lowerRank
                    ((st.rankMap lowerRank).eraseIdx candidateIndex)
                  let st1 : Sim :=
                    { heap := st.heap.modify (fun o => { o with Rank := rank }) candidate
                      rankMap := pushRank rankMap1 rank candidate
                      promotions := fun k =>
                        if k = (st.obj candidate).IRLA then
                          st.promotions k ++
                            [⟨rank, date, causeOfficer.IRLA, orUnknown causeOfficer.Name⟩]
                        else st.promotions k }
                  match fillVacancy RANK_ORDER SLOTS fuel st1 lowerRank date causeOfficer with
                  | .error e => .error e
                  | .ok st' => fillVacancy RANK_ORDER SLOTS fuel st' rank date causeOfficer
    else .ok st

/-- The body of `events.forEach` in `runSimulation`. -/
def processEvent (RANK_ORDER : List String) (SLOTS : String → Nat) (fuel : Nat) (st : Sim)
    (event : JsDate × Nat) : Except SimError Sim :=
  let retiringOfficer := st.obj event.2
  if retiringOfficer.Retired then .ok st
  else
    let heap1 := st.heap.modify (fun o => { o with Retired := true }) event.2
    let rank := retiringOfficer.Rank
    let rankMap1 :=
      match findIndex (fun r => (st.obj r).IRLA == retiringOfficer.IRLA) (st.rankMap rank) with
      | none => st.rankMap
      | some index => setRank st.rankMap rank ((st.rankMap rank).eraseIdx index)
    fillVacancy RANK_ORDER SLOTS fuel { st with heap := heap1, rankMap := rankMap1 } rank
      event.1 { retiringOfficer with Retired := true }

/-- The loop `events.forEach` of `runSimulation`. -/
def processEvents (RANK_ORDER : List String) (SLOTS : String → Nat) (fuel : Nat) :
    Sim → List (JsDate × Nat) → Except SimError Sim
  | st, [] => .ok st
  | st, event :: rest =>
    match processEvent RANK_ORDER SLOTS fuel st event with
    | .error e => .error e
    | .ok st' => processEvents RANK_ORDER SLOTS fuel st' rest

/-- The function `runSimulation`: the ledger `promotions`. -/
def runSimulation (RANK_ORDER : List String) (SLOTS : String → Nat) (fuel : Nat)
    (officers : List Member) : Except SimError Ledger :=
  let officersCopy := officers.map copy
  match addToRanks RANK_ORDER (fun r => (officersCopy.getD r default).Rank)
      (List.range officersCopy.length) (fun _ => []) with
  | .error e => .error e
  | .ok rankMap0 =>
    let rankMap : RankStructure Nat := fun k =>
      jsSort (fun a b => some ((officersCopy.getD a default).order_index
        - (officersCopy.getD b default).order_index)) (rankMap0 k)
    let events := jsSort (fun a b => JsDate.sub a.1 b.1)
      ((List.range officersCopy.length).map
        (fun r => (getRetirementDate (officersCopy.getD r default).DOB, r)))
    match processEvents RANK_ORDER SLOTS fuel
        { heap := officersCopy, rankMap := rankMap, promotions := fun _ => [] } events with
    | .error e => .error e
    | .ok st => .ok st.promotions

/-- The rank `selectOfficer` shows for an officer of the roster: that of the last record dated
on or before `currentDate`, else the officer's own. Where the ledger has no array under the
officer's IRLA and inherits a value reporting a positive `length`, the call of `filter` on
that value throws. -/
def selectOfficer (promotionRecords : Ledger) (currentDate : JsDate) (officer : Member) :
    Except SimError String :=
  if (promotionRecords officer.IRLA).length > 0 then
    let validPromotions :=
      (promotionRecords officer.IRLA).filter (fun promotion => promotion.date.le currentDate)
    if validPromotions.length > 0 then
      match validPromotions.getLast? with
      | some latestPromotion => .ok latestPromotion.rank
      | none => .ok officer.Rank
    else .ok officer.Rank
  else if (inheritedLength officer.IRLA).any (fun n => decide (0 < n)) then .error .typeError
  else .ok officer.Rank

end App

/-! ## Spec-side notions and concrete rosters used in the statements below -/

/-- The comparator, NaN read as 0, is consistent on the elements of `l`: `a` is below `b`
exactly when `b` is not at or below `a`, and being at or below is transitive. On such a list
the language prescribes the result of `sort`: the stable sorted order. -/
def ConsistentOn {α : Type} (cmp : α → α → JsNum) (l : List α) : Prop :=
  (∀ a ∈ l, ∀ b ∈ l, sortLT cmp a b = true ↔ sortLE cmp b a = false) ∧
  (∀ a ∈ l, ∀ b ∈ l, ∀ c ∈ l,
    sortLE cmp a b = true → sortLE cmp b c = true → sortLE cmp a c = true)

/-- Insertion of `pivot` behind the leading elements it is not below (a proof device: what a
round of the binary insertion comes to on a sorted list). -/
def insertAfter {α : Type} (cmp : α → α → JsNum) (pivot : α) (l : List α) : List α :=
  l.takeWhile (fun x => !sortLT cmp pivot x) ++ pivot :: l.dropWhile (fun x => !sortLT cmp pivot x)

/-- The value is a boolean. -/
def JsValue.isBool : JsValue → Bool
  | .bool _ => true
  | _ => false

/-- The `Frozen` fields of the listed officers can be told apart by `!==` exactly as far as
their truthiness differs (as they can when each of them holds a boolean). -/
def FlagsComparable (l : List Officer) : Prop :=
  ∀ a ∈ l, ∀ b ∈ l, a.Frozen.truthy = b.Frozen.truthy → a.Frozen = b.Frozen

/-- Same-date events are ordered by seniority: an earlier event never has the larger
`order_index` of two events that share their date. -/
def TieBreakBySeniority (events : List RetirementEvent) : Prop :=
  events.Pairwise (fun a b => a.date = b.date → a.officer.order_index ≤ b.officer.order_index)

instance instDecidableTieBreakBySeniority (events : List RetirementEvent) :
    Decidable (TieBreakBySeniority events) := by
  unfold TieBreakBySeniority
  infer_instance

/-- A three-rank ladder with capacities 1, 1, 2 (the ladder of the spec's scenarios). -/
def ladderABC : List String := ["A", "B", "C"]

/-- Capacities of `ladderABC`. -/
def slotsABC (rank : String) : Nat :=
  if rank = "A" then 1 else if rank = "B" then 1 else if rank = "C" then 2 else 0

/-- Members of the spec's end-to-end scenario: `m1` in A retires first. -/
def m1 : Member := ⟨"I1", "N1", "10-01-1970", "A", 1, .bool false, false⟩
def m2 : Member := ⟨"I2", "N2", "10-01-1971", "B", 2, .bool false, false⟩
def m3 : Member := ⟨"I3", "N3", "10-01-1972", "C", 3, .bool false, false⟩
def m4 : Member := ⟨"I4", "N4", "10-01-1973", "C", 4, .bool false, false⟩

/-- The roster of the spec's end-to-end scenario, listed junior first. -/
def rosterABC : List Member := [m4, m3, m2, m1]

/-- Two members born in the same month, the junior one listed first. -/
def tieRoster : List Member :=
  [⟨"J", "Junior", "20-03-1970", "C", 2, .bool false, false⟩, ⟨"S", "Senior", "05-03-1970", "C", 1, .bool false, false⟩]

/-- No entry under a rank of the ladder has an IRLA that names an inherited property of the
ledger object. -/
def OwnKeys (RO : List String) (rs : RankStructure Officer) : Prop :=
  ∀ r ∈ RO, ∀ o ∈ rs r, o.IRLA ∉ inheritedKeys

instance instDecidableOwnKeys (RO : List String) (rs : RankStructure Officer) :
    Decidable (OwnKeys RO rs) := by
  unfold OwnKeys
  infer_instance

/-- The cases in which one round of `fillVacancy` stops without promoting. -/
def FillStops (RO : List String) (SLOTS : String → Nat) (st : TimelineState) (vr : String) :
    Prop :=
  ¬ (st.ranks vr).length < SLOTS vr ∨ RO.indexOf vr = RO.length - 1 ∨
    ∃ lr, RO[RO.indexOf vr + 1]? = some lr ∧ candidateIndex (st.ranks lr) = none

/-- The cases in which one round of `fillDisplayVacancy` stops without promoting. -/
def FillDisplayStops (RO : List String) (SLOTS : String → Nat) (st : DisplayState)
    (vr : String) : Prop :=
  ¬ (st.active vr).length < SLOTS vr ∨ RO.indexOf vr = RO.length - 1 ∨
    ∃ lr, RO[RO.indexOf vr + 1]? = some lr ∧
      (st.ranks lr).filter (fun r => !(st.obj r).Frozen.truthy && !(st.obj r).displayRetired) = []

/-- The comparison `a < b` of two Dates (false when either is invalid). -/
def JsDate.lt (a b : JsDate) : Bool :=
  match a, b with
  | some x, some y => decide (x < y)
  | _, _ => false

/-- Effective rank, in the spec's words: the rank of the member's latest ledger record dated
on or before `X`, or the member's original rank when there is no such record. -/
def effectiveRank (promotions : Ledger) (X : JsDate) (irla originalRank : String) : String :=
  match ((promotions irla).filter (fun r => r.date.le X)).getLast? with
  | some r => r.rank
  | none => originalRank

/-- Capacities 1, 2, 2 on `ladderABC`. -/
def slots122 (rank : String) : Nat :=
  if rank = "A" then 1 else if rank = "B" then 2 else if rank = "C" then 2 else 0

/-- A roster with unique seniority keys in which `C1`, of the lowest rank, has a lower key than
`B2` of the middle rank; `B1` retires first, then `A1`. -/
def rosterKeys : List Member :=
  [⟨"A1", "a1", "10-02-1961", "A", 1, .bool false, false⟩, ⟨"B1", "b1", "10-02-1960", "B", 2, .bool false, false⟩,
    ⟨"B2", "b2", "10-02-1975", "B", 10, .bool false, false⟩, ⟨"C1", "c1", "10-02-1976", "C", 5, .bool false, false⟩,
    ⟨"C2", "c2", "10-02-1977", "C", 6, .bool false, false⟩]

/-- Capacities 1, 1, 1 on `ladderABC`. -/
def slots111 (rank : String) : Nat :=
  if rank = "A" then 1 else if rank = "B" then 1 else if rank = "C" then 1 else 0

/-- A roster in which `Z` is promoted in 2030, reaches the age of 60 in 2031 and is still under
rank B when `X` retires in 2040. -/
def rosterLate : List Member :=
  [⟨"X", "x", "10-02-1980", "A", 1, .bool false, false⟩, ⟨"Y", "y", "10-02-1970", "B", 2, .bool false, false⟩,
    ⟨"Z", "z", "10-02-1971", "C", 3, .bool false, false⟩]

/-- The roster fields of an officer object. -/
def Officer.toMember (o : Officer) : Member :=
  { IRLA := o.IRLA, Name := o.Name, DOB := o.DOB, Rank := o.Rank, order_index := o.order_index,
    Frozen := o.Frozen, Retired := o.Retired }

/-- The state a cascade leads to when it starts at vacancy rank `vr` and goes down through the
ranks `below`, each time promoting the head of the next rank's list (a proof device: the
closed form of `fillVacancy` on a ladder that is full below the vacancy). -/
def cascade (st : TimelineState) (vr : String) (below : List String) (date : JsDate)
    (cause : Officer) : TimelineState :=
  match below with
  | [] => st
  | lr :: below' =>
    match st.ranks lr with
    | [] => st
    | c :: _ => cascade (promote st vr lr 0 c date cause) lr below' date cause

/-- The entry that a cascade pushes onto rank `r` from the rank `lower` directly below it. -/
def promotedInto (rs : RankStructure Officer) (r : String) (lower : Option String) :
    List Officer :=
  match lower with
  | none => []
  | some l =>
    match rs l with
    | [] => []
    | c :: _ => [{ c with Rank := r }]

/-- The record a cascade appends under the key `k` when it promotes the head of rank `lr` into
rank `vr`: none unless `k` is that head's IRLA. -/
def headRecord (rs : RankStructure Officer) (vr lr : String) (date : JsDate) (cause : Officer)
    (k : String) : List PromotionRecord :=
  match rs lr with
  | [] => []
  | c :: _ => if k = c.IRLA then [⟨vr, date, cause.IRLA, orUnknown cause.Name⟩] else []

/-- The records a cascade appends under the key `k`. -/
def cascadeRecords (rs : RankStructure Officer) (vr : String) (below : List String)
    (date : JsDate) (cause : Officer) (k : String) : List PromotionRecord :=
  match below with
  | [] => []
  | lr :: below' =>
    headRecord rs vr lr date cause k ++ cascadeRecords rs lr below' date cause k

/-- Invariant of the display pass for a frozen object `i` of the initial objects `heap0`: no
object changes its IRLA or `Frozen` flag, object `i` is as it started, it is still listed
under its rank, and every listed reference is an object of the roster. -/
def FrozenKept (heap0 : List Officer) (i : Nat) (st : DisplayState) : Prop :=
  (∀ j, (st.obj j).IRLA = (heap0.getD j default).IRLA ∧
    (st.obj j).Frozen = (heap0.getD j default).Frozen) ∧
  st.obj i = heap0.getD i default ∧
  i ∈ st.ranks (heap0.getD i default).Rank ∧
  ∀ r, ∀ j ∈ st.ranks r, j < heap0.length

/-- A roster with a frozen member `F` in rank B whose retirement date (1990) is long past. -/
def rosterFrozen : List Member :=
  [⟨"I1", "N1", "10-01-1970", "A", 1, .bool false, false⟩, ⟨"F", "Fr", "10-01-1930", "B", 2, .bool true, false⟩,
    ⟨"I3", "N3", "10-01-1972", "C", 3, .bool false, false⟩, ⟨"I4", "N4", "10-01-1973", "C", 4, .bool false, false⟩]

/-- Potential of a rank structure: every listed entry weighs the position of its rank on the
ladder. Each promotion lowers it by one. -/
def potential {α : Type} (RO : List String) (rs : RankStructure α) : Nat :=
  (RO.map (fun r => (rs r).length * RO.indexOf r)).sum

/-- The number of ledger records held under the given keys. -/
def recordCount (keys : List String) (ledger : Ledger) : Nat :=
  (keys.map (fun k => (ledger k).length)).sum

/-- The states of the timeline pass of `runFullSimulation` just before and just after its
`n`-th event (counted from 0); `none` when the pass has fewer events. -/
def eventStep (RO : List String) (SLOTS : String → Nat) (fuel : Nat) (officers : List Member)
    (n : Nat) : Except SimError (Option (TimelineState × TimelineState)) :=
  match initialTimeline RO officers with
  | .error e => .error e
  | .ok st0 =>
    match processTimelineEvents RO SLOTS fuel st0
        ((allRetirementEvents (officersCopy officers)).take n) with
    | .error e => .error e
    | .ok s =>
      match (allRetirementEvents (officersCopy officers))[n]? with
      | none => .ok none
      | some ev =>
        match processTimelineEvent RO SLOTS fuel s ev with
        | .error e => .error e
        | .ok s' => .ok (some (s, s'))

/-- A roster on the configured ladder: `X` in IG retires first; `D` waits in DIG and `C1`,
`C2` in Commandant; every rank is far under strength. -/
def rosterDeep : List Member :=
  [⟨"X", "x", "10-01-1970", "IG", 1, .bool false, false⟩, ⟨"D", "d", "10-01-1971", "DIG", 2, .bool false, false⟩,
    ⟨"C1", "c1", "10-01-1972", "Commandant", 3, .bool false, false⟩,
    ⟨"C2", "c2", "10-01-1973", "Commandant", 4, .bool false, false⟩]

/-- A roster whose frozen member `F` waits in rank B when `I1` retires from A in 2030, and
reaches retirement age in 2035, before `I4`. -/
def rosterFrozenB : List Member :=
  [⟨"I1", "N1", "10-01-1970", "A", 1, .bool false, false⟩, ⟨"F", "Fr", "10-01-1975", "B", 2, .bool true, false⟩,
    ⟨"I3", "N3", "10-01-1972", "C", 3, .bool false, false⟩, ⟨"I4", "N4", "10-01-1980", "C", 4, .bool false, false⟩]

/-- A roster whose member `Bad` has the date of birth 31-02-1971, a day that does not exist,
and whose member `NaN` has a date of birth with a non-numeric day. -/
def rosterBadDob : List Member :=
  [⟨"I1", "N1", "10-01-1970", "A", 1, .bool false, false⟩, ⟨"Bad", "bad", "31-02-1971", "B", 2, .bool false, false⟩,
    ⟨"NaN", "nan", "xx-02-1972", "C", 3, .bool false, false⟩, ⟨"I4", "N4", "10-01-1973", "C", 4, .bool false, false⟩]

/-- A roster in which two members share the IRLA `D`. -/
def rosterDup : List Member :=
  [⟨"I1", "N1", "10-01-1970", "A", 1, .bool false, false⟩, ⟨"D", "d1", "10-01-1971", "B", 2, .bool false, false⟩,
    ⟨"D", "d2", "10-01-1972", "C", 3, .bool false, false⟩]

/-- A roster on the configured ladder: `G` in IG retires in 2030; `D` waits in DIG and `C` in
Commandant. -/
def rosterApp : List Member :=
  [⟨"G", "g", "10-01-1970", "IG", 1, .bool false, false⟩, ⟨"D", "d", "10-01-1980", "DIG", 2, .bool false, false⟩,
    ⟨"C", "c", "10-01-1981", "Commandant", 3, .bool false, false⟩]

/-- Capacities 2, 1, 1 on `ladderABC`. -/
def slots211 (rank : String) : Nat :=
  if rank = "A" then 2 else if rank = "B" then 1 else if rank = "C" then 1 else 0

/-- A roster that fills `slots211`: `A1` and `A2` retire in 2030 and 2031, `B1` waits in B and
`C1` in C. -/
def rosterFull : List Member :=
  [⟨"A1", "a1", "10-01-1970", "A", 1, .bool false, false⟩, ⟨"A2", "a2", "10-01-1971", "A", 2, .bool false, false⟩,
    ⟨"B1", "b1", "10-01-1980", "B", 3, .bool false, false⟩, ⟨"C1", "c1", "10-01-1981", "C", 4, .bool false, false⟩]

/-- The end-to-end roster, senior first, in which the entry of `I4` carries no `Frozen`
field. -/
def rosterNoFlag : List Member :=
  [m1, m2, m3, ⟨"I4", "N4", "10-01-1973", "C", 4, .undefined, false⟩]

/-- Two members of rank C: `c1`, the senior, with `Frozen: false`, and `c2` without a `Frozen`
field. -/
def rosterTwoC : List Member :=
  [⟨"c1", "n1", "10-01-1972", "C", 1, .bool false, false⟩,
    ⟨"c2", "n2", "10-01-1973", "C", 2, .undefined, false⟩]

/-- The end-to-end roster, senior first, in which the entry of `I2` carries `Retired: true`
(as `simulatePromotions` of promotionUtils.js leaves the objects of its roster). -/
def rosterRetiredFlag : List Member :=
  [m1, ⟨"I2", "N2", "10-01-1971", "B", 2, .bool false, true⟩, m3, m4]

/-- A three-rank ladder X, L, W. -/
def ladderXLW : List String := ["X", "L", "W"]

/-- Capacities 2, 1, 2 on `ladderXLW`. -/
def slots212 (rank : String) : Nat :=
  if rank = "X" then 2 else if rank = "L" then 1 else if rank = "W" then 2 else 0

/-- A roster that fills `slots212`, the entry of `l1` carrying `Retired: true`; `x1` retires in
2030, `l1` in 2031, `x2` in 2032. -/
def rosterXLW : List Member :=
  [⟨"x1", "x1", "10-01-1970", "X", 1, .bool false, false⟩,
    ⟨"x2", "x2", "10-01-1972", "X", 2, .bool false, false⟩,
    ⟨"l1", "l1", "10-01-1971", "L", 3, .bool false, true⟩,
    ⟨"w1", "w1", "10-01-1980", "W", 4, .bool false, false⟩,
    ⟨"w2", "w2", "10-01-1981", "W", 5, .bool false, false⟩]

/-- Capacities 1, 2, 1 on `ladderABC`. -/
def slots121 (rank : String) : Nat :=
  if rank = "A" then 1 else if rank = "B" then 2 else if rank = "C" then 1 else 0

/-- A roster in which the frozen member `F` of rank B and the member `d2` of rank C share the
IRLA `D`; `a1` retires in 2030 and `b1` in 2031. -/
def rosterShared : List Member :=
  [⟨"a1", "a1", "10-01-1970", "A", 1, .bool false, false⟩,
    ⟨"b1", "b1", "10-01-1971", "B", 2, .bool false, false⟩,
    ⟨"D", "F", "10-01-1975", "B", 3, .bool true, false⟩,
    ⟨"D", "d2", "10-01-1980", "C", 4, .bool false, false⟩]

/-- A roster that fills `slots211` in which the date of birth of `a1` has a day that is not a
number; `a2` retires in 2030. -/
def rosterInvalid : List Member :=
  [⟨"a1", "a1", "xx-01-1969", "A", 1, .bool false, false⟩,
    ⟨"a2", "a2", "10-01-1970", "A", 2, .bool false, false⟩,
    ⟨"b", "b", "10-01-1980", "B", 3, .bool false, false⟩,
    ⟨"c", "c", "10-01-1981", "C", 4, .bool false, false⟩]

/-- Capacities 2, 1, 2 on `ladderABC`. -/
def slotsReplay (rank : String) : Nat :=
  if rank = "A" then 2 else if rank = "B" then 1 else if rank = "C" then 2 else 0

/-- A roster that fills `slotsReplay` in which the date of birth of `a1` has a day that is not a
number; `a2` retires in 2030. -/
def rosterReplay : List Member :=
  [⟨"a1", "a1", "xx-01-1969", "A", 1, .bool false, false⟩,
    ⟨"a2", "a2", "10-01-1970", "A", 2, .bool false, false⟩,
    ⟨"b", "b", "10-01-1980", "B", 3, .bool false, false⟩,
    ⟨"c", "c", "10-01-1981", "C", 4, .bool false, false⟩,
    ⟨"d", "d", "10-01-1982", "C", 5, .bool false, false⟩]

/-- Three members of rank C: `p` retires in 2031, the date of birth of `q` has a day that is
not a number, `r` retires in 2030. -/
def rosterUnsorted : List Member :=
  [⟨"p", "p", "10-01-1971", "C", 1, .bool false, false⟩,
    ⟨"q", "q", "xx-01-1972", "C", 2, .bool false, false⟩,
    ⟨"r", "r", "10-01-1970", "C", 3, .bool false, false⟩]

/-- The end-to-end roster, senior first, in which the member of rank B has the IRLA
`constructor`. -/
def rosterCtor : List Member :=
  [m1, ⟨"constructor", "N2", "10-01-1971", "B", 2, .bool false, false⟩, m3, m4]

/-- Invariant of the display pass over the objects `heap0` it started from, `D` telling which
objects are marked `displayRetired`: IRLAs are as at the start, every reference is an object,
a marked object stands in no rank list, and an unmarked object stands exactly once in the list
of the rank its `Rank` field names, which is on the ladder, and in no other list. -/
def DisplayInv (RO : List String) (heap0 : List Officer) (D : Nat → Bool) (st : DisplayState) :
    Prop :=
  (∀ j, (st.obj j).IRLA = (heap0.getD j default).IRLA) ∧
  st.heap.length = heap0.length ∧
  (∀ r, ∀ j ∈ st.ranks r, j < heap0.length) ∧
  (∀ j, (st.obj j).displayRetired = D j) ∧
  (∀ j, j < heap0.length →
    (D j = true → ∀ r, (st.ranks r).count j = 0) ∧
    (D j = false → (st.obj j).Rank ∈ RO ∧
      ∀ r, (st.ranks r).count j = if r = (st.obj j).Rank then 1 else 0))

/-- Invariant of `simulatePromotions` while it processes the events dated on or before `X`,
`done` holding the IRLAs of the events processed so far: every rank list is within capacity,
and every member whose event is still to come (or who has none) has an entry under the rank
that the ledger so far gives as the member's effective rank at `X`. -/
def ReplayInv (SLOTS : String → Nat) (officers : List Member) (X : JsDate) (done : List String)
    (s : TimelineState) : Prop :=
  (∀ r, (s.ranks r).length ≤ SLOTS r) ∧
  ∀ m ∈ officers, m.IRLA ∉ done →
    ∃ o ∈ s.ranks (effectiveRank s.records X m.IRLA m.Rank), o.IRLA = m.IRLA

/-- An officer object with its `Frozen` flag cleared. -/
def clearFrozen (o : Officer) : Officer := { o with Frozen := .bool false }

/-- A state of the promotionUtils engine with the `Frozen` flag of every object cleared. -/
def PromotionUtils.State.clearFrozen (st : PromotionUtils.State) : PromotionUtils.State :=
  { st with heap := st.heap.map PromotionForecaster.clearFrozen }

/-- Invariant of the timeline pass on the entries of its rank lists: no two entries of a list
share their IRLA, entries of different lists have different IRLAs, and every entry carries
the IRLA, the `Frozen` and `Retired` fields and the `order_index` of a roster member. -/
def EntriesInv (officers : List Member) (st : TimelineState) : Prop :=
  (∀ r, ((st.ranks r).map (fun o => o.IRLA)).Nodup) ∧
  (∀ r r' o o', o ∈ st.ranks r → o' ∈ st.ranks r' → o.IRLA = o'.IRLA → r = r') ∧
  (∀ r, ∀ o ∈ st.ranks r, ∃ m ∈ officers, o.IRLA = m.IRLA ∧ o.Frozen = m.Frozen ∧
    o.Retired = m.Retired ∧ o.order_index = m.order_index)

/-- The rank `b` stands on the ladder directly above the rank `a`. -/
def StepUp (RO : List String) (a b : String) : Prop :=
  b ∈ RO ∧ RO.indexOf b + 1 = RO.indexOf a

/-- The rank a ledger entry leaves a member in: that of its last record, or the member's
original rank when it has none. -/
def ledgerRank (recs : List PromotionRecord) (originalRank : String) : String :=
  ((recs.map (fun r => r.rank)).getLast?).getD originalRank

/-- Invariant of the timeline pass on the ledger: the records of every member climb the ladder
one rank at a time from the member's original rank, and every entry of a rank list stands
under the rank its member's records end in. -/
def ClimbInv (RO : List String) (officers : List Member) (st : TimelineState) : Prop :=
  (∀ m ∈ officers,
    List.Chain (StepUp RO) m.Rank ((st.records m.IRLA).map (fun r => r.rank))) ∧
  (∀ r, ∀ o ∈ st.ranks r, ∀ m ∈ officers, o.IRLA = m.IRLA →
    ledgerRank (st.records m.IRLA) m.Rank = r)

/-- Seniority order of a rank structure on the ladder `RO`: no entry is marked retired, the
entries of each list that are not frozen stand in strictly ascending `order_index`, and an
entry that is not frozen has a smaller `order_index` than every such entry of a rank further
down the ladder. -/
def SeniorityInv (RO : List String) (rs : RankStructure Officer) : Prop :=
  (∀ r, ∀ o ∈ rs r, o.Retired = false) ∧
  (∀ r, ((rs r).filter (fun o => !o.Frozen.truthy)).Pairwise
    (fun a b => a.order_index < b.order_index)) ∧
  (∀ r r' a b, RO.indexOf r < RO.indexOf r' → a ∈ rs r → b ∈ rs r' →
    a.Frozen.truthy = false → b.Frozen.truthy = false → a.order_index < b.order_index)

/-- Invariant that makes a late cascade idle: for every member that is not frozen and has no
entry left under the rank the roster gives (the member retired from it or was promoted out of
it), a round of `fillVacancy` on that rank stops at once. -/
def Settled (RO : List String) (SLOTS : String → Nat) (officers : List Member)
    (st : TimelineState) : Prop :=
  ∀ m ∈ officers, m.Frozen.truthy = false →
    findIndex (fun o => o.IRLA == m.IRLA) (st.ranks m.Rank) = none →
      FillStops RO SLOTS st m.Rank

/-- The number of ledger records naming `rank` held under the given keys. -/
def rankRecordCount (keys : List String) (ledger : Ledger) (rank : String) : Nat :=
  recordCount keys (fun k => (ledger k).filter (fun r => r.rank = rank))

/-- Every rank of the ladder is settled: a round of `fillVacancy` on it stops at once. -/
def AllSettled (RO : List String) (SLOTS : String → Nat) (st : TimelineState) : Prop :=
  ∀ r ∈ RO, FillStops RO SLOTS st r
/-! ## Calendar lemmas -/

theorem dayFromYear_succ (y : Int) :
    dayFromYear (y + 1) = dayFromYear y + 365 + inLeapYear y := by
  unfold dayFromYear inLeapYear
  split <;> omega

theorem dayFromYear_cycles (q b c d : Int) (hb0 : 0 ≤ b) (hb : b ≤ 3) (hc0 : 0 ≤ c)
    (hc : c ≤ 24) (hd0 : 0 ≤ d) (hd : d ≤ 3) :
    dayFromYear (1601 + 400 * q + 100 * b + 4 * c + d)
      = 146097 * q + 36524 * b + 1461 * c + 365 * d - 134774 := by
  unfold dayFromYear
  omega

theorem inLeapYear_cycles (q b c d : Int) (hb0 : 0 ≤ b) (hb : b ≤ 3) (hc0 : 0 ≤ c)
    (hc : c ≤ 24) (hd0 : 0 ≤ d) (hd : d ≤ 3) :
    inLeapYear (1601 + 400 * q + 100 * b + 4 * c + d)
      = if d = 3 ∧ (c < 24 ∨ b = 3) then 1 else 0 := by
  unfold inLeapYear
  split <;> split <;> omega

theorem yearFromDay_cycles (q b c d e : Int) (hb0 : 0 ≤ b) (hb : b ≤ 3) (hc0 : 0 ≤ c)
    (hc : c ≤ 24) (hd0 : 0 ≤ d) (hd : d ≤ 3) (he0 : 0 ≤ e) (he : e < 366)
    (he1 : d < 3 → e < 365) (he2 : c = 24 → b < 3 → e < 365) :
    yearFromDay (146097 * q + 36524 * b + 1461 * c + 365 * d + e - 134774)
      = 1601 + 400 * q + 100 * b + 4 * c + d := by
  unfold yearFromDay
  simp only []
  have hN : 146097 * q + 36524 * b + 1461 * c + 365 * d + e - 134774 + 134774
      = 146097 * q + (36524 * b + 1461 * c + 365 * d + e) := by ring
  rw [hN]
  generalize hr : 36524 * b + 1461 * c + 365 * d + e = r
  have hr0 : 0 ≤ r := by omega
  have hr1 : r < 146097 := by omega
  have h1 : (146097 * q + r) / 146097 = q := by omega
  have h2 : (146097 * q + r) % 146097 = r := by omega
  rw [h1, h2]
  have h3 : min (r / 36524) 3 = b := by omega
  rw [h3]
  have h4 : r - b * 36524 = 1461 * c + (365 * d + e) := by omega
  rw [h4]
  have h5 : (1461 * c + (365 * d + e)) / 1461 = c := by omega
  have h6 : (1461 * c + (365 * d + e)) % 1461 = 365 * d + e := by omega
  rw [h5, h6]
  have h7 : min ((365 * d + e) / 365) 3 = d := by omega
  rw [h7]

/-- The year of a day number is the year whose first day is the latest one not after it. -/
theorem yearFromDay_eq (y n : Int) (h1 : dayFromYear y ≤ n) (h2 : n < dayFromYear (y + 1)) :
    yearFromDay n = y := by
  have hy : 1601 + 400 * ((y - 1601) / 400) + 100 * ((y - 1601) % 400 / 100)
      + 4 * ((y - 1601) % 400 % 100 / 4) + (y - 1601) % 400 % 100 % 4 = y := by omega
  have hb0 : 0 ≤ (y - 1601) % 400 / 100 := by omega
  have hb : (y - 1601) % 400 / 100 ≤ 3 := by omega
  have hc0 : 0 ≤ (y - 1601) % 400 % 100 / 4 := by omega
  have hc : (y - 1601) % 400 % 100 / 4 ≤ 24 := by omega
  have hd0 : 0 ≤ (y - 1601) % 400 % 100 % 4 := by omega
  have hd : (y - 1601) % 400 % 100 % 4 ≤ 3 := by omega
  generalize (y - 1601) / 400 = q at hy
  generalize (y - 1601) % 400 / 100 = b at hy hb0 hb
  generalize (y - 1601) % 400 % 100 / 4 = c at hy hc0 hc
  generalize (y - 1601) % 400 % 100 % 4 = d at hy hd0 hd
  have hsucc := dayFromYear_succ y
  have hD := dayFromYear_cycles q b c d hb0 hb hc0 hc hd0 hd
  have hL := inLeapYear_cycles q b c d hb0 hb hc0 hc hd0 hd
  rw [hy] at hD hL
  have hn : n = 146097 * q + 36524 * b + 1461 * c + 365 * d + (n - dayFromYear y) - 134774 := by
    omega
  rw [hn, yearFromDay_cycles q b c d (n - dayFromYear y) hb0 hb hc0 hc hd0 hd (by omega)
    (by split at hL <;> omega) (by split at hL <;> omega) (by split at hL <;> omega), hy]

theorem inLeapYear_range (y : Int) : inLeapYear y = 0 ∨ inLeapYear y = 1 := by
  unfold inLeapYear
  split <;> simp

theorem daysBeforeMonth_values (L : Int) :
    daysBeforeMonth L 0 = 0 ∧ daysBeforeMonth L 1 = 31 ∧ daysBeforeMonth L 2 = 59 + L ∧
    daysBeforeMonth L 3 = 90 + L ∧ daysBeforeMonth L 4 = 120 + L ∧ daysBeforeMonth L 5 = 151 + L ∧
    daysBeforeMonth L 6 = 181 + L ∧ daysBeforeMonth L 7 = 212 + L ∧ daysBeforeMonth L 8 = 243 + L ∧
    daysBeforeMonth L 9 = 273 + L ∧ daysBeforeMonth L 10 = 304 + L ∧
    daysBeforeMonth L 11 = 334 + L := by
  refine ⟨?_, ?_, ?_, ?_, ?_, ?_, ?_, ?_, ?_, ?_, ?_, ?_⟩ <;> simp [daysBeforeMonth]

theorem monthLength_values (y : Int) :
    monthLength y 1 = 31 ∧ monthLength y 2 = 28 + inLeapYear y ∧ monthLength y 3 = 31 ∧
    monthLength y 4 = 30 ∧ monthLength y 5 = 31 ∧ monthLength y 6 = 30 ∧ monthLength y 7 = 31 ∧
    monthLength y 8 = 31 ∧ monthLength y 9 = 30 ∧ monthLength y 10 = 31 ∧ monthLength y 11 = 30 ∧
    monthLength y 12 = 31 := by
  refine ⟨?_, ?_, ?_, ?_, ?_, ?_, ?_, ?_, ?_, ?_, ?_, ?_⟩ <;> simp [monthLength]

/-- Position of a day within its year, for a calendar day `d` of month index `m`. -/
theorem within_year_bounds (y m d : Int) (hm0 : 0 ≤ m) (hm : m ≤ 11) (hd0 : 1 ≤ d)
    (hd : d ≤ monthLength y (m + 1)) :
    0 ≤ daysBeforeMonth (inLeapYear y) m + d - 1 ∧
    daysBeforeMonth (inLeapYear y) m + d - 1 < 365 + inLeapYear y ∧
    (m < 11 → daysBeforeMonth (inLeapYear y) m + d - 1 < daysBeforeMonth (inLeapYear y) (m + 1)) := by
  have hL := inLeapYear_range y
  obtain ⟨d0, d1, d2, d3, d4, d5, d6, d7, d8, d9, d10, d11⟩ := daysBeforeMonth_values (inLeapYear y)
  obtain ⟨l1, l2, l3, l4, l5, l6, l7, l8, l9, l10, l11, l12⟩ := monthLength_values y
  have hcases : m = 0 ∨ m = 1 ∨ m = 2 ∨ m = 3 ∨ m = 4 ∨ m = 5 ∨ m = 6 ∨ m = 7 ∨ m = 8 ∨ m = 9
      ∨ m = 10 ∨ m = 11 := by omega
  rcases hcases with h | h | h | h | h | h | h | h | h | h | h | h <;> subst h <;>
    simp only [Int.reduceAdd, d0, d1, d2, d3, d4, d5, d6, d7, d8, d9, d10, d11, l1, l2, l3, l4, l5,
      l6, l7, l8, l9, l10, l11, l12] at hd ⊢ <;>
    clear d0 d1 d2 d3 d4 d5 d6 d7 d8 d9 d10 d11 l1 l2 l3 l4 l5 l6 l7 l8 l9 l10 l11 l12 <;>
    omega

/-- The month table read at a position within the year. -/
theorem month_table (L w m : Int) (hL : L = 0 ∨ L = 1) (hm0 : 0 ≤ m) (hm : m ≤ 11)
    (h1 : daysBeforeMonth L m ≤ w) (h2 : m < 11 → w < daysBeforeMonth L (m + 1)) :
    (if w < 31 then 0
      else if w < 59 + L then 1
      else if w < 90 + L then 2
      else if w < 120 + L then 3
      else if w < 151 + L then 4
      else if w < 181 + L then 5
      else if w < 212 + L then 6
      else if w < 243 + L then 7
      else if w < 273 + L then 8
      else if w < 304 + L then 9
      else if w < 334 + L then 10
      else (11 : Int)) = m := by
  obtain ⟨d0, d1, d2, d3, d4, d5, d6, d7, d8, d9, d10, d11⟩ := daysBeforeMonth_values L
  have hcases : m = 0 ∨ m = 1 ∨ m = 2 ∨ m = 3 ∨ m = 4 ∨ m = 5 ∨ m = 6 ∨ m = 7 ∨ m = 8 ∨ m = 9
      ∨ m = 10 ∨ m = 11 := by omega
  rcases hcases with h | h | h | h | h | h | h | h | h | h | h | h
  · subst h
    rw [d0] at h1
    have h3 := h2 (by norm_num)
    rw [show ((0 : Int) + 1) = 1 from rfl, d1] at h3
    clear h2 d0 d1 d2 d3 d4 d5 d6 d7 d8 d9 d10 d11
    rw [if_pos (by omega)]
  · subst h
    rw [d1] at h1
    have h3 := h2 (by norm_num)
    rw [show ((1 : Int) + 1) = 2 from rfl, d2] at h3
    clear h2 d0 d1 d2 d3 d4 d5 d6 d7 d8 d9 d10 d11
    rw [if_neg (by omega), if_pos (by omega)]
  · subst h
    rw [d2] at h1
    have h3 := h2 (by norm_num)
    rw [show ((2 : Int) + 1) = 3 from rfl, d3] at h3
    clear h2 d0 d1 d2 d3 d4 d5 d6 d7 d8 d9 d10 d11
    rw [if_neg (by omega), if_neg (by omega), if_pos (by omega)]
  · subst h
    rw [d3] at h1
    have h3 := h2 (by norm_num)
    rw [show ((3 : Int) + 1) = 4 from rfl, d4] at h3
    clear h2 d0 d1 d2 d3 d4 d5 d6 d7 d8 d9 d10 d11
    rw [if_neg (by omega), if_neg (by omega), if_neg (by omega), if_pos (by omega)]
  · subst h
    rw [d4] at h1
    have h3 := h2 (by norm_num)
    rw [show ((4 : Int) + 1) = 5 from rfl, d5] at h3
    clear h2 d0 d1 d2 d3 d4 d5 d6 d7 d8 d9 d10 d11
    rw [if_neg (by omega), if_neg (by omega), if_neg (by omega), if_neg (by omega), if_pos (by omega)]
  · subst h
    rw [d5] at h1
    have h3 := h2 (by norm_num)
    rw [show ((5 : Int) + 1) = 6 from rfl, d6] at h3
    clear h2 d0 d1 d2 d3 d4 d5 d6 d7 d8 d9 d10 d11
    rw [if_neg (by omega), if_neg (by omega), if_neg (by omega), if_neg (by omega), if_neg (by omega), if_pos (by omega)]
  · subst h
    rw [d6] at h1
    have h3 := h2 (by norm_num)
    rw [show ((6 : Int) + 1) = 7 from rfl, d7] at h3
    clear h2 d0 d1 d2 d3 d4 d5 d6 d7 d8 d9 d10 d11
    rw [if_neg (by omega), if_neg (by omega), if_neg (by omega), if_neg (by omega), if_neg (by omega), if_neg (by omega), if_pos (by omega)]
  · subst h
    rw [d7] at h1
    have h3 := h2 (by norm_num)
    rw [show ((7 : Int) + 1) = 8 from rfl, d8] at h3
    clear h2 d0 d1 d2 d3 d4 d5 d6 d7 d8 d9 d10 d11
    rw [if_neg (by omega), if_neg (by omega), if_neg (by omega), if_neg (by omega), if_neg (by omega), if_neg (by omega), if_neg (by omega), if_pos (by omega)]
  · subst h
    rw [d8] at h1
    have h3 := h2 (by norm_num)
    rw [show ((8 : Int) + 1) = 9 from rfl, d9] at h3
    clear h2 d0 d1 d2 d3 d4 d5 d6 d7 d8 d9 d10 d11
    rw [if_neg (by omega), if_neg (by omega), if_neg (by omega), if_neg (by omega), if_neg (by omega), if_neg (by omega), if_neg (by omega), if_neg (by omega), if_pos (by omega)]
  · subst h
    rw [d9] at h1
    have h3 := h2 (by norm_num)
    rw [show ((9 : Int) + 1) = 10 from rfl, d10] at h3
    clear h2 d0 d1 d2 d3 d4 d5 d6 d7 d8 d9 d10 d11
    rw [if_neg (by omega), if_neg (by omega), if_neg (by omega), if_neg (by omega), if_neg (by omega), if_neg (by omega), if_neg (by omega), if_neg (by omega), if_neg (by omega), if_pos (by omega)]
  · subst h
    rw [d10] at h1
    have h3 := h2 (by norm_num)
    rw [show ((10 : Int) + 1) = 11 from rfl, d11] at h3
    clear h2 d0 d1 d2 d3 d4 d5 d6 d7 d8 d9 d10 d11
    rw [if_neg (by omega), if_neg (by omega), if_neg (by omega), if_neg (by omega), if_neg (by omega), if_neg (by omega), if_neg (by omega), if_neg (by omega), if_neg (by omega), if_neg (by omega), if_pos (by omega)]
  · subst h
    rw [d11] at h1
    clear h2 d0 d1 d2 d3 d4 d5 d6 d7 d8 d9 d10 d11
    rw [if_neg (by omega), if_neg (by omega), if_neg (by omega), if_neg (by omega), if_neg (by omega), if_neg (by omega), if_neg (by omega), if_neg (by omega), if_neg (by omega), if_neg (by omega), if_neg (by omega)]

/-- Reading back the year, month index and day of the day number of a real calendar date. -/
theorem civil_roundtrip (y m d : Int) (hm0 : 0 ≤ m) (hm : m ≤ 11) (hd0 : 1 ≤ d)
    (hd : d ≤ monthLength y (m + 1)) :
    yearFromDay (dayFromYear y + daysBeforeMonth (inLeapYear y) m + d - 1) = y ∧
    monthFromDay (dayFromYear y + daysBeforeMonth (inLeapYear y) m + d - 1) = m ∧
    dateFromDay (dayFromYear y + daysBeforeMonth (inLeapYear y) m + d - 1) = d := by
  have hsucc := dayFromYear_succ y
  have hL := inLeapYear_range y
  have hw := within_year_bounds y m d hm0 hm hd0 hd
  have hyear : yearFromDay (dayFromYear y + daysBeforeMonth (inLeapYear y) m + d - 1) = y :=
    yearFromDay_eq y _ (by omega) (by omega)
  have hmonth : monthFromDay (dayFromYear y + daysBeforeMonth (inLeapYear y) m + d - 1) = m := by
    unfold monthFromDay dayWithinYear
    rw [hyear]
    apply month_table _ _ _ hL hm0 hm
    · omega
    · intro hlt
      have := hw.2.2 hlt
      omega
  refine ⟨hyear, hmonth, ?_⟩
  unfold dateFromDay dayWithinYear
  rw [hmonth, hyear]
  omega

theorem monthLength_pos (y m : Int) : 1 ≤ monthLength y m := by
  have hL := inLeapYear_range y
  unfold monthLength
  split_ifs <;> omega

theorem dayFromYear_bounds (y : Int) (h0 : 100 ≤ y) (h1 : y ≤ 200000) :
    -700000 ≤ dayFromYear y ∧ dayFromYear y ≤ 73000000 := by
  unfold dayFromYear
  omega

/-- Day 0 of month index `m` is the last day of the month before it. -/
theorem makeDay_zero (y m : Int) (hm0 : 1 ≤ m) (hm : m ≤ 12) :
    makeDay y m 0
      = dayFromYear y + daysBeforeMonth (inLeapYear y) (m - 1) + monthLength y m - 1 := by
  have hL := inLeapYear_range y
  have hsucc := dayFromYear_succ y
  obtain ⟨d0, d1, d2, d3, d4, d5, d6, d7, d8, d9, d10, d11⟩ := daysBeforeMonth_values (inLeapYear y)
  obtain ⟨l1, l2, l3, l4, l5, l6, l7, l8, l9, l10, l11, l12⟩ := monthLength_values y
  have e0 := (daysBeforeMonth_values (inLeapYear (y + 1))).1
  have hcases : m = 1 ∨ m = 2 ∨ m = 3 ∨ m = 4 ∨ m = 5 ∨ m = 6 ∨ m = 7 ∨ m = 8 ∨ m = 9
      ∨ m = 10 ∨ m = 11 ∨ m = 12 := by omega
  unfold makeDay
  rcases hcases with h | h | h | h | h | h | h | h | h | h | h | h <;> subst h <;>
    simp only [Int.reduceDiv, Int.reduceMod, Int.reduceSub, add_zero, d0, d1, d2, d3, d4, d5, d6,
      d7, d8, d9, d10, d11, l1, l2, l3, l4, l5, l6, l7, l8, l9, l10, l11, l12, e0] <;>
    omega

/-- The day number of a real calendar date, month given as an index. -/
theorem makeDay_civil (y m d : Int) (hm0 : 0 ≤ m) (hm : m ≤ 11) :
    makeDay y m d = dayFromYear y + daysBeforeMonth (inLeapYear y) m + d - 1 := by
  unfold makeDay
  have h1 : m / 12 = 0 := by omega
  have h2 : m % 12 = m := by omega
  rw [h1, h2, add_zero]

theorem newDate_civil (y m d : Int) (hy0 : 100 ≤ y) (hy : y ≤ 200000) (hm0 : 0 ≤ m)
    (hm : m ≤ 11) (hd0 : 1 ≤ d) (hd : d ≤ monthLength y (m + 1)) :
    newDate (some y) (some m) (some d) = some (makeDay y m d) := by
  have hb := dayFromYear_bounds y hy0 hy
  have hw := within_year_bounds y m d hm0 hm hd0 hd
  have hL := inLeapYear_range y
  have hmk := makeDay_civil y m d hm0 hm
  have hyr : (if 0 ≤ y ∧ y ≤ 99 then 1900 + y else y) = y := if_neg (by omega)
  simp only [newDate, hyr]
  rw [if_pos (by omega)]

/-- The function `getLastDayOfMonth` returns the Gregorian month length. -/
theorem getLastDayOfMonth_eq (y m : Int) (hy0 : 100 ≤ y) (hy : y ≤ 200000) (hm0 : 1 ≤ m)
    (hm : m ≤ 12) : getLastDayOfMonth (some y) (some m) = some (monthLength y m) := by
  have hb := dayFromYear_bounds y hy0 hy
  have hpos := monthLength_pos y m
  have hw := within_year_bounds y (m - 1) (monthLength y m) (by omega) (by omega) hpos
    (by rw [sub_add_cancel])
  have hL := inLeapYear_range y
  have hz := makeDay_zero y m hm0 hm
  have hrt := civil_roundtrip y (m - 1) (monthLength y m) (by omega) (by omega) hpos
    (by rw [sub_add_cancel])
  have hyr : (if 0 ≤ y ∧ y ≤ 99 then 1900 + y else y) = y := if_neg (by omega)
  simp only [getLastDayOfMonth, newDate, hyr]
  rw [if_pos (by omega), hz]
  simp only [getDate, Option.map_some']
  rw [hrt.2.2]

theorem digitChar_toNat (k : Nat) (hk : k < 10) : (digitChar k).toNat = 48 + k := by
  interval_cases k <;> rfl

theorem digitValue_digitChar (k : Nat) (hk : k < 10) : digitValue (digitChar k) = some k := by
  unfold digitValue
  rw [digitChar_toNat k hk, if_pos (by omega)]
  simp

theorem isStrWhiteSpace_digitChar (k : Nat) (hk : k < 10) :
    isStrWhiteSpace (digitChar k) = false := by
  interval_cases k <;> rfl

theorem digitChar_ne_minus (k : Nat) (hk : k < 10) : digitChar k ≠ '-' := by
  interval_cases k <;> decide

theorem digitChar_ne_plus (k : Nat) (hk : k < 10) : digitChar k ≠ '+' := by
  interval_cases k <;> decide

theorem stripSign_digit (a : Nat) (ha : a < 10) (rest : List Char) :
    stripSign (digitChar a :: rest) = (1, digitChar a :: rest) := by
  have h1 := digitChar_ne_minus a ha
  have h2 := digitChar_ne_plus a ha
  unfold stripSign
  split
  · rename_i r heq
    exact absurd (List.cons.inj heq).1 h1
  · rename_i r heq
    exact absurd (List.cons.inj heq).1 h2
  · rfl

/-- Reading a run of digit characters that starts with digit `a`. -/
theorem parseInt_digit_cons (a : Nat) (ha : a < 10) (rest : List Char) :
    parseInt (digitChar a :: rest) =
      match readDigits (digitChar a :: rest) 0 false with
      | (v, true) => some ((1 : Int) * v)
      | (_, false) => none := by
  have hw := isStrWhiteSpace_digitChar a ha
  unfold parseInt
  simp only [List.dropWhile, hw, stripSign_digit a ha]
  all_goals rfl

theorem parseInt_two (a b : Nat) (ha : a < 10) (hb : b < 10) :
    parseInt [digitChar a, digitChar b] = some ((10 * a + b : Nat) : Int) := by
  rw [parseInt_digit_cons a ha]
  simp [readDigits, digitValue_digitChar, ha, hb]

theorem parseInt_four (a b c d : Nat) (ha : a < 10) (hb : b < 10) (hc : c < 10) (hd : d < 10) :
    parseInt [digitChar a, digitChar b, digitChar c, digitChar d]
      = some ((10 * (10 * (10 * a + b) + c) + d : Nat) : Int) := by
  rw [parseInt_digit_cons a ha]
  simp [readDigits, digitValue_digitChar, ha, hb, hc, hd]

theorem split_formatDMY (d m y : Nat) (hd : d < 100) (hm : m < 100) (hy : y < 10000) :
    split '-' (formatDMY d m y).toList =
      [[digitChar (d / 10), digitChar (d % 10)], [digitChar (m / 10), digitChar (m % 10)],
        [digitChar (y / 1000), digitChar (y / 100 % 10), digitChar (y / 10 % 10),
          digitChar (y % 10)]] := by
  have n1 := digitChar_ne_minus (d / 10) (by omega)
  have n2 := digitChar_ne_minus (d % 10) (by omega)
  have n3 := digitChar_ne_minus (m / 10) (by omega)
  have n4 := digitChar_ne_minus (m % 10) (by omega)
  have n5 := digitChar_ne_minus (y / 1000) (by omega)
  have n6 := digitChar_ne_minus (y / 100 % 10) (by omega)
  have n7 := digitChar_ne_minus (y / 10 % 10) (by omega)
  have n8 := digitChar_ne_minus (y % 10) (by omega)
  simp [formatDMY, split, n1, n2, n3, n4, n5, n6, n7, n8]

/-- The three numeric fields read from a zero-padded `DD-MM-YYYY` text. -/
theorem dateField_formatDMY (d m y : Nat) (hd : d < 100) (hm : m < 100) (hy : y < 10000) :
    dateField (formatDMY d m y) 0 = some (d : Int) ∧
    dateField (formatDMY d m y) 1 = some (m : Int) ∧
    dateField (formatDMY d m y) 2 = some (y : Int) := by
  unfold dateField
  rw [split_formatDMY d m y hd hm hy]
  simp only [List.map, List.getElem?_cons_zero, List.getElem?_cons_succ, Option.join]
  rw [parseInt_two _ _ (by omega) (by omega), parseInt_two _ _ (by omega) (by omega),
    parseInt_four _ _ _ _ (by omega) (by omega) (by omega) (by omega)]
  simp only [Option.some_bind, id_eq, Option.some.injEq, Nat.cast_inj]
  omega

/-- The function `parseDate` on the text of a real calendar date. -/
theorem parseDate_formatDMY (d m y : Nat) (hy0 : 100 ≤ y) (hy : y ≤ 9999) (hm0 : 1 ≤ m)
    (hm : m ≤ 12) (hd0 : 1 ≤ d) (hd : (d : Int) ≤ monthLength y m) :
    parseDate (formatDMY d m y) = some (makeDay y ((m : Int) - 1) d) := by
  have hlen : monthLength (y : Int) (m : Int) ≤ 31 := by
    have hL := inLeapYear_range (y : Int)
    unfold monthLength
    split_ifs <;> omega
  obtain ⟨f0, f1, f2⟩ := dateField_formatDMY d m y (by omega) (by omega) (by omega)
  unfold parseDate
  simp only [f0, f1, f2, Option.map_some']
  exact newDate_civil y ((m : Int) - 1) d (by omega) (by omega) (by omega) (by omega) (by omega)
    (by rw [sub_add_cancel]; exact hd)

/-- Closed form of `getRetirementDate` on the text of a real calendar date. -/
theorem getRetirementDate_formatDMY (d m y : Nat) (hy0 : 100 ≤ y) (hy : y ≤ 9999) (hm0 : 1 ≤ m)
    (hm : m ≤ 12) (hd0 : 1 ≤ d) (hd : (d : Int) ≤ monthLength y m) :
    getRetirementDate (formatDMY d m y)
      = some (makeDay ((y : Int) + 60) ((m : Int) - 1) (monthLength ((y : Int) + 60) m)) := by
  have hp := parseDate_formatDMY d m y hy0 hy hm0 hm hd0 hd
  have hrt := civil_roundtrip y ((m : Int) - 1) d (by omega) (by omega) (by omega)
    (by rw [sub_add_cancel]; exact hd)
  rw [← makeDay_civil y ((m : Int) - 1) d (by omega) (by omega)] at hrt
  unfold getRetirementDate
  simp only [hp, getFullYear, getMonth, Option.map_some', hrt.1, hrt.2.1, RETIREMENT_AGE,
    sub_add_cancel]
  rw [getLastDayOfMonth_eq _ _ (by omega) (by omega) (by omega) (by omega)]
  exact newDate_civil _ _ _ (by omega) (by omega) (by omega) (by omega) (monthLength_pos _ _)
    (by rw [sub_add_cancel])

theorem Simplified.getRetirementDate_eq (dobStr : String) :
    Simplified.getRetirementDate dobStr = getRetirementDate dobStr := rfl

/-! ## Lemmas on `findIndex`, `jsSort` and `addToRanks` -/

theorem findIndex_eq_none {α : Type} (p : α → Bool) (l : List α) :
    findIndex p l = none ↔ ∀ a ∈ l, p a = false := by
  induction l with
  | nil => simp [findIndex]
  | cons a l ih =>
    unfold findIndex
    by_cases h : p a = true
    · simp [h]
    · simp only [h, Bool.false_eq_true, if_false, Option.map_eq_none', ih, List.mem_cons,
        forall_eq_or_imp, Bool.not_eq_true] at h ⊢
      simp [h]

/-- The index `findIndex` returns is that of the first element satisfying the test. -/
theorem findIndex_eq_some {α : Type} (p : α → Bool) (l : List α) (i : Nat)
    (h : findIndex p l = some i) :
    ∃ a, l[i]? = some a ∧ p a = true ∧ (∀ b ∈ l.take i, p b = false) ∧
      l = l.take i ++ a :: l.drop (i + 1) ∧ l.eraseIdx i = l.take i ++ l.drop (i + 1) := by
  induction l generalizing i with
  | nil => simp [findIndex] at h
  | cons a l ih =>
    unfold findIndex at h
    by_cases hp : p a = true
    · simp only [hp, if_true, Option.some.injEq] at h
      subst h
      exact ⟨a, by simp, hp, by simp, by simp, by simp⟩
    · simp only [hp, Bool.false_eq_true, if_false, Option.map_eq_some'] at h
      obtain ⟨j, hj, rfl⟩ := h
      obtain ⟨b, hb1, hb2, hb3, hb4, hb5⟩ := ih j hj
      refine ⟨b, by simpa using hb1, hb2, ?_, ?_, ?_⟩
      · intro c hc
        simp only [List.take_succ_cons, List.mem_cons] at hc
        rcases hc with rfl | hc
        · simpa using hp
        · exact hb3 c hc
      · simp only [List.take_succ_cons, List.drop_succ_cons, List.cons_append]
        rw [← hb4]
      · simp only [List.eraseIdx_cons_succ, List.take_succ_cons, List.drop_succ_cons,
          List.cons_append, hb5]

/-! ### The sort -/

theorem runTail_append {α : Type} (cmp : α → α → JsNum) (desc : Bool) (prev : α) (l : List α) :
    (runTail cmp desc prev l).1 ++ (runTail cmp desc prev l).2 = l := by
  induction l generalizing prev with
  | nil => rfl
  | cons cur rest ih =>
    unfold runTail
    split_ifs
    · simp only [List.cons_append, ih cur]
    · rfl

/-- The initial run and the elements after it make up the array. -/
theorem countAndMakeRun_perm {α : Type} (cmp : α → α → JsNum) (l : List α) :
    ((countAndMakeRun cmp l).1 ++ (countAndMakeRun cmp l).2).Perm l := by
  match l with
  | [] => exact List.Perm.refl _
  | [a] => exact List.Perm.refl _
  | a₀ :: a₁ :: rest =>
    unfold countAndMakeRun
    simp only []
    have h := runTail_append cmp (sortLT cmp a₁ a₀) a₁ rest
    have hp : ((a₀ :: a₁ :: (runTail cmp (sortLT cmp a₁ a₀) a₁ rest).1) ++
        (runTail cmp (sortLT cmp a₁ a₀) a₁ rest).2).Perm (a₀ :: a₁ :: rest) := by
      simp only [List.cons_append, h]
      exact List.Perm.refl _
    split_ifs
    · exact (List.Perm.append_right _ (List.reverse_perm _)).trans hp
    · exact hp

theorem binaryInsert_perm {α : Type} (cmp : α → α → JsNum) (sorted : List α) (pivot : α) :
    (binaryInsert cmp sorted pivot).Perm (pivot :: sorted) := by
  unfold binaryInsert
  simp only []
  refine List.perm_middle.trans ?_
  rw [List.take_append_drop]

theorem foldl_binaryInsert_perm {α : Type} (cmp : α → α → JsNum) (rest acc : List α) :
    (rest.foldl (binaryInsert cmp) acc).Perm (acc ++ rest) := by
  induction rest generalizing acc with
  | nil => simp
  | cons x xs ih =>
    rw [List.foldl_cons]
    refine (ih _).trans ?_
    refine (List.Perm.append_right _ (binaryInsert_perm cmp acc x)).trans ?_
    rw [List.cons_append]
    exact List.perm_middle.symm

/-- The sort returns a permutation of the array, whatever the comparator. -/
theorem jsSort_perm {α : Type} (cmp : α → α → JsNum) (l : List α) : (jsSort cmp l).Perm l :=
  (foldl_binaryInsert_perm cmp _ _).trans (countAndMakeRun_perm cmp l)

theorem mem_jsSort {α : Type} (cmp : α → α → JsNum) (l : List α) (a : α) :
    a ∈ jsSort cmp l ↔ a ∈ l :=
  (jsSort_perm cmp l).mem_iff

theorem length_jsSort {α : Type} (cmp : α → α → JsNum) (l : List α) :
    (jsSort cmp l).length = l.length :=
  (jsSort_perm cmp l).length_eq

/-- Below means at or below. -/
theorem sortLE_of_sortLT {α : Type} (cmp : α → α → JsNum) (a b : α)
    (h : sortLT cmp a b = true) : sortLE cmp a b = true := by
  unfold sortLT at h
  unfold sortLE
  cases hc : cmp a b with
  | none => rfl
  | some v =>
    rw [hc] at h
    simp only [decide_eq_true_eq] at h ⊢
    omega

theorem ConsistentOn.mono {α : Type} {cmp : α → α → JsNum} {l l' : List α}
    (h : ConsistentOn cmp l) (hsub : ∀ a ∈ l', a ∈ l) : ConsistentOn cmp l' :=
  ⟨fun a ha b hb => h.1 a (hsub a ha) b (hsub b hb),
    fun a ha b hb c hc => h.2 a (hsub a ha) b (hsub b hb) c (hsub c hc)⟩

/-- On a consistent list: not below means the other is at or below. -/
theorem ConsistentOn.le_of_not_lt {α : Type} {cmp : α → α → JsNum} {l : List α}
    (h : ConsistentOn cmp l) (a b : α) (ha : a ∈ l) (hb : b ∈ l)
    (hlt : sortLT cmp a b = false) : sortLE cmp b a = true := by
  by_contra hcon
  have := (h.1 a ha b hb).2 (by simpa using hcon)
  rw [hlt] at this
  exact absurd this (by decide)

theorem ConsistentOn.not_lt_of_le {α : Type} {cmp : α → α → JsNum} {l : List α}
    (h : ConsistentOn cmp l) (a b : α) (ha : a ∈ l) (hb : b ∈ l)
    (hle : sortLE cmp b a = true) : sortLT cmp a b = false := by
  by_contra hcon
  have := (h.1 a ha b hb).1 (by simpa using hcon)
  rw [hle] at this
  exact absurd this (by decide)

/-- On a consistent list, an element below another is below everything that one is at or
below. -/
theorem ConsistentOn.lt_of_lt_of_le {α : Type} {cmp : α → α → JsNum} {l : List α}
    (h : ConsistentOn cmp l) (p x y : α) (hp : p ∈ l) (hx : x ∈ l) (hy : y ∈ l)
    (hlt : sortLT cmp p x = true) (hle : sortLE cmp x y = true) : sortLT cmp p y = true := by
  by_contra hcon
  have h1 : sortLE cmp y p = true :=
    h.le_of_not_lt p y hp hy (by simpa using hcon)
  have h2 : sortLE cmp x p = true := h.2 x hx y hy p hp hle h1
  have := (h.1 p hp x hx).1 hlt
  rw [h2] at this
  exact absurd this (by decide)

/-- In a sorted list, everything from the first element that `pivot` is below onwards has
`pivot` below it. -/
theorem lt_of_mem_dropWhile {α : Type} (cmp : α → α → JsNum) (pivot : α) (s : List α)
    (hc : ConsistentOn cmp (pivot :: s))
    (hs : s.Pairwise (fun a b => sortLE cmp a b = true)) :
    ∀ y ∈ s.dropWhile (fun x => !sortLT cmp pivot x), sortLT cmp pivot y = true := by
  induction s with
  | nil => intro y hy; simp at hy
  | cons x xs ih =>
    rw [List.pairwise_cons] at hs
    have hc' : ConsistentOn cmp (pivot :: xs) := hc.mono (by
      intro a ha
      rcases List.mem_cons.1 ha with rfl | ha
      · exact List.mem_cons_self _ _
      · exact List.mem_cons_of_mem _ (List.mem_cons_of_mem _ ha))
    intro y hy
    by_cases hx : sortLT cmp pivot x = true
    · rw [List.dropWhile_cons_of_neg (by simp [hx])] at hy
      rcases List.mem_cons.1 hy with rfl | hy
      · exact hx
      · exact hc.lt_of_lt_of_le pivot x y (List.mem_cons_self _ _)
          (List.mem_cons_of_mem _ (List.mem_cons_self _ _))
          (List.mem_cons_of_mem _ (List.mem_cons_of_mem _ hy)) hx (hs.1 y hy)
    · rw [List.dropWhile_cons_of_pos (by simpa using hx)] at hy
      exact ih hc' hs.2 y hy

/-- The binary search finds the boundary between the elements `pivot` is not below and the
elements it is below. -/
theorem insertionPoint_eq {α : Type} (cmp : α → α → JsNum) (pivot : α) (s₁ s₂ : List α)
    (h₁ : ∀ x ∈ s₁, sortLT cmp pivot x = false) (h₂ : ∀ x ∈ s₂, sortLT cmp pivot x = true) :
    ∀ fuel left right, left ≤ s₁.length → s₁.length ≤ right → right ≤ (s₁ ++ s₂).length →
      right - left ≤ fuel → insertionPoint cmp pivot (s₁ ++ s₂) fuel left right = s₁.length := by
  intro fuel
  induction fuel with
  | zero =>
    intro left right h1 h2 _ h4
    unfold insertionPoint
    omega
  | succ n ih =>
    intro left right h1 h2 h3 h4
    unfold insertionPoint
    by_cases hlr : left < right
    · rw [if_pos hlr]
      simp only []
      have hmid : left + (right - left) / 2 < right := by omega
      have hmidlen : left + (right - left) / 2 < (s₁ ++ s₂).length := by omega
      rw [List.getElem?_eq_getElem hmidlen]
      simp only []
      by_cases hm : left + (right - left) / 2 < s₁.length
      · have hx : sortLT cmp pivot (s₁ ++ s₂)[left + (right - left) / 2] = false := by
          rw [List.getElem_append_left hm]
          exact h₁ _ (List.getElem_mem _)
        rw [hx]
        simp only [Bool.false_eq_true, if_false]
        exact ih _ _ (by omega) h2 h3 (by omega)
      · have hx : sortLT cmp pivot (s₁ ++ s₂)[left + (right - left) / 2] = true := by
          rw [List.getElem_append_right (by omega)]
          exact h₂ _ (List.getElem_mem _)
        rw [hx]
        simp only [if_true]
        exact ih _ _ h1 (by omega) (by omega) (by omega)
    · rw [if_neg hlr]
      omega

/-- On a sorted list a round of the binary insertion puts `pivot` behind the leading elements
it is not below. -/
theorem binaryInsert_eq_insertAfter {α : Type} (cmp : α → α → JsNum) (pivot : α) (s : List α)
    (hc : ConsistentOn cmp (pivot :: s))
    (hs : s.Pairwise (fun a b => sortLE cmp a b = true)) :
    binaryInsert cmp s pivot = insertAfter cmp pivot s := by
  have hsplit := List.takeWhile_append_dropWhile (fun x => !sortLT cmp pivot x) s
  have hk := insertionPoint_eq cmp pivot
    (s.takeWhile (fun x => !sortLT cmp pivot x)) (s.dropWhile (fun x => !sortLT cmp pivot x))
    (fun x hx => by simpa using List.mem_takeWhile_imp hx)
    (lt_of_mem_dropWhile cmp pivot s hc hs) s.length 0 s.length (Nat.zero_le _)
    (by
      have := congrArg List.length hsplit
      rw [List.length_append] at this
      omega)
    (by rw [hsplit])
    (by omega)
  rw [hsplit] at hk
  have ht := @List.take_left _ (s.takeWhile (fun x => !sortLT cmp pivot x))
    (s.dropWhile (fun x => !sortLT cmp pivot x))
  have hd := @List.drop_left _ (s.takeWhile (fun x => !sortLT cmp pivot x))
    (s.dropWhile (fun x => !sortLT cmp pivot x))
  rw [hsplit] at ht hd
  unfold binaryInsert insertAfter
  simp only []
  rw [hk, ht, hd]

/-- Insertion behind the elements `pivot` is not below keeps a list sorted. -/
theorem sorted_insertAfter {α : Type} (cmp : α → α → JsNum) (pivot : α) (s : List α)
    (hc : ConsistentOn cmp (pivot :: s))
    (hs : s.Pairwise (fun a b => sortLE cmp a b = true)) :
    (insertAfter cmp pivot s).Pairwise (fun a b => sortLE cmp a b = true) := by
  have hsplit := List.takeWhile_append_dropWhile (fun x => !sortLT cmp pivot x) s
  have hdrop := lt_of_mem_dropWhile cmp pivot s hc hs
  have hs' := hs
  rw [← hsplit, List.pairwise_append] at hs'
  unfold insertAfter
  rw [List.pairwise_append, List.pairwise_cons]
  refine ⟨hs'.1, ⟨fun y hy => sortLE_of_sortLT cmp pivot y (hdrop y hy), hs'.2.1⟩, ?_⟩
  intro a ha b hb
  rcases List.mem_cons.1 hb with rfl | hb
  · have hna : sortLT cmp b a = false := by simpa using List.mem_takeWhile_imp ha
    exact hc.le_of_not_lt b a (List.mem_cons_self _ _)
      (List.mem_cons_of_mem _ ((List.takeWhile_sublist _).subset ha)) hna
  · exact hs'.2.2 a ha b hb

theorem mem_insertAfter {α : Type} (cmp : α → α → JsNum) (pivot : α) (s : List α) (a : α) :
    a ∈ insertAfter cmp pivot s ↔ a = pivot ∨ a ∈ s := by
  unfold insertAfter
  rw [List.mem_append, List.mem_cons]
  conv_rhs => rw [← List.takeWhile_append_dropWhile (fun x => !sortLT cmp pivot x) s,
    List.mem_append]
  tauto

theorem mem_foldl_insertAfter {α : Type} (cmp : α → α → JsNum) (l acc : List α) (a : α) :
    a ∈ l.foldl (fun acc x => insertAfter cmp x acc) acc ↔ a ∈ acc ∨ a ∈ l := by
  induction l generalizing acc with
  | nil => simp
  | cons x xs ih =>
    rw [List.foldl_cons, ih, mem_insertAfter, List.mem_cons]
    tauto

/-- The linear insertion sort sorts a consistent list. -/
theorem sorted_foldl_insertAfter {α : Type} (cmp : α → α → JsNum) (l acc : List α)
    (hc : ConsistentOn cmp (acc ++ l))
    (hs : acc.Pairwise (fun a b => sortLE cmp a b = true)) :
    (l.foldl (fun acc x => insertAfter cmp x acc) acc).Pairwise
      (fun a b => sortLE cmp a b = true) := by
  induction l generalizing acc with
  | nil => exact hs
  | cons x xs ih =>
    rw [List.foldl_cons]
    refine ih _ (hc.mono ?_) (sorted_insertAfter cmp x acc (hc.mono ?_) hs)
    · intro a ha
      rw [List.mem_append, mem_insertAfter] at ha
      rw [List.mem_append, List.mem_cons]
      tauto
    · intro a ha
      rw [List.mem_append, List.mem_cons]
      rcases List.mem_cons.1 ha with rfl | ha
      · exact Or.inr (Or.inl rfl)
      · exact Or.inl ha

/-- On a sorted accumulator the binary insertions come to the linear ones. -/
theorem foldl_binaryInsert_eq {α : Type} (cmp : α → α → JsNum) (l acc : List α)
    (hc : ConsistentOn cmp (acc ++ l))
    (hs : acc.Pairwise (fun a b => sortLE cmp a b = true)) :
    l.foldl (binaryInsert cmp) acc = l.foldl (fun acc x => insertAfter cmp x acc) acc := by
  induction l generalizing acc with
  | nil => rfl
  | cons x xs ih =>
    have hcx : ConsistentOn cmp (x :: acc) := hc.mono (by
      intro a ha
      rw [List.mem_append, List.mem_cons]
      rcases List.mem_cons.1 ha with rfl | ha
      · exact Or.inr (Or.inl rfl)
      · exact Or.inl ha)
    rw [List.foldl_cons, List.foldl_cons, binaryInsert_eq_insertAfter cmp x acc hcx hs]
    refine ih _ (hc.mono ?_) (sorted_insertAfter cmp x acc hcx hs)
    intro a ha
    rw [List.mem_append, mem_insertAfter] at ha
    rw [List.mem_append, List.mem_cons]
    tauto

/-- Elements none of which is below anything before it are inserted at the end, in order. -/
theorem foldl_insertAfter_asc {α : Type} (cmp : α → α → JsNum) (l acc : List α)
    (h₁ : ∀ x ∈ l, ∀ y ∈ acc, sortLT cmp x y = false)
    (h₂ : l.Pairwise (fun a b => sortLT cmp b a = false)) :
    l.foldl (fun acc x => insertAfter cmp x acc) acc = acc ++ l := by
  induction l generalizing acc with
  | nil => simp
  | cons x xs ih =>
    rw [List.pairwise_cons] at h₂
    have hins : insertAfter cmp x acc = acc ++ [x] := by
      unfold insertAfter
      have hall : ∀ y ∈ acc, (fun y => !sortLT cmp x y) y = true := by
        intro y hy
        simp [h₁ x (List.mem_cons_self _ _) y hy]
      rw [List.takeWhile_eq_self_iff.2 hall, List.dropWhile_eq_nil_iff.2 hall]
    rw [List.foldl_cons, hins, ih _ ?_ h₂.2]
    · simp
    · intro z hz y hy
      rcases List.mem_append.1 hy with hy | hy
      · exact h₁ z (List.mem_cons_of_mem _ hz) y hy
      · rw [List.mem_singleton] at hy
        rw [hy]
        exact h₂.1 z hz

/-- Elements each of which is below everything before it are inserted at the front. -/
theorem foldl_insertAfter_desc {α : Type} (cmp : α → α → JsNum) (l acc : List α)
    (h₁ : ∀ x ∈ l, ∀ y ∈ acc, sortLT cmp x y = true)
    (h₂ : l.Pairwise (fun a b => sortLT cmp b a = true)) :
    l.foldl (fun acc x => insertAfter cmp x acc) acc = l.reverse ++ acc := by
  induction l generalizing acc with
  | nil => simp
  | cons x xs ih =>
    rw [List.pairwise_cons] at h₂
    have hins : insertAfter cmp x acc = x :: acc := by
      unfold insertAfter
      cases acc with
      | nil => rfl
      | cons y ys =>
        have hy : (fun y => !sortLT cmp x y) y = false := by
          simp [h₁ x (List.mem_cons_self _ _) y (List.mem_cons_self _ _)]
        rw [List.takeWhile_cons_of_neg (by simp [hy]), List.dropWhile_cons_of_neg (by simp [hy])]
        rfl
    rw [List.foldl_cons, hins, ih _ ?_ h₂.2]
    · simp
    · intro z hz y hy
      rcases List.mem_cons.1 hy with rfl | hy
      · exact h₂.1 z hz
      · exact h₁ z (List.mem_cons_of_mem _ hz) y hy

/-- What the loop of `CountAndMakeRun` takes: each element continues the direction from its
predecessor. -/
theorem runTail_chain {α : Type} (cmp : α → α → JsNum) (desc : Bool) (prev : α) (l : List α) :
    List.Chain (fun a b => sortLT cmp b a = desc) prev (runTail cmp desc prev l).1 := by
  induction l generalizing prev with
  | nil => exact List.Chain.nil
  | cons cur rest ih =>
    unfold runTail
    split_ifs with h
    · exact List.Chain.cons h (ih cur)
    · exact List.Chain.nil

/-- A chain for a relation that is transitive on the elements concerned is pairwise
related. -/
theorem pairwise_of_chain_on {α : Type} (R : α → α → Prop) (a : α) (l : List α)
    (htr : ∀ x ∈ a :: l, ∀ y ∈ a :: l, ∀ z ∈ a :: l, R x y → R y z → R x z)
    (h : List.Chain R a l) : (a :: l).Pairwise R := by
  induction l generalizing a with
  | nil => simp
  | cons b l ih =>
    rw [List.chain_cons] at h
    have hb := ih b (fun x hx y hy z hz => htr x (List.mem_cons_of_mem _ hx) y
      (List.mem_cons_of_mem _ hy) z (List.mem_cons_of_mem _ hz)) h.2
    rw [List.pairwise_cons]
    refine ⟨?_, hb⟩
    intro c hc
    rcases List.mem_cons.1 hc with rfl | hc
    · exact h.1
    · exact htr a (List.mem_cons_self _ _) b (List.mem_cons_of_mem _ (List.mem_cons_self _ _)) c
        (List.mem_cons_of_mem _ (List.mem_cons_of_mem _ hc)) h.1
        ((List.pairwise_cons.1 hb).1 c hc)

/-- On a consistent array the sort is the linear insertion sort from the left: the stable
sort. -/
theorem jsSort_eq_foldl {α : Type} (cmp : α → α → JsNum) (l : List α)
    (hc : ConsistentOn cmp l) :
    jsSort cmp l = l.foldl (fun acc x => insertAfter cmp x acc) [] := by
  match l, hc with
  | [], _ => rfl
  | [a], _ => rfl
  | a₀ :: a₁ :: rest, hc =>
    unfold jsSort countAndMakeRun
    simp only []
    have happ := runTail_append cmp (sortLT cmp a₁ a₀) a₁ rest
    have hchain := runTail_chain cmp (sortLT cmp a₁ a₀) a₁ rest
    generalize (runTail cmp (sortLT cmp a₁ a₀) a₁ rest).1 = run at happ hchain
    generalize (runTail cmp (sortLT cmp a₁ a₀) a₁ rest).2 = left at happ
    subst happ
    have hcrun : ConsistentOn cmp (a₀ :: a₁ :: run) := hc.mono (by
      intro a ha
      simp only [List.mem_cons, List.mem_append] at ha ⊢
      tauto)
    have hfold : (a₀ :: a₁ :: (run ++ left)).foldl (fun acc x => insertAfter cmp x acc) []
        = left.foldl (fun acc x => insertAfter cmp x acc)
          ((a₀ :: a₁ :: run).foldl (fun acc x => insertAfter cmp x acc) []) := by
      rw [← List.foldl_append]
      rfl
    rw [hfold]
    have hrun : (if sortLT cmp a₁ a₀ = true then (a₀ :: a₁ :: run).reverse else a₀ :: a₁ :: run)
        = (a₀ :: a₁ :: run).foldl (fun acc x => insertAfter cmp x acc) [] := by
      by_cases hd : sortLT cmp a₁ a₀ = true
      · rw [if_pos hd]
        rw [hd] at hchain
        have hpw : (a₀ :: a₁ :: run).Pairwise (fun a b => sortLT cmp b a = true) := by
          refine pairwise_of_chain_on _ a₀ (a₁ :: run) ?_ (List.Chain.cons hd hchain)
          intro x hx y hy z hz hxy hyz
          exact hcrun.lt_of_lt_of_le z y x hz hy hx hyz (sortLE_of_sortLT cmp y x hxy)
        rw [foldl_insertAfter_desc cmp _ [] (fun _ _ y hy => absurd hy (List.not_mem_nil _)) hpw]
        simp
      · rw [if_neg hd]
        have hd' : sortLT cmp a₁ a₀ = false := by simpa using hd
        rw [hd'] at hchain
        have hpw : (a₀ :: a₁ :: run).Pairwise (fun a b => sortLT cmp b a = false) := by
          refine pairwise_of_chain_on _ a₀ (a₁ :: run) ?_ (List.Chain.cons hd' hchain)
          intro x hx y hy z hz hxy hyz
          have h1 := hcrun.le_of_not_lt y x hy hx hxy
          have h2 := hcrun.le_of_not_lt z y hz hy hyz
          exact hcrun.not_lt_of_le z x hz hx (hcrun.2 x hx y hy z hz h1 h2)
        rw [foldl_insertAfter_asc cmp _ [] (fun _ _ y hy => absurd hy (List.not_mem_nil _)) hpw]
        simp
    have hfl : (fun acc x => insertAfter cmp x acc) = (fun acc x => insertAfter cmp x acc) := rfl
    rw [hrun]
    have hsorted := sorted_foldl_insertAfter cmp (a₀ :: a₁ :: run) [] (by simpa using hcrun)
      List.Pairwise.nil
    refine foldl_binaryInsert_eq cmp left _ (hc.mono ?_) hsorted
    intro a ha
    rw [List.mem_append, mem_foldl_insertAfter] at ha
    simp only [List.mem_cons, List.mem_append, List.not_mem_nil, false_or] at ha ⊢
    tauto

/-- The sort sorts a consistent array. -/
theorem sorted_jsSort_on {α : Type} (cmp : α → α → JsNum) (l : List α)
    (hc : ConsistentOn cmp l) :
    (jsSort cmp l).Pairwise (fun a b => sortLE cmp a b = true) := by
  rw [jsSort_eq_foldl cmp l hc]
  exact sorted_foldl_insertAfter cmp l [] (by simpa using hc) List.Pairwise.nil

/-- An element inserted into a sorted list comes behind the elements tied with it. -/
theorem filter_insertAfter {α : Type} (cmp : α → α → JsNum) (q : α → Bool) (pivot : α)
    (s : List α) (hc : ConsistentOn cmp (pivot :: s))
    (hs : s.Pairwise (fun a b => sortLE cmp a b = true))
    (htie : q pivot = true → ∀ y ∈ s, q y = true → sortLE cmp y pivot = true) :
    (insertAfter cmp pivot s).filter q = s.filter q ++ (if q pivot = true then [pivot] else []) := by
  have hsplit := List.takeWhile_append_dropWhile (fun x => !sortLT cmp pivot x) s
  have hdrop := lt_of_mem_dropWhile cmp pivot s hc hs
  unfold insertAfter
  conv_rhs => rw [← hsplit]
  rw [List.filter_append, List.filter_append, List.filter_cons]
  by_cases hq : q pivot = true
  · rw [if_pos hq, if_pos hq]
    have hnil : (s.dropWhile (fun x => !sortLT cmp pivot x)).filter q = [] := by
      rw [List.filter_eq_nil_iff]
      intro y hy hqy
      have hle := htie hq y ((List.dropWhile_sublist _).subset hy) hqy
      have := hc.not_lt_of_le pivot y (List.mem_cons_self _ _)
        (List.mem_cons_of_mem _ ((List.dropWhile_sublist _).subset hy)) hle
      rw [hdrop y hy] at this
      exact absurd this (by decide)
    rw [hnil]
    simp
  · rw [if_neg hq, if_neg hq]
    simp

/-- Stability: elements of a consistent array that the comparator ties pairwise keep their
order. -/
theorem jsSort_filter_of_tied {α : Type} (cmp : α → α → JsNum) (q : α → Bool) (l : List α)
    (hc : ConsistentOn cmp l)
    (htie : ∀ a ∈ l, ∀ b ∈ l, q a = true → q b = true → sortLE cmp a b = true) :
    (jsSort cmp l).filter q = l.filter q := by
  rw [jsSort_eq_foldl cmp l hc]
  have key : ∀ (l' acc : List α), (∀ a ∈ acc ++ l', a ∈ l) →
      acc.Pairwise (fun a b => sortLE cmp a b = true) →
      (l'.foldl (fun acc x => insertAfter cmp x acc) acc).filter q
        = acc.filter q ++ l'.filter q := by
    intro l'
    induction l' with
    | nil => intro acc _ _; simp
    | cons x xs ih =>
      intro acc hsub hs
      have hx : x ∈ l := hsub x (by simp)
      have hacc : ∀ a ∈ acc, a ∈ l := fun a ha => hsub a (List.mem_append_left _ ha)
      have hcx : ConsistentOn cmp (x :: acc) := hc.mono (by
        intro a ha
        rcases List.mem_cons.1 ha with rfl | ha
        · exact hx
        · exact hacc a ha)
      rw [List.foldl_cons, ih _ ?_ (sorted_insertAfter cmp x acc hcx hs),
        filter_insertAfter cmp q x acc hcx hs
          (fun hq y hy hqy => htie y (hacc y hy) x hx hqy hq), List.filter_cons]
      · split_ifs <;> simp
      · intro a ha
        rw [List.mem_append, mem_insertAfter] at ha
        rcases ha with (rfl | ha) | ha
        · exact hx
        · exact hacc a ha
        · exact hsub a (List.mem_append_right _ (List.mem_cons_of_mem _ ha))
  have := key l [] (by simp) List.Pairwise.nil
  simpa using this

/-- What `addToRanks` builds when it does not throw. -/
theorem addToRanks_ok {α : Type} (RO : List String) (rankOf : α → String) (l : List α)
    (rs rs' : RankStructure α) (h : addToRanks RO rankOf l rs = .ok rs') :
    (∀ o ∈ l, rankOf o ∈ RO) ∧ ∀ k, rs' k = rs k ++ l.filter (fun o => rankOf o = k) := by
  induction l generalizing rs with
  | nil =>
    simp only [addToRanks, Except.ok.injEq] at h
    subst h
    simp
  | cons o os ih =>
    unfold addToRanks at h
    by_cases hr : rankOf o ∈ RO
    · rw [if_pos hr] at h
      obtain ⟨h1, h2⟩ := ih _ h
      refine ⟨?_, ?_⟩
      · intro x hx
        rcases List.mem_cons.1 hx with rfl | hx
        · exact hr
        · exact h1 x hx
      · intro k
        rw [h2 k]
        unfold pushRank
        by_cases hk : k = rankOf o
        · subst hk
          simp [List.filter_cons]
        · have hk' : ¬ rankOf o = k := fun e => hk e.symm
          simp [List.filter_cons, hk, hk']
    · rw [if_neg hr] at h
      exact absurd h (by simp)

/-- The function `addToRanks` does not throw when every rank is on the ladder. -/
theorem addToRanks_total {α : Type} (RO : List String) (rankOf : α → String) (l : List α)
    (rs : RankStructure α) (h : ∀ o ∈ l, rankOf o ∈ RO) :
    ∃ rs', addToRanks RO rankOf l rs = .ok rs' := by
  induction l generalizing rs with
  | nil => exact ⟨rs, rfl⟩
  | cons o os ih =>
    unfold addToRanks
    rw [if_pos (h o (List.mem_cons_self _ _))]
    exact ih _ (fun x hx => h x (List.mem_cons_of_mem _ hx))

/-- The rank comparator puts `a` no later than `b` exactly when the two `Frozen` fields
differ and that of `a` is falsy, or they are equal and `a` has the smaller or equal key. -/
theorem sortLE_seniority (a b : Officer) :
    sortLE seniorityCompare a b = true ↔
      (a.Frozen ≠ b.Frozen ∧ a.Frozen.truthy = false) ∨
        (a.Frozen = b.Frozen ∧ a.order_index ≤ b.order_index) := by
  unfold sortLE seniorityCompare
  by_cases h : a.Frozen = b.Frozen
  · simp [h]
  · cases ht : a.Frozen.truthy <;> simp [h, ht]

theorem sortLT_seniority (a b : Officer) :
    sortLT seniorityCompare a b = true ↔
      (a.Frozen ≠ b.Frozen ∧ a.Frozen.truthy = false) ∨
        (a.Frozen = b.Frozen ∧ a.order_index < b.order_index) := by
  unfold sortLT seniorityCompare
  by_cases h : a.Frozen = b.Frozen
  · simp [h]
  · cases ht : a.Frozen.truthy <;> simp [h, ht]

/-- The rank comparator is consistent on officers whose `Frozen` fields are comparable. -/
theorem consistentOn_seniority (l : List Officer) (hf : FlagsComparable l) :
    ConsistentOn seniorityCompare l := by
  refine ⟨?_, ?_⟩
  · intro a ha b hb
    have e : sortLE seniorityCompare b a = false ↔ ¬ sortLE seniorityCompare b a = true := by
      simp
    rw [sortLT_seniority, e, sortLE_seniority]
    have hab := hf a ha b hb
    by_cases h : a.Frozen = b.Frozen
    · simp [h]
    · have hne : a.Frozen.truthy ≠ b.Frozen.truthy := fun e => h (hab e)
      cases hta : a.Frozen.truthy <;> cases htb : b.Frozen.truthy <;>
        simp_all [Ne.symm h]
  · intro a ha b hb c hc
    rw [sortLE_seniority, sortLE_seniority, sortLE_seniority]
    have hab := hf a ha b hb
    have hbc := hf b hb c hc
    have hac := hf a ha c hc
    rintro (⟨h1, h2⟩ | ⟨h1, h2⟩) (⟨h3, h4⟩ | ⟨h3, h4⟩)
    · have : a.Frozen.truthy = b.Frozen.truthy := by rw [h2, h4]
      exact absurd (hab this) h1
    · left
      exact ⟨by rw [← h3]; exact h1, h2⟩
    · left
      exact ⟨by rw [h1]; exact h3, by rw [h1]; exact h4⟩
    · right
      exact ⟨h1.trans h3, le_trans h2 h4⟩

/-- Sorting officers whose `Frozen` fields are comparable puts each officer no later than
every officer behind it. -/
theorem sorted_jsSort_seniority (l : List Officer) (hf : FlagsComparable l) :
    (jsSort seniorityCompare l).Pairwise (fun a b => sortLE seniorityCompare a b = true) :=
  sorted_jsSort_on seniorityCompare l (consistentOn_seniority l hf)

/-- The date comparator on two valid dates. -/
theorem sortLE_dateCompare (a b : RetirementEvent) (x y : Int) (ha : a.date = some x)
    (hb : b.date = some y) : sortLE dateCompare a b = true ↔ x ≤ y := by
  unfold sortLE dateCompare JsDate.sub
  rw [ha, hb]
  simp

theorem sortLT_dateCompare (a b : RetirementEvent) (x y : Int) (ha : a.date = some x)
    (hb : b.date = some y) : sortLT dateCompare a b = true ↔ x < y := by
  unfold sortLT dateCompare JsDate.sub
  rw [ha, hb]
  simp

/-- The date comparator is consistent on events with valid dates. -/
theorem consistentOn_dateCompare (l : List RetirementEvent)
    (hv : ∀ e ∈ l, e.date.isSome = true) : ConsistentOn dateCompare l := by
  refine ⟨?_, ?_⟩
  · intro a ha b hb
    obtain ⟨x, hx⟩ := Option.isSome_iff_exists.1 (hv a ha)
    obtain ⟨y, hy⟩ := Option.isSome_iff_exists.1 (hv b hb)
    have e : sortLE dateCompare b a = false ↔ ¬ sortLE dateCompare b a = true := by simp
    rw [sortLT_dateCompare a b x y hx hy, e, sortLE_dateCompare b a y x hy hx]
    omega
  · intro a ha b hb c hc
    obtain ⟨x, hx⟩ := Option.isSome_iff_exists.1 (hv a ha)
    obtain ⟨y, hy⟩ := Option.isSome_iff_exists.1 (hv b hb)
    obtain ⟨z, hz⟩ := Option.isSome_iff_exists.1 (hv c hc)
    rw [sortLE_dateCompare a b x y hx hy, sortLE_dateCompare b c y z hy hz,
      sortLE_dateCompare a c x z hx hz]
    omega

/-- Sorting events by date gives non-decreasing dates when every date is valid. -/
theorem sorted_jsSort_dateCompare (l : List RetirementEvent)
    (hv : ∀ e ∈ l, e.date.isSome = true) :
    (jsSort dateCompare l).Pairwise (fun a b => a.date.le b.date = true) := by
  have hs : (jsSort dateCompare l).Pairwise (fun a b => sortLE dateCompare a b = true) :=
    sorted_jsSort_on dateCompare l (consistentOn_dateCompare l hv)
  refine hs.imp_of_mem ?_
  intro a b ha hb hab
  obtain ⟨x, hx⟩ := Option.isSome_iff_exists.1 (hv a ((mem_jsSort _ _ _).1 ha))
  obtain ⟨y, hy⟩ := Option.isSome_iff_exists.1 (hv b ((mem_jsSort _ _ _).1 hb))
  rw [sortLE_dateCompare a b x y hx hy] at hab
  simp [JsDate.le, hx, hy, hab]

/-! ## Invariant principles for the cascade functions -/

/-- Inversion of a successful `fillVacancy` call: it stopped at once, or it promoted one
candidate, filled the lower rank and went round the loop again. -/
theorem fillVacancy_ok_inv (RO : List String) (SLOTS : String → Nat) (n : Nat)
    (st st' : TimelineState) (vr : String) (date : JsDate) (cause : Officer)
    (h : fillVacancy RO SLOTS (n + 1) st vr date cause = .ok st') :
    vr ∈ RO ∧
    ((st' = st ∧ FillStops RO SLOTS st vr) ∨
      ∃ lr i cand st1, (st.ranks vr).length < SLOTS vr ∧ RO.indexOf vr ≠ RO.length - 1 ∧
        RO[RO.indexOf vr + 1]? = some lr ∧ candidateIndex (st.ranks lr) = some i ∧
        (st.ranks lr)[i]? = some cand ∧
        fillVacancy RO SLOTS n (promote st vr lr i cand date cause) lr date cause = .ok st1 ∧
        fillVacancy RO SLOTS n st1 vr date cause = .ok st') := by
  unfold fillVacancy at h
  by_cases h1 : vr ∉ RO
  · rw [if_pos h1] at h
    exact absurd h (by simp)
  rw [if_neg h1] at h
  refine ⟨not_not.1 h1, ?_⟩
  by_cases h2 : (st.ranks vr).length < SLOTS vr
  swap
  · rw [if_neg h2] at h
    simp only [Except.ok.injEq] at h
    exact Or.inl ⟨h.symm, Or.inl h2⟩
  rw [if_pos h2] at h
  simp only [] at h
  by_cases h3 : RO.indexOf vr = RO.length - 1
  · rw [if_pos h3] at h
    simp only [Except.ok.injEq] at h
    exact Or.inl ⟨h.symm, Or.inr (Or.inl h3)⟩
  rw [if_neg h3] at h
  split at h
  · exact absurd h (by simp)
  rename_i lr hlr
  by_cases h4 : (st.ranks lr).length = 0
  · rw [if_pos h4] at h
    simp only [Except.ok.injEq] at h
    refine Or.inl ⟨h.symm, Or.inr (Or.inr ⟨lr, hlr, ?_⟩)⟩
    rw [List.length_eq_zero] at h4
    rw [h4]
    rfl
  rw [if_neg h4] at h
  split at h
  · rename_i hnone
    simp only [Except.ok.injEq] at h
    exact Or.inl ⟨h.symm, Or.inr (Or.inr ⟨lr, hlr, hnone⟩)⟩
  rename_i i hi
  split at h
  · rename_i hnone
    obtain ⟨a, ha, _⟩ := findIndex_eq_some _ _ _ hi
    rw [ha] at hnone
    exact absurd hnone (by simp)
  rename_i cand hcand
  by_cases hk : cand.IRLA ∈ inheritedKeys
  · rw [if_pos hk] at h
    exact absurd h (by simp)
  rw [if_neg hk] at h
  split at h
  · exact absurd h (by simp)
  rename_i st1 hst1
  exact Or.inr ⟨lr, i, cand, st1, h2, h3, hlr, hi, hcand, hst1, h⟩

/-- Invariant principle for `fillVacancy`: a property that every promotion preserves holds of
the state the function returns. -/
theorem fillVacancy_preserves (RO : List String) (SLOTS : String → Nat) (date : JsDate)
    (cause : Officer) (P : TimelineState → Prop)
    (hstep : ∀ st vr lr i cand, P st → vr ∈ RO → (st.ranks vr).length < SLOTS vr →
      RO.indexOf vr ≠ RO.length - 1 → RO[RO.indexOf vr + 1]? = some lr →
      candidateIndex (st.ranks lr) = some i → (st.ranks lr)[i]? = some cand →
      P (promote st vr lr i cand date cause)) :
    ∀ fuel st vr st', P st → fillVacancy RO SLOTS fuel st vr date cause = .ok st' → P st' := by
  intro fuel
  induction fuel with
  | zero =>
    intro st vr st' _ h
    simp [fillVacancy] at h
  | succ n ih =>
    intro st vr st' hP h
    obtain ⟨hvr, hcase⟩ := fillVacancy_ok_inv RO SLOTS n st st' vr date cause h
    rcases hcase with ⟨rfl, _⟩ | ⟨lr, i, cand, st1, h2, h3, hlr, hi, hcand, hst1, hst'⟩
    · exact hP
    · exact ih _ _ _ (ih _ _ _ (hstep st vr lr i cand hP hvr h2 h3 hlr hi hcand) hst1) hst'

/-- The candidate search of `fillRankUpwards` is that of `fillVacancy`. -/
theorem Simplified.candidate_eq (l : List Officer) :
    findIndex (fun o => !o.Retired && !o.Frozen.truthy) l = candidateIndex l := by
  unfold candidateIndex
  congr 1
  funext o
  exact Bool.and_comm _ _

/-- The function `fillRankUpwards` of simplified-simulation.js computes what `fillVacancy`
computes. -/
theorem Simplified.fillRankUpwards_eq (RO : List String) (SLOTS : String → Nat) :
    ∀ fuel st vr date cause,
      Simplified.fillRankUpwards RO SLOTS fuel st vr date cause
        = fillVacancy RO SLOTS fuel st vr date cause := by
  intro fuel
  induction fuel with
  | zero => intro st vr date cause; rfl
  | succ n ih =>
    intro st vr date cause
    unfold Simplified.fillRankUpwards fillVacancy
    by_cases h1 : vr ∉ RO
    · rw [if_pos h1, if_pos h1]
    rw [if_neg h1, if_neg h1]
    by_cases h2 : (st.ranks vr).length < SLOTS vr
    swap
    · rw [if_neg h2, if_neg h2]
    rw [if_pos h2, if_pos h2]
    simp only []
    by_cases h3 : RO.indexOf vr = RO.length - 1
    · rw [if_pos h3, if_pos h3]
    rw [if_neg h3, if_neg h3]
    have hlt : RO.indexOf vr + 1 < RO.length := by
      have := List.indexOf_lt_length.2 (not_not.1 h1)
      omega
    rw [List.getElem?_eq_getElem hlt]
    simp only [Simplified.candidate_eq]
    by_cases h4 : (st.ranks RO[RO.indexOf vr + 1]).length = 0
    · rw [if_pos h4, if_pos h4]
    rw [if_neg h4, if_neg h4]
    cases candidateIndex (st.ranks RO[RO.indexOf vr + 1]) with
    | none => rfl
    | some i =>
      simp only []
      cases (st.ranks RO[RO.indexOf vr + 1])[i]? with
      | none => rfl
      | some cand =>
        simp only [ih]

/-- Inversion of a successful `fillDisplayVacancy` call. -/
theorem fillDisplayVacancy_ok_inv (RO : List String) (SLOTS : String → Nat) (n : Nat)
    (st st' : DisplayState) (vr : String)
    (h : fillDisplayVacancy RO SLOTS (n + 1) st vr = .ok st') :
    vr ∈ RO ∧
    ((st' = st ∧ FillDisplayStops RO SLOTS st vr) ∨
      ∃ lr cand rest st1, (st.active vr).length < SLOTS vr ∧ RO.indexOf vr ≠ RO.length - 1 ∧
        RO[RO.indexOf vr + 1]? = some lr ∧
        (st.ranks lr).filter (fun r => !(st.obj r).Frozen.truthy && !(st.obj r).displayRetired)
          = cand :: rest ∧
        fillDisplayVacancy RO SLOTS n (promoteDisplay st vr lr cand) lr = .ok st1 ∧
        fillDisplayVacancy RO SLOTS n st1 vr = .ok st') := by
  unfold fillDisplayVacancy at h
  by_cases h1 : vr ∉ RO
  · rw [if_pos h1] at h
    exact absurd h (by simp)
  rw [if_neg h1] at h
  refine ⟨not_not.1 h1, ?_⟩
  by_cases h2 : (st.active vr).length < SLOTS vr
  swap
  · rw [if_neg h2] at h
    simp only [Except.ok.injEq] at h
    exact Or.inl ⟨h.symm, Or.inl h2⟩
  rw [if_pos h2] at h
  simp only [] at h
  by_cases h3 : RO.indexOf vr = RO.length - 1
  · rw [if_pos h3] at h
    simp only [Except.ok.injEq] at h
    exact Or.inl ⟨h.symm, Or.inr (Or.inl h3)⟩
  rw [if_neg h3] at h
  split at h
  · exact absurd h (by simp)
  rename_i lr hlr
  split at h
  · rename_i hnil
    simp only [Except.ok.injEq] at h
    exact Or.inl ⟨h.symm, Or.inr (Or.inr ⟨lr, hlr, hnil⟩)⟩
  rename_i cand rest hcand
  split at h
  · exact absurd h (by simp)
  rename_i st1 hst1
  exact Or.inr ⟨lr, cand, rest, st1, h2, h3, hlr, hcand, hst1, h⟩

/-- Invariant principle for `fillDisplayVacancy`. -/
theorem fillDisplayVacancy_preserves (RO : List String) (SLOTS : String → Nat)
    (P : DisplayState → Prop)
    (hstep : ∀ st vr lr cand rest, P st → vr ∈ RO → (st.active vr).length < SLOTS vr →
      RO.indexOf vr ≠ RO.length - 1 → RO[RO.indexOf vr + 1]? = some lr →
      (st.ranks lr).filter (fun r => !(st.obj r).Frozen.truthy && !(st.obj r).displayRetired)
        = cand :: rest →
      P (promoteDisplay st vr lr cand)) :
    ∀ fuel st vr st', P st → fillDisplayVacancy RO SLOTS fuel st vr = .ok st' → P st' := by
  intro fuel
  induction fuel with
  | zero =>
    intro st vr st' _ h
    simp [fillDisplayVacancy] at h
  | succ n ih =>
    intro st vr st' hP h
    obtain ⟨hvr, hcase⟩ := fillDisplayVacancy_ok_inv RO SLOTS n st st' vr h
    rcases hcase with ⟨rfl, _⟩ | ⟨lr, cand, rest, st1, h2, h3, hlr, hcand, hst1, hst'⟩
    · exact hP
    · exact ih _ _ _ (ih _ _ _ (hstep st vr lr cand rest hP hvr h2 h3 hlr hcand) hst1) hst'

/-- Invariant principle for the timeline event loop. -/
theorem processTimelineEvents_preserves (RO : List String) (SLOTS : String → Nat) (fuel : Nat)
    (P : TimelineState → Prop) (events : List RetirementEvent)
    (hevent : ∀ st ev st', ev ∈ events → P st →
      processTimelineEvent RO SLOTS fuel st ev = .ok st' → P st') :
    ∀ st st', P st → processTimelineEvents RO SLOTS fuel st events = .ok st' → P st' := by
  induction events with
  | nil =>
    intro st st' hP h
    simp only [processTimelineEvents, Except.ok.injEq] at h
    exact h ▸ hP
  | cons ev rest ih =>
    intro st st' hP h
    unfold processTimelineEvents at h
    split at h
    · exact absurd h (by simp)
    · rename_i st1 hst1
      exact ih (fun s e s' he => hevent s e s' (List.mem_cons_of_mem _ he)) st1 st'
        (hevent st ev st1 (List.mem_cons_self _ _) hP hst1) h

/-- Invariant principle for the display event loop. -/
theorem processDisplayEvents_preserves (RO : List String) (SLOTS : String → Nat) (fuel : Nat)
    (P : DisplayState → Prop) (events : List DisplayEvent)
    (hevent : ∀ st ev st', ev ∈ events → P st →
      processDisplayEvent RO SLOTS fuel st ev = .ok st' → P st') :
    ∀ st st', P st → processDisplayEvents RO SLOTS fuel st events = .ok st' → P st' := by
  induction events with
  | nil =>
    intro st st' hP h
    simp only [processDisplayEvents, Except.ok.injEq] at h
    exact h ▸ hP
  | cons ev rest ih =>
    intro st st' hP h
    unfold processDisplayEvents at h
    split at h
    · exact absurd h (by simp)
    · rename_i st1 hst1
      exact ih (fun s e s' he => hevent s e s' (List.mem_cons_of_mem _ he)) st1 st'
        (hevent st ev st1 (List.mem_cons_self _ _) hP hst1) h

/-- Invariant principle for one timeline event: a property preserved by the removal of the
retiring officer and by every promotion holds after the event. -/
theorem processTimelineEvent_preserves (RO : List String) (SLOTS : String → Nat) (fuel : Nat)
    (P : TimelineState → Prop) (ev : RetirementEvent)
    (hremove : ∀ st index, P st →
      findIndex (fun o => o.IRLA == ev.officer.IRLA) (st.ranks ev.officer.Rank) = some index →
      P (st.withRanks (setRank st.ranks ev.officer.Rank
        ((st.ranks ev.officer.Rank).eraseIdx index))))
    (hstep : ∀ st vr lr i cand, P st → vr ∈ RO → (st.ranks vr).length < SLOTS vr →
      RO.indexOf vr ≠ RO.length - 1 → RO[RO.indexOf vr + 1]? = some lr →
      candidateIndex (st.ranks lr) = some i → (st.ranks lr)[i]? = some cand →
      P (promote st vr lr i cand ev.date ev.officer)) :
    ∀ st st', P st → processTimelineEvent RO SLOTS fuel st ev = .ok st' → P st' := by
  intro st st' hP h
  unfold processTimelineEvent at h
  simp only [] at h
  split at h
  · simp only [Except.ok.injEq] at h
    exact h ▸ hP
  · rename_i index hindex
    exact fillVacancy_preserves RO SLOTS ev.date ev.officer P hstep fuel _ _ _
      (hremove st index hP hindex) h

/-- A round of `fillVacancy` that meets a stop condition returns the state unchanged. -/
theorem fillVacancy_stop (RO : List String) (SLOTS : String → Nat) (n : Nat)
    (st : TimelineState) (vr : String) (date : JsDate) (cause : Officer) (hvr : vr ∈ RO)
    (hstop : FillStops RO SLOTS st vr) :
    fillVacancy RO SLOTS (n + 1) st vr date cause = .ok st := by
  unfold fillVacancy
  rw [if_neg (not_not.2 hvr)]
  by_cases h2 : (st.ranks vr).length < SLOTS vr
  swap
  · rw [if_neg h2]
  rw [if_pos h2]
  simp only []
  by_cases h3 : RO.indexOf vr = RO.length - 1
  · rw [if_pos h3]
  rw [if_neg h3]
  rcases hstop with h | h | ⟨lr, hlr, hnone⟩
  · exact absurd h2 h
  · exact absurd h h3
  · rw [hlr]
    simp only [hnone]
    split_ifs <;> rfl

/-- A round of `fillVacancy` that finds a candidate promotes it, fills the lower rank and goes
round the loop again. -/
theorem fillVacancy_step (RO : List String) (SLOTS : String → Nat) (n : Nat)
    (st : TimelineState) (vr lr : String) (i : Nat) (cand : Officer) (date : JsDate)
    (cause : Officer) (hvr : vr ∈ RO) (h2 : (st.ranks vr).length < SLOTS vr)
    (h3 : RO.indexOf vr ≠ RO.length - 1) (hlr : RO[RO.indexOf vr + 1]? = some lr)
    (hi : candidateIndex (st.ranks lr) = some i) (hc : (st.ranks lr)[i]? = some cand)
    (hk : cand.IRLA ∉ inheritedKeys) :
    fillVacancy RO SLOTS (n + 1) st vr date cause =
      match fillVacancy RO SLOTS n (promote st vr lr i cand date cause) lr date cause with
      | .error e => .error e
      | .ok st' => fillVacancy RO SLOTS n st' vr date cause := by
  conv_lhs => unfold fillVacancy
  rw [if_neg (not_not.2 hvr), if_pos h2]
  simp only []
  rw [if_neg h3, hlr]
  simp only []
  have hne : (st.ranks lr).length ≠ 0 := by
    intro h0
    rw [List.length_eq_zero] at h0
    rw [h0] at hc
    exact absurd hc (by simp)
  rw [if_neg hne, hi]
  simp only [hc, if_neg hk]
  all_goals rfl

/-- A round of `fillVacancy` that finds a candidate whose IRLA names an inherited property
throws at the `push` onto the ledger. -/
theorem fillVacancy_throw (RO : List String) (SLOTS : String → Nat) (n : Nat)
    (st : TimelineState) (vr lr : String) (i : Nat) (cand : Officer) (date : JsDate)
    (cause : Officer) (hvr : vr ∈ RO) (h2 : (st.ranks vr).length < SLOTS vr)
    (h3 : RO.indexOf vr ≠ RO.length - 1) (hlr : RO[RO.indexOf vr + 1]? = some lr)
    (hi : candidateIndex (st.ranks lr) = some i) (hc : (st.ranks lr)[i]? = some cand)
    (hk : cand.IRLA ∈ inheritedKeys) :
    fillVacancy RO SLOTS (n + 1) st vr date cause = .error .typeError := by
  conv_lhs => unfold fillVacancy
  rw [if_neg (not_not.2 hvr), if_pos h2]
  simp only []
  rw [if_neg h3, hlr]
  simp only []
  have hne : (st.ranks lr).length ≠ 0 := by
    intro h0
    rw [List.length_eq_zero] at h0
    rw [h0] at hc
    exact absurd hc (by simp)
  rw [if_neg hne, hi]
  simp only [hc, if_pos hk]

/-! ## Capacity lemmas -/

theorem getD_modify (f : Officer → Officer) (l : List Officer) (j i : Nat) :
    (l.modify f j).getD i default
      = if j = i ∧ i < l.length then f (l.getD i default) else l.getD i default := by
  rw [List.getD_eq_getElem?_getD, List.getD_eq_getElem?_getD, List.getElem?_modify]
  by_cases hi : i < l.length
  · rw [List.getElem?_eq_getElem hi]
    by_cases hj : j = i
    · simp [hj, hi]
    · simp [hj]
  · rw [List.getElem?_eq_none (by omega)]
    simp [hi]

/-- Setting an officer's flag, or changing its rank, never revives a retired entry. -/
theorem activeIn_modify_length (heap : List Officer) (rs : RankStructure Nat) (rank : String)
    (f : Officer → Officer) (j : Nat)
    (hf : ∀ o, o.displayRetired = true → (f o).displayRetired = true) :
    (activeIn (heap.modify f j) rs rank).length ≤ (activeIn heap rs rank).length := by
  unfold activeIn
  apply List.Sublist.length_le
  apply List.monotone_filter_right
  intro r hr
  rw [getD_modify] at hr
  split_ifs at hr with h
  · cases hd : (heap.getD r default).displayRetired
    · rfl
    · rw [hf _ hd] at hr
      exact absurd hr (by decide)
  · exact hr

theorem length_eraseIdx_le {α : Type} (l : List α) (i : Nat) :
    (l.eraseIdx i).length ≤ l.length :=
  (List.eraseIdx_sublist l i).length_le

/-- A promotion of the timeline pass keeps every rank within its capacity. -/
theorem promote_capacity (SLOTS : String → Nat) (st : TimelineState) (vr lr : String) (i : Nat)
    (cand : Officer) (date : JsDate) (cause : Officer)
    (hguard : (st.ranks vr).length < SLOTS vr)
    (hP : (∀ r, (st.ranks r).length ≤ SLOTS r) ∧
      ∀ rs ∈ st.history, ∀ r, (rs r).length ≤ SLOTS r) :
    (∀ r, ((promote st vr lr i cand date cause).ranks r).length ≤ SLOTS r) ∧
      ∀ rs ∈ (promote st vr lr i cand date cause).history, ∀ r, (rs r).length ≤ SLOTS r := by
  have h1 : ∀ r, ((setRank st.ranks lr ((st.ranks lr).eraseIdx i)) r).length ≤ (st.ranks r).length := by
    intro r
    unfold setRank
    split_ifs with h
    · subst h
      exact length_eraseIdx_le _ _
    · exact le_refl _
  have h2 : ∀ r, ((pushRank (setRank st.ranks lr ((st.ranks lr).eraseIdx i)) vr
      { cand with Rank := vr }) r).length ≤ SLOTS r := by
    intro r
    unfold pushRank
    split_ifs with h
    · subst h
      rw [List.length_append, List.length_singleton]
      have := h1 r
      omega
    · exact le_trans (h1 r) (hP.1 r)
  refine ⟨h2, ?_⟩
  intro rs hrs
  simp only [promote, TimelineState.withRanks, List.mem_cons] at hrs
  rcases hrs with rfl | rfl | hrs
  · exact h2
  · exact fun r => le_trans (h1 r) (hP.1 r)
  · exact hP.2 rs hrs

/-- Removing the retiring officer keeps every rank within its capacity. -/
theorem remove_capacity (SLOTS : String → Nat) (st : TimelineState) (rank : String) (i : Nat)
    (hP : (∀ r, (st.ranks r).length ≤ SLOTS r) ∧
      ∀ rs ∈ st.history, ∀ r, (rs r).length ≤ SLOTS r) :
    (∀ r, ((st.withRanks (setRank st.ranks rank ((st.ranks rank).eraseIdx i))).ranks r).length
        ≤ SLOTS r) ∧
      ∀ rs ∈ (st.withRanks (setRank st.ranks rank ((st.ranks rank).eraseIdx i))).history,
        ∀ r, (rs r).length ≤ SLOTS r := by
  have h1 : ∀ r, ((setRank st.ranks rank ((st.ranks rank).eraseIdx i)) r).length ≤ SLOTS r := by
    intro r
    unfold setRank
    split_ifs with h
    · subst h
      exact le_trans (length_eraseIdx_le _ _) (hP.1 r)
    · exact hP.1 r
  refine ⟨h1, ?_⟩
  intro rs hrs
  simp only [TimelineState.withRanks, List.mem_cons] at hrs
  rcases hrs with rfl | hrs
  · exact h1
  · exact hP.2 rs hrs

/-- The initial structure of either pass holds, under each rank, as many entries as the roster
has members of that rank. -/
theorem initialTimeline_ranks (RO : List String) (officers : List Member) (st : TimelineState)
    (h : initialTimeline RO officers = .ok st) :
    (∀ m ∈ officers, m.Rank ∈ RO) ∧
    (∀ r, st.ranks r = jsSort seniorityCompare
      ((timelineEntries officers).filter (fun o => o.Rank = r))) ∧
    st.records = (fun _ => []) ∧ st.history = [st.ranks] := by
  unfold initialTimeline buildTimelineStructure at h
  split at h
  · exact absurd h (by simp)
  rename_i rs hrs
  split at hrs
  · exact absurd hrs (by simp)
  rename_i rs0 hrs0
  simp only [Except.ok.injEq] at hrs h
  subst hrs
  subst h
  obtain ⟨hr, hk⟩ := addToRanks_ok RO _ _ _ rs0 hrs0
  refine ⟨?_, ?_, rfl, rfl⟩
  · intro m hm
    have := hr m.toOfficer (List.mem_map_of_mem _ hm)
    exact this
  · intro r
    simp only [hk r, List.nil_append]

theorem length_filter_officersCopy (officers : List Member) (r : String) :
    ((officersCopy officers).filter (fun o => o.Rank = r)).length
      = (officers.filter (fun m => m.Rank = r)).length := by
  unfold officersCopy
  rw [List.filter_map, List.length_map]
  rfl

theorem length_filter_timelineEntries (officers : List Member) (r : String) :
    ((timelineEntries officers).filter (fun o => o.Rank = r)).length
      = (officers.filter (fun m => m.Rank = r)).length := by
  unfold timelineEntries
  rw [List.filter_map, List.length_map]
  rfl

/-- A head-count bound on the ladder's ranks bounds every rank once all members are on the
ladder. -/
theorem capacity_all_ranks (RO : List String) (SLOTS : String → Nat) (officers : List Member)
    (hr : ∀ m ∈ officers, m.Rank ∈ RO)
    (hcap : ∀ r ∈ RO, (officers.filter (fun m => m.Rank = r)).length ≤ SLOTS r) :
    ∀ r, (officers.filter (fun m => m.Rank = r)).length ≤ SLOTS r := by
  intro r
  by_cases h : r ∈ RO
  · exact hcap r h
  · have : officers.filter (fun m => m.Rank = r) = [] := by
      rw [List.filter_eq_nil_iff]
      intro m hm
      simp only [decide_eq_true_eq]
      intro e
      exact h (e ▸ hr m hm)
    rw [this]
    exact Nat.zero_le _

/-- C2, timeline pass: every rank structure the pass holds is within capacity. -/
theorem runTimeline_capacity (RO : List String) (SLOTS : String → Nat) (fuel : Nat)
    (officers : List Member) (st : TimelineState)
    (hcap : ∀ r ∈ RO, (officers.filter (fun m => m.Rank = r)).length ≤ SLOTS r)
    (h : runTimeline RO SLOTS fuel officers = .ok st) :
    (∀ r, (st.ranks r).length ≤ SLOTS r) ∧
      ∀ rs ∈ st.history, ∀ r, (rs r).length ≤ SLOTS r := by
  unfold runTimeline at h
  split at h
  · exact absurd h (by simp)
  rename_i st0 hst0
  obtain ⟨hin, hranks, _, hhist⟩ := initialTimeline_ranks RO officers st0 hst0
  have h0 : ∀ r, (st0.ranks r).length ≤ SLOTS r := by
    intro r
    rw [hranks r, length_jsSort, length_filter_timelineEntries]
    exact capacity_all_ranks RO SLOTS officers hin hcap r
  refine processTimelineEvents_preserves RO SLOTS fuel
    (fun s => (∀ r, (s.ranks r).length ≤ SLOTS r) ∧
      ∀ rs ∈ s.history, ∀ r, (rs r).length ≤ SLOTS r) _ ?_ st0 st ⟨h0, ?_⟩ h
  · intro s ev s' _ hP hs'
    exact processTimelineEvent_preserves RO SLOTS fuel _ ev
      (fun s index hP _ => remove_capacity SLOTS s _ index hP)
      (fun s vr lr i cand hP _ hg _ _ _ _ => promote_capacity SLOTS s vr lr i cand _ _ hg hP)
      s s' hP hs'
  · intro rs hrs
    rw [hhist, List.mem_singleton] at hrs
    exact hrs ▸ h0

theorem map_getD_range (l : List Officer) :
    (List.range l.length).map (fun i => l.getD i default) = l := by
  apply List.ext_getElem
  · simp
  · intro i h1 h2
    simp [List.getD_eq_getElem?_getD, List.getElem?_eq_getElem h2]

/-- The references of a rank are as many as the objects of that rank. -/
theorem length_filter_range (heap : List Officer) (r : String) :
    ((List.range heap.length).filter (fun i => (heap.getD i default).Rank = r)).length
      = (heap.filter (fun o => o.Rank = r)).length := by
  conv_rhs => rw [← map_getD_range heap]
  rw [List.filter_map, List.length_map]
  rfl

/-- What the display pass starts from. -/
theorem initialDisplay_ranks (RO : List String) (heap : List Officer) (st : DisplayState)
    (h : initialDisplay RO heap = .ok st) :
    (∀ o ∈ heap, o.Rank ∈ RO) ∧ st.heap = heap ∧
    (∀ r, st.ranks r = jsSort (fun a b => seniorityCompare (heap.getD a default)
      (heap.getD b default))
      ((List.range heap.length).filter (fun i => (heap.getD i default).Rank = r))) ∧
    st.history = [(st.heap, st.ranks)] := by
  unfold initialDisplay at h
  split at h
  · exact absurd h (by simp)
  rename_i rs0 hrs0
  simp only [Except.ok.injEq] at h
  subst h
  obtain ⟨hr, hk⟩ := addToRanks_ok RO _ _ _ rs0 hrs0
  refine ⟨?_, rfl, ?_, rfl⟩
  · intro o ho
    obtain ⟨i, hi, rfl⟩ := List.getElem_of_mem ho
    have := hr i (List.mem_range.2 hi)
    simpa [List.getD_eq_getElem?_getD, List.getElem?_eq_getElem hi] using this
  · intro r
    simp only [hk r, List.nil_append]

/-- A promotion of the display pass keeps every rank within its capacity. -/
theorem promoteDisplay_capacity (SLOTS : String → Nat) (st : DisplayState) (vr lr : String)
    (cand : Nat) (hguard : (st.active vr).length < SLOTS vr)
    (hP : (∀ r, (activeIn st.heap st.ranks r).length ≤ SLOTS r) ∧
      ∀ hs ∈ st.history, ∀ r, (activeIn hs.1 hs.2 r).length ≤ SLOTS r) :
    (∀ r, (activeIn (promoteDisplay st vr lr cand).heap (promoteDisplay st vr lr cand).ranks
        r).length ≤ SLOTS r) ∧
      ∀ hs ∈ (promoteDisplay st vr lr cand).history, ∀ r,
        (activeIn hs.1 hs.2 r).length ≤ SLOTS r := by
  have hsub : ∀ r, (spliceCandidate st lr cand r).Sublist (st.ranks r) := by
    intro r
    unfold spliceCandidate
    cases findIndex (fun r => (st.obj r).IRLA == (st.obj cand).IRLA) (st.ranks lr) with
    | none => exact List.Sublist.refl _
    | some index =>
      simp only [setRank]
      split_ifs with h
      · subst h
        exact List.eraseIdx_sublist _ _
      · exact List.Sublist.refl _
  generalize hsp : spliceCandidate st lr cand = spliced at hsub
  have h1 : ∀ r, (activeIn st.heap spliced r).length ≤ (activeIn st.heap st.ranks r).length :=
    fun r => ((hsub r).filter _).length_le
  have h2 : ∀ r, (activeIn (st.heap.modify (fun o => { o with Rank := vr }) cand)
      (pushRank spliced vr cand) r).length ≤ SLOTS r := by
    intro r
    refine le_trans (activeIn_modify_length _ _ _ _ _ (fun o ho => ho)) ?_
    unfold activeIn pushRank
    split_ifs with h
    · subst h
      rw [List.filter_append, List.length_append]
      have ha := h1 r
      have hb : (List.filter (fun r => !(st.heap.getD r default).displayRetired) [cand]).length
          ≤ 1 := (List.filter_sublist _).length_le
      unfold activeIn at ha
      unfold DisplayState.active activeIn at hguard
      omega
    · exact le_trans (h1 r) (hP.1 r)
  have hheap : (promoteDisplay st vr lr cand).heap
      = st.heap.modify (fun o => { o with Rank := vr }) cand := rfl
  have hranks : (promoteDisplay st vr lr cand).ranks = pushRank spliced vr cand := by
    rw [← hsp]
    rfl
  have hhist : (promoteDisplay st vr lr cand).history
      = (st.heap.modify (fun o => { o with Rank := vr }) cand, pushRank spliced vr cand) ::
        (st.heap, spliced) :: st.history := by
    rw [← hsp]
    rfl
  rw [hheap, hranks, hhist]
  refine ⟨h2, ?_⟩
  intro hs hhs
  simp only [List.mem_cons] at hhs
  rcases hhs with rfl | rfl | hhs
  · exact h2
  · exact fun r => le_trans (h1 r) (hP.1 r)
  · exact hP.2 hs hhs

/-- Removing the retiring officer from the display structure keeps every rank within its
capacity. -/
theorem removeDisplay_capacity (SLOTS : String → Nat) (st : DisplayState) (rank : String)
    (i j : Nat)
    (hP : (∀ r, (activeIn st.heap st.ranks r).length ≤ SLOTS r) ∧
      ∀ hs ∈ st.history, ∀ r, (activeIn hs.1 hs.2 r).length ≤ SLOTS r) :
    (∀ r, (activeIn
        (st.update (st.heap.modify (fun o => { o with displayRetired := true }) j)
          (setRank st.ranks rank ((st.ranks rank).eraseIdx i))).heap
        (st.update (st.heap.modify (fun o => { o with displayRetired := true }) j)
          (setRank st.ranks rank ((st.ranks rank).eraseIdx i))).ranks r).length ≤ SLOTS r) ∧
      ∀ hs ∈ (st.update (st.heap.modify (fun o => { o with displayRetired := true }) j)
          (setRank st.ranks rank ((st.ranks rank).eraseIdx i))).history,
        ∀ r, (activeIn hs.1 hs.2 r).length ≤ SLOTS r := by
  have h1 : ∀ r, (activeIn (st.heap.modify (fun o => { o with displayRetired := true }) j)
      (setRank st.ranks rank ((st.ranks rank).eraseIdx i)) r).length ≤ SLOTS r := by
    intro r
    refine le_trans (activeIn_modify_length _ _ _ _ _ (fun o _ => rfl)) ?_
    refine le_trans ?_ (hP.1 r)
    apply List.Sublist.length_le
    apply List.Sublist.filter
    unfold setRank
    split_ifs with h
    · subst h
      exact List.eraseIdx_sublist _ _
    · exact List.Sublist.refl _
  refine ⟨h1, ?_⟩
  intro hs hhs
  simp only [DisplayState.update, List.mem_cons] at hhs
  rcases hhs with rfl | hhs
  · exact h1
  · exact hP.2 hs hhs

/-- C2, display pass: every rank structure the pass holds is within capacity, counting the
entries not marked `displayRetired` as the pass itself does. -/
theorem runDisplay_capacity (RO : List String) (SLOTS : String → Nat) (fuel : Nat)
    (officers : List Member) (currentDate : JsDate) (st : DisplayState)
    (hcap : ∀ r ∈ RO, (officers.filter (fun m => m.Rank = r)).length ≤ SLOTS r)
    (h : runDisplay RO SLOTS fuel officers currentDate = .ok st) :
    (∀ r, (activeIn st.heap st.ranks r).length ≤ SLOTS r) ∧
      ∀ hs ∈ st.history, ∀ r, (activeIn hs.1 hs.2 r).length ≤ SLOTS r := by
  unfold runDisplay at h
  split at h
  · exact absurd h (by simp)
  rename_i st0 hst0
  obtain ⟨hin, hheap, hranks, hhist⟩ := initialDisplay_ranks RO _ st0 hst0
  have hin' : ∀ m ∈ officers, m.Rank ∈ RO := fun m hm =>
    hin m.toOfficer.initialise (List.mem_map_of_mem _ hm)
  have h0 : ∀ r, (activeIn st0.heap st0.ranks r).length ≤ SLOTS r := by
    intro r
    refine le_trans (List.filter_sublist _).length_le ?_
    rw [hranks r, length_jsSort, length_filter_range, length_filter_officersCopy]
    exact capacity_all_ranks RO SLOTS officers hin' hcap r
  refine processDisplayEvents_preserves RO SLOTS fuel
    (fun s => (∀ r, (activeIn s.heap s.ranks r).length ≤ SLOTS r) ∧
      ∀ hs ∈ s.history, ∀ r, (activeIn hs.1 hs.2 r).length ≤ SLOTS r) _ ?_ st0 st ⟨h0, ?_⟩ h
  · intro s ev s' _ hP hs'
    unfold processDisplayEvent at hs'
    simp only [] at hs'
    split at hs'
    · simp only [Except.ok.injEq] at hs'
      exact hs' ▸ hP
    · exact fillDisplayVacancy_preserves RO SLOTS _
        (fun s vr lr cand _ hP _ hg _ _ _ => promoteDisplay_capacity SLOTS s vr lr cand hg hP)
        fuel _ _ _ (removeDisplay_capacity SLOTS s _ _ _ hP) hs'
  · intro hs hhs
    rw [hhist, List.mem_singleton] at hhs
    exact hhs ▸ h0

/-! ## Small helpers -/

/-- A run whose `isOk` test evaluates to true returned some value. -/
theorem exists_ok_of_isOk {α : Type} {x : Except SimError α} (h : x.isOk = true) :
    ∃ a, x = .ok a := by
  cases x with
  | ok a => exact ⟨a, rfl⟩
  | error e => exact absurd h (by simp [Except.isOk, Except.toBool])

/-- A composite run that returned went through a first run that returned. -/
theorem bind_ok_inv {α β : Type} {x : Except SimError α} {f : α → Except SimError β} {b : β}
    (h : x.bind f = .ok b) : ∃ a, x = .ok a ∧ f a = .ok b := by
  cases x with
  | ok a => exact ⟨a, rfl, h⟩
  | error e => exact absurd h (by simp [Except.bind])

/-- The expression `value || false` has the truthiness of `value`. -/
theorem JsValue.truthy_orFalse (v : JsValue) : v.orFalse.truthy = v.truthy := by
  unfold JsValue.orFalse
  by_cases h : v.truthy = true
  · rw [if_pos h]
  · rw [if_neg h]
    simp only [Bool.not_eq_true] at h
    rw [h]
    rfl

/-- A falsy value becomes `false`. -/
theorem JsValue.orFalse_of_falsy (v : JsValue) (h : v.truthy = false) :
    v.orFalse = .bool false := by
  unfold JsValue.orFalse
  rw [h]
  rfl

/-- A boolean stays as it is. -/
theorem JsValue.orFalse_of_isBool (v : JsValue) (h : v.isBool = true) : v.orFalse = v := by
  cases v with
  | bool b => cases b <;> rfl
  | _ => exact absurd h (by simp [JsValue.isBool])

/-! ## Lemmas on the ledger -/

theorem promote_records (st : TimelineState) (vr lr : String) (i : Nat) (cand : Officer)
    (date : JsDate) (cause : Officer) (k : String) :
    (promote st vr lr i cand date cause).records k =
      if k = cand.IRLA then st.records k ++ [⟨vr, date, cause.IRLA, orUnknown cause.Name⟩]
      else st.records k := rfl

theorem promote_ranks (st : TimelineState) (vr lr : String) (i : Nat) (cand : Officer)
    (date : JsDate) (cause : Officer) :
    (promote st vr lr i cand date cause).ranks =
      pushRank (setRank st.ranks lr ((st.ranks lr).eraseIdx i)) vr { cand with Rank := vr } :=
  rfl

theorem withRanks_records (st : TimelineState) (rs : RankStructure Officer) :
    (st.withRanks rs).records = st.records := rfl

theorem withRanks_ranks (st : TimelineState) (rs : RankStructure Officer) :
    (st.withRanks rs).ranks = rs := rfl

/-- The candidate `fillVacancy` finds is in the lower rank's list, not frozen and not
retired. -/
theorem candidate_spec (l : List Officer) (i : Nat) (cand : Officer)
    (hi : candidateIndex l = some i) (hc : l[i]? = some cand) :
    cand ∈ l ∧ cand.Frozen.truthy = false ∧ cand.Retired = false ∧
      (∀ b ∈ l.take i, b.Frozen.truthy = true ∨ b.Retired = true) ∧
      l.eraseIdx i = l.take i ++ l.drop (i + 1) ∧ l = l.take i ++ cand :: l.drop (i + 1) := by
  obtain ⟨a, ha, hp, hbefore, hsplit, herase⟩ := findIndex_eq_some _ _ _ hi
  rw [hc] at ha
  simp only [Option.some.injEq] at ha
  subst ha
  simp only [Bool.and_eq_true, Bool.not_eq_true'] at hp
  refine ⟨?_, hp.1, hp.2, ?_, herase, hsplit⟩
  · rw [hsplit]
    simp
  · intro b hb
    have := hbefore b hb
    simp only [Bool.and_eq_false_iff, Bool.not_eq_false'] at this
    exact this

/-- Every event is the event of a listed officer whose `Frozen` field is falsy, dated by that
officer's retirement date. -/
theorem mem_allRetirementEvents_of (l : List Officer) (ev : RetirementEvent)
    (h : ev ∈ allRetirementEvents l) :
    ∃ o ∈ l, o.Frozen.truthy = false ∧ ev.officer = o ∧ ev.date = getRetirementDate o.DOB := by
  have h' := (mem_jsSort _ _ _).1 h
  simp only [List.mem_map, List.mem_filter, Bool.not_eq_true'] at h'
  obtain ⟨o, ⟨ho, hf⟩, rfl⟩ := h'
  exact ⟨o, ho, hf, rfl, rfl⟩

/-- The event builder of simplified-simulation.js is the one of simulation.js. -/
theorem Simplified.buildRetirementEvents_eq (l : List Officer) :
    Simplified.buildRetirementEvents l = allRetirementEvents l := by
  rfl

/-- Every event is the event of a roster member that is not frozen, dated by that member's
retirement date. -/
theorem mem_allRetirementEvents (officers : List Member) (ev : RetirementEvent)
    (h : ev ∈ allRetirementEvents (officersCopy officers)) :
    ∃ m ∈ officers, m.Frozen.truthy = false ∧ ev.officer = m.toOfficer.initialise ∧
      ev.date = getRetirementDate m.DOB := by
  have h' := (mem_jsSort _ _ _).1 h
  simp only [officersCopy, List.mem_map, List.mem_filter, Bool.not_eq_true'] at h'
  obtain ⟨o, ⟨⟨m, hm, rfl⟩, hf⟩, rfl⟩ := h'
  exact ⟨m, hm, (JsValue.truthy_orFalse m.Frozen).symm.trans hf, rfl, rfl⟩

/-- Every record of the timeline ledger satisfies a property that holds of each record an
event can write. -/
theorem runTimeline_records_forall (RO : List String) (SLOTS : String → Nat) (fuel : Nat)
    (officers : List Member) (st : TimelineState) (Q : PromotionRecord → Prop)
    (hQ : ∀ ev ∈ allRetirementEvents (officersCopy officers), ∀ vr ∈ RO,
      RO.indexOf vr ≠ RO.length - 1 →
      Q ⟨vr, ev.date, ev.officer.IRLA, orUnknown ev.officer.Name⟩)
    (h : runTimeline RO SLOTS fuel officers = .ok st) :
    ∀ k, ∀ r ∈ st.records k, Q r := by
  unfold runTimeline at h
  split at h
  · exact absurd h (by simp)
  rename_i st0 hst0
  obtain ⟨_, _, hrec, _⟩ := initialTimeline_ranks RO officers st0 hst0
  refine processTimelineEvents_preserves RO SLOTS fuel
    (fun s => ∀ k, ∀ r ∈ s.records k, Q r) _ ?_ st0 st ?_ h
  · intro s ev s' hev hP hs'
    refine processTimelineEvent_preserves RO SLOTS fuel
      (fun s => ∀ k, ∀ r ∈ s.records k, Q r) ev ?_ ?_ s s' hP hs'
    · intro s index hP _
      exact hP
    · intro s vr lr i cand hP hvr _ hidx _ _ _ k r hr
      rw [promote_records] at hr
      split_ifs at hr
      · rcases List.mem_append.1 hr with hr | hr
        · exact hP k r hr
        · rw [List.mem_singleton] at hr
          exact hr ▸ hQ ev hev vr hvr hidx
      · exact hP k r hr
  · intro k r hr
    rw [hrec] at hr
    exact absurd hr (List.not_mem_nil _)

/-! ## Date order of the ledger -/

theorem JsDate.le_refl_of_isSome (d : JsDate) (h : d.isSome = true) : d.le d = true := by
  obtain ⟨x, rfl⟩ := Option.isSome_iff_exists.1 h
  simp [JsDate.le]

/-- Records stay in date order through the events, processed in date order: every record
written so far is dated no later than every event still to come. -/
theorem processTimelineEvents_monotone (RO : List String) (SLOTS : String → Nat) (fuel : Nat) :
    ∀ (events : List RetirementEvent) (st st' : TimelineState),
      events.Pairwise (fun a b => a.date.le b.date = true) →
      (∀ e ∈ events, e.date.isSome = true) →
      (∀ k, (st.records k).Pairwise (fun a b => a.date.le b.date = true)) →
      (∀ k, ∀ r ∈ st.records k, ∀ e ∈ events, r.date.le e.date = true) →
      processTimelineEvents RO SLOTS fuel st events = .ok st' →
      ∀ k, (st'.records k).Pairwise (fun a b => a.date.le b.date = true) := by
  intro events
  induction events with
  | nil =>
    intro st st' _ _ hs _ h
    simp only [processTimelineEvents, Except.ok.injEq] at h
    exact h ▸ hs
  | cons ev rest ih =>
    intro st st' hsorted hvalid hs hbound h
    unfold processTimelineEvents at h
    split at h
    · exact absurd h (by simp)
    rename_i st1 hst1
    rw [List.pairwise_cons] at hsorted
    have hP : (∀ k, (st1.records k).Pairwise (fun a b => a.date.le b.date = true)) ∧
        ∀ k, ∀ r ∈ st1.records k, r.date.le ev.date = true ∧
          ∀ e ∈ rest, r.date.le e.date = true := by
      refine processTimelineEvent_preserves RO SLOTS fuel
        (fun s => (∀ k, (s.records k).Pairwise (fun a b => a.date.le b.date = true)) ∧
          ∀ k, ∀ r ∈ s.records k, r.date.le ev.date = true ∧
            ∀ e ∈ rest, r.date.le e.date = true) ev ?_ ?_ st st1 ?_ hst1
      · intro s index hP _
        exact hP
      · intro s vr lr i cand hP _ _ _ _ _ _
        refine ⟨?_, ?_⟩
        · intro k
          rw [promote_records]
          split_ifs
          · rw [List.pairwise_append]
            refine ⟨hP.1 k, List.pairwise_singleton _ _, ?_⟩
            intro a ha b hb
            rw [List.mem_singleton] at hb
            subst hb
            exact (hP.2 k a ha).1
          · exact hP.1 k
        · intro k r hr
          rw [promote_records] at hr
          split_ifs at hr
          · rcases List.mem_append.1 hr with hr | hr
            · exact hP.2 k r hr
            · rw [List.mem_singleton] at hr
              subst hr
              exact ⟨JsDate.le_refl_of_isSome _ (hvalid ev (List.mem_cons_self _ _)),
                hsorted.1⟩
          · exact hP.2 k r hr
      · exact ⟨hs, fun k r hr => ⟨hbound k r hr ev (List.mem_cons_self _ _),
          fun e he => hbound k r hr e (List.mem_cons_of_mem _ he)⟩⟩
    exact ih st1 st' hsorted.2 (fun e he => hvalid e (List.mem_cons_of_mem _ he)) hP.1
      (fun k r hr e he => (hP.2 k r hr).2 e he) h

/-- The events built from a list of officers are in date order when the retirement dates are
valid. -/
theorem allRetirementEvents_sorted_of (l : List Officer)
    (hvalid : ∀ o ∈ l, o.Frozen.truthy = false → (getRetirementDate o.DOB).isSome = true) :
    (allRetirementEvents l).Pairwise (fun a b => a.date.le b.date = true) ∧
    ∀ e ∈ allRetirementEvents l, e.date.isSome = true := by
  have hv : ∀ e ∈ allRetirementEvents l, e.date.isSome = true := by
    intro e he
    obtain ⟨o, ho, hf, _, hd⟩ := mem_allRetirementEvents_of l e he
    rw [hd]
    exact hvalid o ho hf
  refine ⟨?_, hv⟩
  apply sorted_jsSort_dateCompare
  intro e he
  exact hv e ((mem_jsSort _ _ _).2 he)

/-- The events of the timeline pass are in date order when the retirement dates are valid. -/
theorem allRetirementEvents_sorted (officers : List Member)
    (hvalid : ∀ m ∈ officers, m.Frozen.truthy = false → (getRetirementDate m.DOB).isSome = true) :
    (allRetirementEvents (officersCopy officers)).Pairwise (fun a b => a.date.le b.date = true) ∧
    ∀ e ∈ allRetirementEvents (officersCopy officers), e.date.isSome = true := by
  have hv : ∀ e ∈ allRetirementEvents (officersCopy officers), e.date.isSome = true := by
    intro e he
    obtain ⟨m, hm, hf, _, hd⟩ := mem_allRetirementEvents officers e he
    rw [hd]
    exact hvalid m hm hf
  refine ⟨?_, hv⟩
  apply sorted_jsSort_dateCompare
  intro e he
  exact hv e ((mem_jsSort _ _ _).2 he)

/-! ## The cascade on a ladder that is full below the vacancy -/

theorem indexOf_append_cons (pre below : List String) (vr : String)
    (hnd : (pre ++ vr :: below).Nodup) :
    (pre ++ vr :: below).indexOf vr = pre.length := by
  have hnot : vr ∉ pre := by
    intro h
    have := (List.nodup_append.1 hnd).2.2
    exact this h (List.mem_cons_self _ _)
  rw [List.indexOf_append_of_not_mem hnot, List.indexOf_cons_self, Nat.add_zero]

theorem getElem?_append_cons (pre below : List String) (vr : String) (j : Nat) :
    (pre ++ vr :: below)[pre.length + 1 + j]? = below[j]? := by
  rw [List.getElem?_append_right (by omega)]
  have : pre.length + 1 + j - pre.length = j + 1 := by omega
  rw [this, List.getElem?_cons_succ]

theorem pushRank_ne {α : Type} (rs : RankStructure α) (r k : String) (o : α) (h : k ≠ r) :
    pushRank rs r o k = rs k := by
  unfold pushRank
  rw [if_neg h]

theorem pushRank_eq {α : Type} (rs : RankStructure α) (r : String) (o : α) :
    pushRank rs r o r = rs r ++ [o] := by
  unfold pushRank
  rw [if_pos rfl]

theorem setRank_ne {α : Type} (rs : RankStructure α) (r k : String) (l : List α) (h : k ≠ r) :
    setRank rs r l k = rs k := by
  unfold setRank
  rw [if_neg h]

theorem setRank_eq {α : Type} (rs : RankStructure α) (r : String) (l : List α) :
    setRank rs r l r = l := by
  unfold setRank
  rw [if_pos rfl]

/-- A promotion touches the vacancy rank and the lower rank only. -/
theorem promote_ranks_other (st : TimelineState) (vr lr : String) (i : Nat) (cand : Officer)
    (date : JsDate) (cause : Officer) (k : String) (h1 : k ≠ vr) (h2 : k ≠ lr) :
    (promote st vr lr i cand date cause).ranks k = st.ranks k := by
  rw [promote_ranks, pushRank_ne _ _ _ _ h1, setRank_ne _ _ _ _ h2]

theorem promote_ranks_lower (st : TimelineState) (vr lr : String) (i : Nat) (cand : Officer)
    (date : JsDate) (cause : Officer) (h : lr ≠ vr) :
    (promote st vr lr i cand date cause).ranks lr = (st.ranks lr).eraseIdx i := by
  rw [promote_ranks, pushRank_ne _ _ _ _ h, setRank_eq]

theorem promote_ranks_vacancy (st : TimelineState) (vr lr : String) (i : Nat) (cand : Officer)
    (date : JsDate) (cause : Officer) (h : lr ≠ vr) :
    (promote st vr lr i cand date cause).ranks vr = st.ranks vr ++ [{ cand with Rank := vr }] := by
  rw [promote_ranks, pushRank_eq, setRank_ne _ _ _ _ (Ne.symm h)]

/-- A cascade touches the vacancy rank and the ranks it goes through only. -/
theorem cascade_ranks_other (date : JsDate) (cause : Officer) (below : List String) :
    ∀ (st : TimelineState) (vr k : String), k ≠ vr → k ∉ below →
      (cascade st vr below date cause).ranks k = st.ranks k := by
  induction below with
  | nil => intro st vr k _ _; rfl
  | cons lr below' ih =>
    intro st vr k h1 h2
    unfold cascade
    have hk : k ≠ lr := fun e => h2 (e ▸ List.mem_cons_self _ _)
    have hk' : k ∉ below' := fun e => h2 (List.mem_cons_of_mem _ e)
    split
    · rfl
    · rw [ih _ _ _ hk hk', promote_ranks_other _ _ _ _ _ _ _ _ h1 hk]

/-- After a cascade the vacancy rank holds one more entry: the head of the rank below. -/
theorem cascade_ranks_vacancy (date : JsDate) (cause : Officer) (below : List String)
    (st : TimelineState) (vr : String) (hnd : (vr :: below).Nodup) :
    (cascade st vr below date cause).ranks vr
      = st.ranks vr ++ promotedInto st.ranks vr below.head? := by
  cases below with
  | nil => simp [cascade, promotedInto]
  | cons lr below' =>
    have hne : lr ≠ vr := by
      intro e
      rw [List.nodup_cons] at hnd
      exact hnd.1 (e ▸ List.mem_cons_self _ _)
    have hvr : vr ∉ below' := by
      rw [List.nodup_cons] at hnd
      exact fun e => hnd.1 (List.mem_cons_of_mem _ e)
    unfold cascade
    simp only [List.head?_cons, promotedInto]
    split
    · simp
    · rw [cascade_ranks_other _ _ _ _ _ _ (Ne.symm hne) hvr,
        promote_ranks_vacancy _ _ _ _ _ _ _ hne]

/-- After a cascade each rank it went through has lost its head and holds, at the end, the
head of the rank below. -/
theorem cascade_ranks_below (date : JsDate) (cause : Officer) (below : List String) :
    ∀ (st : TimelineState) (vr : String) (j : Nat) (r : String), (vr :: below).Nodup →
      (∀ l ∈ below, st.ranks l ≠ []) → below[j]? = some r →
      (cascade st vr below date cause).ranks r
        = (st.ranks r).tail ++ promotedInto st.ranks r below[j + 1]? := by
  induction below with
  | nil => intro st vr j r _ _ h; simp at h
  | cons lr below' ih =>
    intro st vr j r hnd hne hj
    have hnd' : (lr :: below').Nodup := (List.nodup_cons.1 hnd).2
    have hlr : lr ≠ vr := by
      intro e
      exact (List.nodup_cons.1 hnd).1 (e ▸ List.mem_cons_self _ _)
    have hother : ∀ l ∈ below', (promote st vr lr 0
        ((st.ranks lr).headD default) date cause).ranks l = st.ranks l := by
      intro l hl
      apply promote_ranks_other
      · intro e
        exact (List.nodup_cons.1 hnd).1 (e ▸ List.mem_cons_of_mem _ hl)
      · intro e
        exact (List.nodup_cons.1 hnd').1 (e ▸ hl)
    unfold cascade
    obtain ⟨c, tail, hct⟩ := List.exists_cons_of_ne_nil (hne lr (List.mem_cons_self _ _))
    rw [hct] at hother ⊢
    simp only [List.headD_cons] at hother
    simp only []
    cases j with
    | zero =>
      simp only [List.getElem?_cons_zero, Option.some.injEq] at hj
      subst hj
      rw [cascade_ranks_vacancy _ _ _ _ _ hnd', promote_ranks_lower _ _ _ _ _ _ _ hlr, hct]
      simp only [List.eraseIdx_cons_zero, List.tail_cons, zero_add, List.getElem?_cons_succ]
      congr 1
      cases below' with
      | nil => rfl
      | cons l2 rest =>
        simp only [List.head?_cons, List.getElem?_cons_zero, promotedInto]
        rw [hother l2 (List.mem_cons_self _ _)]
    | succ j =>
      simp only [List.getElem?_cons_succ] at hj ⊢
      have hr : r ∈ below' := List.getElem?_mem hj
      rw [ih _ lr j r hnd' (fun l hl => by rw [hother l hl]; exact hne l (List.mem_cons_of_mem _ hl))
        hj, hother r hr]
      congr 1
      cases hj2 : below'[j + 1]? with
      | none => rfl
      | some l2 =>
        simp only [promotedInto]
        rw [hother l2 (List.getElem?_mem hj2)]

/-- The records of a cascade depend on the lists of the ranks it goes through only. -/
theorem cascadeRecords_congr (date : JsDate) (cause : Officer) (k : String)
    (below : List String) :
    ∀ (rs rs' : RankStructure Officer) (vr : String), (∀ l ∈ below, rs l = rs' l) →
      cascadeRecords rs vr below date cause k = cascadeRecords rs' vr below date cause k := by
  induction below with
  | nil => intro rs rs' vr _; rfl
  | cons lr below' ih =>
    intro rs rs' vr h
    unfold cascadeRecords headRecord
    rw [h lr (List.mem_cons_self _ _), ih rs rs' lr (fun l hl => h l (List.mem_cons_of_mem _ hl))]

/-- The ledger after a cascade. -/
theorem cascade_records (date : JsDate) (cause : Officer) (below : List String) :
    ∀ (st : TimelineState) (vr : String) (k : String), (vr :: below).Nodup →
      (∀ l ∈ below, st.ranks l ≠ []) →
      (cascade st vr below date cause).records k
        = st.records k ++ cascadeRecords st.ranks vr below date cause k := by
  induction below with
  | nil => intro st vr k _ _; simp [cascade, cascadeRecords]
  | cons lr below' ih =>
    intro st vr k hnd hne
    have hnd' : (lr :: below').Nodup := (List.nodup_cons.1 hnd).2
    obtain ⟨c, tail, hct⟩ := List.exists_cons_of_ne_nil (hne lr (List.mem_cons_self _ _))
    have hother : ∀ l ∈ below', (promote st vr lr 0 c date cause).ranks l = st.ranks l := by
      intro l hl
      apply promote_ranks_other
      · intro e
        exact (List.nodup_cons.1 hnd).1 (e ▸ List.mem_cons_of_mem _ hl)
      · intro e
        exact (List.nodup_cons.1 hnd').1 (e ▸ hl)
    unfold cascade cascadeRecords headRecord
    simp only [hct]
    rw [ih _ lr k hnd' (fun l hl => by rw [hother l hl]; exact hne l (List.mem_cons_of_mem _ hl)),
      cascadeRecords_congr date cause k below' _ st.ranks lr hother, promote_records]
    split_ifs <;> simp

/-- On a ladder that is full below the vacancy, `fillVacancy` performs the cascade. -/
theorem fillVacancy_eq_cascade (SLOTS : String → Nat) (date : JsDate) (cause : Officer)
    (below : List String) :
    ∀ (pre : List String) (vr : String) (st : TimelineState) (fuel : Nat),
      (pre ++ vr :: below).Nodup →
      (st.ranks vr).length + 1 = SLOTS vr →
      (∀ l ∈ below, (st.ranks l).length = SLOTS l ∧
        ∃ c tail, st.ranks l = c :: tail ∧ c.Frozen.truthy = false ∧ c.Retired = false ∧
          c.IRLA ∉ inheritedKeys) →
      below.length < fuel →
      fillVacancy (pre ++ vr :: below) SLOTS fuel st vr date cause
        = .ok (cascade st vr below date cause) := by
  induction below with
  | nil =>
    intro pre vr st fuel hnd hlen _ hfuel
    obtain ⟨n, rfl⟩ : ∃ n, fuel = n + 1 := ⟨fuel - 1, by simp at hfuel; omega⟩
    apply fillVacancy_stop _ _ _ _ _ _ _ (by simp)
    refine Or.inr (Or.inl ?_)
    rw [indexOf_append_cons pre [] vr hnd]
    simp
  | cons lr below' ih =>
    intro pre vr st fuel hnd hlen hfull hfuel
    obtain ⟨n, rfl⟩ : ∃ n, fuel = n + 1 := ⟨fuel - 1, by simp at hfuel; omega⟩
    have hidx := indexOf_append_cons pre (lr :: below') vr hnd
    have hnd2 : (vr :: lr :: below').Nodup := (List.nodup_append.1 hnd).2.1
    have hnd3 : (lr :: below').Nodup := (List.nodup_cons.1 hnd2).2
    have hlrvr : lr ≠ vr := by
      intro e
      exact (List.nodup_cons.1 hnd2).1 (e ▸ List.mem_cons_self _ _)
    obtain ⟨hlen_lr, c, tail, hct, hcf, hcr, hck⟩ := hfull lr (List.mem_cons_self _ _)
    have hother : ∀ l ∈ below', (promote st vr lr 0 c date cause).ranks l = st.ranks l := by
      intro l hl
      apply promote_ranks_other
      · intro e
        exact (List.nodup_cons.1 hnd2).1 (e ▸ List.mem_cons_of_mem _ hl)
      · intro e
        exact (List.nodup_cons.1 hnd3).1 (e ▸ hl)
    have hRO : pre ++ vr :: lr :: below' = (pre ++ [vr]) ++ lr :: below' := by simp
    rw [fillVacancy_step _ SLOTS n st vr lr 0 c date cause (by simp) (by omega)
      (by rw [hidx]; simp)
      (by rw [hidx]; simpa using getElem?_append_cons pre (lr :: below') vr 0)
      (by rw [hct]; simp [candidateIndex, findIndex, hcf, hcr]) (by rw [hct]; simp) hck]
    have hrec : fillVacancy (pre ++ vr :: lr :: below') SLOTS n
        (promote st vr lr 0 c date cause) lr date cause
        = .ok (cascade (promote st vr lr 0 c date cause) lr below' date cause) := by
      rw [hRO]
      apply ih (pre ++ [vr]) lr _ n (by rw [← hRO]; exact hnd)
      · rw [promote_ranks_lower _ _ _ _ _ _ _ hlrvr, hct]
        simp only [List.eraseIdx_cons_zero]
        rw [← hlen_lr, hct]
        rfl
      · intro l hl
        rw [hother l hl]
        exact hfull l (List.mem_cons_of_mem _ hl)
      · simp only [List.length_cons] at hfuel
        omega
    rw [hrec]
    simp only []
    have hn : ∃ n', n = n' + 1 := ⟨n - 1, by simp only [List.length_cons] at hfuel; omega⟩
    obtain ⟨n', rfl⟩ := hn
    have hcas : cascade st vr (lr :: below') date cause
        = cascade (promote st vr lr 0 c date cause) lr below' date cause := by
      conv_lhs => unfold cascade
      simp only [hct]
    rw [hcas]
    apply fillVacancy_stop _ _ _ _ _ _ _ (by simp)
    refine Or.inl ?_
    have hvr' : vr ∉ below' := fun e => (List.nodup_cons.1 hnd2).1 (List.mem_cons_of_mem _ e)
    rw [cascade_ranks_other _ _ _ _ _ _ (Ne.symm hlrvr) hvr',
      promote_ranks_vacancy _ _ _ _ _ _ _ hlrvr, List.length_append, List.length_singleton]
    omega

/-! ## The initial structure: who is at the head of each rank -/

theorem toMember_toOfficer (m : Member) : m.toOfficer.toMember = m := rfl

/-- What the timeline pass starts from, when every member's rank is on the ladder. -/
theorem initialTimeline_total (RO : List String) (officers : List Member)
    (hranks : ∀ m ∈ officers, m.Rank ∈ RO) :
    ∃ st, initialTimeline RO officers = .ok st := by
  obtain ⟨rs, hrs⟩ := addToRanks_total RO (fun o : Officer => o.Rank) (timelineEntries officers)
    (fun _ => []) (by
      intro o ho
      simp only [timelineEntries, List.mem_map] at ho
      obtain ⟨m, hm, rfl⟩ := ho
      exact hranks m hm)
  exact ⟨_, by unfold initialTimeline buildTimelineStructure; rw [hrs]⟩

/-- Boolean flags can be told apart by their truthiness. -/
theorem JsValue.eq_of_truthy_eq (a b : JsValue) (ha : a.isBool = true) (hb : b.isBool = true)
    (h : a.truthy = b.truthy) : a = b := by
  cases a <;> cases b <;> simp_all [JsValue.isBool, JsValue.truthy]

/-- The entries of a roster whose `Frozen` fields hold booleans have comparable flags. -/
theorem flagsComparable_timelineEntries (officers : List Member)
    (hb : ∀ m ∈ officers, m.Frozen.isBool = true) (p : Officer → Bool) :
    FlagsComparable ((timelineEntries officers).filter p) := by
  intro a ha b hb' h
  simp only [timelineEntries, List.mem_filter, List.mem_map] at ha hb'
  obtain ⟨⟨ma, hma, rfl⟩, _⟩ := ha
  obtain ⟨⟨mb, hmb, rfl⟩, _⟩ := hb'
  exact JsValue.eq_of_truthy_eq _ _ (hb ma hma) (hb mb hmb) h

/-- Membership in a list of the initial structure. -/
theorem mem_initial_rank (officers : List Member) (r : String) (o : Officer) :
    o ∈ jsSort seniorityCompare ((timelineEntries officers).filter (fun o => o.Rank = r)) ↔
      ∃ m ∈ officers, m.Rank = r ∧ o = m.toOfficer := by
  rw [mem_jsSort]
  simp only [timelineEntries, List.mem_filter, List.mem_map, decide_eq_true_eq]
  constructor
  · rintro ⟨⟨m, hm, rfl⟩, hr⟩
    exact ⟨m, hm, hr, rfl⟩
  · rintro ⟨m, hm, hr, rfl⟩
    exact ⟨⟨m, hm, rfl⟩, hr⟩

/-- In the initial structure, the head of a rank that has a member who is not frozen is the
copy of such a member with the lowest `order_index`. -/
theorem initial_rank_head (officers : List Member) (r : String)
    (hb : ∀ m ∈ officers, m.Frozen.isBool = true)
    (hex : ∃ x ∈ officers, x.Rank = r ∧ x.Frozen.truthy = false) :
    ∃ c ∈ officers, c.Rank = r ∧ c.Frozen.truthy = false ∧
      (∀ x ∈ officers, x.Rank = r → x.Frozen.truthy = false → c.order_index ≤ x.order_index) ∧
      ∃ tail, jsSort seniorityCompare ((timelineEntries officers).filter (fun o => o.Rank = r))
        = c.toOfficer :: tail := by
  obtain ⟨x, hx, hxr, hxf⟩ := hex
  have hxmem := (mem_initial_rank officers r x.toOfficer).2 ⟨x, hx, hxr, rfl⟩
  have hsorted := sorted_jsSort_seniority ((timelineEntries officers).filter (fun o => o.Rank = r))
    (flagsComparable_timelineEntries officers hb _)
  have hmem := fun o => (mem_initial_rank officers r o).1
  have hmem' := fun o => (mem_initial_rank officers r o).2
  generalize jsSort seniorityCompare ((timelineEntries officers).filter (fun o => o.Rank = r)) = l
    at hxmem hsorted hmem hmem'
  cases l with
  | nil => exact absurd hxmem (List.not_mem_nil _)
  | cons h tail =>
    obtain ⟨c, hc, hcr, rfl⟩ := hmem h (List.mem_cons_self _ _)
    rw [List.pairwise_cons] at hsorted
    have hkey : ∀ y ∈ officers, y.Rank = r → y.Frozen.truthy = false →
        c.Frozen.truthy = false ∧ c.order_index ≤ y.order_index := by
      intro y hy hyr hyf
      have hymem : y.toOfficer ∈ c.toOfficer :: tail := hmem' _ ⟨y, hy, hyr, rfl⟩
      rcases List.mem_cons.1 hymem with heq | htail
      · have hyc : y = c := by
          have := congrArg Officer.toMember heq
          simpa only [toMember_toOfficer] using this
        subst hyc
        exact ⟨hyf, le_refl _⟩
      · have hle := hsorted.1 _ htail
        rw [sortLE_seniority] at hle
        rcases hle with ⟨hne, hcf⟩ | ⟨he, hle⟩
        · exact absurd (JsValue.eq_of_truthy_eq _ _ (hb c hc) (hb y hy)
            (hcf.trans hyf.symm)) hne
        · have he' : c.Frozen = y.Frozen := he
          exact ⟨by rw [he']; exact hyf, hle⟩
    exact ⟨c, hc, hcr, (hkey x hx hxr hxf).1, fun y hy hyr hyf => (hkey y hy hyr hyf).2,
      tail, rfl⟩

/-- A key that heads none of the ranks a cascade goes through gets no record. -/
theorem cascadeRecords_none (rs : RankStructure Officer) (date : JsDate) (cause : Officer)
    (k : String) (below : List String) :
    ∀ vr, (∀ l ∈ below, ∀ c tail, rs l = c :: tail → c.IRLA ≠ k) →
      cascadeRecords rs vr below date cause k = [] := by
  induction below with
  | nil => intro vr _; rfl
  | cons l0 below' ih =>
    intro vr h
    unfold cascadeRecords headRecord
    rw [ih l0 (fun l hl => h l (List.mem_cons_of_mem _ hl)), List.append_nil]
    split
    · rfl
    · rename_i c tail heq
      rw [if_neg (fun e => h l0 (List.mem_cons_self _ _) c tail heq e.symm)]

/-- The head of a rank a cascade goes through gets exactly the record of its promotion into
the rank above, when no other head has its IRLA. -/
theorem cascadeRecords_at (rs : RankStructure Officer) (date : JsDate) (cause : Officer)
    (low : String) (c : Officer) (tail : List Officer) (hlow : rs low = c :: tail)
    (below : List String) :
    ∀ (vr up : String) (j : Nat), below.Nodup →
      (∀ l ∈ below, ∀ c' tail', rs l = c' :: tail' → c'.IRLA = c.IRLA → l = low) →
      below[j]? = some low → (vr :: below)[j]? = some up →
      cascadeRecords rs vr below date cause c.IRLA
        = [⟨up, date, cause.IRLA, orUnknown cause.Name⟩] := by
  induction below with
  | nil => intro vr up j _ _ h; simp at h
  | cons l0 below' ih =>
    intro vr up j hnd hinj hj hup
    rw [List.nodup_cons] at hnd
    unfold cascadeRecords
    cases j with
    | zero =>
      simp only [List.getElem?_cons_zero, Option.some.injEq] at hj hup
      subst hj
      subst hup
      unfold headRecord
      rw [hlow]
      simp only [if_true]
      rw [cascadeRecords_none, List.append_nil]
      intro l hl c' tail' hc' he
      have := hinj l (List.mem_cons_of_mem _ hl) c' tail' hc' he
      exact hnd.1 (this ▸ hl)
    | succ j =>
      simp only [List.getElem?_cons_succ] at hj hup
      have hlowmem : low ∈ below' := List.getElem?_mem hj
      have hfirst : headRecord rs vr l0 date cause c.IRLA = [] := by
        unfold headRecord
        split
        · rfl
        · rename_i c' tail' heq
          rw [if_neg]
          intro e
          have := hinj l0 (List.mem_cons_self _ _) c' tail' heq e.symm
          exact hnd.1 (this ▸ hlowmem)
      rw [hfirst, List.nil_append]
      exact ih l0 up j hnd.2 (fun l hl => hinj l (List.mem_cons_of_mem _ hl)) hj hup

/-- Erasing the entry that `findIndex` found for an IRLA, known to be the officer `a`. -/
theorem erase_eq_eraseIdx_of_findIndex (l : List Officer) (a : Officer) (index : Nat)
    (hfound : findIndex (fun o => o.IRLA == a.IRLA) l = some index)
    (hat : l[index]? = some a) : l.erase a = l.eraseIdx index := by
  obtain ⟨b, hb, _, hbefore, hsplit, herase⟩ := findIndex_eq_some _ _ _ hfound
  rw [hat] at hb
  simp only [Option.some.injEq] at hb
  subst hb
  have hnot : a ∉ l.take index := by
    intro h
    have := hbefore a h
    simp at this
  rw [herase]
  conv_lhs => rw [hsplit]
  rw [List.erase_append_right _ hnot, List.erase_cons_head]

/-! ## simplified-simulation.js: invariants of `simulatePromotions` -/

/-- Invariant principle for one event of `simulatePromotions`. -/
theorem Simplified.processEvent_preserves (RO : List String) (SLOTS : String → Nat) (fuel : Nat)
    (P : TimelineState → Prop) (ev : RetirementEvent)
    (hremove : ∀ st rs, P st → P (st.withRanks rs))
    (hstep : ∀ st vr lr i cand, P st → vr ∈ RO → (st.ranks vr).length < SLOTS vr →
      RO.indexOf vr ≠ RO.length - 1 → RO[RO.indexOf vr + 1]? = some lr →
      candidateIndex (st.ranks lr) = some i → (st.ranks lr)[i]? = some cand →
      P (promote st vr lr i cand ev.date ev.officer)) :
    ∀ st st', P st → Simplified.processEvent RO SLOTS fuel st ev = .ok st' → P st' := by
  intro st st' hP h
  unfold Simplified.processEvent at h
  split_ifs at h
  · simp only [Except.ok.injEq] at h
    exact h ▸ hP
  · simp only [Simplified.fillRankUpwards_eq] at h
    refine fillVacancy_preserves RO SLOTS ev.date ev.officer P hstep fuel _ _ _ ?_ h
    split
    · exact hP
    · exact hremove _ _ hP

/-- Records of `simulatePromotions` stay in date order through the events. -/
theorem Simplified.processEvents_monotone (RO : List String) (SLOTS : String → Nat)
    (fuel : Nat) :
    ∀ (events : List RetirementEvent) (st st' : TimelineState),
      events.Pairwise (fun a b => a.date.le b.date = true) →
      (∀ e ∈ events, e.date.isSome = true) →
      (∀ k, (st.records k).Pairwise (fun a b => a.date.le b.date = true)) →
      (∀ k, ∀ r ∈ st.records k, ∀ e ∈ events, r.date.le e.date = true) →
      Simplified.processEvents RO SLOTS fuel st events = .ok st' →
      ∀ k, (st'.records k).Pairwise (fun a b => a.date.le b.date = true) := by
  intro events
  induction events with
  | nil =>
    intro st st' _ _ hs _ h
    simp only [Simplified.processEvents, Except.ok.injEq] at h
    exact h ▸ hs
  | cons ev rest ih =>
    intro st st' hsorted hvalid hs hbound h
    unfold Simplified.processEvents at h
    split at h
    · exact absurd h (by simp)
    rename_i st1 hst1
    rw [List.pairwise_cons] at hsorted
    have hP : (∀ k, (st1.records k).Pairwise (fun a b => a.date.le b.date = true)) ∧
        ∀ k, ∀ r ∈ st1.records k, r.date.le ev.date = true ∧
          ∀ e ∈ rest, r.date.le e.date = true := by
      refine Simplified.processEvent_preserves RO SLOTS fuel
        (fun s => (∀ k, (s.records k).Pairwise (fun a b => a.date.le b.date = true)) ∧
          ∀ k, ∀ r ∈ s.records k, r.date.le ev.date = true ∧
            ∀ e ∈ rest, r.date.le e.date = true) ev ?_ ?_ st st1 ?_ hst1
      · intro s rs hP
        exact hP
      · intro s vr lr i cand hP _ _ _ _ _ _
        refine ⟨?_, ?_⟩
        · intro k
          rw [promote_records]
          split_ifs
          · rw [List.pairwise_append]
            refine ⟨hP.1 k, List.pairwise_singleton _ _, ?_⟩
            intro a ha b hb
            rw [List.mem_singleton] at hb
            subst hb
            exact (hP.2 k a ha).1
          · exact hP.1 k
        · intro k r hr
          rw [promote_records] at hr
          split_ifs at hr
          · rcases List.mem_append.1 hr with hr | hr
            · exact hP.2 k r hr
            · rw [List.mem_singleton] at hr
              subst hr
              exact ⟨JsDate.le_refl_of_isSome _ (hvalid ev (List.mem_cons_self _ _)),
                hsorted.1⟩
          · exact hP.2 k r hr
      · exact ⟨hs, fun k r hr => ⟨hbound k r hr ev (List.mem_cons_self _ _),
          fun e he => hbound k r hr e (List.mem_cons_of_mem _ he)⟩⟩
    exact ih st1 st' hsorted.2 (fun e he => hvalid e (List.mem_cons_of_mem _ he)) hP.1
      (fun k r hr e he => (hP.2 k r hr).2 e he) h

/-- The ledger of `simulatePromotions` is in date order when the retirement dates are valid. -/
theorem Simplified.simulatePromotions_monotone (RO : List String) (SLOTS : String → Nat)
    (fuel : Nat) (officers : List Member) (P : Ledger)
    (hvalid : ∀ m ∈ officers, m.Frozen.truthy = false →
      (Simplified.getRetirementDate m.DOB).isSome = true)
    (h : Simplified.simulatePromotions RO SLOTS fuel officers = .ok P) :
    ∀ k, (P k).Pairwise (fun a b => a.date.le b.date = true) := by
  unfold Simplified.simulatePromotions at h
  split at h
  · exact absurd h (by simp)
  rename_i st hst
  simp only [Except.ok.injEq] at h
  subst h
  unfold Simplified.simulate at hst
  split at hst
  · exact absurd hst (by simp)
  rename_i rankMap hrm
  rw [Simplified.buildRetirementEvents_eq] at hst
  obtain ⟨hsorted, hv⟩ := allRetirementEvents_sorted_of (Simplified.officersCopy officers) (by
    intro o ho hf
    simp only [Simplified.officersCopy, List.mem_map] at ho
    obtain ⟨m, hm, rfl⟩ := ho
    have := hvalid m hm hf
    rw [Simplified.getRetirementDate_eq] at this
    exact this)
  exact Simplified.processEvents_monotone RO SLOTS fuel _ _ st hsorted hv
    (fun k => List.Pairwise.nil) (fun k r hr => absurd hr (List.not_mem_nil _)) hst

/-- In a list in date order, the last entry dated on or before `X` is dated no earlier than
any entry dated on or before `X`. -/
theorem getLast_filter_latest (l : List PromotionRecord) (X : JsDate)
    (hsorted : l.Pairwise (fun a b => a.date.le b.date = true)) (r : PromotionRecord)
    (hr : r ∈ l) (hrX : r.date.le X = true) :
    ∃ last, (l.filter (fun p => p.date.le X)).getLast? = some last ∧
      r.date.le last.date = true := by
  have hmem : r ∈ l.filter (fun p => p.date.le X) := List.mem_filter.2 ⟨hr, hrX⟩
  have hs := hsorted.filter (fun p => p.date.le X)
  generalize l.filter (fun p => p.date.le X) = f at hmem hs
  have hne : f ≠ [] := List.ne_nil_of_mem hmem
  refine ⟨f.getLast hne, List.getLast?_eq_getLast _ hne, ?_⟩
  have hsplit := List.dropLast_append_getLast hne
  rw [← hsplit] at hmem hs
  rcases List.mem_append.1 hmem with h | h
  · exact (List.pairwise_append.1 hs).2.2 r h _ (List.mem_singleton_self _)
  · rw [List.mem_singleton] at h
    rw [h]
    have hvalidr : r.date.isSome = true := by
      cases hd : r.date with
      | none => rw [hd] at hrX; simp [JsDate.le] at hrX
      | some x => rfl
    rw [← h]
    exact JsDate.le_refl_of_isSome _ hvalidr

/-! ## Frozen members -/

theorem mem_eraseIdx_of_ne {α : Type} (l : List α) (idx : Nat) (a b : α) (ha : a ∈ l)
    (hb : l[idx]? = some b) (hne : a ≠ b) : a ∈ l.eraseIdx idx := by
  induction l generalizing idx with
  | nil => exact absurd ha (List.not_mem_nil _)
  | cons x xs ih =>
    cases idx with
    | zero =>
      simp only [List.getElem?_cons_zero, Option.some.injEq] at hb
      subst hb
      rcases List.mem_cons.1 ha with h | h
      · exact absurd h hne
      · simpa using h
    | succ n =>
      simp only [List.getElem?_cons_succ] at hb
      simp only [List.eraseIdx_cons_succ, List.mem_cons]
      rcases List.mem_cons.1 ha with h | h
      · exact Or.inl h
      · exact Or.inr (ih n h hb)

theorem obj_update (st : DisplayState) (heap : List Officer) (rs : RankStructure Nat) (j : Nat) :
    (st.update heap rs).obj j = heap.getD j default := rfl

/-- A promotion of the display pass keeps a frozen object where it is. -/
theorem frozenKept_promoteDisplay (heap0 : List Officer) (i : Nat) (st : DisplayState)
    (vr lr : String) (cand : Nat) (rest : List Nat)
    (huniq : ∀ j k, j < heap0.length → k < heap0.length →
      (heap0.getD j default).IRLA = (heap0.getD k default).IRLA → j = k)
    (hfrozen : (heap0.getD i default).Frozen.truthy = true)
    (hcand : (st.ranks lr).filter (fun r => !(st.obj r).Frozen.truthy && !(st.obj r).displayRetired)
      = cand :: rest)
    (hP : FrozenKept heap0 i st) : FrozenKept heap0 i (promoteDisplay st vr lr cand) := by
  obtain ⟨hfields, hobj, hlisted, hrefs⟩ := hP
  have hcmem : cand ∈ (st.ranks lr).filter
      (fun r => !(st.obj r).Frozen.truthy && !(st.obj r).displayRetired) := by
    rw [hcand]; exact List.mem_cons_self _ _
  rw [List.mem_filter] at hcmem
  have hcf : (st.obj cand).Frozen.truthy = false := by
    have := hcmem.2
    simp only [Bool.and_eq_true, Bool.not_eq_true'] at this
    exact this.1
  have hci : cand ≠ i := by
    intro e
    rw [e, hobj, hfrozen] at hcf
    exact absurd hcf (by decide)
  have hclt : cand < heap0.length := hrefs lr cand hcmem.1
  -- the spliced entry is the candidate itself
  have hspliced : ∀ r, i ∈ st.ranks r → i ∈ spliceCandidate st lr cand r := by
    intro r hr
    unfold spliceCandidate
    cases hindex : findIndex (fun r => (st.obj r).IRLA == (st.obj cand).IRLA)
        (st.ranks lr) with
    | none => exact hr
    | some index =>
      simp only [setRank]
      split_ifs with hk
      · subst hk
        obtain ⟨a, hat, hap, _⟩ := findIndex_eq_some _ _ _ hindex
        have ha : a = cand := by
          apply huniq a cand (hrefs _ a (List.getElem?_mem hat)) hclt
          rw [← (hfields a).1, ← (hfields cand).1]
          simpa using hap
        exact mem_eraseIdx_of_ne _ index i a hr hat (ha ▸ Ne.symm hci)
      · exact hr
  have hsub : ∀ r, ∀ j ∈ spliceCandidate st lr cand r, j ∈ st.ranks r := by
    intro r j hj
    unfold spliceCandidate at hj
    cases hindex : findIndex (fun r => (st.obj r).IRLA == (st.obj cand).IRLA)
        (st.ranks lr) with
    | none =>
      rw [hindex] at hj
      exact hj
    | some index =>
      rw [hindex] at hj
      simp only [setRank] at hj
      split_ifs at hj with hk
      · subst hk
        exact (List.eraseIdx_sublist _ _).subset hj
      · exact hj
  have hget : ∀ j, (promoteDisplay st vr lr cand).obj j
      = if cand = j ∧ j < st.heap.length then { st.obj j with Rank := vr } else st.obj j := by
    intro j
    show (st.heap.modify (fun o => { o with Rank := vr }) cand).getD j default = _
    rw [getD_modify]
    rfl
  refine ⟨?_, ?_, ?_, ?_⟩
  · intro j
    rw [hget j]
    split_ifs
    · exact hfields j
    · exact hfields j
  · rw [hget i, if_neg (fun h => hci h.1)]
    exact hobj
  · show i ∈ pushRank _ vr cand _
    unfold pushRank
    split_ifs
    · exact List.mem_append_left _ (hspliced _ hlisted)
    · exact hspliced _ hlisted
  · intro r j hj
    change j ∈ pushRank _ vr cand r at hj
    unfold pushRank at hj
    split_ifs at hj
    · rcases List.mem_append.1 hj with h | h
      · exact hrefs r j (hsub r j h)
      · rw [List.mem_singleton] at h
        exact h ▸ hclt
    · exact hrefs r j (hsub r j hj)

/-- The events of the display pass are events of objects of the roster that are not frozen. -/
theorem mem_displayEvents (heap : List Officer) (currentDate : JsDate) (ev : DisplayEvent)
    (h : ev ∈ displayEvents heap currentDate) :
    ev.officer < heap.length ∧ (heap.getD ev.officer default).Frozen.truthy = false := by
  have h' := (mem_jsSort _ _ _).1 h
  simp only [List.mem_filterMap, List.mem_filter, List.mem_range, Bool.not_eq_true'] at h'
  obtain ⟨r, ⟨hr, hf⟩, hev⟩ := h'
  split_ifs at hev
  simp only [Option.some.injEq] at hev
  subst hev
  exact ⟨hr, hf⟩

/-- A retirement of the display pass keeps a frozen object where it is. -/
theorem frozenKept_processDisplayEvent (RO : List String) (SLOTS : String → Nat) (fuel : Nat)
    (heap0 : List Officer) (i : Nat) (st st' : DisplayState) (ev : DisplayEvent)
    (huniq : ∀ j k, j < heap0.length → k < heap0.length →
      (heap0.getD j default).IRLA = (heap0.getD k default).IRLA → j = k)
    (hfrozen : (heap0.getD i default).Frozen.truthy = true)
    (hev : ev.officer < heap0.length ∧ (heap0.getD ev.officer default).Frozen.truthy = false)
    (hP : FrozenKept heap0 i st)
    (h : processDisplayEvent RO SLOTS fuel st ev = .ok st') : FrozenKept heap0 i st' := by
  unfold processDisplayEvent at h
  simp only [] at h
  split at h
  · simp only [Except.ok.injEq] at h
    exact h ▸ hP
  rename_i index hindex
  refine fillDisplayVacancy_preserves RO SLOTS (FrozenKept heap0 i)
    (fun s vr lr cand rest hs _ _ _ _ hc =>
      frozenKept_promoteDisplay heap0 i s vr lr cand rest huniq hfrozen hc hs)
    fuel _ _ _ ?_ h
  obtain ⟨hfields, hobj, hlisted, hrefs⟩ := hP
  obtain ⟨a, hat, hap, _⟩ := findIndex_eq_some _ _ _ hindex
  have hamem : a ∈ st.ranks (st.obj ev.officer).Rank := List.getElem?_mem hat
  have ha : a = ev.officer := by
    apply huniq a ev.officer (hrefs _ a hamem) hev.1
    rw [← (hfields a).1, ← (hfields ev.officer).1]
    simp only [Bool.and_eq_true, beq_iff_eq] at hap
    exact hap.1
  have hgetD : (st.ranks (st.obj ev.officer).Rank).getD index 0 = a := by
    rw [List.getD_eq_getElem?_getD, hat]
    rfl
  have hai : a ≠ i := by
    intro e
    have h2 := hev.2
    rw [← ha, e, hfrozen] at h2
    exact absurd h2 (by decide)
  rw [hgetD]
  have hget : ∀ j, (st.update (st.heap.modify (fun o => { o with displayRetired := true }) a)
      (setRank st.ranks (st.obj ev.officer).Rank
        ((st.ranks (st.obj ev.officer).Rank).eraseIdx index))).obj j
      = if a = j ∧ j < st.heap.length then { st.obj j with displayRetired := true }
        else st.obj j := by
    intro j
    rw [obj_update, getD_modify]
    rfl
  refine ⟨?_, ?_, ?_, ?_⟩
  · intro j
    rw [hget j]
    split_ifs
    · exact hfields j
    · exact hfields j
  · rw [hget i, if_neg (fun h => hai h.1)]
    exact hobj
  · show i ∈ setRank _ _ _ _
    unfold setRank
    split_ifs with hk
    · rw [hk] at hlisted
      exact mem_eraseIdx_of_ne _ index i a hlisted hat (Ne.symm hai)
    · exact hlisted
  · intro r j hj
    change j ∈ setRank _ _ _ r at hj
    unfold setRank at hj
    split_ifs at hj with hk
    · subst hk
      exact hrefs _ j ((List.eraseIdx_sublist _ _).subset hj)
    · exact hrefs r j hj

/-- A frozen member of a roster with distinct IRLAs is still listed, unchanged, under its rank
when the display pass ends. -/
theorem runDisplay_frozen_kept (RO : List String) (SLOTS : String → Nat) (fuel : Nat)
    (officers : List Member) (currentDate : JsDate) (st : DisplayState) (f : Member)
    (hirla : (officers.map (fun m => m.IRLA)).Nodup) (hf : f ∈ officers)
    (hfrozen : f.Frozen.truthy = true)
    (h : runDisplay RO SLOTS fuel officers currentDate = .ok st) :
    f.Rank ∈ RO ∧ f.toOfficer.initialise ∈ (st.active f.Rank).map st.obj := by
  unfold runDisplay at h
  split at h
  · exact absurd h (by simp)
  rename_i st0 hst0
  obtain ⟨hin, hheap, hranks, _⟩ := initialDisplay_ranks RO _ st0 hst0
  obtain ⟨i, hi, hif⟩ := List.getElem_of_mem hf
  have hlen : (officersCopy officers).length = officers.length := by simp [officersCopy]
  have hgetD : ∀ j, j < officers.length →
      (officersCopy officers).getD j default = (officers[j]?.getD f).toOfficer.initialise := by
    intro j hj
    simp [officersCopy, List.getD_eq_getElem?_getD, List.getElem?_eq_getElem hj]
  have hgi : (officersCopy officers).getD i default = f.toOfficer.initialise := by
    rw [hgetD i hi, List.getElem?_eq_getElem hi, hif]
    rfl
  have huniq : ∀ j k, j < (officersCopy officers).length → k < (officersCopy officers).length →
      ((officersCopy officers).getD j default).IRLA
        = ((officersCopy officers).getD k default).IRLA → j = k := by
    intro j k hj hk hjk
    rw [hlen] at hj hk
    rw [hgetD j hj, hgetD k hk, List.getElem?_eq_getElem hj, List.getElem?_eq_getElem hk] at hjk
    have hj' : j < (officers.map (fun m => m.IRLA)).length := by simpa using hj
    have hk' : k < (officers.map (fun m => m.IRLA)).length := by simpa using hk
    have hinj : (officers.map (fun m => m.IRLA))[j] = (officers.map (fun m => m.IRLA))[k] →
        j = k := (List.Nodup.getElem_inj_iff hirla).1
    exact hinj (by simpa [Member.toOfficer] using hjk)
  have h0 : FrozenKept (officersCopy officers) i st0 := by
    refine ⟨?_, ?_, ?_, ?_⟩
    · intro j
      unfold DisplayState.obj
      rw [hheap]
      exact ⟨rfl, rfl⟩
    · unfold DisplayState.obj
      rw [hheap]
    · rw [hranks, mem_jsSort, List.mem_filter]
      exact ⟨List.mem_range.2 (by rw [hlen]; exact hi), by simp⟩
    · intro r j hj
      rw [hranks, mem_jsSort, List.mem_filter] at hj
      exact List.mem_range.1 hj.1
  have hfin : FrozenKept (officersCopy officers) i st :=
    processDisplayEvents_preserves RO SLOTS fuel (FrozenKept (officersCopy officers) i) _
      (fun s ev s' hev hs hs' =>
        frozenKept_processDisplayEvent RO SLOTS fuel _ i s s' ev huniq
          (by rw [hgi]; exact (JsValue.truthy_orFalse f.Frozen).trans hfrozen) (mem_displayEvents _ _ ev hev) hs hs')
      st0 st h0 h
  obtain ⟨_, hobj, hlisted, _⟩ := hfin
  rw [hgi] at hobj hlisted
  refine ⟨hin f.toOfficer.initialise (List.mem_map_of_mem _ hf), ?_⟩
  rw [List.mem_map]
  refine ⟨i, ?_, hobj⟩
  unfold DisplayState.active activeIn
  rw [List.mem_filter]
  refine ⟨hlisted, ?_⟩
  have : st.heap.getD i default = f.toOfficer.initialise := hobj
  rw [this]
  rfl

/-- The ledger of the timeline pass holds no record under the IRLA of a frozen member of a
roster with distinct IRLAs. -/
theorem runTimeline_frozen_no_record (RO : List String) (SLOTS : String → Nat) (fuel : Nat)
    (officers : List Member) (st : TimelineState) (f : Member)
    (hirla : (officers.map (fun m => m.IRLA)).Nodup) (hf : f ∈ officers)
    (hfrozen : f.Frozen.truthy = true)
    (h : runTimeline RO SLOTS fuel officers = .ok st) :
    st.records f.IRLA = [] := by
  unfold runTimeline at h
  split at h
  · exact absurd h (by simp)
  rename_i st0 hst0
  obtain ⟨_, hranks, hrec, _⟩ := initialTimeline_ranks RO officers st0 hst0
  have hfin := processTimelineEvents_preserves RO SLOTS fuel
    (fun s => (∀ r, ∀ o ∈ s.ranks r, ∃ m ∈ officers, o.IRLA = m.IRLA ∧ o.Frozen = m.Frozen) ∧
      s.records f.IRLA = []) _ ?_ st0 st ⟨?_, by rw [hrec]⟩ h
  · exact hfin.2
  · intro s ev s' _ hP hs'
    refine processTimelineEvent_preserves RO SLOTS fuel
      (fun s => (∀ r, ∀ o ∈ s.ranks r, ∃ m ∈ officers, o.IRLA = m.IRLA ∧ o.Frozen = m.Frozen) ∧
        s.records f.IRLA = []) ev ?_ ?_ s s' hP hs'
    · intro s index hP _
      refine ⟨?_, hP.2⟩
      intro r o ho
      rw [withRanks_ranks] at ho
      unfold setRank at ho
      split_ifs at ho with hk
      · subst hk
        exact hP.1 _ o ((List.eraseIdx_sublist _ _).subset ho)
      · exact hP.1 r o ho
    · intro s vr lr i cand hP _ _ _ _ hi hc
      obtain ⟨hcmem, hcf, _⟩ := candidate_spec _ i cand hi hc
      obtain ⟨mc, hmc, hmi, hmf⟩ := hP.1 lr cand hcmem
      refine ⟨?_, ?_⟩
      · intro r o ho
        rw [promote_ranks] at ho
        unfold pushRank at ho
        split_ifs at ho with hk
        · rcases List.mem_append.1 ho with ho | ho
          · unfold setRank at ho
            split_ifs at ho with hk2
            · exact hP.1 _ o ((List.eraseIdx_sublist _ _).subset ho)
            · exact hP.1 r o ho
          · rw [List.mem_singleton] at ho
            subst ho
            exact ⟨mc, hmc, hmi, hmf⟩
        · unfold setRank at ho
          split_ifs at ho with hk2
          · exact hP.1 _ o ((List.eraseIdx_sublist _ _).subset ho)
          · exact hP.1 r o ho
      · rw [promote_records, if_neg, hP.2]
        intro e
        have : mc = f := List.inj_on_of_nodup_map hirla hmc hf (by rw [← hmi, ← e])
        rw [this] at hmf
        rw [hmf, hfrozen] at hcf
        exact absurd hcf (by decide)
  · intro r o ho
    rw [hranks, mem_initial_rank] at ho
    obtain ⟨m, hm, _, rfl⟩ := ho
    exact ⟨m, hm, rfl, rfl⟩

/-! ## Termination of the cascade -/

/-- Changing a function at one point of a duplicate-free list changes the sum of its values by
the change at that point. -/
theorem sum_map_update (L : List String) (hnd : L.Nodup) (F G : String → Nat) (a : String)
    (ha : a ∈ L) (hFG : ∀ r, r ≠ a → G r = F r) :
    (L.map G).sum + F a = (L.map F).sum + G a := by
  induction L with
  | nil => exact absurd ha (List.not_mem_nil _)
  | cons x xs ih =>
    rw [List.nodup_cons] at hnd
    simp only [List.map_cons, List.sum_cons]
    by_cases hx : x = a
    · subst hx
      have : xs.map G = xs.map F :=
        List.map_congr_left (fun r hr => hFG r (fun e => hnd.1 (e ▸ hr)))
      rw [this]
      omega
    · have ha' : a ∈ xs := by
        rcases List.mem_cons.1 ha with h | h
        · exact absurd h.symm hx
        · exact h
      have := ih hnd.2 ha'
      rw [hFG x hx]
      omega

/-- A function that agrees with another one on a list has the same sum over it. -/
theorem sum_map_congr (L : List String) (F G : String → Nat) (h : ∀ r ∈ L, G r = F r) :
    (L.map G).sum = (L.map F).sum := by
  rw [List.map_congr_left h]

/-- Moving one entry from the rank at position `k + 1` to the rank at position `k` lowers the
potential by one. -/
theorem potential_move {α : Type} (RO : List String) (hnd : RO.Nodup) (rs rs' : RankStructure α)
    (vr lr : String) (hvr : vr ∈ RO) (hlr : RO[RO.indexOf vr + 1]? = some lr)
    (hother : ∀ k, k ≠ vr → k ≠ lr → rs' k = rs k)
    (hlower : (rs' lr).length + 1 = (rs lr).length)
    (hvac : (rs' vr).length = (rs vr).length + 1) :
    potential RO rs' + 1 = potential RO rs := by
  have hlt : RO.indexOf vr + 1 < RO.length := by
    by_contra hcon
    rw [List.getElem?_eq_none (by omega)] at hlr
    exact absurd hlr (by simp)
  rw [List.getElem?_eq_getElem hlt, Option.some.injEq] at hlr
  have hlrmem : lr ∈ RO := hlr ▸ List.getElem_mem _
  have hilr : RO.indexOf lr = RO.indexOf vr + 1 := by
    rw [← hlr]
    exact List.indexOf_getElem hnd _ _
  have hne : lr ≠ vr := by
    intro e
    rw [e] at hilr
    omega
  -- an intermediate structure: only the lower rank changed
  have h1 := sum_map_update RO hnd (fun r => (rs r).length * RO.indexOf r)
    (fun r => (if r = lr then rs' r else rs r).length * RO.indexOf r) lr hlrmem
    (fun r hr => by simp only [if_neg hr])
  have h2 := sum_map_update RO hnd
    (fun r => (if r = lr then rs' r else rs r).length * RO.indexOf r)
    (fun r => (rs' r).length * RO.indexOf r) vr hvr
    (fun r hr => by
      by_cases hrl : r = lr
      · simp only [if_pos hrl]
      · simp only [if_neg hrl, hother r hr hrl])
  simp only [if_pos, if_neg (Ne.symm hne)] at h1 h2
  unfold potential
  rw [hvac] at h2
  rw [← hlower, hilr] at h1
  generalize (List.map (fun r => (rs' r).length * RO.indexOf r) RO).sum = S2 at h1 h2 ⊢
  generalize (List.map (fun r => (rs r).length * RO.indexOf r) RO).sum = S0 at h1 h2 ⊢
  generalize (List.map (fun r => (if r = lr then rs' r else rs r).length * RO.indexOf r)
    RO).sum = S1 at h1 h2
  generalize (rs' lr).length = a at h1
  generalize (rs vr).length = b at h2
  generalize RO.indexOf vr = i at h1 h2
  have e1 : (a + 1) * (i + 1) = a * (i + 1) + i + 1 := by ring
  have e2 : (b + 1) * i = b * i + i := by ring
  rw [e1] at h1
  rw [e2] at h2
  generalize a * (i + 1) = p at h1
  generalize b * i = q at h2
  omega

/-- A promotion of `fillVacancy` lowers the potential by one. -/
theorem promote_potential (RO : List String) (hnd : RO.Nodup) (st : TimelineState)
    (vr lr : String) (i : Nat) (cand : Officer) (date : JsDate) (cause : Officer)
    (hvr : vr ∈ RO) (hlr : RO[RO.indexOf vr + 1]? = some lr)
    (hc : (st.ranks lr)[i]? = some cand) :
    potential RO (promote st vr lr i cand date cause).ranks + 1 = potential RO st.ranks := by
  have hlt : RO.indexOf vr + 1 < RO.length := by
    by_contra hcon
    rw [List.getElem?_eq_none (by omega)] at hlr
    exact absurd hlr (by simp)
  have hne : lr ≠ vr := by
    intro e
    have h := hlr
    rw [List.getElem?_eq_getElem hlt, Option.some.injEq] at h
    have := List.indexOf_getElem hnd (RO.indexOf vr + 1) hlt
    rw [h, e] at this
    omega
  have hi : i < (st.ranks lr).length := by
    by_contra hcon
    rw [List.getElem?_eq_none (by omega)] at hc
    exact absurd hc (by simp)
  refine potential_move RO hnd st.ranks _ vr lr hvr hlr
    (fun k h1 h2 => promote_ranks_other st vr lr i cand date cause k h1 h2) ?_ ?_
  · rw [promote_ranks_lower _ _ _ _ _ _ _ hne, List.length_eraseIdx, if_pos hi]
    omega
  · rw [promote_ranks_vacancy _ _ _ _ _ _ _ hne, List.length_append]
    rfl

/-- A promotion keeps the entries' IRLAs. -/
theorem ownKeys_promote (RO : List String) (st : TimelineState) (vr lr : String) (i : Nat)
    (cand : Officer) (date : JsDate) (cause : Officer) (hlr : lr ∈ RO)
    (hc : (st.ranks lr)[i]? = some cand)
    (h : OwnKeys RO st.ranks) : OwnKeys RO (promote st vr lr i cand date cause).ranks := by
  intro r hr o ho
  rw [promote_ranks] at ho
  unfold pushRank at ho
  have hset : ∀ k ∈ RO, ∀ x ∈ setRank st.ranks lr ((st.ranks lr).eraseIdx i) k,
      x.IRLA ∉ inheritedKeys := by
    intro k hk x hx
    unfold setRank at hx
    split_ifs at hx
    · exact h lr hlr x ((List.eraseIdx_sublist _ _).subset hx)
    · exact h k hk x hx
  split_ifs at ho
  · rcases List.mem_append.1 ho with ho | ho
    · exact hset _ hr o ho
    · rw [List.mem_singleton] at ho
      subst ho
      exact h lr hlr cand (List.getElem?_mem hc)
  · exact hset _ hr o ho

/-- With more fuel than the potential of the state, `fillVacancy` halts: it returns a state
whose potential has not grown, or it throws at a `push` onto the ledger. -/
theorem fillVacancy_halts (RO : List String) (SLOTS : String → Nat) (hnd : RO.Nodup)
    (date : JsDate) (cause : Officer) :
    ∀ fuel st vr, vr ∈ RO → potential RO st.ranks < fuel →
      (∃ st', fillVacancy RO SLOTS fuel st vr date cause = .ok st' ∧
        potential RO st'.ranks ≤ potential RO st.ranks) ∨
      fillVacancy RO SLOTS fuel st vr date cause = .error .typeError := by
  intro fuel
  induction fuel with
  | zero => intro st vr _ h; exact absurd h (Nat.not_lt_zero _)
  | succ n ih =>
    intro st vr hvr hfuel
    by_cases hstop : FillStops RO SLOTS st vr
    · exact Or.inl ⟨st, fillVacancy_stop RO SLOTS n st vr date cause hvr hstop, le_refl _⟩
    unfold FillStops at hstop
    push_neg at hstop
    obtain ⟨h2, h3, hcand⟩ := hstop
    have hlt : RO.indexOf vr + 1 < RO.length := by
      have := List.indexOf_lt_length.2 hvr
      omega
    have hlr : RO[RO.indexOf vr + 1]? = some (RO[RO.indexOf vr + 1]) :=
      List.getElem?_eq_getElem hlt
    have hlrmem : RO[RO.indexOf vr + 1] ∈ RO := List.getElem_mem _
    cases hi : candidateIndex (st.ranks (RO[RO.indexOf vr + 1])) with
    | none => exact absurd hi (hcand _ hlr)
    | some i =>
      obtain ⟨cand, hc, _⟩ := findIndex_eq_some _ _ _ hi
      by_cases hk : cand.IRLA ∈ inheritedKeys
      · exact Or.inr (fillVacancy_throw RO SLOTS n st vr _ i cand date cause hvr h2 h3 hlr hi
          hc hk)
      have hpot := promote_potential RO hnd st vr _ i cand date cause hvr hlr hc
      rw [fillVacancy_step RO SLOTS n st vr _ i cand date cause hvr h2 h3 hlr hi hc hk]
      rcases ih (promote st vr (RO[RO.indexOf vr + 1]) i cand date cause) _ hlrmem (by omega)
        with ⟨st1, hst1, hp1⟩ | herr
      · rw [hst1]
        rcases ih st1 vr hvr (by omega) with ⟨st2, hst2, hp2⟩ | herr2
        · exact Or.inl ⟨st2, hst2, by omega⟩
        · exact Or.inr herr2
      · rw [herr]
        exact Or.inr rfl

/-- With more fuel than the potential of the state, `fillVacancy` returns when no entry has an
IRLA that names an inherited property, and the potential has not grown. -/
theorem fillVacancy_total (RO : List String) (SLOTS : String → Nat) (hnd : RO.Nodup)
    (date : JsDate) (cause : Officer) :
    ∀ fuel st vr, vr ∈ RO → OwnKeys RO st.ranks → potential RO st.ranks < fuel →
      ∃ st', fillVacancy RO SLOTS fuel st vr date cause = .ok st' ∧
        potential RO st'.ranks ≤ potential RO st.ranks ∧ OwnKeys RO st'.ranks := by
  intro fuel
  induction fuel with
  | zero => intro st vr _ _ h; exact absurd h (Nat.not_lt_zero _)
  | succ n ih =>
    intro st vr hvr hown hfuel
    by_cases hstop : FillStops RO SLOTS st vr
    · exact ⟨st, fillVacancy_stop RO SLOTS n st vr date cause hvr hstop, le_refl _, hown⟩
    unfold FillStops at hstop
    push_neg at hstop
    obtain ⟨h2, h3, hcand⟩ := hstop
    have hlt : RO.indexOf vr + 1 < RO.length := by
      have := List.indexOf_lt_length.2 hvr
      omega
    have hlr : RO[RO.indexOf vr + 1]? = some (RO[RO.indexOf vr + 1]) :=
      List.getElem?_eq_getElem hlt
    have hlrmem : RO[RO.indexOf vr + 1] ∈ RO := List.getElem_mem _
    cases hi : candidateIndex (st.ranks (RO[RO.indexOf vr + 1])) with
    | none => exact absurd hi (hcand _ hlr)
    | some i =>
      obtain ⟨cand, hc, _⟩ := findIndex_eq_some _ _ _ hi
      have hk : cand.IRLA ∉ inheritedKeys := hown _ hlrmem cand (List.getElem?_mem hc)
      have hpot := promote_potential RO hnd st vr _ i cand date cause hvr hlr hc
      obtain ⟨st1, hst1, hp1, hown1⟩ := ih (promote st vr (RO[RO.indexOf vr + 1]) i cand date
        cause) _ hlrmem (ownKeys_promote RO st vr _ i cand date cause hlrmem hc hown) (by omega)
      obtain ⟨st2, hst2, hp2, hown2⟩ := ih st1 vr hvr hown1 (by omega)
      refine ⟨st2, ?_, by omega, hown2⟩
      rw [fillVacancy_step RO SLOTS n st vr _ i cand date cause hvr h2 h3 hlr hi hc hk, hst1]
      exact hst2

/-- Shorter lists have a smaller potential. -/
theorem potential_mono {α : Type} (RO : List String) (rs rs' : RankStructure α)
    (h : ∀ r ∈ RO, (rs' r).length ≤ (rs r).length) : potential RO rs' ≤ potential RO rs := by
  unfold potential
  exact List.sum_le_sum (fun r hr => Nat.mul_le_mul_right _ (h r hr))

/-- Removing an entry from a rank does not raise the potential. -/
theorem potential_remove {α : Type} (RO : List String) (rs : RankStructure α) (rank : String)
    (i : Nat) :
    potential RO (setRank rs rank ((rs rank).eraseIdx i)) ≤ potential RO rs := by
  apply potential_mono
  intro r _
  unfold setRank
  split_ifs with h
  · subst h
    exact (List.eraseIdx_sublist _ _).length_le
  · exact le_refl _

/-- The potential is at most the head-count times the number of steps of the ladder. -/
theorem potential_le {α : Type} (RO : List String) (rs : RankStructure α) :
    potential RO rs ≤ (RO.map (fun r => (rs r).length)).sum * (RO.length - 1) := by
  unfold potential
  rw [← List.sum_map_mul_right]
  apply List.sum_le_sum
  intro r hr
  have := List.indexOf_lt_length.2 hr
  exact Nat.mul_le_mul_left _ (by omega)

/-- A value occurs at most once in a duplicate-free list. -/
theorem sum_indicator_le_one (L : List String) (hnd : L.Nodup) (c : String) :
    (L.map (fun r => if c = r then 1 else 0)).sum ≤ 1 := by
  induction L with
  | nil => simp
  | cons x xs ih =>
    rw [List.nodup_cons] at hnd
    simp only [List.map_cons, List.sum_cons]
    by_cases hx : c = x
    · subst hx
      have : (xs.map (fun r => if c = r then 1 else 0)) = xs.map (fun _ => 0) :=
        List.map_congr_left (fun r hr => if_neg (fun (e : c = r) => hnd.1 (e ▸ hr)))
      rw [if_pos rfl, this]
      simp
    · rw [if_neg hx]
      have := ih hnd.2
      omega

/-- The members of the ranks of a duplicate-free ladder are at most the members. -/
theorem sum_filter_rank_le {α : Type} (RO : List String) (hnd : RO.Nodup) (rankOf : α → String)
    (l : List α) :
    (RO.map (fun r => (l.filter (fun o => rankOf o = r)).length)).sum ≤ l.length := by
  induction l with
  | nil => simp
  | cons o os ih =>
    have hsplit : ∀ r, ((o :: os).filter (fun o => rankOf o = r)).length
        = (if rankOf o = r then 1 else 0) + (os.filter (fun o => rankOf o = r)).length := by
      intro r
      rw [List.filter_cons]
      by_cases h : rankOf o = r
      · simp [h]; omega
      · simp [h]
    simp only [hsplit, List.sum_map_add, List.length_cons]
    have := sum_indicator_le_one RO hnd (rankOf o)
    omega

/-- The potential of the initial timeline structure. -/
theorem initialTimeline_potential (RO : List String) (hnd : RO.Nodup) (officers : List Member)
    (st : TimelineState) (h : initialTimeline RO officers = .ok st) :
    potential RO st.ranks ≤ officers.length * (RO.length - 1) := by
  obtain ⟨_, hranks, _, _⟩ := initialTimeline_ranks RO officers st h
  refine le_trans (potential_le RO st.ranks) (Nat.mul_le_mul_right _ ?_)
  have : (RO.map (fun r => (st.ranks r).length))
      = RO.map (fun r => ((timelineEntries officers).filter (fun o => o.Rank = r)).length) :=
    List.map_congr_left (fun r _ => by rw [hranks r, length_jsSort])
  rw [this]
  refine le_trans (sum_filter_rank_le RO hnd _ _) ?_
  simp [timelineEntries]

/-- Removing an entry keeps the entries' IRLAs. -/
theorem ownKeys_remove (RO : List String) (rs : RankStructure Officer) (rank : String)
    (i : Nat) (h : OwnKeys RO rs) : OwnKeys RO (setRank rs rank ((rs rank).eraseIdx i)) := by
  intro r hr o ho
  unfold setRank at ho
  split_ifs at ho with hk
  · exact h rank (hk ▸ hr) o ((List.eraseIdx_sublist _ _).subset ho)
  · exact h r hr o ho

/-- The initial structure of a roster has the IRLAs of the roster. -/
theorem initialTimeline_ownKeys (RO : List String) (officers : List Member)
    (st : TimelineState) (h : initialTimeline RO officers = .ok st)
    (hkeys : ∀ m ∈ officers, m.IRLA ∉ inheritedKeys) : OwnKeys RO st.ranks := by
  obtain ⟨_, hranks, _, _⟩ := initialTimeline_ranks RO officers st h
  intro r _ o ho
  rw [hranks r, mem_initial_rank] at ho
  obtain ⟨m, hm, _, rfl⟩ := ho
  exact hkeys m hm

/-- With more fuel than the potential, one timeline event halts: it returns a state whose
potential has not grown, or throws. -/
theorem processTimelineEvent_halts (RO : List String) (SLOTS : String → Nat) (hnd : RO.Nodup)
    (fuel : Nat) (st : TimelineState) (ev : RetirementEvent) (hrank : ev.officer.Rank ∈ RO)
    (hfuel : potential RO st.ranks < fuel) :
    (∃ st', processTimelineEvent RO SLOTS fuel st ev = .ok st' ∧
      potential RO st'.ranks ≤ potential RO st.ranks) ∨
    processTimelineEvent RO SLOTS fuel st ev = .error .typeError := by
  unfold processTimelineEvent
  simp only []
  cases findIndex (fun o => o.IRLA == ev.officer.IRLA) (st.ranks ev.officer.Rank) with
  | none => exact Or.inl ⟨st, rfl, le_refl _⟩
  | some index =>
    simp only []
    have hrem := potential_remove RO st.ranks ev.officer.Rank index
    rcases fillVacancy_halts RO SLOTS hnd ev.date ev.officer fuel
      (st.withRanks (setRank st.ranks ev.officer.Rank
        ((st.ranks ev.officer.Rank).eraseIdx index))) ev.officer.Rank hrank
      (by rw [withRanks_ranks]; omega) with ⟨st', hst', hp⟩ | herr
    · rw [withRanks_ranks] at hp
      exact Or.inl ⟨st', hst', by omega⟩
    · exact Or.inr herr

/-- With more fuel than the potential, the timeline event loop halts. -/
theorem processTimelineEvents_halts (RO : List String) (SLOTS : String → Nat) (hnd : RO.Nodup)
    (fuel : Nat) (events : List RetirementEvent) (hrank : ∀ ev ∈ events, ev.officer.Rank ∈ RO) :
    ∀ st, potential RO st.ranks < fuel →
      (∃ st', processTimelineEvents RO SLOTS fuel st events = .ok st') ∨
      processTimelineEvents RO SLOTS fuel st events = .error .typeError := by
  induction events with
  | nil => intro st _; exact Or.inl ⟨st, rfl⟩
  | cons ev rest ih =>
    intro st hfuel
    unfold processTimelineEvents
    rcases processTimelineEvent_halts RO SLOTS hnd fuel st ev
      (hrank ev (List.mem_cons_self _ _)) hfuel with ⟨st1, hst1, hp⟩ | herr
    · rw [hst1]
      exact ih (fun e he => hrank e (List.mem_cons_of_mem _ he)) st1 (by omega)
    · rw [herr]
      exact Or.inr rfl

/-- The timeline pass halts: with enough fuel it returns or throws, for every roster. -/
theorem runTimeline_halts (RO : List String) (SLOTS : String → Nat) (hnd : RO.Nodup)
    (fuel : Nat) (officers : List Member) (hranks : ∀ m ∈ officers, m.Rank ∈ RO)
    (hfuel : officers.length * (RO.length - 1) < fuel) :
    (∃ st, runTimeline RO SLOTS fuel officers = .ok st) ∨
    runTimeline RO SLOTS fuel officers = .error .typeError := by
  obtain ⟨st0, hst0⟩ := initialTimeline_total RO officers hranks
  have hp := initialTimeline_potential RO hnd officers st0 hst0
  unfold runTimeline
  rw [hst0]
  exact processTimelineEvents_halts RO SLOTS hnd fuel
    (allRetirementEvents (officersCopy officers))
    (fun ev hev => by
      obtain ⟨m, hm, _, ho, _⟩ := mem_allRetirementEvents officers ev hev
      rw [ho]
      exact hranks m hm)
    st0 (by omega)

/-- With more fuel than the potential, one timeline event is processed without an error when
the rank it carries is on the ladder and no entry has an IRLA that names an inherited
property. -/
theorem processTimelineEvent_total (RO : List String) (SLOTS : String → Nat) (hnd : RO.Nodup)
    (fuel : Nat) (st : TimelineState) (ev : RetirementEvent) (hrank : ev.officer.Rank ∈ RO)
    (hown : OwnKeys RO st.ranks) (hfuel : potential RO st.ranks < fuel) :
    ∃ st', processTimelineEvent RO SLOTS fuel st ev = .ok st' ∧
      potential RO st'.ranks ≤ potential RO st.ranks ∧ OwnKeys RO st'.ranks := by
  unfold processTimelineEvent
  simp only []
  cases findIndex (fun o => o.IRLA == ev.officer.IRLA) (st.ranks ev.officer.Rank) with
  | none => exact ⟨st, rfl, le_refl _, hown⟩
  | some index =>
    simp only []
    have hrem := potential_remove RO st.ranks ev.officer.Rank index
    obtain ⟨st', hst', hp, hown'⟩ := fillVacancy_total RO SLOTS hnd ev.date ev.officer fuel
      (st.withRanks (setRank st.ranks ev.officer.Rank
        ((st.ranks ev.officer.Rank).eraseIdx index))) ev.officer.Rank hrank
      (by rw [withRanks_ranks]; exact ownKeys_remove _ _ _ _ hown)
      (by rw [withRanks_ranks]; omega)
    rw [withRanks_ranks] at hp
    exact ⟨st', hst', by omega, hown'⟩

/-- With more fuel than the potential, the timeline event loop runs without an error. -/
theorem processTimelineEvents_total (RO : List String) (SLOTS : String → Nat) (hnd : RO.Nodup)
    (fuel : Nat) (events : List RetirementEvent) (hrank : ∀ ev ∈ events, ev.officer.Rank ∈ RO) :
    ∀ st, OwnKeys RO st.ranks → potential RO st.ranks < fuel →
      ∃ st', processTimelineEvents RO SLOTS fuel st events = .ok st' := by
  induction events with
  | nil => intro st _ _; exact ⟨st, rfl⟩
  | cons ev rest ih =>
    intro st hown hfuel
    obtain ⟨st1, hst1, hp, hown1⟩ := processTimelineEvent_total RO SLOTS hnd fuel st ev
      (hrank ev (List.mem_cons_self _ _)) hown hfuel
    obtain ⟨st2, hst2⟩ := ih (fun e he => hrank e (List.mem_cons_of_mem _ he)) st1 hown1
      (by omega)
    refine ⟨st2, ?_⟩
    unfold processTimelineEvents
    rw [hst1]
    exact hst2

/-- The timeline pass is total: with enough fuel it returns for every roster on the ladder
whose IRLAs name no inherited property. -/
theorem runTimeline_total (RO : List String) (SLOTS : String → Nat) (hnd : RO.Nodup)
    (fuel : Nat) (officers : List Member) (hranks : ∀ m ∈ officers, m.Rank ∈ RO)
    (hkeys : ∀ m ∈ officers, m.IRLA ∉ inheritedKeys)
    (hfuel : officers.length * (RO.length - 1) < fuel) :
    ∃ st, runTimeline RO SLOTS fuel officers = .ok st := by
  obtain ⟨st0, hst0⟩ := initialTimeline_total RO officers hranks
  have hp := initialTimeline_potential RO hnd officers st0 hst0
  obtain ⟨st, hst⟩ := processTimelineEvents_total RO SLOTS hnd fuel
    (allRetirementEvents (officersCopy officers))
    (fun ev hev => by
      obtain ⟨m, hm, _, ho, _⟩ := mem_allRetirementEvents officers ev hev
      rw [ho]
      exact hranks m hm)
    st0 (initialTimeline_ownKeys RO officers st0 hst0 hkeys) (by omega)
  refine ⟨st, ?_⟩
  unfold runTimeline
  rw [hst0]
  exact hst

/-! ## Termination of the display cascade -/

/-- A round of `fillDisplayVacancy` that meets a stop condition returns the state unchanged. -/
theorem fillDisplayVacancy_stop (RO : List String) (SLOTS : String → Nat) (n : Nat)
    (st : DisplayState) (vr : String) (hvr : vr ∈ RO) (hstop : FillDisplayStops RO SLOTS st vr) :
    fillDisplayVacancy RO SLOTS (n + 1) st vr = .ok st := by
  unfold fillDisplayVacancy
  rw [if_neg (not_not.2 hvr)]
  by_cases h2 : (st.active vr).length < SLOTS vr
  swap
  · rw [if_neg h2]
  rw [if_pos h2]
  simp only []
  by_cases h3 : RO.indexOf vr = RO.length - 1
  · rw [if_pos h3]
  rw [if_neg h3]
  rcases hstop with h | h | ⟨lr, hlr, hnone⟩
  · exact absurd h2 h
  · exact absurd h h3
  · rw [hlr]
    simp only [hnone]

/-- A round of `fillDisplayVacancy` that finds a candidate promotes it, fills the lower rank
and goes round the loop again. -/
theorem fillDisplayVacancy_step (RO : List String) (SLOTS : String → Nat) (n : Nat)
    (st : DisplayState) (vr lr : String) (cand : Nat) (rest : List Nat)
    (hvr : vr ∈ RO) (h2 : (st.active vr).length < SLOTS vr)
    (h3 : RO.indexOf vr ≠ RO.length - 1) (hlr : RO[RO.indexOf vr + 1]? = some lr)
    (hcand : (st.ranks lr).filter (fun r => !(st.obj r).Frozen.truthy && !(st.obj r).displayRetired)
      = cand :: rest) :
    fillDisplayVacancy RO SLOTS (n + 1) st vr =
      match fillDisplayVacancy RO SLOTS n (promoteDisplay st vr lr cand) lr with
      | .error e => .error e
      | .ok st' => fillDisplayVacancy RO SLOTS n st' vr := by
  conv_lhs => unfold fillDisplayVacancy
  rw [if_neg (not_not.2 hvr), if_pos h2]
  simp only []
  rw [if_neg h3, hlr]
  simp only [hcand]
  all_goals rfl

/-- The rank structure after a promotion of the display pass. -/
theorem promoteDisplay_ranks (st : DisplayState) (vr lr : String) (cand : Nat) :
    (promoteDisplay st vr lr cand).ranks = pushRank (spliceCandidate st lr cand) vr cand := rfl

/-- The splice of the display pass takes one entry out of the lower rank when the candidate
is listed there, and touches no other rank. -/
theorem spliceCandidate_spec (st : DisplayState) (lr : String) (cand : Nat)
    (hmem : cand ∈ st.ranks lr) :
    ∃ index, findIndex (fun r => (st.obj r).IRLA == (st.obj cand).IRLA) (st.ranks lr)
        = some index ∧ index < (st.ranks lr).length ∧
      spliceCandidate st lr cand = setRank st.ranks lr ((st.ranks lr).eraseIdx index) := by
  cases h : findIndex (fun r => (st.obj r).IRLA == (st.obj cand).IRLA) (st.ranks lr) with
  | none =>
    have := (findIndex_eq_none _ _).1 h cand hmem
    simp at this
  | some index =>
    obtain ⟨a, ha, _⟩ := findIndex_eq_some _ _ _ h
    have hlt : index < (st.ranks lr).length := by
      by_contra hcon
      rw [List.getElem?_eq_none (by omega)] at ha
      exact absurd ha (by simp)
    refine ⟨index, rfl, hlt, ?_⟩
    unfold spliceCandidate
    rw [h]

/-- A promotion of the display pass lowers the potential by one. -/
theorem promoteDisplay_potential (RO : List String) (hnd : RO.Nodup) (st : DisplayState)
    (vr lr : String) (cand : Nat) (rest : List Nat)
    (hvr : vr ∈ RO) (hlr : RO[RO.indexOf vr + 1]? = some lr)
    (hcand : (st.ranks lr).filter (fun r => !(st.obj r).Frozen.truthy && !(st.obj r).displayRetired)
      = cand :: rest) :
    potential RO (promoteDisplay st vr lr cand).ranks + 1 = potential RO st.ranks := by
  have hlt : RO.indexOf vr + 1 < RO.length := by
    by_contra hcon
    rw [List.getElem?_eq_none (by omega)] at hlr
    exact absurd hlr (by simp)
  have hne : lr ≠ vr := by
    intro e
    have h := hlr
    rw [List.getElem?_eq_getElem hlt, Option.some.injEq] at h
    have := List.indexOf_getElem hnd (RO.indexOf vr + 1) hlt
    rw [h, e] at this
    omega
  have hmem : cand ∈ st.ranks lr := by
    have : cand ∈ (st.ranks lr).filter
        (fun r => !(st.obj r).Frozen.truthy && !(st.obj r).displayRetired) := by
      rw [hcand]
      exact List.mem_cons_self _ _
    exact (List.mem_filter.1 this).1
  obtain ⟨index, _, hidx, hsp⟩ := spliceCandidate_spec st lr cand hmem
  refine potential_move RO hnd st.ranks _ vr lr hvr hlr ?_ ?_ ?_
  · intro k h1 h2
    rw [promoteDisplay_ranks, hsp, pushRank_ne _ _ _ _ h1, setRank_ne _ _ _ _ h2]
  · rw [promoteDisplay_ranks, hsp, pushRank_ne _ _ _ _ hne, setRank_eq, List.length_eraseIdx,
      if_pos hidx]
    omega
  · rw [promoteDisplay_ranks, hsp, pushRank_eq, setRank_ne _ _ _ _ (Ne.symm hne),
      List.length_append]
    rfl

/-- With more fuel than the potential of the state, `fillDisplayVacancy` returns, and the
potential has not grown. -/
theorem fillDisplayVacancy_total (RO : List String) (SLOTS : String → Nat) (hnd : RO.Nodup) :
    ∀ fuel st vr, vr ∈ RO → potential RO st.ranks < fuel →
      ∃ st', fillDisplayVacancy RO SLOTS fuel st vr = .ok st' ∧
        potential RO st'.ranks ≤ potential RO st.ranks := by
  intro fuel
  induction fuel with
  | zero => intro st vr _ h; exact absurd h (Nat.not_lt_zero _)
  | succ n ih =>
    intro st vr hvr hfuel
    by_cases hstop : FillDisplayStops RO SLOTS st vr
    · exact ⟨st, fillDisplayVacancy_stop RO SLOTS n st vr hvr hstop, le_refl _⟩
    unfold FillDisplayStops at hstop
    push_neg at hstop
    obtain ⟨h2, h3, hcand⟩ := hstop
    have hlt : RO.indexOf vr + 1 < RO.length := by
      have := List.indexOf_lt_length.2 hvr
      omega
    have hlr : RO[RO.indexOf vr + 1]? = some (RO[RO.indexOf vr + 1]) :=
      List.getElem?_eq_getElem hlt
    have hlrmem : RO[RO.indexOf vr + 1] ∈ RO := List.getElem_mem _
    cases hc : (st.ranks (RO[RO.indexOf vr + 1])).filter
        (fun r => !(st.obj r).Frozen.truthy && !(st.obj r).displayRetired) with
    | nil => exact absurd hc (hcand _ hlr)
    | cons cand rest =>
      have hpot := promoteDisplay_potential RO hnd st vr _ cand rest hvr hlr hc
      obtain ⟨st1, hst1, hp1⟩ := ih (promoteDisplay st vr (RO[RO.indexOf vr + 1]) cand)
        _ hlrmem (by omega)
      obtain ⟨st2, hst2, hp2⟩ := ih st1 vr hvr (by omega)
      refine ⟨st2, ?_, by omega⟩
      rw [fillDisplayVacancy_step RO SLOTS n st vr _ cand rest hvr h2 h3 hlr hc, hst1]
      exact hst2

/-- A promotion of the display pass leaves the ranks outside the ladder empty. -/
theorem promoteDisplay_off_ladder (RO : List String) (st : DisplayState) (vr lr : String)
    (cand : Nat) (hvr : vr ∈ RO) (hQ : ∀ r, r ∉ RO → st.ranks r = []) :
    ∀ r, r ∉ RO → (promoteDisplay st vr lr cand).ranks r = [] := by
  intro r hr
  have hne : r ≠ vr := fun (e : r = vr) => hr (e ▸ hvr)
  rw [promoteDisplay_ranks, pushRank_ne _ _ _ _ hne]
  unfold spliceCandidate
  cases findIndex (fun r => (st.obj r).IRLA == (st.obj cand).IRLA) (st.ranks lr) with
  | none => exact hQ r hr
  | some index =>
    simp only [setRank]
    split_ifs with h
    · subst h
      rw [hQ r hr]
      rfl
    · exact hQ r hr

/-- With more fuel than the potential, one display event is processed without an error. -/
theorem processDisplayEvent_total (RO : List String) (SLOTS : String → Nat) (hnd : RO.Nodup)
    (fuel : Nat) (st : DisplayState) (ev : DisplayEvent)
    (hQ : ∀ r, r ∉ RO → st.ranks r = []) (hfuel : potential RO st.ranks < fuel) :
    ∃ st', processDisplayEvent RO SLOTS fuel st ev = .ok st' ∧
      potential RO st'.ranks ≤ potential RO st.ranks ∧ ∀ r, r ∉ RO → st'.ranks r = [] := by
  unfold processDisplayEvent
  simp only []
  cases hfi : findIndex (fun r => (st.obj r).IRLA == (st.obj ev.officer).IRLA &&
      !(st.obj r).displayRetired) (st.ranks (st.obj ev.officer).Rank) with
  | none => exact ⟨st, rfl, le_refl _, hQ⟩
  | some index =>
    simp only []
    have hrank : (st.obj ev.officer).Rank ∈ RO := by
      by_contra hcon
      rw [hQ _ hcon] at hfi
      simp [findIndex] at hfi
    have hrem := potential_remove RO st.ranks (st.obj ev.officer).Rank index
    have hQ1 : ∀ r, r ∉ RO → setRank st.ranks (st.obj ev.officer).Rank
        ((st.ranks (st.obj ev.officer).Rank).eraseIdx index) r = [] := by
      intro r hr
      rw [setRank_ne _ _ _ _ (fun (e : r = (st.obj ev.officer).Rank) => hr (e ▸ hrank))]
      exact hQ r hr
    obtain ⟨st', hst', hp⟩ := fillDisplayVacancy_total RO SLOTS hnd fuel
      (st.update (st.heap.modify (fun o => { o with displayRetired := true })
        ((st.ranks (st.obj ev.officer).Rank).getD index 0))
        (setRank st.ranks (st.obj ev.officer).Rank
          ((st.ranks (st.obj ev.officer).Rank).eraseIdx index))) (st.obj ev.officer).Rank hrank
      (lt_of_le_of_lt hrem hfuel)
    refine ⟨st', hst', le_trans hp hrem, ?_⟩
    exact fillDisplayVacancy_preserves RO SLOTS (fun s => ∀ r, r ∉ RO → s.ranks r = [])
      (fun s vr lr cand _ hs hvr _ _ _ _ => promoteDisplay_off_ladder RO s vr lr cand hvr hs)
      fuel _ _ _ hQ1 hst'

/-- With more fuel than the potential, the display event loop runs without an error. -/
theorem processDisplayEvents_total (RO : List String) (SLOTS : String → Nat) (hnd : RO.Nodup)
    (fuel : Nat) (events : List DisplayEvent) :
    ∀ st, (∀ r, r ∉ RO → st.ranks r = []) → potential RO st.ranks < fuel →
      ∃ st', processDisplayEvents RO SLOTS fuel st events = .ok st' := by
  induction events with
  | nil => intro st _ _; exact ⟨st, rfl⟩
  | cons ev rest ih =>
    intro st hQ hfuel
    obtain ⟨st1, hst1, hp, hQ1⟩ := processDisplayEvent_total RO SLOTS hnd fuel st ev hQ hfuel
    obtain ⟨st2, hst2⟩ := ih st1 hQ1 (by omega)
    refine ⟨st2, ?_⟩
    unfold processDisplayEvents
    rw [hst1]
    exact hst2

/-- The display pass is total: with enough fuel it returns for every roster on the ladder and
every date. -/
theorem runDisplay_total (RO : List String) (SLOTS : String → Nat) (hnd : RO.Nodup)
    (fuel : Nat) (officers : List Member) (currentDate : JsDate)
    (hranks : ∀ m ∈ officers, m.Rank ∈ RO)
    (hfuel : officers.length * (RO.length - 1) < fuel) :
    ∃ st, runDisplay RO SLOTS fuel officers currentDate = .ok st := by
  obtain ⟨rs, hrs⟩ := addToRanks_total RO
    (fun r => ((officersCopy officers).getD r default).Rank)
    (List.range (officersCopy officers).length) (fun _ => []) (by
      intro r hr
      have hr' := List.mem_range.1 hr
      simp only []
      rw [List.getD_eq_getElem?_getD, List.getElem?_eq_getElem hr']
      have hmem : (officersCopy officers)[r] ∈ officersCopy officers := List.getElem_mem _
      generalize (officersCopy officers)[r] = o at hmem
      simp only [officersCopy, List.mem_map] at hmem
      obtain ⟨m, hm, hmo⟩ := hmem
      simp only [Option.getD_some]
      rw [← hmo]
      exact hranks m hm)
  have hst0 : ∃ st0, initialDisplay RO (officersCopy officers) = .ok st0 := by
    unfold initialDisplay
    rw [hrs]
    exact ⟨_, rfl⟩
  obtain ⟨st0, hst0⟩ := hst0
  obtain ⟨hin, hheap, hr0, _⟩ := initialDisplay_ranks RO _ st0 hst0
  have hQ0 : ∀ r, r ∉ RO → st0.ranks r = [] := by
    intro r hr
    rw [hr0 r]
    have : (List.range (officersCopy officers).length).filter
        (fun i => ((officersCopy officers).getD i default).Rank = r) = [] := by
      rw [List.filter_eq_nil_iff]
      intro i hi
      have hi' := List.mem_range.1 hi
      simp only [decide_eq_true_eq]
      intro e
      apply hr
      rw [← e, List.getD_eq_getElem?_getD, List.getElem?_eq_getElem hi']
      exact hin _ (List.getElem_mem _)
    rw [this]
    rfl
  have hp0 : potential RO st0.ranks ≤ officers.length * (RO.length - 1) := by
    refine le_trans (potential_le RO st0.ranks) (Nat.mul_le_mul_right _ ?_)
    have : (RO.map (fun r => (st0.ranks r).length))
        = RO.map (fun r => ((officersCopy officers).filter (fun o => o.Rank = r)).length) :=
      List.map_congr_left (fun r _ => by rw [hr0 r, length_jsSort, length_filter_range])
    rw [this]
    refine le_trans (sum_filter_rank_le RO hnd _ _) ?_
    simp [officersCopy]
  obtain ⟨st, hst⟩ := processDisplayEvents_total RO SLOTS hnd fuel
    (displayEvents (officersCopy officers) currentDate) st0 hQ0 (by omega)
  refine ⟨st, ?_⟩
  unfold runDisplay
  rw [hst0]
  exact hst

/-- The only error of the initial placement is the failed lookup of a rank. -/
theorem addToRanks_error {α : Type} (RO : List String) (rankOf : α → String) (l : List α)
    (rs : RankStructure α) (e : SimError) (h : addToRanks RO rankOf l rs = .error e) :
    e = .typeError := by
  induction l generalizing rs with
  | nil => simp [addToRanks] at h
  | cons o os ih =>
    unfold addToRanks at h
    split_ifs at h
    · exact ih _ h
    · simp only [Except.error.injEq] at h
      exact h.symm

/-- With enough fuel `runFullSimulation` returns a result for every roster whose ranks are on
the ladder and whose IRLAs name no inherited property. -/
theorem runFullSimulation_ok (RO : List String) (SLOTS : String → Nat) (hnd : RO.Nodup)
    (fuel : Nat) (officers : List Member) (currentDate : JsDate)
    (hranks : ∀ m ∈ officers, m.Rank ∈ RO)
    (hkeys : ∀ m ∈ officers, m.IRLA ∉ inheritedKeys)
    (hfuel : officers.length * (RO.length - 1) < fuel) :
    ∃ res, runFullSimulation RO SLOTS fuel officers currentDate = .ok res := by
  obtain ⟨tl, htl⟩ := runTimeline_total RO SLOTS hnd fuel officers hranks hkeys hfuel
  obtain ⟨ds, hds⟩ := runDisplay_total RO SLOTS hnd fuel officers currentDate hranks hfuel
  unfold runFullSimulation
  rw [htl, hds]
  exact ⟨_, rfl⟩

/-- A roster with a rank outside the ladder makes `runFullSimulation` throw at the initial
placement. -/
theorem runFullSimulation_off_ladder (RO : List String) (SLOTS : String → Nat) (fuel : Nat)
    (officers : List Member) (currentDate : JsDate)
    (hranks : ¬ ∀ m ∈ officers, m.Rank ∈ RO) :
    runFullSimulation RO SLOTS fuel officers currentDate = .error .typeError := by
  have h0 : initialTimeline RO officers = .error .typeError := by
    cases h : initialTimeline RO officers with
    | ok st => exact absurd (initialTimeline_ranks RO officers st h).1 hranks
    | error e =>
      unfold initialTimeline buildTimelineStructure at h
      split at h
      · rename_i e1 he1
        split at he1
        · rename_i e2 he2
          have := addToRanks_error RO _ _ _ e2 he2
          simp only [Except.error.injEq] at he1 h
          rw [← h, ← he1, this]
        · exact absurd he1 (by simp)
      · exact absurd h (by simp)
  unfold runFullSimulation runTimeline
  rw [h0]

/-- With enough fuel `runFullSimulation` halts on every roster: it returns a result or
throws. -/
theorem runFullSimulation_halts (RO : List String) (SLOTS : String → Nat) (hnd : RO.Nodup)
    (fuel : Nat) (officers : List Member) (currentDate : JsDate)
    (hfuel : officers.length * (RO.length - 1) < fuel) :
    (∃ res, runFullSimulation RO SLOTS fuel officers currentDate = .ok res) ∨
    runFullSimulation RO SLOTS fuel officers currentDate = .error .typeError := by
  by_cases hranks : ∀ m ∈ officers, m.Rank ∈ RO
  · rcases runTimeline_halts RO SLOTS hnd fuel officers hranks hfuel with ⟨tl, htl⟩ | herr
    · obtain ⟨ds, hds⟩ := runDisplay_total RO SLOTS hnd fuel officers currentDate hranks hfuel
      refine Or.inl ?_
      unfold runFullSimulation
      rw [htl, hds]
      exact ⟨_, rfl⟩
    · refine Or.inr ?_
      unfold runFullSimulation
      rw [herr]
  · exact Or.inr (runFullSimulation_off_ladder RO SLOTS fuel officers currentDate hranks)

/-! ## Records appended by one event -/

/-- A promotion appends one record, under one key. -/
theorem recordCount_promote (keys : List String) (hkeys : keys.Nodup) (st : TimelineState)
    (vr lr : String) (i : Nat) (cand : Officer) (date : JsDate) (cause : Officer) :
    recordCount keys (promote st vr lr i cand date cause).records
      ≤ recordCount keys st.records + 1 := by
  unfold recordCount
  by_cases hk : cand.IRLA ∈ keys
  · have h := sum_map_update keys hkeys (fun k => (st.records k).length)
      (fun k => ((promote st vr lr i cand date cause).records k).length) cand.IRLA hk
      (fun r hr => by simp only [promote_records, if_neg hr])
    simp only [promote_records, if_pos, List.length_append, List.length_singleton] at h
    simp only [promote_records]
    omega
  · have : keys.map (fun k => ((promote st vr lr i cand date cause).records k).length)
        = keys.map (fun k => (st.records k).length) :=
      List.map_congr_left (fun k hk' => by
        rw [promote_records, if_neg (fun (e : k = cand.IRLA) => hk (e ▸ hk'))])
    rw [this]
    omega

/-- The potential of the timeline structure never exceeds the roster size times the number of
steps of the ladder. -/
theorem processTimelineEvents_potential (RO : List String) (SLOTS : String → Nat) (hnd : RO.Nodup)
    (fuel : Nat) (B : Nat) (events : List RetirementEvent) (st st' : TimelineState)
    (h0 : potential RO st.ranks ≤ B)
    (h : processTimelineEvents RO SLOTS fuel st events = .ok st') :
    potential RO st'.ranks ≤ B := by
  refine processTimelineEvents_preserves RO SLOTS fuel (fun s => potential RO s.ranks ≤ B)
    events ?_ st st' h0 h
  intro s ev s' _ hs hs'
  refine processTimelineEvent_preserves RO SLOTS fuel (fun s => potential RO s.ranks ≤ B) ev
    ?_ ?_ s s' hs hs'
  · intro t index ht _
    rw [withRanks_ranks]
    exact le_trans (potential_remove RO t.ranks _ index) ht
  · intro t vr lr i cand ht hvr _ _ hlr _ hc
    have := promote_potential RO hnd t vr lr i cand ev.date ev.officer hvr hlr hc
    omega

/-- One event of the timeline pass appends at most as many records as the potential of
the structure it starts from. -/
theorem processTimelineEvent_records (RO : List String) (SLOTS : String → Nat) (hnd : RO.Nodup)
    (fuel : Nat) (keys : List String) (hkeys : keys.Nodup) (st st' : TimelineState)
    (ev : RetirementEvent) (h : processTimelineEvent RO SLOTS fuel st ev = .ok st') :
    recordCount keys st'.records ≤ recordCount keys st.records + potential RO st.ranks := by
  have := processTimelineEvent_preserves RO SLOTS fuel
    (fun s => recordCount keys s.records + potential RO s.ranks
      ≤ recordCount keys st.records + potential RO st.ranks) ev ?_ ?_ st st' (le_refl _) h
  · simp only [] at this
    omega
  · intro t index ht _
    rw [withRanks_ranks, withRanks_records]
    have := potential_remove RO t.ranks ev.officer.Rank index
    omega
  · intro t vr lr i cand ht hvr _ _ hlr _ hc
    have h1 := promote_potential RO hnd t vr lr i cand ev.date ev.officer hvr hlr hc
    have h2 := recordCount_promote keys hkeys t vr lr i cand ev.date ev.officer
    omega

/-! ## Lemmas on the text functions -/

theorem decimalDigits_succ (fuel n : Nat) :
    decimalDigits (fuel + 1) n =
      if n < 10 then [digitChar n] else decimalDigits fuel (n / 10) ++ [digitChar (n % 10)] :=
  rfl

/-- A number below 10 is written with one digit. -/
theorem decimalDigits_one (fuel n : Nat) (h : n < 10) :
    decimalDigits (fuel + 1) n = [digitChar n] := by
  rw [decimalDigits_succ, if_pos h]

/-- A number from 10 to 99 is written with two digits. -/
theorem decimalDigits_two (fuel n : Nat) (h0 : 10 ≤ n) (h : n < 100) :
    decimalDigits (fuel + 2) n = [digitChar (n / 10), digitChar (n % 10)] := by
  rw [decimalDigits_succ, if_neg (by omega), decimalDigits_one _ _ (by omega)]
  rfl

/-- A number from 1000 to 9999 is written with four digits. -/
theorem decimalDigits_four (fuel n : Nat) (h0 : 1000 ≤ n) (h : n < 10000) :
    decimalDigits (fuel + 4) n =
      [digitChar (n / 1000), digitChar (n / 100 % 10), digitChar (n / 10 % 10),
        digitChar (n % 10)] := by
  rw [decimalDigits_succ, if_neg (by omega), decimalDigits_succ, if_neg (by omega),
    decimalDigits_succ, if_neg (by omega), decimalDigits_one _ _ (by omega)]
  have e1 : n / 10 / 10 / 10 = n / 1000 := by omega
  have e2 : n / 10 / 10 % 10 = n / 100 % 10 := by omega
  rw [e1, e2]
  rfl

/-- The text of a natural number below 100, padded to two digits. -/
theorem padStart2_numberToString (k : Nat) (h : k < 100) :
    padStart2 (numberToString (some (k : Int))) = [digitChar (k / 10), digitChar (k % 10)] := by
  have hneg : ¬ ((k : Int) < 0) := by omega
  simp only [numberToString, if_neg hneg, Int.toNat_ofNat]
  by_cases h10 : k < 10
  · rw [decimalDigits_one _ _ h10]
    have e1 : k / 10 = 0 := by omega
    have e2 : k % 10 = k := by omega
    rw [e1, e2]
    rfl
  · obtain ⟨j, rfl⟩ : ∃ j, k = j + 1 := ⟨k - 1, by omega⟩
    rw [decimalDigits_two _ _ (by omega) h]
    rfl

/-- The text of a four-digit year. -/
theorem numberToString_year (y : Nat) (h0 : 1000 ≤ y) (h : y ≤ 9999) :
    numberToString (some (y : Int)) =
      [digitChar (y / 1000), digitChar (y / 100 % 10), digitChar (y / 10 % 10),
        digitChar (y % 10)] := by
  have hneg : ¬ ((y : Int) < 0) := by omega
  simp only [numberToString, if_neg hneg, Int.toNat_ofNat]
  obtain ⟨j, rfl⟩ : ∃ j, y = j + 3 := ⟨y - 3, by omega⟩
  exact decimalDigits_four _ _ (by omega) (by omega)

/-- The function `formatDate` writes a real calendar date with a four-digit year as its
zero-padded `DD-MM-YYYY` text. -/
theorem formatDate_civil (d m y : Nat) (hy0 : 1000 ≤ y) (hy : y ≤ 9999) (hm0 : 1 ≤ m)
    (hm : m ≤ 12) (hd0 : 1 ≤ d) (hd : (d : Int) ≤ monthLength y m) :
    formatDate (some (makeDay y ((m : Int) - 1) d)) = formatDMY d m y := by
  have hlen : monthLength (y : Int) (m : Int) ≤ 31 := by
    have hL := inLeapYear_range (y : Int)
    unfold monthLength
    split_ifs <;> omega
  have hrt := civil_roundtrip y ((m : Int) - 1) d (by omega) (by omega) (by omega)
    (by rw [sub_add_cancel]; exact hd)
  rw [← makeDay_civil y ((m : Int) - 1) d (by omega) (by omega)] at hrt
  unfold formatDate formatDMY
  simp only [getDate, getMonth, getFullYear, Option.map_some', hrt.1, hrt.2.1, hrt.2.2,
    sub_add_cancel]
  rw [padStart2_numberToString d (by omega), padStart2_numberToString m (by omega),
    numberToString_year y hy0 hy]
  rfl

/-- The three copies of `formatDate` are one function. -/
theorem formatDate_copies (date : JsDate) :
    Simulation.formatDate date = formatDate date ∧ Simplified.formatDate date = formatDate date :=
  ⟨rfl, rfl⟩

/-- Pushing the lines one by one builds the list of the lines. -/
theorem foldl_push_eq_map {α β : Type} (f : α → β) (l : List α) (acc : List β) :
    l.foldl (fun lines r => lines ++ [f r]) acc = acc ++ l.map f := by
  induction l generalizing acc with
  | nil => simp
  | cons a l ih => simp [ih]

/-- Splitting a line without separator gives that line. -/
theorem split_of_not_mem (sep : Char) (l : List Char) (h : sep ∉ l) : split sep l = [l] := by
  induction l with
  | nil => rfl
  | cons c cs ih =>
    rw [List.mem_cons, not_or] at h
    unfold split
    rw [if_neg (Ne.symm h.1), ih h.2]

/-- Splitting at the separator after a first line without separator. -/
theorem split_append_sep (sep : Char) (l rest : List Char) (h : sep ∉ l) :
    split sep (l ++ sep :: rest) = l :: split sep rest := by
  induction l with
  | nil =>
    show split sep (sep :: rest) = _
    conv_lhs => unfold split
    rw [if_pos rfl]
  | cons c cs ih =>
    rw [List.mem_cons, not_or] at h
    show split sep (c :: (cs ++ sep :: rest)) = _
    conv_lhs => unfold split
    rw [if_neg (Ne.symm h.1), ih h.2]

/-- Splitting joined lines at the separator gives the lines back, when no line holds the
separator and there is at least one line. -/
theorem split_join (sep : Char) (ls : List (List Char)) (hne : ls ≠ [])
    (h : ∀ l ∈ ls, sep ∉ l) : split sep (join [sep] ls) = ls := by
  induction ls with
  | nil => exact absurd rfl hne
  | cons l rest ih =>
    cases rest with
    | nil => exact split_of_not_mem sep l (h l (List.mem_cons_self _ _))
    | cons l2 rest2 =>
      show split sep (l ++ [sep] ++ join [sep] (l2 :: rest2)) = _
      rw [List.append_assoc, List.singleton_append,
        split_append_sep sep l _ (h l (List.mem_cons_self _ _)),
        ih (List.cons_ne_nil _ _) (fun x hx => h x (List.mem_cons_of_mem _ hx))]

/-- The digit characters are not line breaks. -/
theorem newline_not_mem_decimalDigits (fuel n : Nat) : '\n' ∉ decimalDigits fuel n := by
  induction fuel generalizing n with
  | zero => simp [decimalDigits]
  | succ f ih =>
    have hdigit : ∀ k, k < 10 → '\n' ≠ digitChar k := by
      intro k hk
      interval_cases k <;> decide
    rw [decimalDigits_succ]
    split_ifs with h
    · rw [List.mem_singleton]
      exact hdigit n h
    · rw [List.mem_append, List.mem_singleton, not_or]
      exact ⟨ih _, hdigit _ (Nat.mod_lt _ (by decide))⟩

theorem newline_not_mem_numberToString (x : JsNum) : '\n' ∉ numberToString x := by
  unfold numberToString
  cases x with
  | none => decide
  | some n =>
    simp only []
    split_ifs
    · rw [List.mem_cons, not_or]
      exact ⟨by decide, newline_not_mem_decimalDigits _ _⟩
    · exact newline_not_mem_decimalDigits _ _

/-- The text of a date holds no line break. -/
theorem newline_not_mem_formatDate (date : JsDate) : '\n' ∉ (formatDate date).toList := by
  unfold formatDate padStart2
  simp only [String.toList, List.mem_append, List.mem_cons, List.mem_replicate, not_or]
  have h0 : ∀ k : Nat, ¬ (k ≠ 0 ∧ '\n' = '0') := fun k h => absurd h.2 (by decide)
  have h1 := newline_not_mem_numberToString
  have h2 : ¬ '\n' = '-' := by decide
  repeat' apply And.intro
  all_goals first | exact h0 _ | exact h1 _ | exact h2

/-- The joined text of a non-empty list of lines starts with the first line. -/
theorem join_cons (sep : List Char) (l : List Char) (ls : List (List Char)) :
    ∃ t, join sep (l :: ls) = l ++ t := by
  cases ls with
  | nil => exact ⟨[], (List.append_nil _).symm⟩
  | cons l2 rest => exact ⟨sep ++ join sep (l2 :: rest), by simp [join]⟩

/-- The line of `generateTimeline` for one record is the line the spec asks. -/
theorem generateTimeline_of_ne (irla : String) (P : Ledger) (h : P irla ≠ []) :
    generateTimeline irla P = .ok (String.mk (join ['\n'] ((P irla).map timelineLine))) := by
  unfold generateTimeline
  rw [if_neg (by rw [List.length_eq_zero]; exact h)]
  rfl

/-- A rendered timeline with at least one record is not the text for an empty one. -/
theorem generateTimeline_ne_noPromotions (irla : String) (P : Ledger) (h : P irla ≠ []) :
    generateTimeline irla P ≠ .ok noPromotions := by
  rw [generateTimeline_of_ne irla P h]
  intro e
  simp only [Except.ok.injEq] at e
  have e' := congrArg String.toList e
  cases hP : P irla with
  | nil => exact h hP
  | cons r rest =>
    rw [hP, List.map_cons] at e'
    obtain ⟨t, ht⟩ := join_cons ['\n'] (timelineLine r) (rest.map timelineLine)
    have e2 : (String.mk (join ['\n'] (timelineLine r :: rest.map timelineLine))).toList
        = join ['\n'] (timelineLine r :: rest.map timelineLine) := rfl
    rw [e2, ht] at e'
    have h1 : ∃ u, timelineLine r = 'P' :: u := ⟨_, rfl⟩
    obtain ⟨u, hu⟩ := h1
    rw [hu] at e'
    have h2 : ∃ v, noPromotions.toList = 'N' :: v := ⟨_, rfl⟩
    obtain ⟨v, hv⟩ := h2
    rw [hv, List.cons_append, List.cons.injEq] at e'
    exact absurd e'.1 (by decide)

/-! ## Events of the timeline pass -/

/-- Every member that is not frozen has a retirement event, whatever the date of birth. -/
theorem allRetirementEvents_of_mem (officers : List Member) (m : Member) (hm : m ∈ officers)
    (hf : m.Frozen.truthy = false) :
    ∃ ev ∈ allRetirementEvents (officersCopy officers),
      ev.officer = m.toOfficer.initialise ∧ ev.date = getRetirementDate m.DOB := by
  refine ⟨⟨getRetirementDate m.DOB, m.toOfficer.initialise⟩, ?_, rfl, rfl⟩
  unfold allRetirementEvents
  rw [mem_jsSort]
  simp only [officersCopy, List.mem_map, List.mem_filter, Bool.not_eq_true']
  exact ⟨m.toOfficer.initialise, ⟨⟨m, hm, rfl⟩, (JsValue.truthy_orFalse m.Frozen).trans hf⟩,
    rfl⟩

/-- A date text with a field that is not a number has an Invalid Date as retirement date. -/
theorem getRetirementDate_nan (dob : String)
    (h : dateField dob 0 = none ∨ dateField dob 1 = none ∨ dateField dob 2 = none) :
    getRetirementDate dob = none := by
  have hp : parseDate dob = none := by
    unfold parseDate
    cases h0 : dateField dob 0 <;> cases h1 : dateField dob 1 <;>
      cases h2 : dateField dob 2 <;> simp_all [newDate]
  unfold getRetirementDate
  rw [hp]
  rfl

/-! ## Occupancy of the display pass -/

/-- Erasing the entry at an index lowers the count of that entry by one and no other count. -/
theorem count_eraseIdx_add (l : List Nat) (idx a : Nat) (h : l[idx]? = some a) (j : Nat) :
    (l.eraseIdx idx).count j + (if j = a then 1 else 0) = l.count j := by
  induction l generalizing idx with
  | nil => simp at h
  | cons x xs ih =>
    cases idx with
    | zero =>
      simp only [List.getElem?_cons_zero, Option.some.injEq] at h
      subst h
      simp only [List.eraseIdx_cons_zero, List.count_cons]
      by_cases hj : j = x
      · subst hj
        simp
      · have : ¬ (x == j) = true := by simpa using Ne.symm hj
        simp [hj, this]
    | succ n =>
      simp only [List.getElem?_cons_succ] at h
      simp only [List.eraseIdx_cons_succ, List.count_cons]
      have := ih n h
      omega

theorem displayInv_congr (RO : List String) (heap0 : List Officer) (D D' : Nat → Bool)
    (st : DisplayState) (h : ∀ j, D j = D' j) (hP : DisplayInv RO heap0 D st) :
    DisplayInv RO heap0 D' st := by
  have : D = D' := funext h
  rw [← this]
  exact hP

/-- A promotion of the display pass keeps the occupancy invariant. -/
theorem displayInv_promoteDisplay (RO : List String) (hnd : RO.Nodup) (heap0 : List Officer)
    (D : Nat → Bool) (st : DisplayState) (vr lr : String) (cand : Nat) (rest : List Nat)
    (huniq : ∀ j k, j < heap0.length → k < heap0.length →
      (heap0.getD j default).IRLA = (heap0.getD k default).IRLA → j = k)
    (hvr : vr ∈ RO) (hlr : RO[RO.indexOf vr + 1]? = some lr)
    (hcand : (st.ranks lr).filter (fun r => !(st.obj r).Frozen.truthy && !(st.obj r).displayRetired)
      = cand :: rest)
    (hP : DisplayInv RO heap0 D st) : DisplayInv RO heap0 D (promoteDisplay st vr lr cand) := by
  obtain ⟨hfields, hlen, hrefs, hflags, hocc⟩ := hP
  have hcmem : cand ∈ (st.ranks lr).filter
      (fun r => !(st.obj r).Frozen.truthy && !(st.obj r).displayRetired) := by
    rw [hcand]; exact List.mem_cons_self _ _
  rw [List.mem_filter] at hcmem
  have hclt : cand < heap0.length := hrefs lr cand hcmem.1
  have hcD : D cand = false := by
    have := hcmem.2
    simp only [Bool.and_eq_true, Bool.not_eq_true'] at this
    rw [← hflags cand]
    exact this.2
  obtain ⟨hcRO, hccount⟩ := (hocc cand hclt).2 hcD
  have hcRank : (st.obj cand).Rank = lr := by
    by_contra hcon
    have h0 := hccount lr
    rw [if_neg (fun e => hcon e.symm)] at h0
    exact absurd hcmem.1 (List.count_eq_zero.1 h0)
  have hlt : RO.indexOf vr + 1 < RO.length := by
    by_contra hcon
    rw [List.getElem?_eq_none (by omega)] at hlr
    exact absurd hlr (by simp)
  have hne : lr ≠ vr := by
    intro e
    have h := hlr
    rw [List.getElem?_eq_getElem hlt, Option.some.injEq] at h
    have := List.indexOf_getElem hnd (RO.indexOf vr + 1) hlt
    rw [h, e] at this
    omega
  obtain ⟨index, hfind, hidx, hsp⟩ := spliceCandidate_spec st lr cand hcmem.1
  obtain ⟨a, hat, hap, _⟩ := findIndex_eq_some _ _ _ hfind
  have ha : a = cand := by
    apply huniq a cand (hrefs _ a (List.getElem?_mem hat)) hclt
    rw [← hfields a, ← hfields cand]
    simpa using hap
  rw [ha] at hat
  have hget : ∀ j, (promoteDisplay st vr lr cand).obj j
      = if cand = j ∧ j < st.heap.length then { st.obj j with Rank := vr } else st.obj j := by
    intro j
    show (st.heap.modify (fun o => { o with Rank := vr }) cand).getD j default = _
    rw [getD_modify]
    rfl
  have hrank : ∀ r, (promoteDisplay st vr lr cand).ranks r
      = if r = vr then st.ranks r ++ [cand]
        else if r = lr then (st.ranks lr).eraseIdx index else st.ranks r := by
    intro r
    rw [promoteDisplay_ranks, hsp]
    unfold pushRank setRank
    by_cases h1 : r = vr
    · rw [if_pos h1, if_pos h1, if_neg (fun e => hne (e.symm.trans h1))]
    · rw [if_neg h1, if_neg h1]
  have hcount : ∀ r j, ((promoteDisplay st vr lr cand).ranks r).count j
        + (if r = lr ∧ j = cand then 1 else 0)
      = (st.ranks r).count j + (if r = vr ∧ j = cand then 1 else 0) := by
    intro r j
    rw [hrank r]
    by_cases h1 : r = vr
    · have h2 : r ≠ lr := fun e => hne (e.symm.trans h1)
      rw [if_pos h1, List.count_append, List.count_singleton]
      have h3 : ¬ vr = lr := Ne.symm hne
      by_cases hj : j = cand
      · simp [h1, h3, hj]
      · have : ¬ (cand == j) = true := by simpa using Ne.symm hj
        simp [h1, h3, hj, this]
    · rw [if_neg h1]
      by_cases h2 : r = lr
      · subst h2
        rw [if_pos rfl]
        have := count_eraseIdx_add (st.ranks r) index cand hat j
        by_cases hj : j = cand
        · simp only [hj, and_self, if_true, h1, false_and, if_false] at this ⊢
          omega
        · simp only [hj, and_false, if_false] at this ⊢
          omega
      · rw [if_neg h2]
        simp [h1, h2]
  refine ⟨?_, ?_, ?_, ?_, ?_⟩
  · intro j
    rw [hget j]
    split_ifs
    · exact hfields j
    · exact hfields j
  · show (st.heap.modify _ cand).length = _
    rw [List.length_modify]
    exact hlen
  · intro r j hj
    rw [hrank r] at hj
    split_ifs at hj
    · rcases List.mem_append.1 hj with h | h
      · exact hrefs r j h
      · rw [List.mem_singleton] at h
        exact h ▸ hclt
    · exact hrefs lr j ((List.eraseIdx_sublist _ _).subset hj)
    · exact hrefs r j hj
  · intro j
    rw [hget j]
    split_ifs
    · exact hflags j
    · exact hflags j
  · intro j hj
    by_cases hjc : j = cand
    · subst hjc
      refine ⟨fun h => absurd h (by rw [hcD]; decide), fun _ => ?_⟩
      rw [hget j, if_pos ⟨rfl, hlen ▸ hclt⟩]
      refine ⟨hvr, ?_⟩
      intro r
      have h1 := hcount r j
      have h2 := hccount r
      rw [hcRank] at h2
      simp only [and_true] at h1
      show _ = if r = vr then 1 else 0
      by_cases hr1 : r = vr
      · have hr2 : r ≠ lr := fun e => hne (e.symm.trans hr1)
        rw [if_neg hr2] at h2
        rw [if_pos hr1, if_neg hr2] at h1
        rw [if_pos hr1]
        omega
      · rw [if_neg hr1] at h1 ⊢
        by_cases hr2 : r = lr
        · rw [if_pos hr2] at h1 h2
          omega
        · rw [if_neg hr2] at h1 h2
          omega
    · have hobj : (promoteDisplay st vr lr cand).obj j = st.obj j := by
        rw [hget j, if_neg (fun h => hjc h.1.symm)]
      have hc : ∀ r, ((promoteDisplay st vr lr cand).ranks r).count j = (st.ranks r).count j := by
        intro r
        have := hcount r j
        simp only [hjc, and_false, if_false, add_zero] at this
        exact this
      refine ⟨fun h r => ?_, fun h => ?_⟩
      · rw [hc r]
        exact (hocc j hj).1 h r
      · rw [hobj]
        refine ⟨((hocc j hj).2 h).1, fun r => ?_⟩
        rw [hc r]
        exact ((hocc j hj).2 h).2 r

/-- A retirement of the display pass marks the retiring object, takes it out of its list and
keeps the occupancy invariant. -/
theorem displayInv_processDisplayEvent (RO : List String) (SLOTS : String → Nat)
    (hnd : RO.Nodup) (fuel : Nat) (heap0 : List Officer) (D : Nat → Bool)
    (st st' : DisplayState) (ev : DisplayEvent)
    (huniq : ∀ j k, j < heap0.length → k < heap0.length →
      (heap0.getD j default).IRLA = (heap0.getD k default).IRLA → j = k)
    (hev : ev.officer < heap0.length)
    (hP : DisplayInv RO heap0 D st)
    (h : processDisplayEvent RO SLOTS fuel st ev = .ok st') :
    DisplayInv RO heap0 (fun j => D j || decide (j = ev.officer)) st' := by
  unfold processDisplayEvent at h
  simp only [] at h
  split at h
  · rename_i hnone
    simp only [Except.ok.injEq] at h
    subst h
    obtain ⟨hfields, hlen, hrefs, hflags, hocc⟩ := hP
    have hDk : D ev.officer = true := by
      by_contra hcon
      have hDf : D ev.officer = false := by simpa using hcon
      have hc := ((hocc ev.officer hev).2 hDf).2 (st.obj ev.officer).Rank
      rw [if_pos rfl] at hc
      have hmem : ev.officer ∈ st.ranks (st.obj ev.officer).Rank :=
        List.count_pos_iff.1 (by omega)
      have := (findIndex_eq_none _ _).1 hnone ev.officer hmem
      rw [hflags ev.officer, hDf] at this
      simp at this
    refine displayInv_congr RO heap0 D _ st ?_ ⟨hfields, hlen, hrefs, hflags, hocc⟩
    intro j
    by_cases hj : j = ev.officer
    · rw [hj, hDk]
      rfl
    · simp [hj]
  rename_i index hindex
  refine fillDisplayVacancy_preserves RO SLOTS
    (DisplayInv RO heap0 (fun j => D j || decide (j = ev.officer)))
    (fun s vr lr cand rest hs hvr _ _ hlr hc =>
      displayInv_promoteDisplay RO hnd heap0 _ s vr lr cand rest huniq hvr hlr hc hs)
    fuel _ _ _ ?_ h
  obtain ⟨hfields, hlen, hrefs, hflags, hocc⟩ := hP
  obtain ⟨a, hat, hap, _⟩ := findIndex_eq_some _ _ _ hindex
  simp only [Bool.and_eq_true, beq_iff_eq, Bool.not_eq_true'] at hap
  have hamem : a ∈ st.ranks (st.obj ev.officer).Rank := List.getElem?_mem hat
  have ha : a = ev.officer := by
    apply huniq a ev.officer (hrefs _ a hamem) hev
    rw [← hfields a, ← hfields ev.officer]
    exact hap.1
  rw [ha] at hat hap
  have hDk : D ev.officer = false := by rw [← hflags ev.officer]; exact hap.2
  have hgetD : (st.ranks (st.obj ev.officer).Rank).getD index 0 = ev.officer := by
    rw [List.getD_eq_getElem?_getD, hat]
    rfl
  rw [hgetD]
  have hget : ∀ j, (st.update (st.heap.modify (fun o => { o with displayRetired := true })
        ev.officer)
      (setRank st.ranks (st.obj ev.officer).Rank
        ((st.ranks (st.obj ev.officer).Rank).eraseIdx index))).obj j
      = if ev.officer = j ∧ j < st.heap.length then { st.obj j with displayRetired := true }
        else st.obj j := by
    intro j
    rw [obj_update, getD_modify]
    rfl
  have hcount : ∀ r j, (setRank st.ranks (st.obj ev.officer).Rank
        ((st.ranks (st.obj ev.officer).Rank).eraseIdx index) r).count j
      + (if r = (st.obj ev.officer).Rank ∧ j = ev.officer then 1 else 0)
      = (st.ranks r).count j := by
    intro r j
    unfold setRank
    by_cases hr : r = (st.obj ev.officer).Rank
    · rw [if_pos hr]
      have := count_eraseIdx_add _ index ev.officer hat j
      rw [hr]
      by_cases hj : j = ev.officer
      · simp only [hj, and_self, if_true] at this ⊢
        exact this
      · simp only [hj, and_false, if_false] at this ⊢
        exact this
    · rw [if_neg hr]
      simp [hr]
  refine ⟨?_, ?_, ?_, ?_, ?_⟩
  · intro j
    rw [hget j]
    split_ifs
    · exact hfields j
    · exact hfields j
  · show (st.heap.modify _ ev.officer).length = _
    rw [List.length_modify]
    exact hlen
  · intro r j hj
    change j ∈ setRank _ _ _ r at hj
    unfold setRank at hj
    split_ifs at hj with hk
    · subst hk
      exact hrefs _ j ((List.eraseIdx_sublist _ _).subset hj)
    · exact hrefs r j hj
  · intro j
    rw [hget j]
    by_cases hj : j = ev.officer
    · subst hj
      rw [if_pos ⟨rfl, hlen ▸ hev⟩]
      simp
    · rw [if_neg (fun h => hj h.1.symm), hflags j]
      simp [hj]
  · intro j hj
    by_cases hjk : j = ev.officer
    · subst hjk
      refine ⟨fun _ r => ?_, fun h => ?_⟩
      · have h1 := hcount r ev.officer
        have h2 := ((hocc ev.officer hev).2 hDk).2 r
        show (setRank _ _ _ r).count ev.officer = 0
        by_cases hr : r = (st.obj ev.officer).Rank
        · simp only [hr, and_self, if_true] at h1 h2
          rw [hr]
          omega
        · simp only [hr, false_and, if_false] at h1 h2
          omega
      · simp at h
    · have hD' : (D j || decide (j = ev.officer)) = D j := by simp [hjk]
      have hobj := hget j
      rw [if_neg (fun h => hjk h.1.symm)] at hobj
      have hc : ∀ r, (setRank st.ranks (st.obj ev.officer).Rank
          ((st.ranks (st.obj ev.officer).Rank).eraseIdx index) r).count j
          = (st.ranks r).count j := by
        intro r
        have := hcount r j
        simp only [hjk, and_false, if_false, add_zero] at this
        exact this
      simp only [hD']
      refine ⟨fun h r => ?_, fun h => ?_⟩
      · show (setRank _ _ _ r).count j = 0
        rw [hc r]
        exact (hocc j hj).1 h r
      · rw [hobj]
        refine ⟨((hocc j hj).2 h).1, fun r => ?_⟩
        show (setRank _ _ _ r).count j = _
        rw [hc r]
        exact ((hocc j hj).2 h).2 r

/-- The display event loop keeps the occupancy invariant and marks the officers of its
events. -/
theorem displayInv_processDisplayEvents (RO : List String) (SLOTS : String → Nat)
    (hnd : RO.Nodup) (fuel : Nat) (heap0 : List Officer)
    (huniq : ∀ j k, j < heap0.length → k < heap0.length →
      (heap0.getD j default).IRLA = (heap0.getD k default).IRLA → j = k) :
    ∀ (events : List DisplayEvent) (D : Nat → Bool) (st st' : DisplayState),
      (∀ ev ∈ events, ev.officer < heap0.length) → DisplayInv RO heap0 D st →
      processDisplayEvents RO SLOTS fuel st events = .ok st' →
      DisplayInv RO heap0
        (fun j => D j || decide (j ∈ events.map (fun e => e.officer))) st' := by
  intro events
  induction events with
  | nil =>
    intro D st st' _ hP h
    simp only [processDisplayEvents, Except.ok.injEq] at h
    subst h
    exact displayInv_congr RO heap0 D _ st (fun j => by simp) hP
  | cons ev rest ih =>
    intro D st st' hev hP h
    unfold processDisplayEvents at h
    split at h
    · exact absurd h (by simp)
    rename_i st1 hst1
    have h1 := displayInv_processDisplayEvent RO SLOTS hnd fuel heap0 D st st1 ev huniq
      (hev ev (List.mem_cons_self _ _)) hP hst1
    have h2 := ih _ st1 st' (fun e he => hev e (List.mem_cons_of_mem _ he)) h1 h
    refine displayInv_congr RO heap0 _ _ st' ?_ h2
    intro j
    simp only [List.map_cons, List.mem_cons, Bool.decide_or, Bool.or_assoc]

/-- The display pass starts in a state that satisfies the occupancy invariant, with no object
marked. -/
theorem displayInv_initial (RO : List String) (heap : List Officer) (st : DisplayState)
    (hflags : ∀ o ∈ heap, o.displayRetired = false)
    (h : initialDisplay RO heap = .ok st) : DisplayInv RO heap (fun _ => false) st := by
  obtain ⟨hin, hheap, hranks, _⟩ := initialDisplay_ranks RO heap st h
  have hobj : ∀ j, st.obj j = heap.getD j default := by
    intro j
    unfold DisplayState.obj
    rw [hheap]
  refine ⟨fun j => by rw [hobj j], by rw [hheap], ?_, ?_, ?_⟩
  · intro r j hj
    rw [hranks r, mem_jsSort, List.mem_filter] at hj
    exact List.mem_range.1 hj.1
  · intro j
    rw [hobj j, List.getD_eq_getElem?_getD]
    by_cases hj : j < heap.length
    · rw [List.getElem?_eq_getElem hj]
      exact hflags _ (List.getElem_mem _)
    · rw [List.getElem?_eq_none (by omega)]
      rfl
  · intro j hj
    refine ⟨fun h => by simp at h, fun _ => ⟨?_, fun r => ?_⟩⟩
    · rw [hobj j, List.getD_eq_getElem?_getD, List.getElem?_eq_getElem hj]
      exact hin _ (List.getElem_mem _)
    · rw [hranks r, (jsSort_perm _ _).count_eq, hobj j]
      have h1 : (List.range heap.length).count j = 1 :=
        List.count_eq_one_of_mem (List.nodup_range _) (List.mem_range.2 hj)
      by_cases hr : r = (heap.getD j default).Rank
      · rw [if_pos hr, List.count_filter (by simp [hr]), h1]
      · rw [if_neg hr, List.count_eq_zero]
        intro hmem
        rw [List.mem_filter] at hmem
        have := hmem.2
        simp only [decide_eq_true_eq] at this
        exact hr this.symm

/-- The officers of the display events are the objects that are not frozen and retire on or
before the query date. -/
theorem mem_displayEvents_iff (heap : List Officer) (currentDate : JsDate) (j : Nat) :
    j ∈ (displayEvents heap currentDate).map (fun e => e.officer) ↔
      j < heap.length ∧ (heap.getD j default).Frozen.truthy = false ∧
        (getRetirementDate (heap.getD j default).DOB).le currentDate = true := by
  constructor
  · intro h
    obtain ⟨ev, hev, rfl⟩ := List.mem_map.1 h
    have h' := (mem_jsSort _ _ _).1 hev
    simp only [List.mem_filterMap, List.mem_filter, List.mem_range, Bool.not_eq_true'] at h'
    obtain ⟨r, ⟨hr, hf⟩, hev'⟩ := h'
    split_ifs at hev' with hle
    simp only [Option.some.injEq] at hev'
    subst hev'
    exact ⟨hr, hf, hle⟩
  · rintro ⟨hj, hf, hle⟩
    refine List.mem_map.2 ⟨⟨getRetirementDate (heap.getD j default).DOB, j⟩, ?_, rfl⟩
    unfold displayEvents
    rw [mem_jsSort]
    simp only [List.mem_filterMap, List.mem_filter, List.mem_range, Bool.not_eq_true']
    exact ⟨j, ⟨hj, hf⟩, by rw [if_pos hle]⟩

/-- The entries of a display rank that carry the IRLA of object `i` are the occurrences of `i`
among the unmarked entries. -/
theorem displayRanks_count (heap0 : List Officer) (st : DisplayState) (i : Nat) (r : String)
    (huniq : ∀ j k, j < heap0.length → k < heap0.length →
      (heap0.getD j default).IRLA = (heap0.getD k default).IRLA → j = k)
    (hfields : ∀ j, (st.obj j).IRLA = (heap0.getD j default).IRLA)
    (hrefs : ∀ r, ∀ j ∈ st.ranks r, j < heap0.length) (hi : i < heap0.length) :
    (((st.active r).map st.obj).filter
        (fun x => decide (x.IRLA = (heap0.getD i default).IRLA))).length
      = if (st.obj i).displayRetired then 0 else (st.ranks r).count i := by
  rw [List.filter_map, List.length_map]
  have hcongr : (st.active r).filter
        ((fun x : Officer => decide (x.IRLA = (heap0.getD i default).IRLA)) ∘ st.obj)
      = (st.active r).filter (fun j => j == i) := by
    apply List.filter_congr
    intro j hj
    have hj' : j ∈ st.ranks r := (List.mem_filter.1 hj).1
    simp only [Function.comp, hfields j]
    by_cases hji : j = i
    · rw [hji]
      simp
    · have : (heap0.getD j default).IRLA ≠ (heap0.getD i default).IRLA :=
        fun e => hji (huniq j i (hrefs r j hj') hi e)
      rw [decide_eq_false this]
      exact (beq_eq_false_iff_ne.2 hji).symm
  rw [hcongr, ← List.countP_eq_length_filter, ← List.count_eq_countP]
  unfold DisplayState.active activeIn
  by_cases hd : (st.obj i).displayRetired = true
  · rw [if_pos hd, List.count_eq_zero]
    intro hmem
    have := (List.mem_filter.1 hmem).2
    have hd' : (st.heap.getD i default).displayRetired = true := hd
    rw [hd'] at this
    simp at this
  · rw [if_neg hd]
    have hd' : (st.heap.getD i default).displayRetired = false := by
      simpa [DisplayState.obj] using hd
    exact List.count_filter (by rw [hd']; rfl)

/-- The objects of `officersCopy`. -/
theorem officersCopy_getD (officers : List Member) (j : Nat) (m : Member)
    (h : officers[j]? = some m) :
    (officersCopy officers).getD j default = m.toOfficer.initialise := by
  simp [officersCopy, List.getD_eq_getElem?_getD, h]

/-- Distinct IRLAs in the roster are distinct IRLAs of the working copies. -/
theorem officersCopy_irla_inj (officers : List Member)
    (hirla : (officers.map (fun m => m.IRLA)).Nodup) :
    ∀ j k, j < (officersCopy officers).length → k < (officersCopy officers).length →
      ((officersCopy officers).getD j default).IRLA
        = ((officersCopy officers).getD k default).IRLA → j = k := by
  have hlen : (officersCopy officers).length = officers.length := by simp [officersCopy]
  intro j k hj hk hjk
  rw [hlen] at hj hk
  rw [officersCopy_getD officers j _ (List.getElem?_eq_getElem hj),
    officersCopy_getD officers k _ (List.getElem?_eq_getElem hk)] at hjk
  have hj' : j < (officers.map (fun m => m.IRLA)).length := by simpa using hj
  have hk' : k < (officers.map (fun m => m.IRLA)).length := by simpa using hk
  have hinj : (officers.map (fun m => m.IRLA))[j] = (officers.map (fun m => m.IRLA))[k] →
      j = k := (List.Nodup.getElem_inj_iff hirla).1
  exact hinj (by simpa [Member.toOfficer, Officer.initialise] using hjk)

/-- The state in which the display pass ends satisfies the occupancy invariant, the marked
objects being those that are not frozen and retire on or before the query date. -/
theorem runDisplay_inv (RO : List String) (SLOTS : String → Nat) (hnd : RO.Nodup) (fuel : Nat)
    (officers : List Member) (currentDate : JsDate) (st : DisplayState)
    (hirla : (officers.map (fun m => m.IRLA)).Nodup)
    (h : runDisplay RO SLOTS fuel officers currentDate = .ok st) :
    DisplayInv RO (officersCopy officers)
      (fun j => decide (j ∈ (displayEvents (officersCopy officers) currentDate).map
        (fun e => e.officer))) st := by
  unfold runDisplay at h
  split at h
  · exact absurd h (by simp)
  rename_i st0 hst0
  have h0 := displayInv_initial RO (officersCopy officers) st0 (by
    intro o ho
    simp only [officersCopy, List.mem_map] at ho
    obtain ⟨m, _, rfl⟩ := ho
    rfl) hst0
  have hfin := displayInv_processDisplayEvents RO SLOTS hnd fuel (officersCopy officers)
    (officersCopy_irla_inj officers hirla) _ _ st0 st
    (fun ev hev => ((mem_displayEvents_iff _ currentDate ev.officer).1
      (List.mem_map_of_mem _ hev)).1) h0 h
  exact displayInv_congr RO _ _ _ st (fun j => by simp) hfin

/-! ## Ledger replay against the state of `simulatePromotions` -/

theorem JsDate.le_trans (a b c : JsDate) (h1 : a.le b = true) (h2 : b.le c = true) :
    a.le c = true := by
  cases a <;> cases b <;> cases c <;> simp_all [JsDate.le]
  omega

/-- A list in date order is its events dated on or before `X` followed by the others. -/
theorem sorted_split (X : JsDate) (l : List RetirementEvent)
    (h : l.Pairwise (fun a b => a.date.le b.date = true)) :
    l = l.filter (fun e => e.date.le X) ++ l.filter (fun e => !e.date.le X) := by
  induction l with
  | nil => rfl
  | cons a t ih =>
    rw [List.pairwise_cons] at h
    by_cases ha : a.date.le X = true
    · rw [List.filter_cons_of_pos (p := fun e : RetirementEvent => e.date.le X) ha,
        List.filter_cons_of_neg (p := fun e : RetirementEvent => !e.date.le X) (by simp [ha]),
        List.cons_append, ← ih h.2]
    · have hall : ∀ b ∈ t, ¬ (b.date.le X = true) :=
        fun b hb hbX => ha (JsDate.le_trans _ _ _ (h.1 b hb) hbX)
      have h1 : t.filter (fun e => e.date.le X) = [] := List.filter_eq_nil_iff.2 hall
      have h2 : t.filter (fun e => !e.date.le X) = t :=
        List.filter_eq_self.2 (fun b hb => by simpa using hall b hb)
      rw [List.filter_cons_of_neg (p := fun e : RetirementEvent => e.date.le X) ha,
        List.filter_cons_of_pos (p := fun e : RetirementEvent => !e.date.le X)
          (by simpa using ha), h1, h2, List.nil_append]

/-- The event loop of `simulatePromotions` over two lists in a row. -/
theorem Simplified.processEvents_append (RO : List String) (SLOTS : String → Nat) (fuel : Nat)
    (l1 l2 : List RetirementEvent) :
    ∀ (st st' : TimelineState),
      Simplified.processEvents RO SLOTS fuel st (l1 ++ l2) = .ok st' →
      ∃ s, Simplified.processEvents RO SLOTS fuel st l1 = .ok s ∧
        Simplified.processEvents RO SLOTS fuel s l2 = .ok st' := by
  induction l1 with
  | nil => intro st st' h; exact ⟨st, rfl, h⟩
  | cons ev rest ih =>
    intro st st' h
    rw [List.cons_append] at h
    unfold Simplified.processEvents at h
    split at h
    · exact absurd h (by simp)
    rename_i s1 hs1
    obtain ⟨s, h1, h2⟩ := ih s1 st' h
    refine ⟨s, ?_, h2⟩
    unfold Simplified.processEvents
    rw [hs1]
    exact h1

/-- Invariant principle for the event loop of `simulatePromotions`. -/
theorem Simplified.processEvents_preserves (RO : List String) (SLOTS : String → Nat)
    (fuel : Nat) (P : TimelineState → Prop) (events : List RetirementEvent)
    (hevent : ∀ st ev st', ev ∈ events → P st →
      Simplified.processEvent RO SLOTS fuel st ev = .ok st' → P st') :
    ∀ st st', P st → Simplified.processEvents RO SLOTS fuel st events = .ok st' → P st' := by
  induction events with
  | nil =>
    intro st st' hP h
    simp only [Simplified.processEvents, Except.ok.injEq] at h
    exact h ▸ hP
  | cons ev rest ih =>
    intro st st' hP h
    unfold Simplified.processEvents at h
    split at h
    · exact absurd h (by simp)
    · rename_i st1 hst1
      exact ih (fun s e s' he => hevent s e s' (List.mem_cons_of_mem _ he)) st1 st'
        (hevent st ev st1 (List.mem_cons_self _ _) hP hst1) h

/-- The effective rank at `X` after a promotion dated on or before `X`. -/
theorem effectiveRank_promote_le (st : TimelineState) (vr lr : String) (i : Nat)
    (cand : Officer) (date : JsDate) (cause : Officer) (X : JsDate) (hle : date.le X = true)
    (k r0 : String) :
    effectiveRank (promote st vr lr i cand date cause).records X k r0
      = if k = cand.IRLA then vr else effectiveRank st.records X k r0 := by
  unfold effectiveRank
  rw [promote_records]
  split_ifs with hk
  · rw [List.filter_append,
      List.filter_cons_of_pos (p := fun r : PromotionRecord => r.date.le X) hle,
      List.filter_nil, List.getLast?_append_of_ne_nil _ (List.cons_ne_nil _ _)]
    rfl
  · rfl

/-- The effective rank at `X` does not see a promotion that is not dated on or before `X`. -/
theorem filter_promote_gt (st : TimelineState) (vr lr : String) (i : Nat)
    (cand : Officer) (date : JsDate) (cause : Officer) (X : JsDate) (hgt : ¬ date.le X = true)
    (k : String) :
    ((promote st vr lr i cand date cause).records k).filter (fun r => r.date.le X)
      = (st.records k).filter (fun r => r.date.le X) := by
  rw [promote_records]
  split_ifs with hk
  · rw [List.filter_append,
      List.filter_cons_of_neg (p := fun r : PromotionRecord => r.date.le X) hgt,
      List.filter_nil, List.append_nil]
  · rfl

/-- A promotion dated on or before `X` keeps the replay invariant. -/
theorem replayInv_promote (SLOTS : String → Nat) (officers : List Member) (X : JsDate)
    (done : List String) (st : TimelineState) (vr lr : String) (i : Nat) (cand : Officer)
    (date : JsDate) (cause : Officer) (hguard : (st.ranks vr).length < SLOTS vr)
    (hle : date.le X = true) (hc : (st.ranks lr)[i]? = some cand)
    (hP : ReplayInv SLOTS officers X done st) :
    ReplayInv SLOTS officers X done (promote st vr lr i cand date cause) := by
  obtain ⟨hcap, hocc⟩ := hP
  have hkeep : ∀ r, ∀ o ∈ st.ranks r, o.IRLA ≠ cand.IRLA →
      o ∈ (promote st vr lr i cand date cause).ranks r := by
    intro r o ho hne
    rw [promote_ranks]
    have h1 : o ∈ setRank st.ranks lr ((st.ranks lr).eraseIdx i) r := by
      unfold setRank
      split_ifs with hr
      · subst hr
        exact mem_eraseIdx_of_ne _ i o cand ho hc (fun e => hne (by rw [e]))
      · exact ho
    unfold pushRank
    split_ifs
    · exact List.mem_append_left _ h1
    · exact h1
  refine ⟨?_, ?_⟩
  · intro r
    rw [promote_ranks]
    unfold pushRank setRank
    by_cases h1 : r = vr
    · rw [if_pos h1, List.length_append]
      by_cases h2 : r = lr
      · rw [if_pos h2]
        have := (List.eraseIdx_sublist (st.ranks lr) i).length_le
        have hg := hguard
        rw [← h1, h2] at hg
        rw [h2]
        simp only [List.length_singleton]
        omega
      · rw [if_neg h2]
        have hg := hguard
        rw [← h1] at hg
        simp only [List.length_singleton]
        omega
    · rw [if_neg h1]
      split_ifs with h2
      · exact le_trans (List.eraseIdx_sublist _ _).length_le (h2 ▸ hcap lr)
      · exact hcap r
  · intro m hm hdone
    rw [effectiveRank_promote_le st vr lr i cand date cause X hle]
    by_cases hk : m.IRLA = cand.IRLA
    · rw [if_pos hk]
      refine ⟨{ cand with Rank := vr }, ?_, hk.symm⟩
      rw [promote_ranks, pushRank_eq]
      exact List.mem_append_right _ (List.mem_singleton_self _)
    · rw [if_neg hk]
      obtain ⟨o, ho, hoI⟩ := hocc m hm hdone
      exact ⟨o, hkeep _ o ho (fun e => hk (hoI.symm.trans e)), hoI⟩

/-- An event of `simulatePromotions` dated on or before `X` keeps the replay invariant, its
officer counting as done from then on. -/
theorem replayInv_processEvent (RO : List String) (SLOTS : String → Nat) (fuel : Nat)
    (officers : List Member) (X : JsDate) (done : List String) (st st' : TimelineState)
    (ev : RetirementEvent) (hle : ev.date.le X = true)
    (hP : ReplayInv SLOTS officers X done st)
    (h : Simplified.processEvent RO SLOTS fuel st ev = .ok st') :
    ReplayInv SLOTS officers X (ev.officer.IRLA :: done) st' := by
  have hweak : ReplayInv SLOTS officers X (ev.officer.IRLA :: done) st :=
    ⟨hP.1, fun m hm hd => hP.2 m hm (fun h => hd (List.mem_cons_of_mem _ h))⟩
  unfold Simplified.processEvent at h
  split_ifs at h
  · simp only [Except.ok.injEq] at h
    exact h ▸ hweak
  simp only [Simplified.fillRankUpwards_eq] at h
  refine fillVacancy_preserves RO SLOTS ev.date ev.officer
    (ReplayInv SLOTS officers X (ev.officer.IRLA :: done))
    (fun s vr lr i cand hs _ hg _ _ _ hc =>
      replayInv_promote SLOTS officers X _ s vr lr i cand ev.date ev.officer hg hle hc hs)
    fuel _ _ _ ?_ h
  split
  · exact hweak
  rename_i index hindex
  obtain ⟨a, hat, hap, _⟩ := findIndex_eq_some _ _ _ hindex
  have haI : a.IRLA = ev.officer.IRLA := by simpa using hap
  refine ⟨?_, ?_⟩
  · intro r
    rw [withRanks_ranks]
    unfold setRank
    split_ifs with hr
    · exact le_trans (List.eraseIdx_sublist _ _).length_le (hr ▸ hP.1 ev.officer.Rank)
    · exact hP.1 r
  · intro m hm hdone
    rw [List.mem_cons, not_or] at hdone
    obtain ⟨o, ho, hoI⟩ := hP.2 m hm hdone.2
    refine ⟨o, ?_, hoI⟩
    rw [withRanks_records, withRanks_ranks]
    unfold setRank
    split_ifs with hr
    · rw [hr] at ho
      exact mem_eraseIdx_of_ne _ index o a ho hat
        (fun e => hdone.1 (by rw [← hoI, e, haI]))
    · exact ho

/-- The events dated on or before `X` keep the replay invariant for the members that none of
them names. -/
theorem replayInv_processEvents (RO : List String) (SLOTS : String → Nat) (fuel : Nat)
    (officers : List Member) (X : JsDate) :
    ∀ (events : List RetirementEvent) (done : List String) (st st' : TimelineState),
      (∀ e ∈ events, e.date.le X = true) → ReplayInv SLOTS officers X done st →
      Simplified.processEvents RO SLOTS fuel st events = .ok st' →
      ReplayInv SLOTS officers X (events.map (fun e => e.officer.IRLA) ++ done) st' := by
  intro events
  induction events with
  | nil =>
    intro done st st' _ hP h
    simp only [Simplified.processEvents, Except.ok.injEq] at h
    exact h ▸ hP
  | cons ev rest ih =>
    intro done st st' hle hP h
    unfold Simplified.processEvents at h
    split at h
    · exact absurd h (by simp)
    rename_i st1 hst1
    have h1 := replayInv_processEvent RO SLOTS fuel officers X done st st1 ev
      (hle ev (List.mem_cons_self _ _)) hP hst1
    have h2 := ih _ st1 st' (fun e he => hle e (List.mem_cons_of_mem _ he)) h1 h
    refine ⟨h2.1, fun m hm hd => h2.2 m hm (fun hmem => hd ?_)⟩
    rw [List.map_cons]
    rcases List.mem_append.1 hmem with h | h
    · exact List.mem_append_left _ (List.mem_cons_of_mem _ h)
    · rcases List.mem_cons.1 h with h | h
      · exact List.mem_append_left _ (h ▸ List.mem_cons_self _ _)
      · exact List.mem_append_right _ h

/-- Events that are not dated on or before `X` leave the effective ranks at `X` as they
were. -/
theorem Simplified.processEvents_filter (RO : List String) (SLOTS : String → Nat) (fuel : Nat)
    (X : JsDate) (events : List RetirementEvent) (st st' : TimelineState)
    (hgt : ∀ e ∈ events, ¬ e.date.le X = true)
    (h : Simplified.processEvents RO SLOTS fuel st events = .ok st') :
    ∀ k, (st'.records k).filter (fun r => r.date.le X)
      = (st.records k).filter (fun r => r.date.le X) := by
  refine Simplified.processEvents_preserves RO SLOTS fuel
    (fun s => ∀ k, (s.records k).filter (fun r => r.date.le X)
      = (st.records k).filter (fun r => r.date.le X)) events ?_ st st' (fun _ => rfl) h
  intro s ev s' hev hs hs'
  refine Simplified.processEvent_preserves RO SLOTS fuel
    (fun s => ∀ k, (s.records k).filter (fun r => r.date.le X)
      = (st.records k).filter (fun r => r.date.le X)) ev ?_ ?_ s s' hs hs'
  · intro t rs ht k
    rw [withRanks_records]
    exact ht k
  · intro t vr lr i cand ht _ _ _ _ _ _ k
    rw [filter_promote_gt t vr lr i cand ev.date ev.officer X (hgt ev hev)]
    exact ht k

/-- The state in which `simulatePromotions` starts satisfies the replay invariant. -/
theorem replayInv_initial (RO : List String) (SLOTS : String → Nat) (officers : List Member)
    (X : JsDate) (rankMap : RankStructure Officer)
    (hcap : ∀ r ∈ RO, (officers.filter (fun m => m.Rank = r)).length ≤ SLOTS r)
    (h : Simplified.buildRankStructures RO (Simplified.officersCopy officers) = .ok rankMap) :
    ReplayInv SLOTS officers X []
      { ranks := rankMap, records := fun _ => [], history := [rankMap] } := by
  unfold Simplified.buildRankStructures at h
  split at h
  · exact absurd h (by simp)
  rename_i raw hraw
  simp only [Except.ok.injEq] at h
  subst h
  obtain ⟨hin, hk⟩ := addToRanks_ok RO _ _ _ raw hraw
  have hin' : ∀ m ∈ officers, m.Rank ∈ RO := fun m hm =>
    hin { m.toOfficer with Retired := false } (List.mem_map_of_mem _ hm)
  have hlen : ∀ r, ((Simplified.officersCopy officers).filter (fun o => o.Rank = r)).length
      = (officers.filter (fun m => m.Rank = r)).length := by
    intro r
    unfold Simplified.officersCopy
    rw [List.filter_map, List.length_map]
    rfl
  refine ⟨?_, ?_⟩
  · intro r
    show (jsSort seniorityCompare (raw r)).length ≤ _
    rw [length_jsSort, hk r, List.nil_append, hlen]
    exact capacity_all_ranks RO SLOTS officers hin' hcap r
  · intro m hm _
    refine ⟨{ m.toOfficer with Retired := false }, ?_, rfl⟩
    show { m.toOfficer with Retired := false } ∈ jsSort seniorityCompare (raw m.Rank)
    rw [mem_jsSort, hk m.Rank, List.nil_append, List.mem_filter]
    exact ⟨List.mem_map_of_mem _ hm, by simp [Member.toOfficer]⟩

/-- Each rank list of the ledger replay is no longer than the list that `simulatePromotions`
held under that rank after its events dated on or before `X`, and so within capacity. -/
theorem Simplified.replay_capacity (RO : List String) (SLOTS : String → Nat) (fuel : Nat)
    (officers : List Member) (X : JsDate) (P : Ledger) (rankMap : RankStructure Member)
    (hcap : ∀ r ∈ RO, (officers.filter (fun m => m.Rank = r)).length ≤ SLOTS r)
    (hirla : (officers.map (fun m => m.IRLA)).Nodup)
    (hvalid : ∀ m ∈ officers, m.Frozen.truthy = false →
      (Simplified.getRetirementDate m.DOB).isSome = true)
    (hP : Simplified.simulatePromotions RO SLOTS fuel officers = .ok P)
    (hf : Simplified.filterByDate RO officers P X = .ok rankMap) :
    ∀ rank, (rankMap rank).length ≤ SLOTS rank := by
  unfold Simplified.simulatePromotions at hP
  split at hP
  · exact absurd hP (by simp)
  rename_i stf hstf
  simp only [Except.ok.injEq] at hP
  subst hP
  unfold Simplified.simulate at hstf
  split at hstf
  · exact absurd hstf (by simp)
  rename_i rankMap0 hrm0
  have hev : Simplified.buildRetirementEvents (officersCopy officers)
      = allRetirementEvents (officersCopy officers) := rfl
  rw [hev] at hstf
  obtain ⟨hsorted, _⟩ := allRetirementEvents_sorted_of (officersCopy officers) (by
    intro o ho hfo
    simp only [Simplified.officersCopy, List.mem_map] at ho
    obtain ⟨m, hm, rfl⟩ := ho
    have := hvalid m hm hfo
    rw [Simplified.getRetirementDate_eq] at this
    exact this)
  have hsplit := sorted_split X _ hsorted
  rw [hsplit] at hstf
  obtain ⟨s1, hpre, hpost⟩ := Simplified.processEvents_append RO SLOTS fuel _ _ _ _ hstf
  have h0 := replayInv_initial RO SLOTS officers X rankMap0 hcap hrm0
  have h1 := replayInv_processEvents RO SLOTS fuel officers X _ [] _ s1
    (fun e he => (List.mem_filter.1 he).2) h0 hpre
  have hfilter := Simplified.processEvents_filter RO SLOTS fuel X _ s1 stf
    (fun e he => by simpa using (List.mem_filter.1 he).2) hpost
  have heff : ∀ k r0, effectiveRank stf.records X k r0 = effectiveRank s1.records X k r0 := by
    intro k r0
    unfold effectiveRank
    rw [hfilter k]
  intro rank
  unfold Simplified.filterByDate at hf
  split_ifs at hf
  unfold Simplified.keptByDate at hf
  rw [(addToRanks_ok RO _ _ _ rankMap hf).2 rank, List.nil_append, List.filter_map,
    List.length_map]
  refine le_trans ?_ (h1.1 rank)
  rw [← List.length_map (List.filter _ _) (fun m : Member => m.IRLA),
    ← List.length_map (s1.ranks rank) (fun o : Officer => o.IRLA)]
  apply List.Subperm.length_le
  apply List.subperm_of_subset
  · exact hirla.sublist (((List.filter_sublist _).trans (List.filter_sublist _)).map _)
  · intro k hk
    obtain ⟨m, hm, rfl⟩ := List.mem_map.1 hk
    rw [List.mem_filter, List.mem_filter] at hm
    obtain ⟨⟨hmo, halive⟩, hrank⟩ := hm
    have hrank' : effectiveRank stf.records X m.IRLA m.Rank = rank := by
      simpa [Function.comp, Simplified.currentRank, effectiveRank] using hrank
    have hnot : m.IRLA ∉ List.map (fun e : RetirementEvent => e.officer.IRLA)
        ((allRetirementEvents (officersCopy officers)).filter (fun e => e.date.le X)) ++ [] := by
      rw [List.append_nil]
      intro hmem
      obtain ⟨e, he, heI⟩ := List.mem_map.1 hmem
      rw [List.mem_filter] at he
      obtain ⟨o', ho'mem, hf', ho', hd'⟩ := mem_allRetirementEvents_of _ e he.1
      simp only [Simplified.officersCopy, List.mem_map] at ho'mem
      obtain ⟨m', hm', hmo'⟩ := ho'mem
      rw [← hmo'] at hf' hd' ho'
      have hmm : m' = m := by
        apply List.inj_on_of_nodup_map hirla hm' hmo
        rw [← heI, ho']
        rfl
      subst hmm
      have hle := he.2
      rw [hd'] at hle
      have hle' : (Simplified.getRetirementDate m'.DOB).le X = true := hle
      have hf'' : m'.Frozen.truthy = false := hf'
      rw [hle', hf''] at halive
      simp at halive
    obtain ⟨o, ho, hoI⟩ := h1.2 m hmo hnot
    rw [← heff, hrank'] at ho
    exact List.mem_map.2 ⟨o, ho, hoI⟩

/-! ## promotionUtils.js never reads `Frozen` -/

theorem getD_map_clearFrozen (heap : List Officer) (r : Nat) :
    (heap.map clearFrozen).getD r default = clearFrozen (heap.getD r default) := by
  rw [List.getD_eq_getElem?_getD, List.getD_eq_getElem?_getD, List.getElem?_map]
  cases heap[r]? <;> rfl

theorem PromotionUtils.obj_clearFrozen (st : PromotionUtils.State) (r : Nat) :
    st.clearFrozen.obj r = clearFrozen (st.obj r) :=
  getD_map_clearFrozen st.heap r

/-- Clearing the flags commutes with a write that does not touch them. -/
theorem modify_map_clearFrozen (f : Officer → Officer) (heap : List Officer) (r : Nat)
    (hf : ∀ o, f (clearFrozen o) = clearFrozen (f o)) :
    (heap.map clearFrozen).modify f r = (heap.modify f r).map clearFrozen := by
  induction heap generalizing r with
  | nil => cases r <;> rfl
  | cons o os ih =>
    cases r with
    | zero => simp [List.modify, hf]
    | succ n =>
      simp only [List.map_cons, List.modify_succ_cons, ih n]

/-- A promotion of promotionUtils.js does not read the `Frozen` flags. -/
theorem PromotionUtils.promote_clearFrozen (st : PromotionUtils.State) (rank lowerRank : String)
    (candidate : Nat) (eventDate : JsDate) (cause : Officer) :
    PromotionUtils.promote st.clearFrozen rank lowerRank candidate eventDate (clearFrozen cause)
      = (PromotionUtils.promote st rank lowerRank candidate eventDate cause).clearFrozen := by
  unfold PromotionUtils.promote PromotionUtils.State.clearFrozen
  simp only [PromotionUtils.State.mk.injEq]
  refine ⟨?_, ?_, ?_⟩
  · exact modify_map_clearFrozen _ _ _ (fun _ => rfl)
  · trivial
  · funext k
    have h := PromotionUtils.obj_clearFrozen st candidate
    unfold PromotionUtils.State.clearFrozen at h
    rw [h]
    rfl

/-- The function `fillRankUpwards` of promotionUtils.js does not read the `Frozen` flags. -/
theorem PromotionUtils.fillRankUpwards_clearFrozen (RO : List String) (SLOTS : String → Nat) :
    ∀ (fuel : Nat) (st : PromotionUtils.State) (rank : String) (eventDate : JsDate)
      (cause : Officer),
      PromotionUtils.fillRankUpwards RO SLOTS fuel st.clearFrozen rank eventDate
          (clearFrozen cause)
        = (PromotionUtils.fillRankUpwards RO SLOTS fuel st rank eventDate cause).map
            PromotionUtils.State.clearFrozen := by
  intro fuel
  induction fuel with
  | zero => intro st rank eventDate cause; rfl
  | succ n ih =>
    intro st rank eventDate cause
    have hrm : st.clearFrozen.rankMap = st.rankMap := rfl
    unfold PromotionUtils.fillRankUpwards
    simp only [hrm]
    by_cases h1 : rank ∉ RO
    · rw [if_pos h1, if_pos h1]
      rfl
    rw [if_neg h1, if_neg h1]
    by_cases h2 : (st.rankMap rank).length < SLOTS rank
    swap
    · rw [if_neg h2, if_neg h2]
      rfl
    rw [if_pos h2, if_pos h2]
    by_cases h3 : RO.indexOf rank = RO.length - 1
    · rw [if_pos h3, if_pos h3]
      rfl
    rw [if_neg h3, if_neg h3]
    cases hlr : RO[RO.indexOf rank + 1]? with
    | none => rfl
    | some lowerRank =>
      simp only []
      by_cases h4 : (st.rankMap lowerRank).length = 0
      · rw [if_pos h4, if_pos h4]
        rfl
      rw [if_neg h4, if_neg h4]
      have hf : (st.rankMap lowerRank).find? (fun r => !(st.clearFrozen.obj r).Retired)
          = (st.rankMap lowerRank).find? (fun r => !(st.obj r).Retired) := by
        simp only [PromotionUtils.obj_clearFrozen]
        rfl
      rw [hf]
      cases (st.rankMap lowerRank).find? (fun r => !(st.obj r).Retired) with
      | none => rfl
      | some candidate =>
        simp only []
        have hI : (st.clearFrozen.obj candidate).IRLA = (st.obj candidate).IRLA := by
          rw [PromotionUtils.obj_clearFrozen]
          rfl
        rw [hI]
        by_cases hk : (st.obj candidate).IRLA ∈ inheritedKeys
        · rw [if_pos hk, if_pos hk]
          rfl
        rw [if_neg hk, if_neg hk]
        rw [PromotionUtils.promote_clearFrozen, ih]
        cases PromotionUtils.fillRankUpwards RO SLOTS n
            (PromotionUtils.promote st rank lowerRank candidate eventDate cause)
            lowerRank eventDate cause with
        | error e => rfl
        | ok st' =>
          simp only [Except.map]
          exact ih st' rank eventDate cause

/-- One event of promotionUtils.js does not read the `Frozen` flags. -/
theorem PromotionUtils.processEvent_clearFrozen (RO : List String) (SLOTS : String → Nat)
    (fuel : Nat) (st : PromotionUtils.State) (event : PromotionUtils.Event) :
    PromotionUtils.processEvent RO SLOTS fuel st.clearFrozen event
      = (PromotionUtils.processEvent RO SLOTS fuel st event).map
          PromotionUtils.State.clearFrozen := by
  unfold PromotionUtils.processEvent
  have hrm : st.clearFrozen.rankMap = st.rankMap := rfl
  have hpr : st.clearFrozen.promotions = st.promotions := rfl
  simp only [PromotionUtils.obj_clearFrozen, hrm]
  have hR : (clearFrozen (st.obj event.officer)).Retired = (st.obj event.officer).Retired := rfl
  have hRank : (clearFrozen (st.obj event.officer)).Rank = (st.obj event.officer).Rank := rfl
  rw [hR, hRank]
  by_cases hret : (st.obj event.officer).Retired = true
  · rw [if_pos hret, if_pos hret]
    rfl
  rw [if_neg hret, if_neg hret]
  have hheap : st.clearFrozen.heap.modify (fun o => { o with Retired := true }) event.officer
      = (st.heap.modify (fun o => { o with Retired := true }) event.officer).map clearFrozen :=
    modify_map_clearFrozen _ _ _ (fun _ => rfl)
  rw [hheap]
  exact PromotionUtils.fillRankUpwards_clearFrozen RO SLOTS fuel
    { st with
      heap := st.heap.modify (fun o => { o with Retired := true }) event.officer
      rankMap :=
        match findIndex (fun r => (st.obj r).IRLA == (st.obj event.officer).IRLA)
            (st.rankMap (st.obj event.officer).Rank) with
        | none => st.rankMap
        | some i => setRank st.rankMap (st.obj event.officer).Rank
            ((st.rankMap (st.obj event.officer).Rank).eraseIdx i) }
    (st.obj event.officer).Rank event.date { st.obj event.officer with Retired := true }

/-- The event loop of promotionUtils.js does not read the `Frozen` flags. -/
theorem PromotionUtils.processEvents_clearFrozen (RO : List String) (SLOTS : String → Nat)
    (fuel : Nat) (events : List PromotionUtils.Event) :
    ∀ st : PromotionUtils.State,
      PromotionUtils.processEvents RO SLOTS fuel st.clearFrozen events
        = (PromotionUtils.processEvents RO SLOTS fuel st events).map
            PromotionUtils.State.clearFrozen := by
  induction events with
  | nil => intro st; rfl
  | cons ev rest ih =>
    intro st
    unfold PromotionUtils.processEvents
    rw [PromotionUtils.processEvent_clearFrozen]
    cases PromotionUtils.processEvent RO SLOTS fuel st ev with
    | error e => rfl
    | ok st' =>
      simp only [Except.map]
      exact ih st'

/-- The ledger of `simulatePromotions` of promotionUtils.js is the same whatever the `Frozen`
flags of the roster. -/
theorem PromotionUtils.simulatePromotions_clearFrozen (RO : List String) (SLOTS : String → Nat)
    (fuel : Nat) (officers : List Officer) :
    (PromotionUtils.simulatePromotions RO SLOTS fuel (officers.map clearFrozen)).map
        (fun r => r.1)
      = (PromotionUtils.simulatePromotions RO SLOTS fuel officers).map (fun r => r.1) := by
  unfold PromotionUtils.simulatePromotions
  have hb : PromotionUtils.buildRankStructures RO (officers.map clearFrozen)
      = PromotionUtils.buildRankStructures RO officers := by
    unfold PromotionUtils.buildRankStructures
    simp only [getD_map_clearFrozen, List.length_map]
    rfl
  have he : PromotionUtils.buildRetirementEvents (officers.map clearFrozen)
      = PromotionUtils.buildRetirementEvents officers := by
    unfold PromotionUtils.buildRetirementEvents
    simp only [getD_map_clearFrozen, List.length_map]
    rfl
  rw [hb, he]
  cases PromotionUtils.buildRankStructures RO officers with
  | error e => rfl
  | ok rankMap =>
    simp only []
    have h := PromotionUtils.processEvents_clearFrozen RO SLOTS fuel
      (PromotionUtils.buildRetirementEvents officers)
      { heap := officers, rankMap := rankMap, promotions := fun _ => [] }
    have hst : (⟨officers.map clearFrozen, rankMap, fun _ => []⟩ : PromotionUtils.State)
        = PromotionUtils.State.clearFrozen ⟨officers, rankMap, fun _ => []⟩ := rfl
    rw [hst, h]
    cases PromotionUtils.processEvents RO SLOTS fuel
        { heap := officers, rankMap := rankMap, promotions := fun _ => [] }
        (PromotionUtils.buildRetirementEvents officers) with
    | error e => rfl
    | ok st => rfl

/-- The function `buildRetirementEvents` of promotionUtils.js returns one event for every
officer. -/
theorem PromotionUtils.buildRetirementEvents_all (officers : List Officer) :
    ((PromotionUtils.buildRetirementEvents officers).map (fun e => e.officer)).Perm
        (List.range officers.length) ∧
    ∀ e ∈ PromotionUtils.buildRetirementEvents officers,
      e.date = getRetirementDate (officers.getD e.officer default).DOB := by
  unfold PromotionUtils.buildRetirementEvents
  refine ⟨?_, ?_⟩
  · refine ((jsSort_perm _ _).map _).trans ?_
    rw [List.map_map]
    have : ((fun e : PromotionUtils.Event => e.officer) ∘ fun r =>
        ({ date := getRetirementDate (officers.getD r default).DOB, officer := r }
          : PromotionUtils.Event)) = id := rfl
    rw [this, List.map_id]
  · intro e he
    rw [mem_jsSort, List.mem_map] at he
    obtain ⟨r, _, rfl⟩ := he
    rfl

/-! ## The entries of the timeline rank lists -/

/-- The rank below a vacancy rank is on the ladder, one position further down. -/
theorem indexOf_lower (RO : List String) (hnd : RO.Nodup) (vr lr : String)
    (hlr : RO[RO.indexOf vr + 1]? = some lr) :
    lr ∈ RO ∧ RO.indexOf lr = RO.indexOf vr + 1 ∧ lr ≠ vr := by
  have hlt : RO.indexOf vr + 1 < RO.length := by
    by_contra hcon
    rw [List.getElem?_eq_none (by omega)] at hlr
    exact absurd hlr (by simp)
  rw [List.getElem?_eq_getElem hlt, Option.some.injEq] at hlr
  have hidx : RO.indexOf lr = RO.indexOf vr + 1 := by
    rw [← hlr]
    exact List.indexOf_getElem hnd _ _
  refine ⟨?_, hidx, ?_⟩
  · rw [← hlr]
    exact List.getElem_mem _
  · intro e
    rw [e] at hidx
    omega

/-- An entry read at an index is a member of the list. -/
theorem mem_of_getElem?_some {α : Type} (l : List α) (i : Nat) (a : α) (h : l[i]? = some a) :
    a ∈ l := by
  obtain ⟨hi, rfl⟩ := List.getElem?_eq_some.1 h
  exact List.getElem_mem _

/-- In a list without repeated IRLAs, what is left after an entry is taken out differs from
that entry in its IRLA. -/
theorem irla_ne_of_mem_eraseIdx (l : List Officer) (i : Nat) (cand o : Officer)
    (hnd : (l.map (fun o => o.IRLA)).Nodup) (hc : l[i]? = some cand)
    (ho : o ∈ l.eraseIdx i) : o ∈ l ∧ o.IRLA ≠ cand.IRLA := by
  induction l generalizing i with
  | nil => exact absurd ho (by simp)
  | cons x xs ih =>
    rw [List.map_cons, List.nodup_cons] at hnd
    cases i with
    | zero =>
      simp only [List.getElem?_cons_zero, Option.some.injEq] at hc
      subst hc
      simp only [List.eraseIdx_cons_zero] at ho
      refine ⟨List.mem_cons_of_mem _ ho, ?_⟩
      intro e
      exact hnd.1 (List.mem_map.2 ⟨o, ho, e⟩)
    | succ n =>
      simp only [List.getElem?_cons_succ] at hc
      simp only [List.eraseIdx_cons_succ] at ho
      rcases List.mem_cons.1 ho with h | h
      · subst h
        refine ⟨List.mem_cons_self _ _, ?_⟩
        intro e
        exact hnd.1 (List.mem_map.2 ⟨cand, mem_of_getElem?_some _ _ _ hc, e.symm⟩)
      · obtain ⟨h1, h2⟩ := ih n hnd.2 hc h
        exact ⟨List.mem_cons_of_mem _ h1, h2⟩

/-- The entries of a rank list after a promotion: the promoted copy under the vacancy rank, and
the earlier entries, none of which has the candidate's IRLA. -/
theorem mem_promote_ranks (officers : List Member) (st : TimelineState) (vr lr : String)
    (i : Nat) (cand : Officer) (date : JsDate) (cause : Officer) (hne : lr ≠ vr)
    (hc : (st.ranks lr)[i]? = some cand) (hE : EntriesInv officers st) (r : String)
    (o : Officer) (ho : o ∈ (promote st vr lr i cand date cause).ranks r) :
    (r = vr ∧ o = { cand with Rank := vr }) ∨ (o ∈ st.ranks r ∧ o.IRLA ≠ cand.IRLA) := by
  have hcm : cand ∈ st.ranks lr := mem_of_getElem?_some _ _ _ hc
  by_cases h1 : r = vr
  · subst h1
    rw [promote_ranks_vacancy _ _ _ _ _ _ _ hne] at ho
    rcases List.mem_append.1 ho with h | h
    · exact Or.inr ⟨h, fun e => hne (hE.2.1 r lr o cand h hcm e).symm⟩
    · exact Or.inl ⟨rfl, by simpa using h⟩
  · by_cases h2 : r = lr
    · subst h2
      rw [promote_ranks_lower _ _ _ _ _ _ _ hne] at ho
      exact Or.inr (irla_ne_of_mem_eraseIdx _ i cand o (hE.1 r) hc ho)
    · rw [promote_ranks_other _ _ _ _ _ _ _ _ h1 h2] at ho
      exact Or.inr ⟨ho, fun e => h2 (hE.2.1 r lr o cand ho hcm e)⟩

/-- A promotion keeps the invariant on the entries. -/
theorem entriesInv_promote (officers : List Member) (st : TimelineState) (vr lr : String)
    (i : Nat) (cand : Officer) (date : JsDate) (cause : Officer) (hne : lr ≠ vr)
    (hc : (st.ranks lr)[i]? = some cand) (hE : EntriesInv officers st) :
    EntriesInv officers (promote st vr lr i cand date cause) := by
  have hcm : cand ∈ st.ranks lr := mem_of_getElem?_some _ _ _ hc
  have hmem := mem_promote_ranks officers st vr lr i cand date cause hne hc hE
  refine ⟨?_, ?_, ?_⟩
  · intro r
    by_cases h1 : r = vr
    · subst h1
      rw [promote_ranks_vacancy _ _ _ _ _ _ _ hne, List.map_append, List.nodup_append]
      refine ⟨hE.1 r, by simp, ?_⟩
      intro k hk hk'
      simp only [List.map_cons, List.map_nil, List.mem_singleton] at hk'
      obtain ⟨o, ho, rfl⟩ := List.mem_map.1 hk
      exact hne (hE.2.1 r lr o cand ho hcm hk').symm
    · by_cases h2 : r = lr
      · subst h2
        rw [promote_ranks_lower _ _ _ _ _ _ _ hne]
        exact (hE.1 r).sublist ((List.eraseIdx_sublist _ _).map _)
      · rw [promote_ranks_other _ _ _ _ _ _ _ _ h1 h2]
        exact hE.1 r
  · intro r r' o o' ho ho' e
    rcases hmem r o ho with ⟨h1, h2⟩ | ⟨h1, h2⟩
    · rcases hmem r' o' ho' with ⟨h3, _⟩ | ⟨_, h4⟩
      · rw [h1, h3]
      · rw [h2] at e
        exact absurd e.symm h4
    · rcases hmem r' o' ho' with ⟨_, h4⟩ | ⟨h3, _⟩
      · rw [h4] at e
        exact absurd e h2
      · exact hE.2.1 r r' o o' h1 h3 e
  · intro r o ho
    rcases hmem r o ho with ⟨_, h2⟩ | ⟨h1, _⟩
    · rw [h2]
      exact hE.2.2 lr cand hcm
    · exact hE.2.2 r o h1

/-- Taking an entry out of a rank list keeps the invariant on the entries. -/
theorem entriesInv_remove (officers : List Member) (st : TimelineState) (rank : String)
    (i : Nat) (hE : EntriesInv officers st) :
    EntriesInv officers (st.withRanks (setRank st.ranks rank ((st.ranks rank).eraseIdx i))) := by
  have hsub : ∀ r, ∀ o ∈ (st.withRanks
      (setRank st.ranks rank ((st.ranks rank).eraseIdx i))).ranks r, o ∈ st.ranks r := by
    intro r o ho
    rw [withRanks_ranks] at ho
    by_cases h : r = rank
    · subst h
      rw [setRank_eq] at ho
      exact (List.eraseIdx_sublist _ _).subset ho
    · rw [setRank_ne _ _ _ _ h] at ho
      exact ho
  refine ⟨?_, ?_, ?_⟩
  · intro r
    rw [withRanks_ranks]
    by_cases h : r = rank
    · subst h
      rw [setRank_eq]
      exact (hE.1 r).sublist ((List.eraseIdx_sublist _ _).map _)
    · rw [setRank_ne _ _ _ _ h]
      exact hE.1 r
  · intro r r' o o' ho ho' e
    exact hE.2.1 r r' o o' (hsub r o ho) (hsub r' o' ho') e
  · intro r o ho
    exact hE.2.2 r o (hsub r o ho)

/-- The initial structure of a roster with distinct IRLAs satisfies the invariant on the
entries. -/
theorem entriesInv_initial (RO : List String) (officers : List Member) (st : TimelineState)
    (hirla : (officers.map (fun m => m.IRLA)).Nodup)
    (h : initialTimeline RO officers = .ok st) : EntriesInv officers st := by
  obtain ⟨_, hranks, _, _⟩ := initialTimeline_ranks RO officers st h
  refine ⟨?_, ?_, ?_⟩
  · intro r
    rw [hranks r]
    refine ((jsSort_perm seniorityCompare _).map _).nodup_iff.2 ?_
    have hsub : (((timelineEntries officers).filter (fun o => o.Rank = r)).map
        (fun o => o.IRLA)).Sublist ((timelineEntries officers).map (fun o => o.IRLA)) :=
      (List.filter_sublist _).map _
    refine List.Nodup.sublist hsub ?_
    unfold timelineEntries
    rw [List.map_map]
    exact hirla
  · intro r r' o o' ho ho' e
    rw [hranks r] at ho
    rw [hranks r'] at ho'
    obtain ⟨m, hm, hmr, rfl⟩ := (mem_initial_rank officers r o).1 ho
    obtain ⟨m', hm', hmr', rfl⟩ := (mem_initial_rank officers r' o').1 ho'
    have : m = m' := List.inj_on_of_nodup_map hirla hm hm' e
    rw [← hmr, ← hmr', this]
  · intro r o ho
    rw [hranks r] at ho
    obtain ⟨m, hm, _, rfl⟩ := (mem_initial_rank officers r o).1 ho
    exact ⟨m, hm, rfl, rfl, rfl, rfl⟩

/-- The invariant on the entries holds after one event of the timeline pass. -/
theorem entriesInv_processTimelineEvent (RO : List String) (SLOTS : String → Nat)
    (hnd : RO.Nodup) (fuel : Nat) (officers : List Member) (ev : RetirementEvent)
    (st st' : TimelineState) (hE : EntriesInv officers st)
    (h : processTimelineEvent RO SLOTS fuel st ev = .ok st') : EntriesInv officers st' := by
  refine processTimelineEvent_preserves RO SLOTS fuel (EntriesInv officers) ev ?_ ?_ st st' hE h
  · intro s index hs _
    exact entriesInv_remove officers s _ index hs
  · intro s vr lr i cand hs _ _ _ hlr _ hc
    exact entriesInv_promote officers s vr lr i cand _ _ (indexOf_lower RO hnd vr lr hlr).2.2 hc hs

/-- The invariant on the entries holds at the end of the timeline pass. -/
theorem runTimeline_entriesInv (RO : List String) (SLOTS : String → Nat) (hnd : RO.Nodup)
    (fuel : Nat) (officers : List Member) (st : TimelineState)
    (hirla : (officers.map (fun m => m.IRLA)).Nodup)
    (h : runTimeline RO SLOTS fuel officers = .ok st) : EntriesInv officers st := by
  unfold runTimeline at h
  split at h
  · exact absurd h (by simp)
  rename_i st0 hst0
  refine processTimelineEvents_preserves RO SLOTS fuel (EntriesInv officers) _ ?_ st0 st
    (entriesInv_initial RO officers st0 hirla hst0) h
  intro s ev s' _ hs hs'
  exact entriesInv_processTimelineEvent RO SLOTS hnd fuel officers ev s s' hs hs'

/-! ## Records climb the ladder one rank at a time -/

/-- A chain extended at its end by an element related to its last one. -/
theorem chain_append_singleton {α : Type} (R : α → α → Prop) (l : List α) (a b : α)
    (h : List.Chain R a l) (hl : R (l.getLast?.getD a) b) : List.Chain R a (l ++ [b]) := by
  induction l generalizing a with
  | nil => exact List.Chain.cons hl List.Chain.nil
  | cons x xs ih =>
    rw [List.chain_cons] at h
    rw [List.cons_append, List.chain_cons]
    refine ⟨h.1, ih x h.2 ?_⟩
    cases xs with
    | nil => exact hl
    | cons y ys =>
      have e : ∀ c, ((x :: y :: ys).getLast?).getD c = ((y :: ys).getLast?).getD x := by
        intro c
        rw [List.getLast?_cons_cons]
        cases h' : (y :: ys).getLast? with
        | none => simp at h'
        | some v => rfl
      rw [← e a]
      exact hl

/-- A chain of single steps up the ladder is no longer than the position it starts from. -/
theorem chain_stepUp_length (RO : List String) (l : List String) (a : String)
    (h : List.Chain (StepUp RO) a l) : l.length ≤ RO.indexOf a := by
  induction l generalizing a with
  | nil => exact Nat.zero_le _
  | cons x xs ih =>
    rw [List.chain_cons] at h
    have := ih x h.2
    have := h.1.2
    rw [List.length_cons]
    omega

theorem ledgerRank_append (recs : List PromotionRecord) (r : PromotionRecord) (r0 : String) :
    ledgerRank (recs ++ [r]) r0 = r.rank := by
  unfold ledgerRank
  rw [List.map_append, List.map_cons, List.map_nil, List.getLast?_append]
  rfl

/-- A promotion keeps the invariant on the ledger. -/
theorem climbInv_promote (RO : List String) (hnd : RO.Nodup) (officers : List Member)
    (st : TimelineState) (vr lr : String) (i : Nat) (cand : Officer) (date : JsDate) (cause : Officer) (hvr : vr ∈ RO)
    (hlr : RO[RO.indexOf vr + 1]? = some lr) (hc : (st.ranks lr)[i]? = some cand)
    (hE : EntriesInv officers st) (hC : ClimbInv RO officers st) :
    ClimbInv RO officers (promote st vr lr i cand date cause) := by
  obtain ⟨_, hidx, hne⟩ := indexOf_lower RO hnd vr lr hlr
  have hcm : cand ∈ st.ranks lr := mem_of_getElem?_some _ _ _ hc
  refine ⟨?_, ?_⟩
  · intro m hm
    rw [promote_records]
    by_cases hk : m.IRLA = cand.IRLA
    · rw [if_pos hk, List.map_append]
      refine chain_append_singleton _ _ _ _ (hC.1 m hm) ?_
      have := hC.2 lr cand hcm m hm hk.symm
      unfold ledgerRank at this
      rw [this]
      exact ⟨hvr, hidx.symm⟩
    · rw [if_neg hk]
      exact hC.1 m hm
  · intro r o ho m hm e
    rw [promote_records]
    rcases mem_promote_ranks officers st vr lr i cand date cause hne hc hE r o ho with
      ⟨h1, h2⟩ | ⟨h1, h2⟩
    · have hk : m.IRLA = cand.IRLA := by rw [← e, h2]
      rw [if_pos hk, ledgerRank_append, h1]
    · have hk : m.IRLA ≠ cand.IRLA := by rw [← e]; exact h2
      rw [if_neg hk]
      exact hC.2 r o h1 m hm e

/-- Taking an entry out of a rank list keeps the invariant on the ledger. -/
theorem climbInv_remove (RO : List String) (officers : List Member) (st : TimelineState)
    (rank : String) (i : Nat) (hC : ClimbInv RO officers st) :
    ClimbInv RO officers
      (st.withRanks (setRank st.ranks rank ((st.ranks rank).eraseIdx i))) := by
  refine ⟨hC.1, ?_⟩
  intro r o ho m hm e
  rw [withRanks_ranks] at ho
  rw [withRanks_records]
  refine hC.2 r o ?_ m hm e
  by_cases h : r = rank
  · subst h
    rw [setRank_eq] at ho
    exact (List.eraseIdx_sublist _ _).subset ho
  · rw [setRank_ne _ _ _ _ h] at ho
    exact ho

/-- The initial state of a roster with distinct IRLAs satisfies the invariant on the ledger. -/
theorem climbInv_initial (RO : List String) (officers : List Member) (st : TimelineState)
    (hirla : (officers.map (fun m => m.IRLA)).Nodup)
    (h : initialTimeline RO officers = .ok st) : ClimbInv RO officers st := by
  obtain ⟨_, hranks, hrec, _⟩ := initialTimeline_ranks RO officers st h
  refine ⟨?_, ?_⟩
  · intro m _
    rw [hrec]
    exact List.Chain.nil
  · intro r o ho m hm e
    rw [hranks r] at ho
    obtain ⟨m', hm', hmr', rfl⟩ := (mem_initial_rank officers r o).1 ho
    have : m' = m := List.inj_on_of_nodup_map hirla hm' hm e
    rw [hrec, ← hmr', this]
    rfl

/-- Both invariants hold at the end of the timeline pass. -/
theorem runTimeline_climbInv (RO : List String) (SLOTS : String → Nat) (hnd : RO.Nodup)
    (fuel : Nat) (officers : List Member) (st : TimelineState)
    (hirla : (officers.map (fun m => m.IRLA)).Nodup)
    (h : runTimeline RO SLOTS fuel officers = .ok st) : ClimbInv RO officers st := by
  unfold runTimeline at h
  split at h
  · exact absurd h (by simp)
  rename_i st0 hst0
  have key := processTimelineEvents_preserves RO SLOTS fuel
    (fun s => EntriesInv officers s ∧ ClimbInv RO officers s) _ ?_ st0 st
    ⟨entriesInv_initial RO officers st0 hirla hst0, climbInv_initial RO officers st0 hirla hst0⟩
    h
  · exact key.2
  intro s ev s' _ hs hs'
  refine processTimelineEvent_preserves RO SLOTS fuel
    (fun s => EntriesInv officers s ∧ ClimbInv RO officers s) ev ?_ ?_ s s' hs hs'
  · intro t index ht _
    exact ⟨entriesInv_remove officers t _ index ht.1, climbInv_remove RO officers t _ index ht.2⟩
  · intro t vr lr i cand ht hvr _ _ hlr _ hc
    exact ⟨entriesInv_promote officers t vr lr i cand _ _ (indexOf_lower RO hnd vr lr hlr).2.2 hc
        ht.1,
      climbInv_promote RO hnd officers t vr lr i cand _ _ hvr hlr hc ht.1 ht.2⟩

/-! ## Seniority order of the rank lists -/

/-- Taking an entry out of a rank list keeps the seniority order. -/
theorem seniorityInv_remove (RO : List String) (rs : RankStructure Officer) (rank : String)
    (i : Nat) (h : SeniorityInv RO rs) :
    SeniorityInv RO (setRank rs rank ((rs rank).eraseIdx i)) := by
  have hsub : ∀ r, (setRank rs rank ((rs rank).eraseIdx i) r).Sublist (rs r) := by
    intro r
    by_cases hr : r = rank
    · subst hr
      rw [setRank_eq]
      exact List.eraseIdx_sublist _ _
    · rw [setRank_ne _ _ _ _ hr]
  refine ⟨?_, ?_, ?_⟩
  · intro r o ho
    exact h.1 r o ((hsub r).subset ho)
  · intro r
    exact (h.2.1 r).sublist ((hsub r).filter _)
  · intro r r' a b hlt ha hb
    exact h.2.2 r r' a b hlt ((hsub r).subset ha) ((hsub r').subset hb)

/-- In a rank list in seniority order, the candidate of `fillVacancy` has a smaller
`order_index` than every other entry that is not frozen. -/
theorem candidate_lt (RO : List String) (rs : RankStructure Officer) (lr : String) (i : Nat)
    (cand : Officer) (h : SeniorityInv RO rs) (hi : candidateIndex (rs lr) = some i)
    (hc : (rs lr)[i]? = some cand) :
    ∀ b ∈ (rs lr).eraseIdx i, b.Frozen.truthy = false → cand.order_index < b.order_index := by
  obtain ⟨hcm, hcf, _, hbefore, herase, hsplit⟩ := candidate_spec _ i cand hi hc
  intro b hb hbf
  rw [herase] at hb
  rcases List.mem_append.1 hb with hb | hb
  · have hbl : b ∈ rs lr := List.mem_of_mem_take hb
    rcases hbefore b hb with h1 | h1
    · rw [hbf] at h1
      exact absurd h1 (by decide)
    · rw [h.1 lr b hbl] at h1
      exact absurd h1 (by decide)
  · have hp := h.2.1 lr
    rw [hsplit, List.filter_append, List.filter_cons_of_pos (by simp [hcf]),
      List.pairwise_append] at hp
    exact List.rel_of_pairwise_cons hp.2.1 (List.mem_filter.2 ⟨hb, by simp [hbf]⟩)

/-- The candidate of `fillVacancy` in a rank list in seniority order has the lowest
`order_index` of the entries that are not frozen. -/
theorem candidate_lowest (RO : List String) (rs : RankStructure Officer) (lr : String) (i : Nat)
    (cand : Officer) (h : SeniorityInv RO rs) (hi : candidateIndex (rs lr) = some i)
    (hc : (rs lr)[i]? = some cand) :
    ∀ o ∈ rs lr, o.Frozen.truthy = false → cand.order_index ≤ o.order_index := by
  intro o ho hof
  by_cases e : o = cand
  · rw [e]
  · exact le_of_lt (candidate_lt RO rs lr i cand h hi hc o
      (mem_eraseIdx_of_ne _ i o cand ho hc e) hof)

/-- A promotion of `fillVacancy` keeps the seniority order. -/
theorem seniorityInv_promote (RO : List String) (hnd : RO.Nodup) (rs : RankStructure Officer)
    (vr lr : String) (i : Nat) (cand : Officer) (h : SeniorityInv RO rs)
    (hlr : RO[RO.indexOf vr + 1]? = some lr) (hi : candidateIndex (rs lr) = some i)
    (hc : (rs lr)[i]? = some cand) :
    SeniorityInv RO
      (pushRank (setRank rs lr ((rs lr).eraseIdx i)) vr { cand with Rank := vr }) := by
  obtain ⟨hlrmem, hidx, hne⟩ := indexOf_lower RO hnd vr lr hlr
  obtain ⟨hcm, hcf, hcr, _, _, _⟩ := candidate_spec _ i cand hi hc
  have h1 := seniorityInv_remove RO rs lr i h
  have hlt := candidate_lt RO rs lr i cand h hi hc
  generalize hrs1 : setRank rs lr ((rs lr).eraseIdx i) = rs1 at h1
  have hvr1 : rs1 vr = rs vr := by rw [← hrs1, setRank_ne _ _ _ _ (Ne.symm hne)]
  have hlr1 : rs1 lr = (rs lr).eraseIdx i := by rw [← hrs1, setRank_eq]
  have hother : ∀ r, r ≠ lr → rs1 r = rs r := by
    intro r hr
    rw [← hrs1, setRank_ne _ _ _ _ hr]
  have hmem : ∀ r o, o ∈ pushRank rs1 vr { cand with Rank := vr } r →
      (r = vr ∧ o = { cand with Rank := vr }) ∨ o ∈ rs1 r := by
    intro r o ho
    by_cases hr : r = vr
    · subst hr
      rw [pushRank_eq] at ho
      rcases List.mem_append.1 ho with ho | ho
      · exact Or.inr ho
      · exact Or.inl ⟨rfl, by simpa using ho⟩
    · rw [pushRank_ne _ _ _ _ hr] at ho
      exact Or.inr ho
  -- the promoted copy against an entry of a rank further down
  have hdown : ∀ r' b, RO.indexOf vr < RO.indexOf r' → b ∈ rs1 r' → b.Frozen.truthy = false →
      cand.order_index < b.order_index := by
    intro r' b hlt' hb hbf
    by_cases hr' : r' = lr
    · subst hr'
      rw [hlr1] at hb
      exact hlt b hb hbf
    · rw [hother r' hr'] at hb
      have hlt2 : RO.indexOf lr < RO.indexOf r' := by
        rcases Nat.lt_or_ge (RO.indexOf lr) (RO.indexOf r') with h' | h'
        · exact h'
        · have heq : RO.indexOf r' = RO.indexOf lr := by omega
          have hr'mem : r' ∈ RO := by
            rw [← List.indexOf_lt_length, heq]
            exact List.indexOf_lt_length.2 hlrmem
          exact absurd ((List.indexOf_inj hr'mem hlrmem).1 heq) hr'
      exact h.2.2 lr r' cand b hlt2 hcm hb hcf hbf
  refine ⟨?_, ?_, ?_⟩
  · intro r o ho
    rcases hmem r o ho with ⟨_, rfl⟩ | ho
    · exact hcr
    · exact h1.1 r o ho
  · intro r
    by_cases hr : r = vr
    · subst hr
      rw [pushRank_eq, List.filter_append, List.pairwise_append]
      refine ⟨h1.2.1 r, ?_, ?_⟩
      · exact (List.pairwise_singleton _ _).sublist (List.filter_sublist _)
      · intro a ha b hb
        have hb' := List.mem_of_mem_filter hb
        simp only [List.mem_singleton] at hb'
        subst hb'
        obtain ⟨ha1, ha2⟩ := List.mem_filter.1 ha
        rw [hvr1] at ha1
        exact h.2.2 r lr a cand (by omega) ha1 hcm (by simpa using ha2) hcf
    · rw [pushRank_ne _ _ _ _ hr]
      exact h1.2.1 r
  · intro r r' a b hlt' ha hb haf hbf
    rcases hmem r a ha with ⟨hr, rfl⟩ | ha
    · rcases hmem r' b hb with ⟨hr', rfl⟩ | hb
      · rw [hr, hr'] at hlt'
        exact absurd hlt' (lt_irrefl _)
      · rw [hr] at hlt'
        exact hdown r' b hlt' hb hbf
    · rcases hmem r' b hb with ⟨hr', rfl⟩ | hb
      · rw [hr'] at hlt'
        have hrlr : r ≠ lr := by
          intro e
          rw [e] at hlt'
          omega
        rw [hother r hrlr] at ha
        exact h.2.2 r lr a cand (by omega) ha hcm haf hcf
      · exact h1.2.2 r r' a b hlt' ha hb haf hbf

/-- The initial structure is in seniority order when the keys of the members that are not
frozen are distinct and follow the ladder. -/
theorem seniorityInv_initial (RO : List String) (officers : List Member) (st : TimelineState)
    (hkeys : ∀ a ∈ officers, ∀ b ∈ officers, a.Frozen.truthy = false → b.Frozen.truthy = false →
      RO.indexOf a.Rank < RO.indexOf b.Rank → a.order_index < b.order_index)
    (huniq : ((officers.filter (fun m => !m.Frozen.truthy)).map (fun m => m.order_index)).Nodup)
    (hb : ∀ m ∈ officers, m.Frozen.isBool = true) (hret : ∀ m ∈ officers, m.Retired = false)
    (h : initialTimeline RO officers = .ok st) : SeniorityInv RO st.ranks := by
  obtain ⟨_, hranks, _, _⟩ := initialTimeline_ranks RO officers st h
  refine ⟨?_, ?_, ?_⟩
  · intro r o ho
    rw [hranks r] at ho
    obtain ⟨m, hm, _, rfl⟩ := (mem_initial_rank officers r o).1 ho
    exact hret m hm
  · intro r
    rw [hranks r]
    have hle : ((jsSort seniorityCompare
        ((timelineEntries officers).filter (fun o => o.Rank = r))).filter
          (fun o => !o.Frozen.truthy)).Pairwise (fun a b => a.order_index ≤ b.order_index) := by
      have hfc := flagsComparable_timelineEntries officers hb (fun o => decide (o.Rank = r))
      refine List.Pairwise.imp_of_mem ?_ ((sorted_jsSort_seniority _ hfc).filter _)
      intro a b ha hb' hab
      have haf := (List.mem_filter.1 ha).2
      have hbf := (List.mem_filter.1 hb').2
      simp only [Bool.not_eq_true'] at haf hbf
      rcases (sortLE_seniority a b).1 hab with ⟨h1, _⟩ | ⟨_, h2⟩
      · exact absurd (hfc a ((mem_jsSort _ _ _).1 (List.mem_filter.1 ha).1) b
          ((mem_jsSort _ _ _).1 (List.mem_filter.1 hb').1) (haf.trans hbf.symm)) h1
      · exact h2
    have hnd : (((jsSort seniorityCompare
        ((timelineEntries officers).filter (fun o => o.Rank = r))).filter
          (fun o => !o.Frozen.truthy)).map (fun o => o.order_index)).Nodup := by
      have hperm := (((jsSort_perm seniorityCompare
        ((timelineEntries officers).filter (fun o => o.Rank = r))).filter
          (fun o => !o.Frozen.truthy)).map (fun o => o.order_index))
      refine hperm.nodup_iff.2 ?_
      rw [List.filter_filter]
      have hsub : ((timelineEntries officers).filter
          (fun a => (!a.Frozen.truthy) && decide (a.Rank = r))).Sublist
            ((timelineEntries officers).filter (fun a => !a.Frozen.truthy)) := by
        rw [← List.filter_filter]
        exact (List.filter_sublist _).filter _
      refine List.Nodup.sublist (hsub.map _) ?_
      unfold timelineEntries
      rw [List.filter_map, List.map_map]
      exact huniq
    have hne := List.pairwise_map.1 hnd
    exact (hle.and hne).imp (fun hab => lt_of_le_of_ne hab.1 hab.2)
  · intro r r' a b hlt ha hb haf hbf
    rw [hranks r] at ha
    rw [hranks r'] at hb
    obtain ⟨ma, hma, hmar, rfl⟩ := (mem_initial_rank officers r a).1 ha
    obtain ⟨mb, hmb, hmbr, rfl⟩ := (mem_initial_rank officers r' b).1 hb
    exact hkeys ma hma mb hmb haf hbf (by rw [hmar, hmbr]; exact hlt)

/-- Every rank structure the timeline pass holds is in seniority order when the keys of the
members that are not frozen are distinct and follow the ladder. -/
theorem runTimeline_seniority (RO : List String) (SLOTS : String → Nat) (hnd : RO.Nodup)
    (fuel : Nat) (officers : List Member) (st : TimelineState)
    (hkeys : ∀ a ∈ officers, ∀ b ∈ officers, a.Frozen.truthy = false → b.Frozen.truthy = false →
      RO.indexOf a.Rank < RO.indexOf b.Rank → a.order_index < b.order_index)
    (huniq : ((officers.filter (fun m => !m.Frozen.truthy)).map (fun m => m.order_index)).Nodup)
    (hb : ∀ m ∈ officers, m.Frozen.isBool = true) (hret : ∀ m ∈ officers, m.Retired = false)
    (h : runTimeline RO SLOTS fuel officers = .ok st) :
    SeniorityInv RO st.ranks ∧ ∀ rs ∈ st.history, SeniorityInv RO rs := by
  unfold runTimeline at h
  split at h
  · exact absurd h (by simp)
  rename_i st0 hst0
  have h0 := seniorityInv_initial RO officers st0 hkeys huniq hb hret hst0
  obtain ⟨_, _, _, hhist⟩ := initialTimeline_ranks RO officers st0 hst0
  refine processTimelineEvents_preserves RO SLOTS fuel
    (fun s => SeniorityInv RO s.ranks ∧ ∀ rs ∈ s.history, SeniorityInv RO rs) _ ?_ st0 st
    ⟨h0, ?_⟩ h
  · intro s ev s' _ hP hs'
    refine processTimelineEvent_preserves RO SLOTS fuel
      (fun s => SeniorityInv RO s.ranks ∧ ∀ rs ∈ s.history, SeniorityInv RO rs) ev ?_ ?_ s s' hP
      hs'
    · intro t index ht _
      have hnew := seniorityInv_remove RO t.ranks ev.officer.Rank index ht.1
      refine ⟨hnew, ?_⟩
      intro rs hrs
      rcases List.mem_cons.1 hrs with e | hrs
      · rw [e]
        exact hnew
      · exact ht.2 rs hrs
    · intro t vr lr i cand ht _ _ _ hlr hi hc
      have hmid := seniorityInv_remove RO t.ranks lr i ht.1
      have hnew := seniorityInv_promote RO hnd t.ranks vr lr i cand ht.1 hlr hi hc
      refine ⟨hnew, ?_⟩
      intro rs hrs
      have hh : (promote t vr lr i cand ev.date ev.officer).history
          = pushRank (setRank t.ranks lr ((t.ranks lr).eraseIdx i)) vr { cand with Rank := vr }
            :: setRank t.ranks lr ((t.ranks lr).eraseIdx i) :: t.history := rfl
      rw [hh] at hrs
      rcases List.mem_cons.1 hrs with e | hrs
      · rw [e]
        exact hnew
      rcases List.mem_cons.1 hrs with e | hrs
      · rw [e]
        exact hmid
      · exact ht.2 rs hrs
  · intro rs hrs
    rw [hhist, List.mem_singleton] at hrs
    rw [hrs]
    exact h0

/-! ## Ranks that a cascade has gone through stay settled -/

/-- Whether a round of `fillVacancy` stops depends on the list of the rank and on the list of
the rank below it only. -/
theorem fillStops_congr (RO : List String) (SLOTS : String → Nat) (s s' : TimelineState)
    (r : String) (h1 : s'.ranks r = s.ranks r)
    (h2 : ∀ lr, RO[RO.indexOf r + 1]? = some lr → s'.ranks lr = s.ranks lr)
    (h : FillStops RO SLOTS s r) : FillStops RO SLOTS s' r := by
  rcases h with h | h | ⟨lr, hlr, hnone⟩
  · exact Or.inl (by rw [h1]; exact h)
  · exact Or.inr (Or.inl h)
  · exact Or.inr (Or.inr ⟨lr, hlr, by rw [h2 lr hlr]; exact hnone⟩)

/-- A name at the position of a rank of the ladder is that rank. -/
theorem eq_of_indexOf_eq (RO : List String) (a b : String) (ha : a ∈ RO)
    (h : RO.indexOf b = RO.indexOf a) : b = a := by
  have hb : b ∈ RO := by
    rw [← List.indexOf_lt_length, h]
    exact List.indexOf_lt_length.2 ha
  exact (List.indexOf_inj hb ha).1 h

/-- The function `fillVacancy` leaves the ranks above the vacancy rank as they are. -/
theorem fillVacancy_frame (RO : List String) (SLOTS : String → Nat) (hnd : RO.Nodup)
    (date : JsDate) (cause : Officer) :
    ∀ fuel st vr st', fillVacancy RO SLOTS fuel st vr date cause = .ok st' →
      ∀ r, RO.indexOf r < RO.indexOf vr → st'.ranks r = st.ranks r := by
  intro fuel
  induction fuel with
  | zero =>
    intro st vr st' h
    simp [fillVacancy] at h
  | succ n ih =>
    intro st vr st' h r hr
    obtain ⟨_, hcase⟩ := fillVacancy_ok_inv RO SLOTS n st st' vr date cause h
    rcases hcase with ⟨rfl, _⟩ | ⟨lr, i, cand, st1, _, _, hlr, _, _, hst1, hst'⟩
    · rfl
    · obtain ⟨_, hidx, _⟩ := indexOf_lower RO hnd vr lr hlr
      rw [ih st1 vr st' hst' r hr, ih _ lr st1 hst1 r (by omega)]
      refine promote_ranks_other st vr lr i cand date cause r ?_ ?_
      · intro e
        rw [e] at hr
        exact absurd hr (lt_irrefl _)
      · intro e
        rw [e] at hr
        omega

/-- After `fillVacancy` has returned, a further round on the vacancy rank stops at once; and of
each rank further down, either the same holds or nothing from that rank downwards has
changed. -/
theorem fillVacancy_settles (RO : List String) (SLOTS : String → Nat) (hnd : RO.Nodup)
    (date : JsDate) (cause : Officer) :
    ∀ fuel st vr st', fillVacancy RO SLOTS fuel st vr date cause = .ok st' →
      FillStops RO SLOTS st' vr ∧
      ∀ r, RO.indexOf vr < RO.indexOf r →
        FillStops RO SLOTS st' r ∨
          ∀ r', RO.indexOf r ≤ RO.indexOf r' → st'.ranks r' = st.ranks r' := by
  intro fuel
  induction fuel with
  | zero =>
    intro st vr st' h
    simp [fillVacancy] at h
  | succ n ih =>
    intro st vr st' h
    obtain ⟨_, hcase⟩ := fillVacancy_ok_inv RO SLOTS n st st' vr date cause h
    rcases hcase with ⟨rfl, hstop⟩ | ⟨lr, i, cand, st1, _, _, hlr, _, _, hst1, hst'⟩
    · exact ⟨hstop, fun r _ => Or.inr (fun r' _ => rfl)⟩
    obtain ⟨hlrmem, hidx, _⟩ := indexOf_lower RO hnd vr lr hlr
    obtain ⟨h1a, h1b⟩ := ih _ lr st1 hst1
    obtain ⟨h2a, h2b⟩ := ih st1 vr st' hst'
    refine ⟨h2a, ?_⟩
    intro r hr
    rcases h2b r hr with hs | hun2
    · exact Or.inl hs
    have hcongr : FillStops RO SLOTS st1 r → FillStops RO SLOTS st' r := by
      refine fillStops_congr RO SLOTS st1 st' r (hun2 r (le_refl _)) ?_
      intro lr2 hlr2
      exact hun2 lr2 (by rw [(indexOf_lower RO hnd r lr2 hlr2).2.1]; omega)
    by_cases hrl : RO.indexOf r = RO.indexOf lr
    · have : r = lr := eq_of_indexOf_eq RO lr r hlrmem hrl
      subst this
      exact Or.inl (hcongr h1a)
    · rcases h1b r (by omega) with hs1 | hun1
      · exact Or.inl (hcongr hs1)
      · refine Or.inr ?_
        intro r' hr'
        rw [hun2 r' hr', hun1 r' hr']
        refine promote_ranks_other st vr lr i cand date cause r' ?_ ?_
        · intro e
          rw [e] at hr'
          omega
        · intro e
          rw [e] at hr'
          omega

/-- After an event of the timeline pass, a round of `fillVacancy` on a rank stops at once if
it did so before the event, or if the event has changed the list of that rank. -/
theorem fillStops_processTimelineEvent (RO : List String) (SLOTS : String → Nat)
    (hnd : RO.Nodup) (fuel : Nat) (officers : List Member)
    (hirla : (officers.map (fun m => m.IRLA)).Nodup) (x : Member) (hx : x ∈ officers)
    (hxf : x.Frozen.truthy = false) (hret : ∀ m ∈ officers, m.Retired = false)
    (ev : RetirementEvent) (hevI : ev.officer.IRLA = x.IRLA) (hevR : ev.officer.Rank = x.Rank)
    (st st' : TimelineState) (hE : EntriesInv officers st)
    (h : processTimelineEvent RO SLOTS fuel st ev = .ok st') :
    ∀ r, (st'.ranks r = st.ranks r → FillStops RO SLOTS st r) → FillStops RO SLOTS st' r := by
  unfold processTimelineEvent at h
  simp only [] at h
  rw [hevI, hevR] at h
  split at h
  · simp only [Except.ok.injEq] at h
    subst h
    exact fun r hr => hr rfl
  rename_i index hindex
  have hR : x.Rank ∈ RO := by
    cases fuel with
    | zero => simp [fillVacancy] at h
    | succ n => exact (fillVacancy_ok_inv RO SLOTS n _ _ _ _ _ h).1
  obtain ⟨a, ha, hpa, _, _, _⟩ := findIndex_eq_some _ _ _ hindex
  have hamem : a ∈ st.ranks x.Rank := mem_of_getElem?_some _ _ _ ha
  have hacand : candidateIndex (st.ranks x.Rank) ≠ none := by
    intro hnone
    have hp := (findIndex_eq_none _ _).1 hnone a hamem
    obtain ⟨m', hm', e1, e2, har, _⟩ := hE.2.2 x.Rank a hamem
    have e3 : a.IRLA = x.IRLA := by simpa using hpa
    have : m' = x := List.inj_on_of_nodup_map hirla hm' hx (by rw [← e1, e3])
    rw [this] at e2 har
    rw [e2, hxf, har, hret x hx] at hp
    exact absurd hp (by decide)
  generalize hs : st.withRanks (setRank st.ranks x.Rank
    ((st.ranks x.Rank).eraseIdx index)) = s at h
  have hsr : ∀ r, r ≠ x.Rank → s.ranks r = st.ranks r := by
    intro r hr
    rw [← hs, withRanks_ranks]
    exact setRank_ne _ _ _ _ hr
  have hframe := fillVacancy_frame RO SLOTS hnd ev.date ev.officer fuel s x.Rank st' h
  obtain ⟨hset1, hset2⟩ := fillVacancy_settles RO SLOTS hnd ev.date ev.officer fuel s x.Rank st' h
  intro r hK
  rcases Nat.lt_trichotomy (RO.indexOf r) (RO.indexOf x.Rank) with hlt | heq | hgt
  · -- a rank above the vacancy rank: nothing changed in it
    have hne : r ≠ x.Rank := by
      intro e
      rw [e] at hlt
      exact absurd hlt (lt_irrefl _)
    have hsame : st'.ranks r = st.ranks r := by
      rw [hframe r hlt, hsr r hne]
    rcases hK hsame with h1 | h1 | ⟨lr, hlr, hcn⟩
    · exact Or.inl (by rw [hsame]; exact h1)
    · exact Or.inr (Or.inl h1)
    · obtain ⟨_, hidx, _⟩ := indexOf_lower RO hnd r lr hlr
      by_cases hlrx : lr = x.Rank
      · rw [hlrx] at hcn
        exact absurd hcn hacand
      · have hlt2 : RO.indexOf lr < RO.indexOf x.Rank := by
          rcases Nat.lt_or_ge (RO.indexOf lr) (RO.indexOf x.Rank) with h' | h'
          · exact h'
          · exact absurd (eq_of_indexOf_eq RO x.Rank lr hR (by omega)) hlrx
        refine Or.inr (Or.inr ⟨lr, hlr, ?_⟩)
        rw [hframe lr hlt2, hsr lr hlrx]
        exact hcn
  · have : r = x.Rank := eq_of_indexOf_eq RO x.Rank r hR heq
    rw [this]
    exact hset1
  · rcases hset2 r hgt with hs' | hun
    · exact hs'
    · have hne : r ≠ x.Rank := by
        intro e
        rw [e] at hgt
        exact absurd hgt (lt_irrefl _)
      have hsame : st'.ranks r = st.ranks r := by
        rw [hun r (le_refl _), hsr r hne]
      have hst := hK hsame
      have hfrom : FillStops RO SLOTS s r := by
        refine fillStops_congr RO SLOTS st s r (hsr r hne) ?_ hst
        intro lr hlr
        refine hsr lr ?_
        intro e
        have := (indexOf_lower RO hnd r lr hlr).2.1
        rw [e] at this
        omega
      refine fillStops_congr RO SLOTS s st' r (hun r (le_refl _)) ?_ hfrom
      intro lr hlr
      exact hun lr (by rw [(indexOf_lower RO hnd r lr hlr).2.1]; omega)

/-- An event of the timeline pass keeps the ranks of the members that have left their
original rank settled. -/
theorem settled_processTimelineEvent (RO : List String) (SLOTS : String → Nat) (hnd : RO.Nodup)
    (fuel : Nat) (officers : List Member) (hirla : (officers.map (fun m => m.IRLA)).Nodup)
    (x : Member) (hx : x ∈ officers) (hxf : x.Frozen.truthy = false)
    (hret : ∀ m ∈ officers, m.Retired = false) (ev : RetirementEvent)
    (hevI : ev.officer.IRLA = x.IRLA) (hevR : ev.officer.Rank = x.Rank)
    (st st' : TimelineState) (hE : EntriesInv officers st)
    (hK : Settled RO SLOTS officers st)
    (h : processTimelineEvent RO SLOTS fuel st ev = .ok st') :
    Settled RO SLOTS officers st' := by
  intro m hm hmf hnone
  refine fillStops_processTimelineEvent RO SLOTS hnd fuel officers hirla x hx hxf hret ev hevI
    hevR st st' hE h m.Rank ?_
  intro hsame
  rw [hsame] at hnone
  exact hK m hm hmf hnone

/-- On a settled state, an event of `simulatePromotions` (simplified-simulation.js) does what
the event of the timeline pass does: the cascade it runs for a member that is no longer under
the original rank promotes nobody. -/
theorem Simplified.processEvent_eq (RO : List String) (SLOTS : String → Nat) (n : Nat)
    (officers : List Member) (x : Member) (hx : x ∈ officers) (hxf : x.Frozen.truthy = false)
    (hxret : x.Retired = false) (hxr : x.Rank ∈ RO) (date : JsDate) (st : TimelineState)
    (hK : Settled RO SLOTS officers st) :
    Simplified.processEvent RO SLOTS (n + 1) st ⟨date, x.toOfficer⟩
      = processTimelineEvent RO SLOTS (n + 1) st ⟨date, x.toOfficer⟩ := by
  unfold Simplified.processEvent processTimelineEvent
  have hret : x.toOfficer.Retired = false := hxret
  simp only [hret, Bool.false_eq_true, if_false, Simplified.fillRankUpwards_eq]
  cases hfi : findIndex (fun o => o.IRLA == x.toOfficer.IRLA) (st.ranks x.toOfficer.Rank) with
  | none =>
    simp only []
    exact fillVacancy_stop RO SLOTS n st x.Rank date x.toOfficer hxr (hK x hx hxf hfi)
  | some i => rfl

/-- On a settled state the event loop of `simulatePromotions` (simplified-simulation.js)
computes what the event loop of the timeline pass computes. -/
theorem Simplified.processEvents_eq (RO : List String) (SLOTS : String → Nat) (hnd : RO.Nodup)
    (n : Nat) (officers : List Member) (hirla : (officers.map (fun m => m.IRLA)).Nodup)
    (hranks : ∀ m ∈ officers, m.Rank ∈ RO) (hret : ∀ m ∈ officers, m.Retired = false)
    (events : List RetirementEvent)
    (hev : ∀ ev ∈ events, ∃ m ∈ officers, m.Frozen.truthy = false ∧ ev.officer = m.toOfficer) :
    ∀ st, EntriesInv officers st → Settled RO SLOTS officers st →
      Simplified.processEvents RO SLOTS (n + 1) st events
        = processTimelineEvents RO SLOTS (n + 1) st events := by
  induction events with
  | nil => intro st _ _; rfl
  | cons ev rest ih =>
    intro st hE hK
    obtain ⟨x, hx, hxf, hxo⟩ := hev ev (List.mem_cons_self _ _)
    have hevx : ev = ⟨ev.date, x.toOfficer⟩ := by rw [← hxo]
    unfold Simplified.processEvents processTimelineEvents
    rw [hevx, Simplified.processEvent_eq RO SLOTS n officers x hx hxf (hret x hx) (hranks x hx)
      ev.date st hK]
    cases hstep : processTimelineEvent RO SLOTS (n + 1) st ⟨ev.date, x.toOfficer⟩ with
    | error e => rfl
    | ok st' =>
      simp only []
      exact ih (fun e he => hev e (List.mem_cons_of_mem _ he)) st'
        (entriesInv_processTimelineEvent RO SLOTS hnd (n + 1) officers _ st st' hE hstep)
        (settled_processTimelineEvent RO SLOTS hnd (n + 1) officers hirla x hx hxf hret
          ⟨ev.date, x.toOfficer⟩ rfl rfl st st' hE hK hstep)

/-- The working copies of a roster whose entries carry a boolean `Frozen` field and no
`Retired` flag are the entries as they stand. -/
theorem officersCopy_eq_timelineEntries (officers : List Member)
    (hb : ∀ m ∈ officers, m.Frozen.isBool = true) (hret : ∀ m ∈ officers, m.Retired = false) :
    officersCopy officers = timelineEntries officers := by
  unfold officersCopy timelineEntries
  refine List.map_congr_left ?_
  intro m hm
  unfold Officer.initialise Member.toOfficer
  simp only [JsValue.orFalse_of_isBool _ (hb m hm), hret m hm]

/-- The working copies of simplified-simulation.js for a roster whose entries carry no
`Retired` flag are the entries as they stand. -/
theorem Simplified.officersCopy_eq_entries (officers : List Member)
    (hret : ∀ m ∈ officers, m.Retired = false) :
    Simplified.officersCopy officers = timelineEntries officers := by
  unfold Simplified.officersCopy timelineEntries
  refine List.map_congr_left ?_
  intro m hm
  unfold Member.toOfficer
  simp only [hret m hm]

/-- The run of `simulatePromotions` (simplified-simulation.js) is the timeline pass of
`runFullSimulation`, for a roster with distinct IRLAs, boolean `Frozen` fields and no
`Retired` flag on a ladder of distinct rank names. -/
theorem Simplified.simulate_eq_runTimeline (RO : List String) (SLOTS : String → Nat)
    (hnd : RO.Nodup) (n : Nat) (officers : List Member)
    (hirla : (officers.map (fun m => m.IRLA)).Nodup)
    (hb : ∀ m ∈ officers, m.Frozen.isBool = true) (hret : ∀ m ∈ officers, m.Retired = false) :
    Simplified.simulate RO SLOTS (n + 1) officers = runTimeline RO SLOTS (n + 1) officers := by
  unfold Simplified.simulate runTimeline
  rw [Simplified.officersCopy_eq_entries officers hret,
    PromotionForecaster.officersCopy_eq_timelineEntries officers hb hret,
    Simplified.buildRetirementEvents_eq]
  cases h0 : initialTimeline RO officers with
  | error e =>
    have : Simplified.buildRankStructures RO (timelineEntries officers) = .error e := by
      unfold initialTimeline at h0
      unfold Simplified.buildRankStructures
      unfold buildTimelineStructure at h0
      split at h0
      · rename_i e' he'
        simp only [Except.error.injEq] at h0
        subst h0
        exact he'
      · exact absurd h0 (by simp)
    rw [this]
  | ok st0 =>
    obtain ⟨hranks, hr, hrec, hhist⟩ := initialTimeline_ranks RO officers st0 h0
    have hb' : Simplified.buildRankStructures RO (timelineEntries officers) = .ok st0.ranks := by
      unfold initialTimeline at h0
      unfold Simplified.buildRankStructures
      unfold buildTimelineStructure at h0
      split at h0
      · exact absurd h0 (by simp)
      · rename_i rs hrs
        simp only [Except.ok.injEq] at h0
        subst h0
        exact hrs
    rw [hb']
    simp only []
    have hst : ({ ranks := st0.ranks, records := fun _ => [], history := [st0.ranks] } :
        TimelineState) = st0 := by
      cases st0
      simp only [] at hrec hhist
      subst hrec
      subst hhist
      rfl
    rw [hst]
    refine Simplified.processEvents_eq RO SLOTS hnd n officers hirla hranks hret _ ?_ st0
      (entriesInv_initial RO officers st0 hirla h0) ?_
    · intro ev hev
      obtain ⟨o, ho, hof, hoe, _⟩ := mem_allRetirementEvents_of _ ev hev
      simp only [timelineEntries, List.mem_map] at ho
      obtain ⟨m, hm, rfl⟩ := ho
      exact ⟨m, hm, hof, hoe⟩
    · intro m hm hmf hnone
      rw [hr m.Rank] at hnone
      have := (findIndex_eq_none _ _).1 hnone m.toOfficer
        ((mem_initial_rank officers m.Rank _).2 ⟨m, hm, rfl, rfl⟩)
      simp only [beq_eq_false_iff_ne, ne_eq] at this
      exact absurd rfl this

/-! ## One promotion per rank in an event on a ladder that started full -/

/-- A promotion appends one record naming the vacancy rank, and none naming another rank. -/
theorem rankRecordCount_promote (keys : List String) (hkeys : keys.Nodup) (st : TimelineState)
    (vr lr : String) (i : Nat) (cand : Officer) (date : JsDate) (cause : Officer) (ρ : String) :
    rankRecordCount keys (promote st vr lr i cand date cause).records ρ
        ≤ rankRecordCount keys st.records ρ + 1 ∧
      (ρ ≠ vr → rankRecordCount keys (promote st vr lr i cand date cause).records ρ
        = rankRecordCount keys st.records ρ) := by
  unfold rankRecordCount recordCount
  simp only []
  have hother : ∀ k, k ≠ cand.IRLA →
      (((promote st vr lr i cand date cause).records k).filter (fun r => r.rank = ρ)).length
        = ((st.records k).filter (fun r => r.rank = ρ)).length := by
    intro k hk
    rw [promote_records, if_neg hk]
  have hat : (((promote st vr lr i cand date cause).records cand.IRLA).filter
      (fun r => r.rank = ρ)).length
        = ((st.records cand.IRLA).filter (fun r => r.rank = ρ)).length
          + (if vr = ρ then 1 else 0) := by
    rw [promote_records, if_pos rfl, List.filter_append, List.length_append]
    by_cases e : vr = ρ
    · rw [if_pos e, List.filter_cons_of_pos (by simpa using e)]
      rfl
    · rw [if_neg e, List.filter_cons_of_neg (by simpa using e)]
      rfl
  by_cases hk : cand.IRLA ∈ keys
  · have h := sum_map_update keys hkeys
      (fun k => ((st.records k).filter (fun r => r.rank = ρ)).length)
      (fun k => (((promote st vr lr i cand date cause).records k).filter
        (fun r => r.rank = ρ)).length) cand.IRLA hk hother
    simp only [] at h
    rw [hat] at h
    refine ⟨?_, ?_⟩
    · split_ifs at h <;> omega
    · intro hne
      rw [if_neg (Ne.symm hne)] at h
      omega
  · have : keys.map (fun k => (((promote st vr lr i cand date cause).records k).filter
        (fun r => r.rank = ρ)).length)
        = keys.map (fun k => ((st.records k).filter (fun r => r.rank = ρ)).length) :=
      List.map_congr_left (fun k hk' => hother k (fun (e : k = cand.IRLA) => hk (e ▸ hk')))
    rw [this]
    exact ⟨Nat.le_succ _, fun _ => rfl⟩

/-- From a structure within capacity whose vacancy rank is settled or one short, and whose
lower ranks are settled, `fillVacancy` appends at most one record naming each rank, none
naming a rank above the vacancy rank, at most one record under each key, at most as many
records as there are ranks from the vacancy rank down to the last but one, and none under a
key that no entry below the vacancy rank carries. -/
theorem fillVacancy_one_per_rank (RO : List String) (SLOTS : String → Nat) (hnd : RO.Nodup)
    (officers : List Member) (keys : List String) (hkeys : keys.Nodup) (date : JsDate)
    (cause : Officer) :
    ∀ fuel st vr st', fillVacancy RO SLOTS fuel st vr date cause = .ok st' →
      (∀ r, (st.ranks r).length ≤ SLOTS r) →
      (FillStops RO SLOTS st vr ∨ (st.ranks vr).length + 1 = SLOTS vr) →
      (∀ r ∈ RO, RO.indexOf vr < RO.indexOf r → FillStops RO SLOTS st r) →
      EntriesInv officers st →
      (∀ ρ, rankRecordCount keys st'.records ρ ≤ rankRecordCount keys st.records ρ + 1 ∧
        (RO.indexOf ρ < RO.indexOf vr →
          rankRecordCount keys st'.records ρ = rankRecordCount keys st.records ρ)) ∧
      recordCount keys st'.records + RO.indexOf vr
        ≤ recordCount keys st.records + (RO.length - 1) ∧
      (∀ k, (st'.records k).length ≤ (st.records k).length + 1 ∧
        ((∀ r, RO.indexOf vr < RO.indexOf r → ∀ o ∈ st.ranks r, o.IRLA ≠ k) →
          st'.records k = st.records k)) := by
  intro fuel
  induction fuel with
  | zero =>
    intro st vr st' h
    simp [fillVacancy] at h
  | succ n ih =>
    intro st vr st' h hcap hvac hbelow hE
    obtain ⟨hvr, hcase⟩ := fillVacancy_ok_inv RO SLOTS n st st' vr date cause h
    rcases hcase with ⟨rfl, _⟩ | ⟨lr, i, cand, st1, h2, h3, hlr, hi, hc, hst1, hst'⟩
    · refine ⟨fun ρ => ⟨Nat.le_succ _, fun _ => rfl⟩, ?_, fun k => ⟨Nat.le_succ _, fun _ => rfl⟩⟩
      have := List.indexOf_lt_length.2 hvr
      omega
    obtain ⟨hlrmem, hidx, hne⟩ := indexOf_lower RO hnd vr lr hlr
    have hcm : cand ∈ st.ranks lr := mem_of_getElem?_some _ _ _ hc
    have hilt : i < (st.ranks lr).length := by
      by_contra hcon
      rw [List.getElem?_eq_none (by omega)] at hc
      exact absurd hc (by simp)
    -- the vacancy rank is one short
    have hshort : (st.ranks vr).length + 1 = SLOTS vr := by
      rcases hvac with (hs | hs | ⟨lr', hlr', hnone⟩) | hs
      · exact absurd h2 hs
      · exact absurd hs h3
      · rw [hlr, Option.some.injEq] at hlr'
        rw [← hlr', hi] at hnone
        exact absurd hnone (by simp)
      · exact hs
    have hother : ∀ r, RO.indexOf lr < RO.indexOf r →
        (promote st vr lr i cand date cause).ranks r = st.ranks r := by
      intro r hr
      refine promote_ranks_other st vr lr i cand date cause r ?_ ?_
      · intro e
        rw [e] at hr
        omega
      · intro e
        rw [e] at hr
        exact absurd hr (lt_irrefl _)
    have hlow : ∀ r lr2, RO.indexOf lr ≤ RO.indexOf r → RO[RO.indexOf r + 1]? = some lr2 →
        (promote st vr lr i cand date cause).ranks lr2 = st.ranks lr2 := by
      intro r lr2 hr hlr2
      exact hother lr2 (by rw [(indexOf_lower RO hnd r lr2 hlr2).2.1]; omega)
    -- the state after the promotion meets the conditions for the lower rank
    have hcap1 : ∀ r, ((promote st vr lr i cand date cause).ranks r).length ≤ SLOTS r := by
      intro r
      by_cases hr1 : r = vr
      · subst hr1
        rw [promote_ranks_vacancy _ _ _ _ _ _ _ hne, List.length_append, List.length_singleton]
        omega
      · by_cases hr2 : r = lr
        · subst hr2
          rw [promote_ranks_lower _ _ _ _ _ _ _ hne]
          exact le_trans (length_eraseIdx_le _ _) (hcap r)
        · rw [promote_ranks_other _ _ _ _ _ _ _ _ hr1 hr2]
          exact hcap r
    have hvac1 : FillStops RO SLOTS (promote st vr lr i cand date cause) lr ∨
        ((promote st vr lr i cand date cause).ranks lr).length + 1 = SLOTS lr := by
      rcases hbelow lr hlrmem (by omega) with hs | hs | ⟨lr2, hlr2, hnone⟩
      · right
        rw [promote_ranks_lower _ _ _ _ _ _ _ hne, List.length_eraseIdx, if_pos hilt]
        have := hcap lr
        omega
      · exact Or.inl (Or.inr (Or.inl hs))
      · refine Or.inl (Or.inr (Or.inr ⟨lr2, hlr2, ?_⟩))
        rw [hlow lr lr2 (le_refl _) hlr2]
        exact hnone
    have hbelow1 : ∀ r ∈ RO, RO.indexOf lr < RO.indexOf r →
        FillStops RO SLOTS (promote st vr lr i cand date cause) r := by
      intro r hr hlt
      refine fillStops_congr RO SLOTS st _ r (hother r hlt) ?_ (hbelow r hr (by omega))
      intro lr2 hlr2
      exact hlow r lr2 (le_of_lt hlt) hlr2
    have hE1 := entriesInv_promote officers st vr lr i cand date cause hne hc hE
    obtain ⟨ihρ, ihtot, ihk⟩ := ih _ lr st1 hst1 hcap1 hvac1 hbelow1 hE1
    -- the vacancy rank is full again: the loop stops
    have hstop : FillStops RO SLOTS st1 vr := by
      left
      rw [fillVacancy_frame RO SLOTS hnd date cause n _ lr st1 hst1 vr (by omega),
        promote_ranks_vacancy _ _ _ _ _ _ _ hne, List.length_append, List.length_singleton]
      omega
    have hst1' : st' = st1 := by
      cases n with
      | zero => simp [fillVacancy] at hst'
      | succ m =>
        rw [fillVacancy_stop RO SLOTS m st1 vr date cause hvr hstop] at hst'
        exact (Except.ok.inj hst').symm
    subst hst1'
    refine ⟨?_, ?_, ?_⟩
    · intro ρ
      obtain ⟨hp1, hp2⟩ := rankRecordCount_promote keys hkeys st vr lr i cand date cause ρ
      obtain ⟨hq1, hq2⟩ := ihρ ρ
      by_cases hρ : ρ = vr
      · subst hρ
        refine ⟨?_, fun hlt => absurd hlt (lt_irrefl _)⟩
        rw [hq2 (by omega)]
        exact hp1
      · rw [hp2 hρ] at hq1 hq2
        exact ⟨hq1, fun hlt => hq2 (by omega)⟩
    · have := recordCount_promote keys hkeys st vr lr i cand date cause
      omega
    · intro k
      obtain ⟨hk1, hk2⟩ := ihk k
      by_cases hk : k = cand.IRLA
      · have hsame : st'.records k = (promote st vr lr i cand date cause).records k := by
          refine hk2 ?_
          intro r hr o ho e
          rw [hother r hr] at ho
          have := hE.2.1 r lr o cand ho hcm (by rw [e, hk])
          rw [this] at hr
          exact absurd hr (lt_irrefl _)
        refine ⟨?_, ?_⟩
        · rw [hsame, promote_records, if_pos hk, List.length_append, List.length_singleton]
        · intro hno
          exact absurd hk.symm (hno lr (by omega) cand hcm)
      · have hrec : (promote st vr lr i cand date cause).records k = st.records k := by
          rw [promote_records, if_neg hk]
        rw [hrec] at hk1 hk2
        refine ⟨hk1, ?_⟩
        intro hno
        refine hk2 ?_
        intro r hr o ho
        rw [hother r hr] at ho
        exact hno r (by omega) o ho

/-- From a state within capacity in which every rank of the ladder is settled, one event of
the timeline pass appends at most one record naming each rank, at most one record under each
key and at most (number of ranks - 1) records. -/
theorem processTimelineEvent_one_per_rank (RO : List String) (SLOTS : String → Nat)
    (hnd : RO.Nodup) (fuel : Nat) (officers : List Member) (keys : List String)
    (hkeys : keys.Nodup) (ev : RetirementEvent) (st st' : TimelineState)
    (hcap : ∀ r, (st.ranks r).length ≤ SLOTS r) (hA : AllSettled RO SLOTS st)
    (hE : EntriesInv officers st)
    (h : processTimelineEvent RO SLOTS fuel st ev = .ok st') :
    (∀ ρ, rankRecordCount keys st'.records ρ ≤ rankRecordCount keys st.records ρ + 1) ∧
    recordCount keys st'.records ≤ recordCount keys st.records + (RO.length - 1) ∧
    ∀ k, (st'.records k).length ≤ (st.records k).length + 1 := by
  unfold processTimelineEvent at h
  simp only [] at h
  split at h
  · simp only [Except.ok.injEq] at h
    subst h
    exact ⟨fun _ => Nat.le_succ _, Nat.le_add_right _ _, fun _ => Nat.le_succ _⟩
  rename_i index hindex
  have hR : ev.officer.Rank ∈ RO := by
    cases fuel with
    | zero => simp [fillVacancy] at h
    | succ n => exact (fillVacancy_ok_inv RO SLOTS n _ _ _ _ _ h).1
  obtain ⟨a, ha, _, _, _, _⟩ := findIndex_eq_some _ _ _ hindex
  have hilt : index < (st.ranks ev.officer.Rank).length := by
    by_contra hcon
    rw [List.getElem?_eq_none (by omega)] at ha
    exact absurd ha (by simp)
  generalize hs : st.withRanks (setRank st.ranks ev.officer.Rank
    ((st.ranks ev.officer.Rank).eraseIdx index)) = s at h
  have hsr : ∀ r, r ≠ ev.officer.Rank → s.ranks r = st.ranks r := by
    intro r hr
    rw [← hs, withRanks_ranks]
    exact setRank_ne _ _ _ _ hr
  have hsR : s.ranks ev.officer.Rank = (st.ranks ev.officer.Rank).eraseIdx index := by
    rw [← hs, withRanks_ranks, setRank_eq]
  have hsrec : s.records = st.records := by rw [← hs, withRanks_records]
  have hlowne : ∀ r lr, RO.indexOf ev.officer.Rank ≤ RO.indexOf r →
      RO[RO.indexOf r + 1]? = some lr → lr ≠ ev.officer.Rank := by
    intro r lr hr hlr e
    have := (indexOf_lower RO hnd r lr hlr).2.1
    rw [e] at this
    omega
  have hcaps : ∀ r, (s.ranks r).length ≤ SLOTS r := by
    intro r
    by_cases hr : r = ev.officer.Rank
    · rw [hr, hsR]
      exact le_trans (length_eraseIdx_le _ _) (hcap _)
    · rw [hsr r hr]
      exact hcap r
  have hvac : FillStops RO SLOTS s ev.officer.Rank ∨
      (s.ranks ev.officer.Rank).length + 1 = SLOTS ev.officer.Rank := by
    rcases hA _ hR with h1 | h1 | ⟨lr, hlr, hnone⟩
    · right
      rw [hsR, List.length_eraseIdx, if_pos hilt]
      have := hcap ev.officer.Rank
      omega
    · exact Or.inl (Or.inr (Or.inl h1))
    · refine Or.inl (Or.inr (Or.inr ⟨lr, hlr, ?_⟩))
      rw [hsr lr (hlowne _ lr (le_refl _) hlr)]
      exact hnone
  have hbelow : ∀ r ∈ RO, RO.indexOf ev.officer.Rank < RO.indexOf r →
      FillStops RO SLOTS s r := by
    intro r hr hlt
    refine fillStops_congr RO SLOTS st s r (hsr r ?_) ?_ (hA r hr)
    · intro e
      rw [e] at hlt
      exact absurd hlt (lt_irrefl _)
    · intro lr hlr
      exact hsr lr (hlowne r lr (le_of_lt hlt) hlr)
  have hEs : EntriesInv officers s := by
    rw [← hs]
    exact entriesInv_remove officers st _ index hE
  obtain ⟨h1, h2, h3⟩ := fillVacancy_one_per_rank RO SLOTS hnd officers keys hkeys ev.date
    ev.officer fuel s ev.officer.Rank st' h hcaps hvac hbelow hEs
  rw [hsrec] at h1 h2 h3
  exact ⟨fun ρ => (h1 ρ).1, by omega, fun k => (h3 k).1⟩

/-- An event of the timeline pass keeps every rank of the ladder settled. -/
theorem allSettled_processTimelineEvent (RO : List String) (SLOTS : String → Nat)
    (hnd : RO.Nodup) (fuel : Nat) (officers : List Member)
    (hirla : (officers.map (fun m => m.IRLA)).Nodup)
    (hret : ∀ m ∈ officers, m.Retired = false) (ev : RetirementEvent)
    (hev : ev ∈ allRetirementEvents (officersCopy officers)) (st st' : TimelineState)
    (hE : EntriesInv officers st) (hA : AllSettled RO SLOTS st)
    (h : processTimelineEvent RO SLOTS fuel st ev = .ok st') : AllSettled RO SLOTS st' := by
  obtain ⟨x, hx, hxf, hxo, _⟩ := mem_allRetirementEvents officers ev hev
  intro r hr
  exact fillStops_processTimelineEvent RO SLOTS hnd fuel officers hirla x hx hxf hret ev
    (by rw [hxo]; rfl) (by rw [hxo]; rfl) st st' hE h r (fun _ => hA r hr)

/-- On a ladder that starts full, the state before each event of the timeline pass is within
capacity, has every rank settled and satisfies the invariant on the entries. -/
theorem processTimelineEvents_full (RO : List String) (SLOTS : String → Nat) (hnd : RO.Nodup)
    (fuel : Nat) (officers : List Member) (hirla : (officers.map (fun m => m.IRLA)).Nodup)
    (hret : ∀ m ∈ officers, m.Retired = false)
    (hfull : ∀ r ∈ RO, (officers.filter (fun m => m.Rank = r)).length = SLOTS r)
    (events : List RetirementEvent)
    (hev : ∀ ev ∈ events, ev ∈ allRetirementEvents (officersCopy officers))
    (st0 st : TimelineState) (h0 : initialTimeline RO officers = .ok st0)
    (h : processTimelineEvents RO SLOTS fuel st0 events = .ok st) :
    (∀ r, (st.ranks r).length ≤ SLOTS r) ∧ AllSettled RO SLOTS st ∧ EntriesInv officers st := by
  obtain ⟨hin, hranks, _, hhist⟩ := initialTimeline_ranks RO officers st0 h0
  have hlen : ∀ r, (st0.ranks r).length = (officers.filter (fun m => m.Rank = r)).length := by
    intro r
    rw [hranks r, length_jsSort, length_filter_timelineEntries]
  have hcap0 : ∀ r, (st0.ranks r).length ≤ SLOTS r := by
    intro r
    rw [hlen r]
    exact capacity_all_ranks RO SLOTS officers hin (fun r hr => le_of_eq (hfull r hr)) r
  have key := processTimelineEvents_preserves RO SLOTS fuel
    (fun s => ((∀ r, (s.ranks r).length ≤ SLOTS r) ∧
        ∀ rs ∈ s.history, ∀ r, (rs r).length ≤ SLOTS r) ∧
      AllSettled RO SLOTS s ∧ EntriesInv officers s) events ?_ st0 st ⟨⟨hcap0, ?_⟩, ?_,
        entriesInv_initial RO officers st0 hirla h0⟩ h
  · exact ⟨key.1.1, key.2.1, key.2.2⟩
  · intro s ev s' hmem hP hs'
    refine ⟨?_, ?_, ?_⟩
    · exact processTimelineEvent_preserves RO SLOTS fuel
        (fun s => (∀ r, (s.ranks r).length ≤ SLOTS r) ∧
          ∀ rs ∈ s.history, ∀ r, (rs r).length ≤ SLOTS r) ev
        (fun s index hP _ => remove_capacity SLOTS s _ index hP)
        (fun s vr lr i cand hP _ hg _ _ _ _ => promote_capacity SLOTS s vr lr i cand _ _ hg hP)
        s s' hP.1 hs'
    · exact allSettled_processTimelineEvent RO SLOTS hnd fuel officers hirla hret ev
        (hev ev hmem) s s' hP.2.2 hP.2.1 hs'
    · exact entriesInv_processTimelineEvent RO SLOTS hnd fuel officers ev s s' hP.2.2 hs'
  · intro rs hrs
    rw [hhist, List.mem_singleton] at hrs
    exact hrs ▸ hcap0
  · intro r hr
    left
    rw [hlen r, hfull r hr]
    exact lt_irrefl _

/-- An event of the timeline pass only appends to the ledger. -/
theorem processTimelineEvent_appends (RO : List String) (SLOTS : String → Nat) (fuel : Nat)
    (ev : RetirementEvent) (st st' : TimelineState)
    (h : processTimelineEvent RO SLOTS fuel st ev = .ok st') :
    ∀ k, st.records k <+: st'.records k := by
  refine processTimelineEvent_preserves RO SLOTS fuel
    (fun s => ∀ k, st.records k <+: s.records k) ev ?_ ?_ st st' (fun _ => ⟨[], List.append_nil _⟩) h
  · intro t index ht _ k
    rw [withRanks_records]
    exact ht k
  · intro t vr lr i cand ht _ _ _ _ _ _ k
    rw [promote_records]
    split_ifs
    · exact (ht k).trans ⟨_, rfl⟩
    · exact ht k

/-! ## C1: cascade on a full ladder -/

/-- The cascade on a full ladder, for a roster whose entries carry a boolean `Frozen` field, no
`Retired` flag and an IRLA that names no inherited property: on a ladder with distinct ranks
and a roster with distinct IRLAs in which each rank
holds exactly its capacity, when the first retirement event `e` (officer `e.officer` of rank
`R`, date `e.date`) is processed and every rank below `R` has a member that is not frozen, the
timeline pass returns (for any fuel above the ladder's length) a state in which, with
`cand r` the non-frozen member of rank `r` with the lowest `order_index`:
ranks above `R` are untouched; each rank from `R` down has lost exactly one entry (the retiring
officer for `R`, `cand r` below) and each but the lowest has gained, at its end, the copy of
`cand` of the rank directly below with its rank updated; the ledger holds for that `cand`
exactly the record `[rank above, e.date, e.officer.IRLA, e.officer.Name or 'Unknown']` and
holds nothing else; every rank but the lowest is at capacity and the lowest is one short. -/
theorem cascade_on_full_ladder (RO : List String) (SLOTS : String → Nat) (fuel : Nat)
    (officers : List Member) (st0 : TimelineState) (e : RetirementEvent)
    (rest : List RetirementEvent)
    (hnd : RO.Nodup)
    (hirla : (officers.map (fun m => m.IRLA)).Nodup)
    (hb : ∀ m ∈ officers, m.Frozen.isBool = true) (hret : ∀ m ∈ officers, m.Retired = false)
    (hkeys : ∀ m ∈ officers, m.IRLA ∉ inheritedKeys)
    (hfull : ∀ r ∈ RO, (officers.filter (fun m => m.Rank = r)).length = SLOTS r)
    (hst0 : initialTimeline RO officers = .ok st0)
    (hfirst : allRetirementEvents (officersCopy officers) = e :: rest)
    (hbelow' : ∀ r ∈ RO, RO.indexOf e.officer.Rank < RO.indexOf r →
      ∃ x ∈ officers, x.Rank = r ∧ x.Frozen.truthy = false)
    (hfuel : RO.length < fuel) :
    ∃ (st1 : TimelineState) (cand : String → Member),
      processTimelineEvent RO SLOTS fuel st0 e = .ok st1 ∧
      (∀ (j : Nat) (r : String), RO[j]? = some r → RO.indexOf e.officer.Rank < j →
        cand r ∈ officers ∧ (cand r).Rank = r ∧ (cand r).Frozen.truthy = false ∧
          ∀ x ∈ officers, x.Rank = r → x.Frozen.truthy = false →
            (cand r).order_index ≤ x.order_index) ∧
      (∀ (j : Nat) (r : String), RO[j]? = some r → j < RO.indexOf e.officer.Rank → st1.ranks r = st0.ranks r) ∧
      (∀ (j : Nat) (r : String), RO[j]? = some r → RO.indexOf e.officer.Rank ≤ j →
        st1.ranks r =
          (st0.ranks r).erase
              (if j = RO.indexOf e.officer.Rank then e.officer else (cand r).toOfficer) ++
            (match RO[j + 1]? with
              | some low => [{ (cand low).toOfficer with Rank := r }]
              | none => [])) ∧
      (∀ (j : Nat) (up low : String), RO[j]? = some up → RO[j + 1]? = some low → RO.indexOf e.officer.Rank ≤ j →
        st1.records (cand low).IRLA =
          [⟨up, e.date, e.officer.IRLA,
            if e.officer.Name = "" then "Unknown" else e.officer.Name⟩]) ∧
      (∀ irla, (∀ (j : Nat) (r : String), RO[j]? = some r → RO.indexOf e.officer.Rank < j → (cand r).IRLA ≠ irla) →
        st1.records irla = []) ∧
      (∀ (j : Nat) (r : String), RO[j]? = some r → j + 1 < RO.length → (st1.ranks r).length = SLOTS r) ∧
      (∀ r, RO[RO.length - 1]? = some r → (st1.ranks r).length + 1 = SLOTS r) := by
  have hbelow : ∀ (j : Nat) (r : String), RO[j]? = some r → RO.indexOf e.officer.Rank < j →
      ∃ x ∈ officers, x.Rank = r ∧ x.Frozen.truthy = false := by
    intro j r hj hlt
    have hjlt : j < RO.length := by
      rcases Nat.lt_or_ge j RO.length with h | h
      · exact h
      · rw [List.getElem?_eq_none h] at hj
        exact absurd hj (by simp)
    rw [List.getElem?_eq_getElem hjlt, Option.some.injEq] at hj
    have hij : RO.indexOf r = j := by
      rw [← hj]
      exact List.indexOf_getElem hnd j hjlt
    exact hbelow' r (List.getElem?_mem (by rw [List.getElem?_eq_getElem hjlt, hj])) (by omega)
  -- the retiring member and the split of the ladder at its rank
  obtain ⟨m, hm, hmf, hmo, hmd⟩ := mem_allRetirementEvents officers e
    (by rw [hfirst]; exact List.mem_cons_self _ _)
  have hinit : m.toOfficer.initialise = m.toOfficer := by
    unfold Officer.initialise Member.toOfficer
    simp only [JsValue.orFalse_of_isBool _ (hb m hm), hret m hm]
  rw [hinit] at hmo
  obtain ⟨hranks, hst0r, hst0rec, _⟩ := initialTimeline_ranks RO officers st0 hst0
  have hR : e.officer.Rank ∈ RO := by rw [hmo]; exact hranks m hm
  obtain ⟨pre, below, hsplit⟩ := List.append_of_mem hR
  have hidx : RO.indexOf e.officer.Rank = pre.length := by
    rw [hsplit]; rw [hsplit] at hnd; exact indexOf_append_cons pre below _ hnd
  have hndsplit : (pre ++ e.officer.Rank :: below).Nodup := hsplit ▸ hnd
  have hnd2 : (e.officer.Rank :: below).Nodup := (List.nodup_append.1 hndsplit).2.1
  have hRbelow : e.officer.Rank ∉ below := (List.nodup_cons.1 hnd2).1
  have hget_below : ∀ i, RO[pre.length + 1 + i]? = below[i]? := by
    intro i; rw [hsplit]; exact getElem?_append_cons pre below _ i
  have hget_R : RO[pre.length]? = some e.officer.Rank := by
    rw [hsplit, List.getElem?_append_right (le_refl _)]; simp
  have hget_pre : ∀ (j : Nat) (r : String), RO[j]? = some r → j < pre.length → r ∈ pre := by
    intro j r hj hlt
    rw [hsplit, List.getElem?_append_left hlt] at hj
    exact List.getElem?_mem hj
  have hpre_disj : ∀ r ∈ pre, r ≠ e.officer.Rank ∧ r ∉ below := by
    intro r hr
    have hd := (List.nodup_append.1 hndsplit).2.2
    exact ⟨fun h => hd hr (h ▸ List.mem_cons_self _ _),
      fun h => hd hr (List.mem_cons_of_mem _ h)⟩
  have hlenRO : RO.length = pre.length + 1 + below.length := by
    rw [hsplit]; simp; omega
  -- the candidates: heads of the ranks below
  let cand : String → Member := fun r => ((st0.ranks r).headD default).toMember
  have hhead : ∀ (i : Nat) (r : String), below[i]? = some r →
      ∃ c tail, st0.ranks r = c.toOfficer :: tail ∧ c ∈ officers ∧ c.Rank = r ∧
        c.Frozen.truthy = false ∧
        (∀ x ∈ officers, x.Rank = r → x.Frozen.truthy = false → c.order_index ≤ x.order_index) ∧
        cand r = c := by
    intro i r hi
    have h1 : RO[pre.length + 1 + i]? = some r := by rw [hget_below]; exact hi
    have h2 : RO.indexOf e.officer.Rank < pre.length + 1 + i := by omega
    have hex := hbelow (pre.length + 1 + i) r h1 h2
    obtain ⟨c, hc, hcr, hcf, hcmin, tail, htail⟩ := initial_rank_head officers r hb hex
    refine ⟨c, tail, by rw [hst0r r, htail], hc, hcr, hcf, hcmin, ?_⟩
    show ((st0.ranks r).headD default).toMember = c
    rw [hst0r r, htail]
    rfl
  have hlen0 : ∀ r ∈ RO, (st0.ranks r).length = SLOTS r := by
    intro r hr
    rw [hst0r r, length_jsSort, length_filter_timelineEntries]
    exact hfull r hr
  have hbelowRO : ∀ r ∈ below, r ∈ RO := by
    intro r hr; rw [hsplit]; simp [hr]
  -- the retiring officer is found, and it is the entry of its IRLA
  have hmmem : e.officer ∈ st0.ranks e.officer.Rank := by
    rw [hst0r, mem_initial_rank]
    exact ⟨m, hm, by rw [hmo]; rfl, hmo⟩
  obtain ⟨index, hindex⟩ : ∃ index,
      findIndex (fun o => o.IRLA == e.officer.IRLA) (st0.ranks e.officer.Rank) = some index := by
    cases hfi : findIndex (fun o => o.IRLA == e.officer.IRLA) (st0.ranks e.officer.Rank) with
    | some i => exact ⟨i, rfl⟩
    | none =>
      rw [findIndex_eq_none] at hfi
      have := hfi _ hmmem
      simp at this
  obtain ⟨a, hat, hap, _, _, _⟩ := findIndex_eq_some _ _ _ hindex
  have haeq : a = e.officer := by
    have hamem : a ∈ st0.ranks e.officer.Rank := List.getElem?_mem hat
    rw [hst0r, mem_initial_rank] at hamem
    obtain ⟨m', hm', _, rfl⟩ := hamem
    have hi : m'.IRLA = m.IRLA := by
      have : m'.toOfficer.IRLA = e.officer.IRLA := by simpa using hap
      rw [hmo] at this
      exact this
    have := List.inj_on_of_nodup_map hirla hm' hm hi
    rw [this, hmo]
  subst haeq
  have herase := erase_eq_eraseIdx_of_findIndex _ _ index hindex hat
  have hindexlt : index < (st0.ranks e.officer.Rank).length := by
    rcases Nat.lt_or_ge index (st0.ranks e.officer.Rank).length with h | h
    · exact h
    · rw [List.getElem?_eq_none h] at hat
      exact absurd hat (by simp)
  -- the state after the removal, and the cascade from it
  have hst0' : ∀ l, l ≠ e.officer.Rank →
      (st0.withRanks (setRank st0.ranks e.officer.Rank
        ((st0.ranks e.officer.Rank).eraseIdx index))).ranks l = st0.ranks l := by
    intro l hl
    rw [withRanks_ranks, setRank_ne _ _ _ _ hl]
  have hst0R : (st0.withRanks (setRank st0.ranks e.officer.Rank
        ((st0.ranks e.officer.Rank).eraseIdx index))).ranks e.officer.Rank
      = (st0.ranks e.officer.Rank).eraseIdx index := by
    rw [withRanks_ranks, setRank_eq]
  have hbelow_ne : ∀ l ∈ below, l ≠ e.officer.Rank := fun l hl h => hRbelow (h ▸ hl)
  have hcas := fillVacancy_eq_cascade SLOTS e.date e.officer below pre e.officer.Rank
    (st0.withRanks (setRank st0.ranks e.officer.Rank
      ((st0.ranks e.officer.Rank).eraseIdx index))) fuel hndsplit
    (by rw [hst0R, List.length_eraseIdx, if_pos hindexlt]
        have := hlen0 _ hR
        omega)
    (by intro l hl
        obtain ⟨i, hi⟩ := List.getElem?_of_mem hl
        obtain ⟨c, tail, hct, hc, _, hcf, _, _⟩ := hhead i l hi
        rw [hst0' l (hbelow_ne l hl)]
        exact ⟨hlen0 l (hbelowRO l hl), c.toOfficer, tail, hct, hcf, hret c hc, hkeys c hc⟩)
    (by omega)
  rw [← hsplit] at hcas
  have hnonempty : ∀ l ∈ below, (st0.withRanks (setRank st0.ranks e.officer.Rank
        ((st0.ranks e.officer.Rank).eraseIdx index))).ranks l ≠ [] := by
    intro l hl
    obtain ⟨i, hi⟩ := List.getElem?_of_mem hl
    obtain ⟨c, tail, hct, _⟩ := hhead i l hi
    rw [hst0' l (hbelow_ne l hl), hct]
    exact List.cons_ne_nil _ _
  -- what the cascade pushes onto a rank
  have hPI : ∀ (i : Nat) (r low : String), below[i]? = some low →
      promotedInto (st0.withRanks (setRank st0.ranks e.officer.Rank
        ((st0.ranks e.officer.Rank).eraseIdx index))).ranks r (some low)
        = [{ (cand low).toOfficer with Rank := r }] := by
    intro i r low hi
    obtain ⟨c, tail, hct, _, _, _, _, hcand⟩ := hhead i low hi
    unfold promotedInto
    simp only [hst0' low (hbelow_ne low (List.getElem?_mem hi)), hct, hcand]
  have hR1 : (cascade (st0.withRanks (setRank st0.ranks e.officer.Rank
        ((st0.ranks e.officer.Rank).eraseIdx index))) e.officer.Rank below e.date
        e.officer).ranks e.officer.Rank
      = (st0.ranks e.officer.Rank).erase e.officer ++
        promotedInto (st0.withRanks (setRank st0.ranks e.officer.Rank
          ((st0.ranks e.officer.Rank).eraseIdx index))).ranks e.officer.Rank below[0]? := by
    rw [cascade_ranks_vacancy _ _ _ _ _ hnd2, hst0R, herase, List.head?_eq_getElem?]
  have hB1 : ∀ (i : Nat) (r : String), below[i]? = some r →
      (cascade (st0.withRanks (setRank st0.ranks e.officer.Rank
        ((st0.ranks e.officer.Rank).eraseIdx index))) e.officer.Rank below e.date
        e.officer).ranks r
      = (st0.ranks r).erase (cand r).toOfficer ++
        promotedInto (st0.withRanks (setRank st0.ranks e.officer.Rank
          ((st0.ranks e.officer.Rank).eraseIdx index))).ranks r below[i + 1]? := by
    intro i r hi
    obtain ⟨c, tail, hct, _, _, _, _, hcand⟩ := hhead i r hi
    rw [cascade_ranks_below _ _ _ _ _ i r hnd2 hnonempty hi,
      hst0' r (hbelow_ne r (List.getElem?_mem hi)), hct, hcand, List.erase_cons_head,
      List.tail_cons]
  have hrecs : ∀ k, (cascade (st0.withRanks (setRank st0.ranks e.officer.Rank
        ((st0.ranks e.officer.Rank).eraseIdx index))) e.officer.Rank below e.date
        e.officer).records k
      = cascadeRecords st0.ranks e.officer.Rank below e.date e.officer k := by
    intro k
    rw [cascade_records _ _ _ _ _ k hnd2 hnonempty, withRanks_records, hst0rec,
      cascadeRecords_congr e.date e.officer k below _ st0.ranks _
        (fun l hl => hst0' l (hbelow_ne l hl))]
    rfl
  have hget_chain : ∀ i, RO[pre.length + i]? = (e.officer.Rank :: below)[i]? := by
    intro i
    rw [hsplit, List.getElem?_append_right (by omega)]
    congr 1
    omega
  have hheadmem : ∀ l ∈ below, ∀ c' tail', st0.ranks l = c' :: tail' →
      ∃ m' ∈ officers, m'.Rank = l ∧ c' = m'.toOfficer := by
    intro l _ c' tail' hc'
    have : c' ∈ st0.ranks l := by rw [hc']; exact List.mem_cons_self _ _
    rw [hst0r, mem_initial_rank] at this
    exact this
  have hlen_erase : ∀ (i : Nat) (r : String), below[i]? = some r →
      ((st0.ranks r).erase (cand r).toOfficer).length + 1 = SLOTS r := by
    intro i r hi
    obtain ⟨c, tail, hct, _, _, _, _, hcand⟩ := hhead i r hi
    have := hlen0 r (hbelowRO r (List.getElem?_mem hi))
    rw [hct] at this ⊢
    rw [hcand, List.erase_cons_head]
    simpa using this
  have hlen_eraseR : ((st0.ranks e.officer.Rank).erase e.officer).length + 1
      = SLOTS e.officer.Rank := by
    rw [herase, List.length_eraseIdx, if_pos hindexlt]
    have := hlen0 _ hR
    omega
  refine ⟨cascade (st0.withRanks (setRank st0.ranks e.officer.Rank
    ((st0.ranks e.officer.Rank).eraseIdx index))) e.officer.Rank below e.date e.officer,
    cand, ?_, ?_, ?_, ?_, ?_, ?_, ?_, ?_⟩
  · unfold processTimelineEvent
    simp only [hindex]
    exact hcas
  · -- who is promoted
    intro j r hj hlt
    obtain ⟨i, rfl⟩ : ∃ i, j = pre.length + 1 + i := ⟨j - (pre.length + 1), by omega⟩
    rw [hget_below] at hj
    obtain ⟨c, tail, _, hc, hcr, hcf, hmin, hcand⟩ := hhead i r hj
    rw [hcand]
    exact ⟨hc, hcr, hcf, hmin⟩
  · -- ranks above
    intro j r hj hlt
    have hr := hget_pre j r hj (by omega)
    rw [cascade_ranks_other _ _ _ _ _ _ (hpre_disj r hr).1 (hpre_disj r hr).2,
      hst0' r (hpre_disj r hr).1]
  · -- ranks from R down
    intro j r hj hle
    rcases Nat.eq_or_lt_of_le hle with heq | hlt
    · have hjR : j = pre.length := by omega
      subst hjR
      rw [hget_R] at hj
      simp only [Option.some.injEq] at hj
      subst hj
      rw [if_pos hidx.symm, hR1]
      have h0 := hget_below 0
      simp only [Nat.add_zero] at h0
      rw [h0]
      cases hb : below[0]? with
      | none => rfl
      | some low => exact congrArg _ (hPI 0 _ low hb)
    · obtain ⟨i, rfl⟩ : ∃ i, j = pre.length + 1 + i := ⟨j - (pre.length + 1), by omega⟩
      rw [hget_below] at hj
      rw [if_neg (by omega), hB1 i r hj]
      have h1 := hget_below (i + 1)
      rw [show pre.length + 1 + (i + 1) = pre.length + 1 + i + 1 by omega] at h1
      rw [h1]
      cases hb : below[i + 1]? with
      | none => rfl
      | some low => exact congrArg _ (hPI (i + 1) _ low hb)
  · -- the record of each promoted candidate
    intro j up low hup hlow hle
    obtain ⟨i, rfl⟩ : ∃ i, j = pre.length + i := ⟨j - pre.length, by omega⟩
    rw [show pre.length + i + 1 = pre.length + 1 + i by omega, hget_below] at hlow
    rw [hget_chain] at hup
    obtain ⟨c, tail, hct, hc, hcr, _, _, hcand⟩ := hhead i low hlow
    rw [hrecs, hcand]
    have hrec := cascadeRecords_at st0.ranks e.date e.officer low c.toOfficer tail hct below
      e.officer.Rank up i (List.nodup_cons.1 hnd2).2 ?_ hlow hup
    · exact hrec
    · intro l hl c' tail' hc' hirla'
      obtain ⟨m', hm', hm'r, rfl⟩ := hheadmem l hl c' tail' hc'
      have : m' = c := List.inj_on_of_nodup_map hirla hm' hc hirla'
      rw [← hm'r, this, hcr]
  · -- nothing else is recorded
    intro irla hne
    rw [hrecs]
    apply cascadeRecords_none
    intro l hl c' tail' hc' heq
    obtain ⟨i, hi⟩ := List.getElem?_of_mem hl
    have h1 : RO[pre.length + 1 + i]? = some l := by rw [hget_below]; exact hi
    have h2 : RO.indexOf e.officer.Rank < pre.length + 1 + i := by omega
    apply hne (pre.length + 1 + i) l h1 h2
    show ((st0.ranks l).headD default).toMember.IRLA = irla
    rw [hc']
    exact heq
  · -- every rank but the lowest is at capacity
    intro j r hj hlt
    rcases Nat.lt_trichotomy j pre.length with h | h | h
    · have hr := hget_pre j r hj h
      rw [cascade_ranks_other _ _ _ _ _ _ (hpre_disj r hr).1 (hpre_disj r hr).2,
        hst0' r (hpre_disj r hr).1]
      exact hlen0 r (List.getElem?_mem hj)
    · subst h
      rw [hget_R] at hj
      simp only [Option.some.injEq] at hj
      subst hj
      have hb : 0 < below.length := by omega
      rw [hR1, List.getElem?_eq_getElem hb, hPI 0 _ _ (List.getElem?_eq_getElem hb),
        List.length_append, List.length_singleton]
      exact hlen_eraseR
    · obtain ⟨i, rfl⟩ : ∃ i, j = pre.length + 1 + i := ⟨j - (pre.length + 1), by omega⟩
      rw [hget_below] at hj
      have hb : i + 1 < below.length := by omega
      rw [hB1 i r hj, List.getElem?_eq_getElem hb, hPI (i + 1) _ _ (List.getElem?_eq_getElem hb),
        List.length_append, List.length_singleton]
      exact hlen_erase i r hj
  · -- the lowest rank is one short
    intro r hr
    rcases Nat.eq_zero_or_pos below.length with h0 | hpos
    · have hj : RO.length - 1 = pre.length := by omega
      rw [hj, hget_R] at hr
      simp only [Option.some.injEq] at hr
      subst hr
      have hnone : below[0]? = none := List.getElem?_eq_none (by omega)
      rw [hR1, hnone]
      simp only [promotedInto, List.append_nil]
      exact hlen_eraseR
    · have hj : RO.length - 1 = pre.length + 1 + (below.length - 1) := by omega
      rw [hj, hget_below] at hr
      have hnone : below[below.length - 1 + 1]? = none := List.getElem?_eq_none (by omega)
      rw [hB1 _ r hr, hnone]
      simp only [promotedInto, List.append_nil]
      exact hlen_erase _ r hr

/-- The cascade on the spec's end-to-end scenario (ladder A 1, B 1, C 2; `m1` of A retires
first): the first event returns a state with A and B at capacity and C one short. -/
theorem cascade_on_full_ladder_witness :
    ∃ st0 st1, initialTimeline ladderABC rosterABC = .ok st0 ∧
      processTimelineEvent ladderABC slotsABC 4 st0
        ⟨getRetirementDate m1.DOB, m1.toOfficer⟩ = .ok st1 ∧
      (st1.ranks "A").length = slotsABC "A" ∧ (st1.ranks "B").length = slotsABC "B" ∧
      (st1.ranks "C").length + 1 = slotsABC "C" := by
  obtain ⟨st0, hst0⟩ := exists_ok_of_isOk (x := initialTimeline ladderABC rosterABC) (by decide)
  obtain ⟨st1, cand, h1, _, _, _, _, _, h7, h8⟩ := cascade_on_full_ladder ladderABC slotsABC 4
    rosterABC st0 ⟨getRetirementDate m1.DOB, m1.toOfficer⟩
    [⟨getRetirementDate m2.DOB, m2.toOfficer⟩, ⟨getRetirementDate m3.DOB, m3.toOfficer⟩,
      ⟨getRetirementDate m4.DOB, m4.toOfficer⟩]
    (by decide) (by decide) (by decide) (by decide) (by decide) (by decide) hst0 (by decide)
    (by decide) (by decide)
  exact ⟨st0, st1, hst0, h1, h7 0 "A" (by decide) (by decide), h7 1 "B" (by decide) (by decide),
    h8 "C" (by decide)⟩

/-- C1, the code at a failing input. On the ladder A 1, B 1, C 2, full with `rosterNoFlag` (the entry of
`I4` carries no `Frozen` field, the other entries carry `Frozen: false`), the initial sort
files `I4` before `I3` under C, although `I3` has the lower `order_index`: the entries are
filed before `Frozen` is normalised and the comparator finds `undefined !== false`. The first
event, the retirement of `I1`, then promotes `I4` to B, not rank C's non-frozen member with the
lowest `order_index`, and leaves `I3` in C without a record. -/
theorem cascade_promotes_junior :
    (rosterNoFlag.map (fun m => (m.IRLA, m.Rank, m.order_index)))
      = [("I1", "A", 1), ("I2", "B", 2), ("I3", "C", 3), ("I4", "C", 4)] ∧
    (rosterNoFlag.map (fun m => (m.Frozen, m.Retired)))
      = [(.bool false, false), (.bool false, false), (.bool false, false),
          (.undefined, false)] ∧
    (∀ m ∈ rosterNoFlag, m.Frozen.truthy = false) ∧
    (∀ r ∈ ladderABC, (rosterNoFlag.filter (fun m => m.Rank = r)).length = slotsABC r) ∧
    (initialTimeline ladderABC rosterNoFlag).map
        (fun st => (st.ranks "C").map (fun o => (o.IRLA, o.order_index)))
      = .ok [("I4", 4), ("I3", 3)] ∧
    (allRetirementEvents (officersCopy rosterNoFlag)).head?.map (fun e => e.officer.IRLA)
      = some "I1" ∧
    (eventStep ladderABC slotsABC 10 rosterNoFlag 0).map (fun p => p.map (fun ss =>
        ((ss.2.ranks "A").map (fun o => o.IRLA), (ss.2.ranks "B").map (fun o => o.IRLA),
          (ss.2.ranks "C").map (fun o => o.IRLA))))
      = .ok (some (["I2"], ["I4"], ["I3"])) ∧
    (eventStep ladderABC slotsABC 10 rosterNoFlag 0).map (fun p => p.map (fun ss =>
        (ss.2.records "I3", ss.2.records "I4")))
      = .ok (some ([], [⟨"B", getRetirementDate "10-01-1970", "I1", "N1"⟩])) := by
  decide

/-! ## C2: capacity invariant -/

/-- C2: when the roster's head-count in each rank of the ladder is at most `SLOTS[rank]`, every
rank structure that `runFullSimulation` holds during the timeline pass (after the initial
sort, after each removal, after each splice and each push of `fillVacancy`) and the final one
has at most `SLOTS[rank]` entries under each rank; every structure the display pass holds has
at most `SLOTS[rank]` entries not marked `displayRetired` under each rank (the count
`fillDisplayVacancy` itself tests); and so has each list of the returned `displayRanks`. -/
theorem capacity_invariant (RO : List String) (SLOTS : String → Nat) (fuel : Nat)
    (officers : List Member) (currentDate : JsDate) (res : SimulationResult)
    (hcap : ∀ r ∈ RO, (officers.filter (fun m => m.Rank = r)).length ≤ SLOTS r)
    (hrun : runFullSimulation RO SLOTS fuel officers currentDate = .ok res) :
    (∀ rs ∈ res.timeline.history, ∀ r, (rs r).length ≤ SLOTS r) ∧
    (∀ r, (res.timeline.ranks r).length ≤ SLOTS r) ∧
    (∀ hs ∈ res.display.history, ∀ r, (activeIn hs.1 hs.2 r).length ≤ SLOTS r) ∧
    (∀ r, (res.displayRanks r).length ≤ SLOTS r) := by
  unfold runFullSimulation at hrun
  split at hrun
  · exact absurd hrun (by simp)
  rename_i tl htl
  split at hrun
  · exact absurd hrun (by simp)
  rename_i ds hds
  simp only [Except.ok.injEq] at hrun
  subst hrun
  have ht := runTimeline_capacity RO SLOTS fuel officers tl hcap htl
  have hd := runDisplay_capacity RO SLOTS fuel officers currentDate ds hcap hds
  refine ⟨ht.2, ht.1, hd.2, ?_⟩
  intro r
  simp only []
  split_ifs
  · rw [List.length_map]
    exact hd.1 r
  · exact Nat.zero_le _

/-- C2 on the end-to-end scenario, queried in mid-2031: the run returns and its display ranks
are within capacity. -/
theorem capacity_invariant_witness :
    ∃ res, runFullSimulation ladderABC slotsABC 10 rosterABC (some (makeDay 2031 5 1)) = .ok res ∧
      ∀ r, (res.displayRanks r).length ≤ slotsABC r := by
  obtain ⟨res, hres⟩ := exists_ok_of_isOk
    (x := runFullSimulation ladderABC slotsABC 10 rosterABC (some (makeDay 2031 5 1))) (by decide)
  exact ⟨res, hres, (capacity_invariant ladderABC slotsABC 10 rosterABC _ res (by decide) hres).2.2.2⟩

/-! ## C3: seniority of the promoted candidate -/

/-- C3, the code at the failing input `rosterKeys` (capacities 1, 2, 2): `B1` retires first and
`C1` (key 5) is promoted into B behind `B2` (key 10); when `A1` retires next, `fillVacancy`
promotes `B2`, the first entry of B, although `C1` in B has the lower `order_index`. -/
theorem seniority_violation :
    (runTimeline ladderABC slots122 10 rosterKeys).map (fun s => s.records "C1")
      = .ok [⟨"B", getRetirementDate "10-02-1960", "B1", "b1"⟩] ∧
    (runTimeline ladderABC slots122 10 rosterKeys).map (fun s => s.records "B2")
      = .ok [⟨"A", getRetirementDate "10-02-1961", "A1", "a1"⟩] ∧
    (runTimeline ladderABC slots122 10 rosterKeys).map
        (fun s => (s.ranks "A").map (fun o => (o.IRLA, o.order_index)))
      = .ok [("B2", (10 : Int))] ∧
    (runTimeline ladderABC slots122 10 rosterKeys).map
        (fun s => (s.ranks "B").map (fun o => (o.IRLA, o.order_index, o.Frozen)))
      = .ok [("C1", (5 : Int), JsValue.bool false), ("C2", (6 : Int), JsValue.bool false)] := by
  decide

/-! ## C4: ledger monotonicity -/

/-- C4 as stated fails. On `rosterInvalid` (capacities 2, 1, 1) the date of birth of `a1` has a
day that is not a number, so the event of `a1` is dated Invalid Date and stays first in the
event list; it promotes `c` to B, and the event of `a2`, dated 31 January 2030, promotes `c`
to A. The ledger of `c` reads [Invalid Date, 31-01-2030], and Invalid Date is not on or before
any date. -/
theorem ledger_not_monotone :
    (runFullSimulation ladderABC slots211 10 rosterInvalid (some (makeDay 2032 0 1))).map
        (fun res => (res.promotionRecords "c").map (fun r => (r.rank, r.date)))
      = .ok [("B", none), ("A", getRetirementDate "10-01-1970")] ∧
    getRetirementDate "10-01-1970" = some (makeDay 2030 0 31) ∧
    (runFullSimulation ladderABC slots211 10 rosterInvalid (some (makeDay 2032 0 1))).map
        (fun res => decide ((res.promotionRecords "c").Pairwise
          (fun a b => a.date.le b.date = true)))
      = .ok false := by
  decide

/-- C4, amended: when the retirement dates of the members that are not frozen are valid dates,
the dates of each member's records in `promotionRecords`, read in list order, are
non-decreasing. -/
theorem ledger_monotone (RO : List String) (SLOTS : String → Nat) (fuel : Nat)
    (officers : List Member) (currentDate : JsDate) (res : SimulationResult)
    (hvalid : ∀ m ∈ officers, m.Frozen.truthy = false → (getRetirementDate m.DOB).isSome = true)
    (hrun : runFullSimulation RO SLOTS fuel officers currentDate = .ok res) :
    ∀ irla, (res.promotionRecords irla).Pairwise (fun a b => a.date.le b.date = true) := by
  unfold runFullSimulation at hrun
  split at hrun
  · exact absurd hrun (by simp)
  rename_i tl htl
  split at hrun
  · exact absurd hrun (by simp)
  simp only [Except.ok.injEq] at hrun
  subst hrun
  unfold runTimeline at htl
  split at htl
  · exact absurd htl (by simp)
  rename_i st0 hst0
  obtain ⟨_, _, hrec, _⟩ := initialTimeline_ranks RO officers st0 hst0
  obtain ⟨hsorted, hv⟩ := allRetirementEvents_sorted officers hvalid
  refine processTimelineEvents_monotone RO SLOTS fuel _ st0 tl hsorted hv ?_ ?_ htl
  · intro k
    rw [hrec]
    exact List.Pairwise.nil
  · intro k r hr
    rw [hrec] at hr
    exact absurd hr (List.not_mem_nil _)

/-- C4, amended, on `rosterFull` (capacities 2, 1, 1): `C1` is promoted to B in 2030 and to A
in 2031, and the dates of these two records are in order. -/
theorem ledger_monotone_witness :
    ∃ res, runFullSimulation ladderABC slots211 10 rosterFull (some (makeDay 2031 5 1)) = .ok res ∧
      (res.promotionRecords "C1").map (fun r => (r.rank, r.date))
        = [("B", some (makeDay 2030 0 31)), ("A", some (makeDay 2031 0 31))] ∧
      ∀ irla, (res.promotionRecords irla).Pairwise (fun a b => a.date.le b.date = true) := by
  obtain ⟨res, hres⟩ := exists_ok_of_isOk
    (x := runFullSimulation ladderABC slots211 10 rosterFull (some (makeDay 2031 5 1))) (by decide)
  have h2 : (runFullSimulation ladderABC slots211 10 rosterFull (some (makeDay 2031 5 1))).map
      (fun res => (res.promotionRecords "C1").map (fun r => (r.rank, r.date)))
      = .ok [("B", some (makeDay 2030 0 31)), ("A", some (makeDay 2031 0 31))] := by decide
  rw [hres] at h2
  simp only [Except.map, Except.ok.injEq] at h2
  exact ⟨res, hres, h2, ledger_monotone ladderABC slots211 10 rosterFull _ res (by decide) hres⟩

/-! ## C5: ledger replay gives the effective rank -/

/-- C5 as stated fails. On `rosterInvalid` the date of birth of `a1`, who is not frozen, has a
day that is not a number: the retirement date of `a1` is an Invalid Date, which is not after
1 January 2100, yet `filterByDate` lists `a1` (under A) on that date, as on every date: the
test `retirementDate <= currentDate` is false for an Invalid Date. For the same reason, when
the date `X` itself is an Invalid Date, `filterByDate` lists every member of `rosterABC`, none
of whom is frozen or retires after `X`. -/
theorem filterByDate_lists_invalid :
    rosterInvalid.head?.map (fun m => (m.IRLA, m.DOB, m.Frozen.truthy))
      = some ("a1", "xx-01-1969", false) ∧
    Simplified.getRetirementDate "xx-01-1969" = none ∧
    JsDate.lt (some (makeDay 2100 0 1)) (Simplified.getRetirementDate "xx-01-1969") = false ∧
    ((Simplified.simulatePromotions ladderABC slots211 10 rosterInvalid).bind
        (fun P => Simplified.filterByDate ladderABC rosterInvalid P (some (makeDay 2100 0 1)))).map
        (fun rankMap => ladderABC.map (fun r => (rankMap r).map (fun m => m.IRLA)))
      = .ok [["a1"], [], []] ∧
    (∀ m ∈ rosterABC, m.Frozen.truthy = false ∧
      JsDate.lt none (Simplified.getRetirementDate m.DOB) = false) ∧
    ((Simplified.simulatePromotions ladderABC slotsABC 10 rosterABC).bind
        (fun P => Simplified.filterByDate ladderABC rosterABC P none)).map
        (fun rankMap => ladderABC.map (fun r => (rankMap r).map (fun m => m.IRLA)))
      = .ok [["I1"], ["I2"], ["I4", "I3"]] := by
  decide

/-- C5, amended: for the ledger `P` of `simulatePromotions`, a valid date `X` and valid retirement dates
of the members that are not frozen, `filterByDate(roster, P, X)` holds under each rank, in
roster order, one entry per member that is frozen or retires after `X` and whose effective
rank (the rank of the last record of `P` for the member dated on or before `X`, or the member's
own rank) is that rank, the entry being the member with its `Rank` set to it; and that last
record is the latest one: no record of the member dated on or before `X` is dated later. -/
theorem filterByDate_effective_rank (RO : List String) (SLOTS : String → Nat) (fuel : Nat)
    (officers : List Member) (X : JsDate) (P : Ledger) (rankMap : RankStructure Member)
    (hvalid : ∀ m ∈ officers, m.Frozen.truthy = false →
      (Simplified.getRetirementDate m.DOB).isSome = true)
    (hX : X.isSome = true)
    (hP : Simplified.simulatePromotions RO SLOTS fuel officers = .ok P)
    (hf : Simplified.filterByDate RO officers P X = .ok rankMap) :
    (∀ rank, rankMap rank =
      (officers.filter (fun m =>
          (m.Frozen.truthy || X.lt (Simplified.getRetirementDate m.DOB)) &&
            decide (effectiveRank P X m.IRLA m.Rank = rank))).map
        (fun m => { m with Rank := rank })) ∧
    (∀ m ∈ officers, ∀ r ∈ P m.IRLA, r.date.le X = true →
      ∃ last, ((P m.IRLA).filter (fun p => p.date.le X)).getLast? = some last ∧
        r.date.le last.date = true ∧ effectiveRank P X m.IRLA m.Rank = last.rank) := by
  refine ⟨?_, ?_⟩
  · intro rank
    unfold Simplified.filterByDate at hf
    split_ifs at hf
    unfold Simplified.keptByDate at hf
    rw [(addToRanks_ok RO _ _ _ rankMap hf).2 rank, List.nil_append, List.filter_map,
      List.filter_filter]
    have hfilter : ∀ m ∈ officers,
        ((((fun o : Member => decide (o.Rank = rank)) ∘
            fun officer : Member =>
              { officer with Rank := Simplified.currentRank P X officer }) m) &&
          !((Simplified.getRetirementDate m.DOB).le X && !m.Frozen.truthy))
        = ((m.Frozen.truthy || X.lt (Simplified.getRetirementDate m.DOB)) &&
            decide (effectiveRank P X m.IRLA m.Rank = rank)) := by
      intro m hm
      have hrank : Simplified.currentRank P X m = effectiveRank P X m.IRLA m.Rank := rfl
      simp only [Function.comp, hrank]
      obtain ⟨x, hx⟩ := Option.isSome_iff_exists.1 hX
      cases hfz : m.Frozen.truthy
      · obtain ⟨y, hy⟩ := Option.isSome_iff_exists.1 (hvalid m hm hfz)
        have hlt : (decide (x < y)) = !(decide (y ≤ x)) := by
          by_cases h : y ≤ x
          · simp [h, not_lt.2 h]
          · simp [h, not_le.1 h]
        simp only [hx, hy, JsDate.le, JsDate.lt, hlt, Bool.not_false, Bool.and_true,
          Bool.false_or]
        exact Bool.and_comm _ _
      · simp only [Bool.not_true, Bool.and_false, Bool.not_false, Bool.and_true, Bool.true_or,
          Bool.true_and]
    rw [List.filter_congr hfilter]
    apply List.map_congr_left
    intro m hm
    rw [List.mem_filter] at hm
    have hr : effectiveRank P X m.IRLA m.Rank = rank := by
      have := hm.2
      simp only [Bool.and_eq_true, decide_eq_true_eq] at this
      exact this.2
    show { m with Rank := Simplified.currentRank P X m } = { m with Rank := rank }
    have hrank : Simplified.currentRank P X m = effectiveRank P X m.IRLA m.Rank := rfl
    rw [hrank, hr]
  · intro m _ r hr hrX
    have hmono := Simplified.simulatePromotions_monotone RO SLOTS fuel officers P hvalid hP
    obtain ⟨last, hlast, hle⟩ := getLast_filter_latest (P m.IRLA) X (hmono m.IRLA) r hr hrX
    refine ⟨last, hlast, hle, ?_⟩
    unfold effectiveRank
    rw [hlast]

/-- C5, amended, on the end-to-end scenario, replayed on 1 June 2031. -/
theorem filterByDate_effective_rank_witness :
    ∃ P rankMap, Simplified.simulatePromotions ladderABC slotsABC 10 rosterABC = .ok P ∧
      Simplified.filterByDate ladderABC rosterABC P (some (makeDay 2031 5 1)) = .ok rankMap ∧
      ∀ rank, rankMap rank =
        (rosterABC.filter (fun m =>
            (m.Frozen.truthy || JsDate.lt (some (makeDay 2031 5 1))
              (Simplified.getRetirementDate m.DOB)) &&
              decide (effectiveRank P (some (makeDay 2031 5 1)) m.IRLA m.Rank = rank))).map
          (fun m => { m with Rank := rank }) := by
  obtain ⟨rankMap, hrm⟩ := exists_ok_of_isOk
    (x := (Simplified.simulatePromotions ladderABC slotsABC 10 rosterABC).bind
      (fun P => Simplified.filterByDate ladderABC rosterABC P (some (makeDay 2031 5 1))))
    (by decide)
  obtain ⟨P, hP, hf⟩ := bind_ok_inv hrm
  exact ⟨P, rankMap, hP, hf,
    (filterByDate_effective_rank ladderABC slotsABC 10 rosterABC (some (makeDay 2031 5 1)) P
      rankMap (by decide) (by decide) hP hf).1⟩

/-! ## C6: the two outputs of one call -/

/-- C6, the code at the failing input `rosterABC` (capacities 1, 1, 2) queried on 1 June 2031:
`displayRanks` lists `I3` under A, while the ledger of the same call holds for `I3` the single
record of the promotion to B, so the effective rank by the ledger is B. -/
theorem display_ledger_disagree :
    (runFullSimulation ladderABC slotsABC 10 rosterABC (some (makeDay 2031 5 1))).map
        (fun res => (res.displayRanks "A").map (fun o => o.IRLA)) = .ok ["I3"] ∧
    (runFullSimulation ladderABC slotsABC 10 rosterABC (some (makeDay 2031 5 1))).map
        (fun res => res.promotionRecords "I3")
      = .ok [⟨"B", getRetirementDate "10-01-1970", "I1", "N1"⟩] ∧
    (runFullSimulation ladderABC slotsABC 10 rosterABC (some (makeDay 2031 5 1))).map
        (fun res => effectiveRank res.promotionRecords (some (makeDay 2031 5 1)) "I3" "C")
      = .ok "B" := by
  decide
/-! ## C7: frozen exclusion in `runFullSimulation` -/

/-- C7 as stated fails. On `rosterShared` (capacities 1, 2, 1) the frozen member `F` of rank B
and the member `d2` of rank C share the IRLA `D`. On 1 January 2032 the display pass has
retired `a1` and `b1`; filling B it takes the candidate `d2` from C; filling A it takes as
candidate the object of `d2`, now in B, and then splices out of B the first entry that has
the candidate's IRLA, which is `F`. The returned `displayRanks` lists `d2` under A and under B
and lists `F` nowhere, although `F` is frozen; and the ledger holds under the IRLA of `F` the
record of the promotion of `d2`. -/
theorem frozen_loses_seat :
    rosterShared.map (fun m => (m.IRLA, m.Name, m.Rank, m.Frozen.truthy))
      = [("a1", "a1", "A", false), ("b1", "b1", "B", false), ("D", "F", "B", true),
          ("D", "d2", "C", false)] ∧
    (runFullSimulation ladderABC slots121 10 rosterShared (some (makeDay 2032 0 1))).map
        (fun res => ladderABC.map (fun r => (res.displayRanks r).map (fun o => (o.IRLA, o.Name))))
      = .ok [[("D", "d2")], [("D", "d2")], []] ∧
    (runFullSimulation ladderABC slots121 10 rosterShared (some (makeDay 2032 0 1))).map
        (fun res => ladderABC.map (fun r =>
          decide (∃ o ∈ res.displayRanks r, o.Name = "F")))
      = .ok [false, false, false] ∧
    (runFullSimulation ladderABC slots121 10 rosterShared (some (makeDay 2032 0 1))).map
        (fun res => (res.promotionRecords "D").map (fun r => (r.rank, r.causeIRLA)))
      = .ok [("B", "a1")] := by
  decide

/-- C7, amended: in a roster with distinct IRLAs, a frozen member is never the cause of a
record of `promotionRecords`, has no record of their own, and is still listed (as the working
copy of the entry, its fields unchanged) in `displayRanks` under their original rank, for
every date and whatever their date of birth. -/
theorem frozen_excluded (RO : List String) (SLOTS : String → Nat) (fuel : Nat)
    (officers : List Member) (currentDate : JsDate) (res : SimulationResult) (f : Member)
    (hirla : (officers.map (fun m => m.IRLA)).Nodup) (hf : f ∈ officers)
    (hfrozen : f.Frozen.truthy = true)
    (hrun : runFullSimulation RO SLOTS fuel officers currentDate = .ok res) :
    (∀ irla, ∀ r ∈ res.promotionRecords irla, r.causeIRLA ≠ f.IRLA) ∧
    res.promotionRecords f.IRLA = [] ∧
    f.toOfficer.initialise ∈ res.displayRanks f.Rank := by
  unfold runFullSimulation at hrun
  split at hrun
  · exact absurd hrun (by simp)
  rename_i tl htl
  split at hrun
  · exact absurd hrun (by simp)
  rename_i ds hds
  simp only [Except.ok.injEq] at hrun
  subst hrun
  refine ⟨?_, runTimeline_frozen_no_record RO SLOTS fuel officers tl f hirla hf hfrozen htl, ?_⟩
  · refine runTimeline_records_forall RO SLOTS fuel officers tl (fun r => r.causeIRLA ≠ f.IRLA)
      ?_ htl
    intro ev hev vr _ _
    obtain ⟨m, hm, hmf, ho, _⟩ := mem_allRetirementEvents officers ev hev
    simp only []
    rw [ho]
    intro e
    have : m = f := List.inj_on_of_nodup_map hirla hm hf e
    rw [this, hfrozen] at hmf
    exact absurd hmf (by decide)
  · obtain ⟨hin, hmem⟩ := runDisplay_frozen_kept RO SLOTS fuel officers currentDate ds f hirla hf
      hfrozen hds
    simp only []
    rw [if_pos hin]
    exact hmem

/-- C7, amended, on a roster whose frozen member `F` (rank B) reached retirement age in 1990: in 2050,
after every other member has retired, `F` is still listed under B and the ledger never names
`F`. -/
theorem frozen_excluded_witness :
    ∃ res, runFullSimulation ladderABC slotsABC 10 rosterFrozen (some (makeDay 2050 0 1))
        = .ok res ∧
      (∀ irla, ∀ r ∈ res.promotionRecords irla, r.causeIRLA ≠ "F") ∧
      res.promotionRecords "F" = [] ∧
      (⟨"F", "Fr", "10-01-1930", "B", 2, .bool true, false⟩ : Member).toOfficer.initialise
        ∈ res.displayRanks "B" := by
  obtain ⟨res, hres⟩ := exists_ok_of_isOk
    (x := runFullSimulation ladderABC slotsABC 10 rosterFrozen (some (makeDay 2050 0 1)))
    (by decide)
  exact ⟨res, hres, frozen_excluded ladderABC slotsABC 10 rosterFrozen _ res
    ⟨"F", "Fr", "10-01-1930", "B", 2, .bool true, false⟩ (by decide) (by decide) rfl hres⟩

/-! ## C8: retirement date -/

/-- C8: for a date of birth written `DD-MM-YYYY` that is a real calendar date with day `d`,
month `m` and four-digit year `y`, `getRetirementDate` (of dateUtils.js and of
simplified-simulation.js alike) returns the date with year `y + 60`, month `m` (month index
`m - 1`) and day the length of month `m` in year `y + 60`; every other real day `d'` of the
same month and year gives the same retirement date. -/
theorem getRetirementDate_month_end (d m y : Nat) (hy0 : 1000 ≤ y) (hy : y ≤ 9999)
    (hm0 : 1 ≤ m) (hm : m ≤ 12) (hd0 : 1 ≤ d) (hd : (d : Int) ≤ monthLength y m) :
    getRetirementDate (formatDMY d m y)
      = some (makeDay ((y : Int) + 60) ((m : Int) - 1) (monthLength ((y : Int) + 60) m)) ∧
    getFullYear (getRetirementDate (formatDMY d m y)) = some ((y : Int) + 60) ∧
    getMonth (getRetirementDate (formatDMY d m y)) = some ((m : Int) - 1) ∧
    getDate (getRetirementDate (formatDMY d m y)) = some (monthLength ((y : Int) + 60) m) ∧
    Simplified.getRetirementDate (formatDMY d m y) = getRetirementDate (formatDMY d m y) ∧
    ∀ d' : Nat, 1 ≤ d' → (d' : Int) ≤ monthLength y m →
      getRetirementDate (formatDMY d' m y) = getRetirementDate (formatDMY d m y) := by
  have h := getRetirementDate_formatDMY d m y (by omega) hy hm0 hm hd0 hd
  have hrt := civil_roundtrip ((y : Int) + 60) ((m : Int) - 1) (monthLength ((y : Int) + 60) m)
    (by omega) (by omega) (monthLength_pos _ _) (by rw [sub_add_cancel])
  rw [← makeDay_civil ((y : Int) + 60) ((m : Int) - 1) _ (by omega) (by omega)] at hrt
  refine ⟨h, ?_, ?_, ?_, rfl, ?_⟩
  · rw [h]; simp only [getFullYear, Option.map_some', hrt.1]
  · rw [h]; simp only [getMonth, Option.map_some', hrt.2.1]
  · rw [h]; simp only [getDate, Option.map_some', hrt.2.2]
  · intro d' hd0' hd'
    rw [h, getRetirementDate_formatDMY d' m y (by omega) hy hm0 hm hd0' hd']

/-- C8 at the date of birth 15-08-1990: retirement on 31 August 2050. -/
theorem getRetirementDate_month_end_witness :
    getRetirementDate (formatDMY 15 8 1990)
      = some (makeDay ((1990 : Nat) + 60) ((8 : Nat) - 1) (monthLength ((1990 : Nat) + 60) (8 : Nat))) ∧
    getDate (getRetirementDate (formatDMY 15 8 1990)) = some 31 :=
  ⟨(getRetirementDate_month_end 15 8 1990 (by decide) (by decide) (by decide) (by decide)
      (by decide) (by decide)).1,
    (getRetirementDate_month_end 15 8 1990 (by decide) (by decide) (by decide) (by decide)
      (by decide) (by decide)).2.2.2.1⟩

/-! ## C9: month end -/

/-- C9: for a four-digit year `y` and a month `m` in 1..12, `getLastDayOfMonth(y, m)` is 31 for
the months 1, 3, 5, 7, 8, 10, 12, 30 for the months 4, 6, 9, 11, and for February 29 exactly
when `y` is divisible by 4 and (not divisible by 100 or divisible by 400), otherwise 28. -/
theorem getLastDayOfMonth_gregorian (y m : Int) (hy0 : 1000 ≤ y) (hy : y ≤ 9999) (hm0 : 1 ≤ m)
    (hm : m ≤ 12) :
    getLastDayOfMonth (some y) (some m) =
      some (if m = 2 then (if y % 4 = 0 ∧ (y % 100 ≠ 0 ∨ y % 400 = 0) then 29 else 28)
        else if m = 4 ∨ m = 6 ∨ m = 9 ∨ m = 11 then 30
        else 31) := by
  rw [getLastDayOfMonth_eq y m (by omega) (by omega) hm0 hm]
  unfold monthLength inLeapYear
  split_ifs <;> rfl

/-- C9 at February 2024 (a leap year): 29 days. -/
theorem getLastDayOfMonth_gregorian_witness :
    getLastDayOfMonth (some 2024) (some 2) = some 29 :=
  getLastDayOfMonth_gregorian 2024 2 (by decide) (by decide) (by decide) (by decide)

/-! ## C10: event scheduling -/

/-- C10 as stated fails. On `rosterUnsorted` the date of birth of `q` has a day that is not a
number, so the event of `q` is dated Invalid Date and every comparison with it gives NaN:
`buildRetirementEvents` returns the events in roster order, the event of `p` (31 January 2031)
before that of `r` (31 January 2030), which is not non-decreasing date order. -/
theorem Simplified.buildRetirementEvents_unsorted :
    (Simplified.buildRetirementEvents (Simplified.officersCopy rosterUnsorted)).map
        (fun e => (e.officer.IRLA, e.date))
      = [("p", some (makeDay 2031 0 31)), ("q", none), ("r", some (makeDay 2030 0 31))] ∧
    ¬ (Simplified.buildRetirementEvents (Simplified.officersCopy rosterUnsorted)).Pairwise
        (fun a b => a.date.le b.date = true) := by
  decide

/-- C10, amended: `buildRetirementEvents` of simplified-simulation.js returns, up to order, exactly one
event per officer whose `Frozen` flag is not set and none for a frozen officer; each event
carries `getRetirementDate` of its officer's DOB; and when those dates are valid the list is in
non-decreasing date order. -/
theorem Simplified.buildRetirementEvents_spec (officers : List Officer) :
    (Simplified.buildRetirementEvents officers).Perm
        ((officers.filter (fun o => !o.Frozen.truthy)).map
          (fun o => { date := Simplified.getRetirementDate o.DOB, officer := o })) ∧
    (∀ e ∈ Simplified.buildRetirementEvents officers,
        e.officer ∈ officers ∧ e.officer.Frozen.truthy = false ∧
          e.date = Simplified.getRetirementDate e.officer.DOB) ∧
    ((∀ o ∈ officers, o.Frozen.truthy = false → (Simplified.getRetirementDate o.DOB).isSome = true) →
      (Simplified.buildRetirementEvents officers).Pairwise
        (fun a b => a.date.le b.date = true)) := by
  refine ⟨jsSort_perm _ _, ?_, ?_⟩
  · intro e he
    have he' := (mem_jsSort _ _ _).1 he
    simp only [List.mem_map, List.mem_filter, Bool.not_eq_true'] at he'
    obtain ⟨o, ⟨ho, hf⟩, rfl⟩ := he'
    exact ⟨ho, hf, rfl⟩
  · intro hv
    apply sorted_jsSort_dateCompare
    intro e he
    simp only [List.mem_map, List.mem_filter, Bool.not_eq_true'] at he
    obtain ⟨o, ⟨ho, hf⟩, rfl⟩ := he
    exact hv o ho hf

/-- C10, amended, on the roster of the end-to-end scenario: four events in date order. -/
theorem Simplified.buildRetirementEvents_spec_witness :
    (Simplified.buildRetirementEvents (Simplified.officersCopy rosterABC)).Pairwise
      (fun a b => a.date.le b.date = true) :=
  (Simplified.buildRetirementEvents_spec (Simplified.officersCopy rosterABC)).2.2 (by decide)

/-! ## C11: tie-break between same-date events -/

/-- Same-date elements of a list are ordered by `R` when each same-date sublist is. -/
theorem pairwise_of_filter_date (R : RetirementEvent → RetirementEvent → Prop)
    (l : List RetirementEvent)
    (h : ∀ d : JsDate, (l.filter (fun e => decide (e.date = d))).Pairwise R) :
    l.Pairwise (fun a b => a.date = b.date → R a b) := by
  induction l with
  | nil => exact List.Pairwise.nil
  | cons a l ih =>
    rw [List.pairwise_cons]
    refine ⟨?_, ih ?_⟩
    · intro b hb hab
      have := h a.date
      rw [List.filter_cons_of_pos (by simp), List.pairwise_cons] at this
      exact this.1 b (List.mem_filter.2 ⟨hb, by simp [hab]⟩)
    · intro d
      have := h d
      by_cases hd : a.date = d
      · rw [List.filter_cons_of_pos (by simp [hd]), List.pairwise_cons] at this
        exact this.2
      · rwa [List.filter_cons_of_neg (by simp [hd])] at this

/-- Events of one date leave the date sort in the order in which the roster lists them, when
every retirement date is a valid date. -/
theorem allRetirementEvents_filter_date (officers : List Officer) (d : JsDate)
    (hv : ∀ o ∈ officers, o.Frozen.truthy = false → (getRetirementDate o.DOB).isSome = true) :
    (allRetirementEvents officers).filter (fun e => decide (e.date = d)) =
      ((officers.filter (fun o => !o.Frozen.truthy)).map
        (fun o => ({ date := getRetirementDate o.DOB, officer := o } : RetirementEvent))).filter
        (fun e => decide (e.date = d)) := by
  apply jsSort_filter_of_tied
  · apply consistentOn_dateCompare
    intro e he
    simp only [List.mem_map, List.mem_filter, Bool.not_eq_true'] at he
    obtain ⟨o, ⟨ho, hf⟩, rfl⟩ := he
    exact hv o ho hf
  intro a _ b _ ha hb
  simp only [decide_eq_true_eq] at ha hb
  unfold sortLE dateCompare JsDate.sub
  rw [ha, hb]
  cases d <;> simp

/-- C11, counterexample: on a roster that lists the junior of two members with the same
retirement date first, the junior member's event comes first in `allRetirementEvents`. -/
theorem tieBreak_counterexample :
    ¬ TieBreakBySeniority (allRetirementEvents (officersCopy tieRoster)) := by
  decide

/-- C11, amended: the event sort compares dates only and, when the retirement dates of the
members that are not frozen are valid dates, is stable: the events of any one date are
processed in the order in which the roster lists their members; and when such a roster lists
its members in ascending `order_index`, of two events with the same date the one of the member
with the lower `order_index` is processed first. -/
theorem tieBreak_of_roster_order (officers : List Member)
    (hvalid : ∀ m ∈ officers, m.Frozen.truthy = false →
      (getRetirementDate m.DOB).isSome = true) :
    (∀ d : JsDate,
      ((allRetirementEvents (officersCopy officers)).filter (fun e => decide (e.date = d))).map
          (fun e => e.officer)
        = (officersCopy officers).filter
            (fun o => !o.Frozen.truthy && decide (getRetirementDate o.DOB = d))) ∧
    (officers.Pairwise (fun a b => a.order_index ≤ b.order_index) →
      TieBreakBySeniority (allRetirementEvents (officersCopy officers))) := by
  have hv : ∀ o ∈ officersCopy officers, o.Frozen.truthy = false →
      (getRetirementDate o.DOB).isSome = true := by
    intro o ho hf
    simp only [officersCopy, List.mem_map] at ho
    obtain ⟨m, hm, rfl⟩ := ho
    exact hvalid m hm ((JsValue.truthy_orFalse m.Frozen).symm.trans hf)
  refine ⟨?_, ?_⟩
  · intro d
    rw [allRetirementEvents_filter_date _ _ hv, List.filter_map, List.map_map,
      List.filter_filter]
    have hid : ((fun e : RetirementEvent => e.officer) ∘
        fun o : Officer => ({ date := getRetirementDate o.DOB, officer := o } : RetirementEvent))
        = id := rfl
    rw [hid, List.map_id]
    apply List.filter_congr
    intro o _
    exact Bool.and_comm _ _
  · intro hasc
    unfold TieBreakBySeniority
    apply pairwise_of_filter_date
    intro d
    rw [allRetirementEvents_filter_date _ _ hv]
    apply List.Pairwise.filter
    rw [List.pairwise_map]
    apply List.Pairwise.filter
    unfold officersCopy
    rw [List.pairwise_map]
    exact hasc.imp (fun h => h)

/-- C11 amended, on the tie roster listed senior first. -/
theorem tieBreak_of_roster_order_witness :
    TieBreakBySeniority (allRetirementEvents (officersCopy tieRoster.reverse)) :=
  (tieBreak_of_roster_order tieRoster.reverse (by decide)).2 (by decide)
/-! ## C12: initial occupancy order -/

/-- Officers whose `Frozen` fields hold booleans have comparable flags. -/
theorem flagsComparable_of_isBool (l : List Officer)
    (h : ∀ o ∈ l, o.Frozen.isBool = true) : FlagsComparable l :=
  fun a ha b hb e => JsValue.eq_of_truthy_eq _ _ (h a ha) (h b hb) e

/-- The initial occupancy order for officers whose `Frozen` fields hold booleans: when every
officer's rank is on the ladder, `buildRankStructures` of simplified-simulation.js returns, for
each rank, a permutation of the officers of that rank in which no frozen officer comes before a
non-frozen one and, among officers with the same `Frozen` flag, `order_index` is ascending. -/
theorem Simplified.buildRankStructures_sorted (RO : List String) (officers : List Officer)
    (hranks : ∀ o ∈ officers, o.Rank ∈ RO) (hb : ∀ o ∈ officers, o.Frozen.isBool = true) :
    ∃ rankMap, Simplified.buildRankStructures RO officers = .ok rankMap ∧
      ∀ rank,
        (rankMap rank).Perm (officers.filter (fun o => o.Rank = rank)) ∧
        (rankMap rank).Pairwise (fun a b =>
          (a.Frozen.truthy = true → b.Frozen.truthy = true) ∧
            (a.Frozen.truthy = b.Frozen.truthy → a.order_index ≤ b.order_index)) := by
  obtain ⟨rs, hrs⟩ := addToRanks_total RO (fun o : Officer => o.Rank) officers (fun _ => []) hranks
  have hk := (addToRanks_ok RO _ officers _ rs hrs).2
  have hrank : ∀ rank, rs rank = officers.filter (fun o => o.Rank = rank) := by
    intro rank
    rw [hk rank, List.nil_append]
  have hfc : ∀ rank, FlagsComparable (rs rank) := by
    intro rank
    apply flagsComparable_of_isBool
    intro o ho
    rw [hrank rank] at ho
    exact hb o (List.mem_filter.1 ho).1
  refine ⟨fun k => jsSort seniorityCompare (rs k), ?_, ?_⟩
  · unfold Simplified.buildRankStructures
    rw [hrs]
  · intro rank
    refine ⟨?_, ?_⟩
    · have hperm := jsSort_perm seniorityCompare (rs rank)
      exact hperm.trans (by rw [hrank rank])
    · refine List.Pairwise.imp_of_mem ?_ (sorted_jsSort_seniority (rs rank) (hfc rank))
      intro a b ha hb' hab
      have ha' := (mem_jsSort _ _ _).1 ha
      have hb'' := (mem_jsSort _ _ _).1 hb'
      rw [sortLE_seniority] at hab
      rcases hab with ⟨hne, haf⟩ | ⟨he, hle⟩
      · refine ⟨fun h => ?_, fun h => ?_⟩
        · rw [haf] at h
          exact absurd h (by decide)
        · exact absurd (hfc rank a ha' b hb'' h) hne
      · exact ⟨fun h => by rw [← he]; exact h, fun _ => hle⟩

/-- The initial occupancy order on the roster of the end-to-end scenario, listed junior first:
rank C comes out senior first. -/
theorem Simplified.buildRankStructures_sorted_witness :
    ∃ rankMap, Simplified.buildRankStructures ladderABC (Simplified.officersCopy rosterABC)
        = .ok rankMap ∧
      ∀ rank,
        (rankMap rank).Perm
            ((Simplified.officersCopy rosterABC).filter (fun o => o.Rank = rank)) ∧
        (rankMap rank).Pairwise (fun a b =>
          (a.Frozen.truthy = true → b.Frozen.truthy = true) ∧
            (a.Frozen.truthy = b.Frozen.truthy → a.order_index ≤ b.order_index)) :=
  Simplified.buildRankStructures_sorted ladderABC (Simplified.officersCopy rosterABC) (by decide)
    (by decide)

/-- C12, the code at a failing input. For the two officers of `rosterTwoC`, both of rank C and neither
frozen, `c1` (`order_index` 1) with `Frozen: false` and `c2` (`order_index` 2) without a
`Frozen` field, `buildRankStructures` of simplified-simulation.js returns the list [c2, c1]:
the comparator finds `undefined !== false` and answers -1 whichever of the two comes first,
so `order_index` is not ascending within the non-frozen members. -/
theorem Simplified.buildRankStructures_unsorted :
    (Simplified.officersCopy rosterTwoC).map
        (fun o => (o.IRLA, o.Rank, o.order_index, o.Frozen, o.Frozen.truthy))
      = [("c1", "C", 1, .bool false, false), ("c2", "C", 2, .undefined, false)] ∧
    (Simplified.buildRankStructures ladderABC (Simplified.officersCopy rosterTwoC)).map
        (fun rankMap => (rankMap "C").map (fun o => (o.IRLA, o.order_index)))
      = .ok [("c2", 2), ("c1", 1)] ∧
    seniorityCompare ⟨"c1", "n1", "10-01-1972", "C", 1, .bool false, false, false⟩
        ⟨"c2", "n2", "10-01-1973", "C", 2, .undefined, false, false⟩ = some (-1) ∧
    seniorityCompare ⟨"c2", "n2", "10-01-1973", "C", 2, .undefined, false, false⟩
        ⟨"c1", "n1", "10-01-1972", "C", 1, .bool false, false, false⟩ = some (-1) := by
  decide

/-! ## C13: no cascade -/

/-- No cascade for an officer that stands under the rank the event carries: in any state of the
timeline pass, when a retirement event finds its officer under the
rank it carries and that rank is the lowest of the ladder, or the rank directly below holds
only frozen officers (or nobody), processing the event returns, removes from that rank the
one entry found for the retiring officer's IRLA, leaves every other rank list and the whole
ledger as they were, and leaves the rank one member shorter. -/
theorem no_cascade (RO : List String) (SLOTS : String → Nat) (fuel : Nat) (st : TimelineState)
    (ev : RetirementEvent) (index : Nat)
    (hrank : ev.officer.Rank ∈ RO)
    (hfound : findIndex (fun o => o.IRLA == ev.officer.IRLA) (st.ranks ev.officer.Rank)
      = some index)
    (hno : RO.indexOf ev.officer.Rank = RO.length - 1 ∨
      ∃ lr, RO[RO.indexOf ev.officer.Rank + 1]? = some lr ∧ ∀ o ∈ st.ranks lr, o.Frozen.truthy = true) :
    ∃ st', processTimelineEvent RO SLOTS (fuel + 1) st ev = .ok st' ∧
      st'.records = st.records ∧
      (∀ r, r ≠ ev.officer.Rank → st'.ranks r = st.ranks r) ∧
      st'.ranks ev.officer.Rank = (st.ranks ev.officer.Rank).eraseIdx index ∧
      (∃ o, (st.ranks ev.officer.Rank)[index]? = some o ∧ o.IRLA = ev.officer.IRLA) ∧
      (st'.ranks ev.officer.Rank).length + 1 = (st.ranks ev.officer.Rank).length := by
  obtain ⟨o, ho, hp, _, hsplit, herase⟩ := findIndex_eq_some _ _ _ hfound
  have hlt : index < (st.ranks ev.officer.Rank).length := by
    rcases Nat.lt_or_ge index (st.ranks ev.officer.Rank).length with h | h
    · exact h
    · rw [List.getElem?_eq_none h] at ho
      exact absurd ho (by simp)
  refine ⟨st.withRanks (setRank st.ranks ev.officer.Rank
    ((st.ranks ev.officer.Rank).eraseIdx index)), ?_, rfl, ?_, ?_, ⟨o, ho, ?_⟩, ?_⟩
  · unfold processTimelineEvent
    simp only [hfound]
    apply fillVacancy_stop RO SLOTS fuel _ _ _ _ hrank
    rcases hno with hlast | ⟨lr, hlr, hfrozen⟩
    · exact Or.inr (Or.inl hlast)
    · refine Or.inr (Or.inr ⟨lr, hlr, ?_⟩)
      unfold candidateIndex
      rw [findIndex_eq_none]
      intro a ha
      have ha' : a ∈ st.ranks lr := by
        simp only [withRanks_ranks, setRank] at ha
        split_ifs at ha with hk
        · subst hk
          exact (List.eraseIdx_sublist _ _).subset ha
        · exact ha
      simp [hfrozen a ha']
  · intro r hr
    simp only [withRanks_ranks, setRank, if_neg hr]
  · simp only [withRanks_ranks, setRank, if_true]
  · simpa using hp
  · simp only [withRanks_ranks, setRank, if_true]
    rw [List.length_eraseIdx, if_pos hlt]
    omega

/-- No cascade on the end-to-end roster after its first event: `I4` retires from the lowest
rank. -/
theorem no_cascade_witness :
    ∃ st', processTimelineEvent ladderABC slotsABC 1
        ⟨fun r => if r = "C" then [m4.toOfficer] else [], fun _ => [], []⟩
        ⟨getRetirementDate m4.DOB, m4.toOfficer⟩ = .ok st' ∧
      st'.records = (fun _ => []) ∧ st'.ranks "C" = [] :=
  match no_cascade ladderABC slotsABC 0
      ⟨fun r => if r = "C" then [m4.toOfficer] else [], fun _ => [], []⟩
      ⟨getRetirementDate m4.DOB, m4.toOfficer⟩ 0 (by decide) (by decide) (Or.inl (by decide)) with
  | ⟨st', h1, h2, _, h4, _⟩ => ⟨st', h1, h2, h4⟩

/-- C13, the code at a failing input. On `rosterLate` (capacities 1, 1, 1) the first event, the retirement
of `Y`, promotes `Z` from C to B. In the state before the second event, the retirement of `Z`
itself, `Z` stands in B and the rank directly below, C, is empty; the event carries a copy of
`Z` made before the run, with rank C, so `Z` is looked for under C, is not found, and the
event is skipped: `Z` is not removed and B is not one member shorter. -/
theorem no_cascade_skips_promoted :
    (allRetirementEvents (officersCopy rosterLate)).map
        (fun e => (e.officer.IRLA, e.officer.Rank))
      = [("Y", "B"), ("Z", "C"), ("X", "A")] ∧
    (eventStep ladderABC slots111 10 rosterLate 1).map (fun p => p.map (fun ss =>
        ladderABC.map (fun r => (ss.1.ranks r).map (fun o => o.IRLA))))
      = .ok (some [["X"], ["Z"], []]) ∧
    (eventStep ladderABC slots111 10 rosterLate 1).map (fun p => p.map (fun ss =>
        ladderABC.map (fun r => (ss.2.ranks r).map (fun o => o.IRLA))))
      = .ok (some [["X"], ["Z"], []]) ∧
    (eventStep ladderABC slots111 10 rosterLate 1).map (fun p => p.map (fun ss =>
        ((ss.1.ranks "B").length, (ss.2.ranks "B").length)))
      = .ok (some (1, 1)) := by
  decide

/-! ## C14: every member that is not frozen retires -/

/-- C14, the code at the failing input `rosterABC` (capacities 1, 1, 2): after all four
retirement events, `I2` and `I3`, promoted by the first event, are still listed (under A and
B); their own events looked for them under B and C, the ranks the events carry, and were
skipped. -/
theorem promoted_never_retire :
    (runTimeline ladderABC slotsABC 10 rosterABC).map
        (fun s => ((s.ranks "A").map (fun o => (o.IRLA, o.Frozen)),
          (s.ranks "B").map (fun o => (o.IRLA, o.Frozen)),
          (s.ranks "C").map (fun o => (o.IRLA, o.Frozen))))
      = .ok ([("I2", JsValue.bool false)], [("I3", JsValue.bool false)], []) ∧
    (allRetirementEvents (officersCopy rosterABC)).map (fun e => (e.officer.IRLA, e.officer.Rank))
      = [("I1", "A"), ("I2", "B"), ("I3", "C"), ("I4", "C")] := by
  decide

/-! ## C15: no promotion after retirement -/

/-- C15, the code at the failing input `rosterLate` (capacities 1, 1, 1): `Z` retires on
28 February 2031, yet the ledger holds for `Z` a promotion to A dated 29 February 2040, the
retirement of `X`. -/
theorem promoted_after_retirement :
    (runTimeline ladderABC slots111 10 rosterLate).map (fun s => s.records "Z")
      = .ok [⟨"B", some (makeDay 2030 1 28), "Y", "y"⟩, ⟨"A", some (makeDay 2040 1 29), "X", "x"⟩] ∧
    getRetirementDate "10-02-1971" = some (makeDay 2031 1 28) ∧
    makeDay 2031 1 28 < makeDay 2040 1 29 := by
  decide

/-! ## C16: every ledger record names a real retirement -/

/-- C16: every record `[rank, date, causeIRLA, causeName]` of `promotionRecords` names a roster
member that is not frozen, whose IRLA is `causeIRLA`, whose retirement date is `date` and whose
`Name` (or 'Unknown' when empty) is `causeName`; and `rank` is a rank of the ladder that has a
rank below it, so with distinct rank names it is not the lowest rank. -/
theorem record_names_retirement (RO : List String) (SLOTS : String → Nat) (fuel : Nat)
    (officers : List Member) (currentDate : JsDate) (res : SimulationResult)
    (hrun : runFullSimulation RO SLOTS fuel officers currentDate = .ok res) :
    ∀ irla, ∀ r ∈ res.promotionRecords irla,
      (∃ m ∈ officers, m.Frozen.truthy = false ∧ m.IRLA = r.causeIRLA ∧
        getRetirementDate m.DOB = r.date ∧
        r.causeName = (if m.Name = "" then "Unknown" else m.Name)) ∧
      r.rank ∈ RO ∧ RO.indexOf r.rank + 1 < RO.length ∧
      (RO.Nodup → RO.getLast? ≠ some r.rank) := by
  unfold runFullSimulation at hrun
  split at hrun
  · exact absurd hrun (by simp)
  rename_i tl htl
  split at hrun
  · exact absurd hrun (by simp)
  simp only [Except.ok.injEq] at hrun
  subst hrun
  refine runTimeline_records_forall RO SLOTS fuel officers tl _ ?_ htl
  intro ev hev vr hvr hidx
  obtain ⟨m, hm, hf, ho, hd⟩ := mem_allRetirementEvents officers ev hev
  have hlt := List.indexOf_lt_length.2 hvr
  simp only []
  refine ⟨⟨m, hm, hf, ?_, ?_, ?_⟩, hvr, by omega, ?_⟩
  · rw [ho]; rfl
  · rw [hd]
  · rw [ho]; rfl
  · intro hnd hlast
    apply hidx
    have hne : RO ≠ [] := fun e => by rw [e] at hvr; exact absurd hvr (List.not_mem_nil _)
    rw [List.getLast?_eq_getLast _ hne, Option.some.injEq] at hlast
    rw [← hlast, List.getLast_eq_getElem]
    exact List.indexOf_getElem hnd _ _

/-- C16 on the end-to-end scenario: the record of `m3` names the retirement of `m1`. -/
theorem record_names_retirement_witness :
    ∃ res, runFullSimulation ladderABC slotsABC 10 rosterABC (some (makeDay 2031 5 1)) = .ok res ∧
      ∀ r ∈ res.promotionRecords "I3",
        (∃ m ∈ rosterABC, m.Frozen.truthy = false ∧ m.IRLA = r.causeIRLA ∧
          getRetirementDate m.DOB = r.date ∧
          r.causeName = (if m.Name = "" then "Unknown" else m.Name)) ∧
        r.rank ∈ ladderABC ∧ ladderABC.indexOf r.rank + 1 < ladderABC.length ∧
        (ladderABC.Nodup → ladderABC.getLast? ≠ some r.rank) := by
  obtain ⟨res, hres⟩ := exists_ok_of_isOk
    (x := runFullSimulation ladderABC slotsABC 10 rosterABC (some (makeDay 2031 5 1))) (by decide)
  exact ⟨res, hres, record_names_retirement ladderABC slotsABC 10 rosterABC _ res hres "I3"⟩

/-! ## C18: calling `simulatePromotions` of promotionUtils.js twice -/

/-- C18, the code at the failing input `rosterABC` as fresh objects (capacities 1, 1, 2): the
first call returns a ledger with a record for `I2` and leaves every object marked `Retired`;
the second call, on the roster as the first call left it, skips every event and returns an
empty ledger for `I2`. -/
theorem simulatePromotions_twice :
    (PromotionUtils.simulatePromotions ladderABC slotsABC 10 (officersCopy rosterABC)).map
        (fun r => (r.1 "I2", r.2.map (fun o => (o.IRLA, o.Rank, o.Retired))))
      = .ok ([⟨"A", getRetirementDate "10-01-1970", "I1", "N1"⟩],
          [("I4", "A", true), ("I3", "B", true), ("I2", "A", true), ("I1", "A", true)]) ∧
    ((PromotionUtils.simulatePromotions ladderABC slotsABC 10 (officersCopy rosterABC)).bind
        (fun r => PromotionUtils.simulatePromotions ladderABC slotsABC 10 r.2)).map
        (fun r => r.1 "I2") = .ok [] := by
  decide

/-! ## C19: the ledger does not depend on the query date -/

/-- C19: two runs of `runFullSimulation` on the same roster with query dates `X` and `Y`
return the same `promotionRecords`: the whole timeline pass, which writes the ledger, never
reads the query date. -/
theorem ledger_independent_of_date (RO : List String) (SLOTS : String → Nat) (fuel : Nat)
    (officers : List Member) (X Y : JsDate) (resX resY : SimulationResult)
    (hX : runFullSimulation RO SLOTS fuel officers X = .ok resX)
    (hY : runFullSimulation RO SLOTS fuel officers Y = .ok resY) :
    resX.promotionRecords = resY.promotionRecords ∧ resX.timeline = resY.timeline := by
  unfold runFullSimulation at hX hY
  split at hX
  · exact absurd hX (by simp)
  rename_i tl htl
  rw [htl] at hY
  simp only [] at hY
  split at hX
  · exact absurd hX (by simp)
  split at hY
  · exact absurd hY (by simp)
  simp only [Except.ok.injEq] at hX hY
  subst hX
  subst hY
  exact ⟨rfl, rfl⟩

/-- C19 on the end-to-end scenario, queried in 2000 and in 2050. -/
theorem ledger_independent_of_date_witness :
    ∃ resX resY,
      runFullSimulation ladderABC slotsABC 10 rosterABC (some (makeDay 2000 0 1)) = .ok resX ∧
      runFullSimulation ladderABC slotsABC 10 rosterABC (some (makeDay 2050 0 1)) = .ok resY ∧
      resX.promotionRecords = resY.promotionRecords ∧ resX.timeline = resY.timeline := by
  obtain ⟨resX, hX⟩ := exists_ok_of_isOk
    (x := runFullSimulation ladderABC slotsABC 10 rosterABC (some (makeDay 2000 0 1)))
    (by decide)
  obtain ⟨resY, hY⟩ := exists_ok_of_isOk
    (x := runFullSimulation ladderABC slotsABC 10 rosterABC (some (makeDay 2050 0 1)))
    (by decide)
  exact ⟨resX, resY, hX, hY,
    ledger_independent_of_date ladderABC slotsABC 10 rosterABC _ _ resX resY hX hY⟩
/-! ## C20: termination of `fillVacancy` -/

/-- C20: on a ladder of distinct rank names, `fillVacancy` halts from every rank structure,
for every capacity table, rank and cause, as soon as the fuel exceeds the potential of the
structure: it never runs out of fuel but returns a state or throws a TypeError; it returns a
state when the rank is on the ladder and no entry has an IRLA that names an inherited
property (the one case in which the `push` onto the ledger throws), and throws at once for a
rank outside the ladder. Likewise `runFullSimulation` halts for every roster and date once
the fuel exceeds the roster size times the number of steps of the ladder, and returns its
result when the ranks are on the ladder and no IRLA names an inherited property. -/
theorem fillVacancy_terminates (RO : List String) (SLOTS : String → Nat) (hnd : RO.Nodup)
    (st : TimelineState) (vr : String) (date : JsDate) (cause : Officer) (fuel : Nat)
    (officers : List Member) (currentDate : JsDate)
    (hfuel : potential RO st.ranks < fuel)
    (hfuel' : officers.length * (RO.length - 1) < fuel) :
    ((∃ st', fillVacancy RO SLOTS fuel st vr date cause = .ok st') ∨
      fillVacancy RO SLOTS fuel st vr date cause = .error .typeError) ∧
    (vr ∈ RO → OwnKeys RO st.ranks →
      ∃ st', fillVacancy RO SLOTS fuel st vr date cause = .ok st') ∧
    (vr ∉ RO → fillVacancy RO SLOTS fuel st vr date cause = .error .typeError) ∧
    ((∃ res, runFullSimulation RO SLOTS fuel officers currentDate = .ok res) ∨
      runFullSimulation RO SLOTS fuel officers currentDate = .error .typeError) ∧
    ((∀ m ∈ officers, m.Rank ∈ RO) → (∀ m ∈ officers, m.IRLA ∉ inheritedKeys) →
      ∃ res, runFullSimulation RO SLOTS fuel officers currentDate = .ok res) := by
  have hoff : vr ∉ RO → fillVacancy RO SLOTS fuel st vr date cause = .error .typeError := by
    intro hvr
    cases fuel with
    | zero => exact absurd hfuel (Nat.not_lt_zero _)
    | succ n =>
      unfold fillVacancy
      rw [if_pos hvr]
  refine ⟨?_, ?_, hoff, ?_, ?_⟩
  · by_cases hvr : vr ∈ RO
    · rcases fillVacancy_halts RO SLOTS hnd date cause fuel st vr hvr hfuel with
        ⟨st', hst', _⟩ | herr
      · exact Or.inl ⟨st', hst'⟩
      · exact Or.inr herr
    · exact Or.inr (hoff hvr)
  · intro hvr hown
    obtain ⟨st', hst', _⟩ := fillVacancy_total RO SLOTS hnd date cause fuel st vr hvr hown hfuel
    exact ⟨st', hst'⟩
  · exact runFullSimulation_halts RO SLOTS hnd fuel officers currentDate hfuel'
  · intro hranks hkeys
    exact runFullSimulation_ok RO SLOTS hnd fuel officers currentDate hranks hkeys hfuel'

/-- C20 on the end-to-end ladder (capacities 1, 1, 2): with A vacant, `I2` in B and `I3`, `I4`
in C, filling A returns after two rounds of its loop and a recursive call that fills B (`I2`
goes up to A and `I3` to B); and the run of the end-to-end roster returns its result. -/
theorem fillVacancy_terminates_witness :
    (∃ st', fillVacancy ladderABC slotsABC 10
      ⟨fun r => if r = "B" then [m2.toOfficer] else if r = "C" then [m3.toOfficer, m4.toOfficer]
        else [], fun _ => [], []⟩
      "A" (some 0) m1.toOfficer = .ok st') ∧
    (fillVacancy ladderABC slotsABC 10
      ⟨fun r => if r = "B" then [m2.toOfficer] else if r = "C" then [m3.toOfficer, m4.toOfficer]
        else [], fun _ => [], []⟩
      "A" (some 0) m1.toOfficer).map
        (fun st' => ladderABC.map (fun r => (st'.ranks r).map (fun o => o.IRLA)))
      = .ok [["I2"], ["I3"], ["I4"]] ∧
    ∃ res, runFullSimulation ladderABC slotsABC 10 rosterABC (some 0) = .ok res := by
  have h := fillVacancy_terminates ladderABC slotsABC (by decide)
    ⟨fun r => if r = "B" then [m2.toOfficer] else if r = "C" then [m3.toOfficer, m4.toOfficer]
      else [], fun _ => [], []⟩
    "A" (some 0) m1.toOfficer 10 rosterABC (some 0) (by decide) (by decide)
  exact ⟨h.2.1 (by decide) (by decide), by decide, h.2.2.2.2 (by decide) (by decide)⟩

/-! ## C21: records appended by one event -/

/-- C21 as stated fails. On the configured ladder and capacities, the first event of the
four-member roster `rosterDeep` (the retirement of `X` from IG) appends five records: `D` goes
up to IG, `C1` and `C2` go up to DIG and then, in the same event, on to IG. -/
theorem per_event_bound_counterexample :
    (eventStep RANK_ORDER SLOTS 30 rosterDeep 0).map (fun p => p.map (fun ss =>
        (recordCount ["X", "D", "C1", "C2"] ss.1.records,
          recordCount ["X", "D", "C1", "C2"] ss.2.records)))
      = .ok (some (0, 5)) ∧
    (eventStep RANK_ORDER SLOTS 30 rosterDeep 0).map (fun p => p.map (fun ss =>
        ((ss.2.records "D").map (fun r => r.rank), (ss.2.records "C1").map (fun r => r.rank),
          (ss.2.records "C2").map (fun r => r.rank))))
      = .ok (some (["IG"], ["DIG", "IG"], ["DIG", "IG"])) ∧
    rosterDeep.length = 4 := by
  decide

/-- C21, amended: on a ladder of distinct rank names, the records appended to the ledger
(counted under any list of distinct keys) while `runFullSimulation` processes one retirement
event are at most the number of members of the roster times the number of ranks less one. -/
theorem per_event_bound (RO : List String) (SLOTS : String → Nat) (hnd : RO.Nodup)
    (fuel : Nat) (officers : List Member) (n : Nat) (keys : List String) (hkeys : keys.Nodup)
    (s s' : TimelineState)
    (h : eventStep RO SLOTS fuel officers n = .ok (some (s, s'))) :
    recordCount keys s'.records
      ≤ recordCount keys s.records + officers.length * (RO.length - 1) := by
  unfold eventStep at h
  split at h
  · exact absurd h (by simp)
  rename_i st0 hst0
  split at h
  · exact absurd h (by simp)
  rename_i s1 hs1
  split at h
  · exact absurd h (by simp)
  rename_i ev hev
  split at h
  · exact absurd h (by simp)
  rename_i s2 hs2
  simp only [Except.ok.injEq, Option.some.injEq, Prod.mk.injEq] at h
  obtain ⟨rfl, rfl⟩ := h
  have hp0 := initialTimeline_potential RO hnd officers st0 hst0
  have hp1 := processTimelineEvents_potential RO SLOTS hnd fuel _ _ st0 s1 hp0 hs1
  have hrec := processTimelineEvent_records RO SLOTS hnd fuel keys hkeys s1 s2 ev hs2
  omega

/-- C21, amended, on `rosterDeep`: the five records of the first event are within
4 * 6 = 24. -/
theorem per_event_bound_witness :
    ∃ s s', eventStep RANK_ORDER SLOTS 30 rosterDeep 0 = .ok (some (s, s')) ∧
      recordCount ["X", "D", "C1", "C2"] s'.records
        ≤ recordCount ["X", "D", "C1", "C2"] s.records
          + rosterDeep.length * (RANK_ORDER.length - 1) := by
  obtain ⟨p, hp⟩ := exists_ok_of_isOk (x := eventStep RANK_ORDER SLOTS 30 rosterDeep 0)
    (by decide)
  cases p with
  | none =>
    have : (eventStep RANK_ORDER SLOTS 30 rosterDeep 0).map (fun p => p.isSome) = .ok true := by
      decide
    rw [hp] at this
    exact absurd this (by simp [Except.map])
  | some ss =>
    exact ⟨ss.1, ss.2, hp, per_event_bound RANK_ORDER SLOTS (by decide) 30 rosterDeep 0
      ["X", "D", "C1", "C2"] (by decide) ss.1 ss.2 hp⟩

/-! ## C22: the ledger-replay snapshot respects capacity -/

/-- C22 as stated fails. Both rosters are within capacity in every rank. In `rosterDup`
(capacities 1, 1, 2) `d1` of rank B and `d2` of rank C share the IRLA `D`, under which the
ledger holds the records of a promotion to A and of one to B: on 1 June 2030 `filterByDate`
files both members under B, which holds one. In `rosterReplay` (capacities 2, 1, 2, distinct
IRLAs) the date of birth of `a1` has a day that is not a number: the promotion of `b` to A
caused by `a1` is dated Invalid Date, which no replay date reaches, so on 1 January 2031 the
replay still files `b` under B, next to `d`, promoted to B in 2030. -/
theorem replay_exceeds_capacity :
    (∀ r ∈ ladderABC, (rosterDup.filter (fun m => m.Rank = r)).length ≤ slotsABC r) ∧
    ((Simplified.simulatePromotions ladderABC slotsABC 10 rosterDup).bind
        (fun P => Simplified.filterByDate ladderABC rosterDup P (some (makeDay 2030 5 1)))).map
        (fun rankMap => ((rankMap "B").map (fun m => m.Name), slotsABC "B"))
      = .ok (["d1", "d2"], 1) ∧
    (∀ r ∈ ladderABC, (rosterReplay.filter (fun m => m.Rank = r)).length ≤ slotsReplay r) ∧
    (rosterReplay.map (fun m => m.IRLA)).Nodup ∧
    ((Simplified.simulatePromotions ladderABC slotsReplay 10 rosterReplay).bind
        (fun P => Simplified.filterByDate ladderABC rosterReplay P (some (makeDay 2031 0 1)))).map
        (fun rankMap => ((rankMap "B").map (fun m => m.Name), slotsReplay "B"))
      = .ok (["b", "d"], 1) := by
  decide

/-- C22, amended: for a roster with distinct IRLAs and valid retirement dates of the members that are
not frozen, whose head-count in each rank of the ladder is at most `SLOTS[rank]`, for every
date `X` and the ledger `P` of `simulatePromotions` (simplified-simulation.js), every rank
list of `filterByDate(roster, P, X)` has at most `SLOTS[rank]` members. -/
theorem replay_respects_capacity (RO : List String) (SLOTS : String → Nat) (fuel : Nat)
    (officers : List Member) (X : JsDate) (P : Ledger) (rankMap : RankStructure Member)
    (hcap : ∀ r ∈ RO, (officers.filter (fun m => m.Rank = r)).length ≤ SLOTS r)
    (hirla : (officers.map (fun m => m.IRLA)).Nodup)
    (hvalid : ∀ m ∈ officers, m.Frozen.truthy = false →
      (Simplified.getRetirementDate m.DOB).isSome = true)
    (hP : Simplified.simulatePromotions RO SLOTS fuel officers = .ok P)
    (hf : Simplified.filterByDate RO officers P X = .ok rankMap) :
    ∀ rank, (rankMap rank).length ≤ SLOTS rank :=
  Simplified.replay_capacity RO SLOTS fuel officers X P rankMap hcap hirla hvalid hP hf

/-- C22, amended, on the end-to-end scenario, replayed on 1 June 2031. -/
theorem replay_respects_capacity_witness :
    ∃ P rankMap, Simplified.simulatePromotions ladderABC slotsABC 10 rosterABC = .ok P ∧
      Simplified.filterByDate ladderABC rosterABC P (some (makeDay 2031 5 1)) = .ok rankMap ∧
      ∀ rank, (rankMap rank).length ≤ slotsABC rank := by
  obtain ⟨rankMap, hrm⟩ := exists_ok_of_isOk
    (x := (Simplified.simulatePromotions ladderABC slotsABC 10 rosterABC).bind
      (fun P => Simplified.filterByDate ladderABC rosterABC P (some (makeDay 2031 5 1))))
    (by decide)
  obtain ⟨P, hP, hf⟩ := bind_ok_inv hrm
  exact ⟨P, rankMap, hP, hf,
    replay_respects_capacity ladderABC slotsABC 10 rosterABC (some (makeDay 2031 5 1)) P
      rankMap (by decide) (by decide) (by decide) hP hf⟩

/-! ## C23: timeline rendering -/

/-- Timeline rendering for a member id under which the ledger object inherits nothing that
passes the guard: `generateTimeline` returns the text "No promotions recorded." exactly when
the member has no ledger record; and for every member id with records it returns the lines of
the records, in ledger order, joined by line breaks (splitting the text at the line breaks
gives one line per record back when no field holds a line break), each line naming the
record's rank, date, cause name and cause IRLA, the date of a real calendar date with a
four-digit year being written `DD-MM-YYYY`; and the two `computePromotionTimeline` functions
return what `generateTimeline` returns. -/
theorem timeline_rendering (P : Ledger) (irla : String) :
    (readsInherited irla = false →
      (generateTimeline irla P = .ok "No promotions recorded." ↔ P irla = [])) ∧
    (P irla ≠ [] →
      generateTimeline irla P = .ok (String.mk (join ['\n'] ((P irla).map timelineLine)))) ∧
    (P irla ≠ [] →
      (∀ r ∈ P irla, '\n' ∉ r.rank.toList ∧ '\n' ∉ r.causeName.toList ∧
        '\n' ∉ r.causeIRLA.toList) →
      ∃ text, generateTimeline irla P = .ok text ∧
        split '\n' text.toList = (P irla).map timelineLine) ∧
    (∀ r ∈ P irla, ∀ d m y : Nat, 1000 ≤ y → y ≤ 9999 → 1 ≤ m → m ≤ 12 → 1 ≤ d →
      (d : Int) ≤ monthLength y m → r.date = some (makeDay y ((m : Int) - 1) d) →
      timelineLine r = "Promoted to ".toList ++ r.rank.toList ++ " on ".toList ++
        (formatDMY d m y).toList ++ " (triggered by retirement of ".toList ++
        r.causeName.toList ++ " [".toList ++ r.causeIRLA.toList ++ "])".toList) ∧
    Simplified.computePromotionTimeline irla P = generateTimeline irla P ∧
    PromotionUtils.computePromotionTimeline irla P = generateTimeline irla P := by
  refine ⟨fun hown => ⟨?_, ?_⟩, generateTimeline_of_ne irla P, ?_, ?_, ?_, ?_⟩
  · intro h
    by_contra hne
    exact generateTimeline_ne_noPromotions irla P hne h
  · intro h
    unfold generateTimeline
    rw [h, hown]
    rfl
  · intro hne hfields
    refine ⟨_, generateTimeline_of_ne irla P hne, ?_⟩
    show split '\n' (join ['\n'] ((P irla).map timelineLine)) = _
    apply split_join
    · intro e
      exact hne (List.map_eq_nil_iff.1 e)
    · intro l hl
      obtain ⟨r, hr, rfl⟩ := List.mem_map.1 hl
      obtain ⟨h1, h2, h3⟩ := hfields r hr
      have hd := newline_not_mem_formatDate r.date
      unfold timelineLine
      simp only [List.mem_append, not_or]
      exact ⟨⟨⟨⟨⟨⟨⟨⟨by decide, h1⟩, by decide⟩, hd⟩, by decide⟩, h2⟩, by decide⟩, h3⟩, by decide⟩
  · intro r _ d m y hy0 hy hm0 hm hd0 hd hdate
    unfold timelineLine
    rw [hdate, formatDate_civil d m y hy0 hy hm0 hm hd0 hd]
  · unfold Simplified.computePromotionTimeline generateTimeline
    simp only [foldl_push_eq_map, List.nil_append]
    rfl
  · unfold PromotionUtils.computePromotionTimeline generateTimeline
    simp only [foldl_push_eq_map, List.nil_append]
    rfl

/-- Timeline rendering on a ledger with two records for `I3`: two lines, the dates written
`31-01-2030` and `31-01-2031`; and no record for `I9`. -/
theorem timeline_rendering_witness :
    generateTimeline "I3" (fun k => if k = "I3" then
        [⟨"B", some (makeDay 2030 0 31), "I1", "N1"⟩, ⟨"A", some (makeDay 2031 0 31), "I2", "N2"⟩]
      else [])
      = .ok "Promoted to B on 31-01-2030 (triggered by retirement of N1 [I1])\nPromoted to A on 31-01-2031 (triggered by retirement of N2 [I2])" ∧
    (generateTimeline "I9" (fun k => if k = "I3" then
        [⟨"B", some (makeDay 2030 0 31), "I1", "N1"⟩, ⟨"A", some (makeDay 2031 0 31), "I2", "N2"⟩]
      else [])
      = .ok "No promotions recorded." ↔
      (fun k => if k = "I3" then
        [(⟨"B", some (makeDay 2030 0 31), "I1", "N1"⟩ : PromotionRecord),
          ⟨"A", some (makeDay 2031 0 31), "I2", "N2"⟩]
      else []) "I9" = []) :=
  ⟨by decide, (timeline_rendering _ "I9").1 (by decide)⟩

/-- C23, the code at a failing input. The ledger is a plain object, and the guard
`!promotionRecords[irla] || promotionRecords[irla].length === 0` reads what the object
inherits: for the member id `constructor`, under which an empty ledger has no record, it finds
the function `Object` (truthy, of length 1) and goes on to call `.map` on it, which throws a
TypeError where the text "No promotions recorded." is due. The two `computePromotionTimeline`
functions throw likewise (at `for ... of` and at `.forEach`). -/
theorem timeline_rendering_throws :
    ((fun _ => []) : Ledger) "constructor" = [] ∧
    generateTimeline "constructor" (fun _ => []) = .error .typeError ∧
    Simplified.computePromotionTimeline "constructor" (fun _ => []) = .error .typeError ∧
    PromotionUtils.computePromotionTimeline "constructor" (fun _ => []) = .error .typeError ∧
    generateTimeline "I9" (fun _ => []) = .ok "No promotions recorded." := by
  decide

/-! ## C24: the display occupancy neither duplicates nor loses officers -/

/-- C24: for a roster with distinct IRLAs on a ladder of distinct rank names (the ranks being
on the ladder, or the run throws), and every date `X`: each member that is frozen, or for
whom the test `retirementDate <= X` fails (the retirement date is after `X`), has exactly one
entry with its IRLA across the lists of `displayRanks`, in the list of the rank that the
`Rank` field of the member's object in `updatedOfficers` names, which is a rank of the ladder;
and a member that is not frozen and whose retirement date is on or before `X` has no entry in
any list. -/
theorem display_occupancy (RO : List String) (SLOTS : String → Nat) (hnd : RO.Nodup)
    (fuel : Nat) (officers : List Member) (X : JsDate) (res : SimulationResult)
    (hirla : (officers.map (fun m => m.IRLA)).Nodup)
    (hrun : runFullSimulation RO SLOTS fuel officers X = .ok res)
    (i : Nat) (m : Member) (hm : officers[i]? = some m) :
    (m.Frozen.truthy = true ∨ (getRetirementDate m.DOB).le X = false →
      ∃ o, res.updatedOfficers[i]? = some o ∧ o.IRLA = m.IRLA ∧ o.Rank ∈ RO ∧
        ∀ r, ((res.displayRanks r).filter (fun x => decide (x.IRLA = m.IRLA))).length
          = if r = o.Rank then 1 else 0) ∧
    (m.Frozen.truthy = false → (getRetirementDate m.DOB).le X = true →
      ∀ r, ∀ x ∈ res.displayRanks r, x.IRLA ≠ m.IRLA) := by
  unfold runFullSimulation at hrun
  split at hrun
  · exact absurd hrun (by simp)
  split at hrun
  · exact absurd hrun (by simp)
  rename_i ds hds
  simp only [Except.ok.injEq] at hrun
  subst hrun
  obtain ⟨hfields, hlen, hrefs, hflags, hocc⟩ :=
    runDisplay_inv RO SLOTS hnd fuel officers X ds hirla hds
  have huniq := officersCopy_irla_inj officers hirla
  have hilt : i < officers.length := by
    by_contra hcon
    rw [List.getElem?_eq_none (by omega)] at hm
    exact absurd hm (by simp)
  have hilt' : i < (officersCopy officers).length := by simpa [officersCopy] using hilt
  have hobj0 := officersCopy_getD officers i m hm
  have hD : decide (i ∈ (displayEvents (officersCopy officers) X).map (fun e => e.officer))
      = (!m.Frozen.truthy && (getRetirementDate m.DOB).le X) := by
    have := mem_displayEvents_iff (officersCopy officers) X i
    rw [hobj0] at this
    have hmF : m.toOfficer.initialise.Frozen.truthy = m.Frozen.truthy :=
      JsValue.truthy_orFalse m.Frozen
    have hmD : m.toOfficer.initialise.DOB = m.DOB := rfl
    rw [hmF, hmD] at this
    by_cases hmem : i ∈ (displayEvents (officersCopy officers) X).map (fun e => e.officer)
    · obtain ⟨_, h1, h2⟩ := this.1 hmem
      simp [hmem, h1, h2]
    · have hn : ¬ (m.Frozen.truthy = false ∧ (getRetirementDate m.DOB).le X = true) :=
        fun h => hmem (this.2 ⟨hilt', h.1, h.2⟩)
      rw [decide_eq_false hmem]
      cases hF : m.Frozen.truthy <;> cases hle : (getRetirementDate m.DOB).le X <;> simp_all
  have hcount := fun r => displayRanks_count (officersCopy officers) ds i r huniq hfields hrefs
    hilt'
  have hmI : (officersCopy officers).getD i default = m.toOfficer.initialise := hobj0
  have hIRLA : ((officersCopy officers).getD i default).IRLA = m.IRLA := by rw [hmI]; rfl
  simp only [hIRLA] at hcount
  have hdr : ∀ r, (if r ∈ RO then (ds.active r).map ds.obj else [])
      = (fun rank => if rank ∈ RO then (ds.active rank).map ds.obj else []) r := fun _ => rfl
  refine ⟨?_, ?_⟩
  · intro halive
    have hDi : decide (i ∈ (displayEvents (officersCopy officers) X).map (fun e => e.officer))
        = false := by
      rw [hD]
      rcases halive with h | h
      · simp [h]
      · simp [h]
    obtain ⟨hRO, hc⟩ := (hocc i hilt').2 hDi
    have hdi : (ds.obj i).displayRetired = false := by rw [hflags i]; exact hDi
    refine ⟨ds.obj i, ?_, ?_, hRO, ?_⟩
    · show ds.heap[i]? = some (ds.heap.getD i default)
      rw [List.getD_eq_getElem?_getD, List.getElem?_eq_getElem (by rw [hlen]; exact hilt')]
      rfl
    · rw [hfields i, hIRLA]
    · intro r
      show ((if r ∈ RO then (ds.active r).map ds.obj else []).filter _).length = _
      by_cases hr : r ∈ RO
      · rw [if_pos hr, hcount r, hdi]
        exact hc r
      · rw [if_neg hr, if_neg (fun (e : r = (ds.obj i).Rank) => hr (e ▸ hRO))]
        rfl
  · intro hF hle r x hx hxI
    have hDi : decide (i ∈ (displayEvents (officersCopy officers) X).map (fun e => e.officer))
        = true := by
      rw [hD]
      simp [hF, hle]
    have hdi : (ds.obj i).displayRetired = true := by rw [hflags i]; exact hDi
    change x ∈ (if r ∈ RO then (ds.active r).map ds.obj else []) at hx
    by_cases hr : r ∈ RO
    · rw [if_pos hr] at hx
      have h0 := hcount r
      rw [hdi, if_pos rfl, List.length_eq_zero, List.filter_eq_nil_iff] at h0
      exact h0 x hx (by simpa using hxI)
    · rw [if_neg hr] at hx
      exact absurd hx (List.not_mem_nil _)

/-- C24 on the end-to-end scenario on 1 June 2031: `I1` and `I2` have retired and are listed
nowhere; `I3` (index 1 of the roster) is listed once, under A. -/
theorem display_occupancy_witness :
    ∃ res, runFullSimulation ladderABC slotsABC 10 rosterABC (some (makeDay 2031 5 1))
        = .ok res ∧
      (∃ o, res.updatedOfficers[1]? = some o ∧ o.IRLA = "I3" ∧ o.Rank ∈ ladderABC ∧
        ∀ r, ((res.displayRanks r).filter (fun x => decide (x.IRLA = "I3"))).length
          = if r = o.Rank then 1 else 0) ∧
      ∀ r, ∀ x ∈ res.displayRanks r, x.IRLA ≠ "I1" := by
  obtain ⟨res, hres⟩ := exists_ok_of_isOk
    (x := runFullSimulation ladderABC slotsABC 10 rosterABC (some (makeDay 2031 5 1)))
    (by decide)
  exact ⟨res, hres,
    (display_occupancy ladderABC slotsABC (by decide) 10 rosterABC _ res (by decide) hres 1 m3
      (by decide)).1 (Or.inr (by decide)),
    (display_occupancy ladderABC slotsABC (by decide) 10 rosterABC _ res (by decide) hres 3 m1
      (by decide)).2 (by decide) (by decide)⟩

/-! ## C25: frozen members in the promotionUtils engine -/

/-- C25 as stated fails. On `rosterFrozenB` as fresh objects (capacities 1, 1, 2),
`buildRetirementEvents` of promotionUtils.js generates an event for the frozen member `F`
(object 1); `simulatePromotions` promotes `F` to A when `I1` retires, so `F` has a record of
their own, and when `F` reaches retirement age `I4` is promoted with `F` as the cause. (The
frozen-aware engine of simplified-simulation.js, on the same roster, has no event for `F` and
promotes nobody past `F`.) -/
theorem promotionUtils_frozen_counterexample :
    (PromotionUtils.buildRetirementEvents (officersCopy rosterFrozenB)).map (fun e => e.officer)
      = [0, 2, 1, 3] ∧
    (PromotionUtils.simulatePromotions ladderABC slotsABC 10 (officersCopy rosterFrozenB)).map
        (fun r => r.1 "F")
      = .ok [⟨"A", getRetirementDate "10-01-1970", "I1", "N1"⟩] ∧
    (PromotionUtils.simulatePromotions ladderABC slotsABC 10 (officersCopy rosterFrozenB)).map
        (fun r => (r.1 "I4").map (fun p => (p.rank, p.causeIRLA)))
      = .ok [("B", "I3"), ("A", "F")] ∧
    (Simplified.buildRetirementEvents (officersCopy rosterFrozenB)).map
        (fun e => e.officer.IRLA) = ["I1", "I3", "I4"] ∧
    (Simplified.simulatePromotions ladderABC slotsABC 10 rosterFrozenB).map
        (fun P => (P "F", (P "I3" ++ P "I4").map (fun p => p.causeIRLA)))
      = .ok ([], []) := by
  decide

/-- C25, amended: the promotionUtils engine does not read the `Frozen` flag:
`buildRetirementEvents` returns one event for every member of the roster, frozen or not, and
the ledger that `simulatePromotions` returns is the one it returns for the same roster with
every `Frozen` flag cleared. -/
theorem promotionUtils_frozen_blind (RO : List String) (SLOTS : String → Nat) (fuel : Nat)
    (officers : List Officer) :
    ((PromotionUtils.buildRetirementEvents officers).map (fun e => e.officer)).Perm
        (List.range officers.length) ∧
    (PromotionUtils.simulatePromotions RO SLOTS fuel (officers.map clearFrozen)).map
        (fun r => r.1)
      = (PromotionUtils.simulatePromotions RO SLOTS fuel officers).map (fun r => r.1) :=
  ⟨(PromotionUtils.buildRetirementEvents_all officers).1,
    PromotionUtils.simulatePromotions_clearFrozen RO SLOTS fuel officers⟩

/-! ## C26: unparsable date of birth -/

/-- C26 as stated fails. `getRetirementDate` returns a date for the date of birth 31-02-1971
(`new Date` rolls 31 February over to 3 March, so the retirement date is 31 March 2031) and an
Invalid Date, not an error, for `xx-02-1972`; `runFullSimulation` on `rosterBadDob` generates
an event for each of the two members, promotes `Bad` to A and `NaN` to B when `I1` retires, no
longer lists `Bad` under B, and returns its usual result. -/
theorem unparsable_dob_counterexample :
    getRetirementDate "31-02-1971" = some (makeDay 2031 2 31) ∧
    getRetirementDate "xx-02-1972" = none ∧
    (allRetirementEvents (officersCopy rosterBadDob)).map (fun e => e.officer.IRLA)
      = ["I1", "Bad", "NaN", "I4"] ∧
    (runFullSimulation ladderABC slotsABC 10 rosterBadDob (some (makeDay 2030 5 1))).map
        (fun res => (res.promotionRecords "Bad", (res.promotionRecords "NaN").map
          (fun r => r.rank)))
      = .ok ([⟨"A", getRetirementDate "10-01-1970", "I1", "N1"⟩], ["B"]) ∧
    (runFullSimulation ladderABC slotsABC 10 rosterBadDob (some (makeDay 2030 5 1))).map
        (fun res => ((res.displayRanks "A").map (fun o => o.IRLA),
          (res.displayRanks "B").map (fun o => o.IRLA)))
      = .ok (["Bad"], ["NaN"]) := by
  decide

/-- C26, amended: `getRetirementDate` signals no error: it returns an Invalid Date when a
field of the date of birth is not a number; and `runFullSimulation` generates a retirement
event, dated `getRetirementDate` of the date of birth, for every member that is not frozen,
whatever the date of birth. -/
theorem unparsable_dob_unchecked (officers : List Member) (m : Member) (hm : m ∈ officers)
    (hf : m.Frozen.truthy = false) :
    (dateField m.DOB 0 = none ∨ dateField m.DOB 1 = none ∨ dateField m.DOB 2 = none →
      getRetirementDate m.DOB = none) ∧
    ∃ ev ∈ allRetirementEvents (officersCopy officers),
      ev.officer = m.toOfficer.initialise ∧ ev.date = getRetirementDate m.DOB :=
  ⟨getRetirementDate_nan m.DOB, allRetirementEvents_of_mem officers m hm hf⟩

/-- C26, amended, for the member `NaN` of `rosterBadDob`. -/
theorem unparsable_dob_unchecked_witness :
    ∃ ev ∈ allRetirementEvents (officersCopy rosterBadDob),
      ev.officer
          = (⟨"NaN", "nan", "xx-02-1972", "C", 3, .bool false, false⟩ : Member).toOfficer.initialise ∧
        ev.date = getRetirementDate "xx-02-1972" :=
  (unparsable_dob_unchecked rosterBadDob ⟨"NaN", "nan", "xx-02-1972", "C", 3, .bool false, false⟩
    (by decide) rfl).2

/-! ## C27: duplicate ids -/

/-- C27 as stated fails. On `rosterDup`, in which two members share the IRLA `D`,
`runFullSimulation` returns a result, and its ledger holds under `D` the record of the one
member's promotion to A and that of the other member's promotion to B. -/
theorem duplicate_ids_counterexample :
    ¬ (rosterDup.map (fun m => m.IRLA)).Nodup ∧
    (runFullSimulation ladderABC slotsABC 10 rosterDup (some (makeDay 2030 5 1))).map
        (fun res => (res.promotionRecords "D").map (fun r => (r.rank, r.causeIRLA)))
      = .ok [("A", "I1"), ("B", "I1")] := by
  decide

/-- C27, amended: `runFullSimulation` does not look for duplicate IRLAs. For every roster in
which two members share an IRLA and whose ranks are on the ladder (of distinct rank names),
the initial placement succeeds, so no error is raised before the retirement events are
processed; and when no IRLA names an inherited property of the ledger object, the run returns
its result once the fuel exceeds the roster size times the number of steps of the ladder. -/
theorem duplicate_ids_accepted (RO : List String) (SLOTS : String → Nat) (hnd : RO.Nodup)
    (officers : List Member) (currentDate : JsDate) (fuel : Nat)
    (hdup : ¬ (officers.map (fun m => m.IRLA)).Nodup)
    (hranks : ∀ m ∈ officers, m.Rank ∈ RO)
    (hfuel : officers.length * (RO.length - 1) < fuel) :
    ¬ (officers.map (fun m => m.IRLA)).Nodup ∧
    (∃ st0, initialTimeline RO officers = .ok st0) ∧
    ((∀ m ∈ officers, m.IRLA ∉ inheritedKeys) →
      ∃ res, runFullSimulation RO SLOTS fuel officers currentDate = .ok res) :=
  ⟨hdup, initialTimeline_total RO officers hranks,
    fun hkeys => runFullSimulation_ok RO SLOTS hnd fuel officers currentDate hranks hkeys hfuel⟩

/-- C27, amended, on `rosterDup`. -/
theorem duplicate_ids_accepted_witness :
    ¬ (rosterDup.map (fun m => m.IRLA)).Nodup ∧
    (∃ st0, initialTimeline ladderABC rosterDup = .ok st0) ∧
    ∃ res, runFullSimulation ladderABC slotsABC 10 rosterDup (some (makeDay 2030 5 1))
      = .ok res :=
  have h := duplicate_ids_accepted ladderABC slotsABC (by decide) rosterDup
    (some (makeDay 2030 5 1)) 10 (by decide) (by decide) (by decide)
  ⟨h.1, h.2.1, h.2.2 (by decide)⟩

/-! ## C28: date text round trip -/

/-- C28: for the zero-padded text `DD-MM-YYYY` of every real calendar date (day `d` of month
`m` of a four-digit year `y`), `formatDate(parseDate(s)) = s`. -/
theorem formatDate_parseDate (d m y : Nat) (hy0 : 1000 ≤ y) (hy : y ≤ 9999) (hm0 : 1 ≤ m)
    (hm : m ≤ 12) (hd0 : 1 ≤ d) (hd : (d : Int) ≤ monthLength y m) :
    formatDate (parseDate (formatDMY d m y)) = formatDMY d m y := by
  rw [parseDate_formatDMY d m y (by omega) hy hm0 hm hd0 hd]
  exact formatDate_civil d m y hy0 hy hm0 hm hd0 hd

/-- C28 at the leap day 29-02-2000. -/
theorem formatDate_parseDate_witness :
    formatDMY 29 2 2000 = "29-02-2000" ∧
    formatDate (parseDate (formatDMY 29 2 2000)) = formatDMY 29 2 2000 :=
  ⟨by decide, formatDate_parseDate 29 2 2000 (by decide) (by decide) (by decide) (by decide)
    (by decide) (by decide)⟩
/-! ## C29: no failing lookup on valid input -/

/-- No failing lookup for a roster whose IRLAs name no inherited property of the ledger
object: for every such roster whose ranks are all on the ladder (of distinct rank names),
every capacity table and every date, `runFullSimulation` completes with a result once the fuel
exceeds the roster size times the number of steps of the ladder: no lookup, index or splice
of the event loops or of the two cascades fails, whatever the dates of birth and however
under-strength the ranks become. -/
theorem no_failing_lookup (RO : List String) (SLOTS : String → Nat) (hnd : RO.Nodup)
    (officers : List Member) (currentDate : JsDate) (fuel : Nat)
    (hranks : ∀ m ∈ officers, m.Rank ∈ RO)
    (hkeys : ∀ m ∈ officers, m.IRLA ∉ inheritedKeys)
    (hfuel : officers.length * (RO.length - 1) < fuel) :
    ∃ res, runFullSimulation RO SLOTS fuel officers currentDate = .ok res :=
  runFullSimulation_ok RO SLOTS hnd fuel officers currentDate hranks hkeys hfuel

/-- No failing lookup on a roster that leaves the ladder under strength (capacity 2 in the
lowest rank and nobody to refill it). -/
theorem no_failing_lookup_witness :
    ∃ res, runFullSimulation ladderABC slotsABC 9 rosterABC (some (makeDay 2050 0 1))
      = .ok res :=
  no_failing_lookup ladderABC slotsABC (by decide) rosterABC (some (makeDay 2050 0 1)) 9
    (by decide) (by decide) (by decide)

/-- C29, the code at a failing input. Every member of `rosterCtor` has a rank of the ladder and a
well-formed date of birth, and the member of rank B has the IRLA `constructor`. When `I1`
retires, `fillVacancy` takes that member as candidate; the lookup
`promotionRecords[candidate.IRLA]` on the plain ledger object finds the inherited function
`Object`, so no array is created, and `promotionRecords[candidate.IRLA].push` is not a
function: `runFullSimulation` throws a TypeError and returns nothing. -/
theorem lookup_fails_on_inherited :
    (∀ m ∈ rosterCtor, m.Rank ∈ ladderABC ∧ (getRetirementDate m.DOB).isSome = true ∧
      parseDate m.DOB ≠ none) ∧
    rosterCtor.map (fun m => (m.IRLA, m.Rank)) =
      [("I1", "A"), ("constructor", "B"), ("I3", "C"), ("I4", "C")] ∧
    (runFullSimulation ladderABC slotsABC 10 rosterCtor (some (makeDay 2030 5 1))).map
        (fun res => res.promotionRecords "I3")
      = .error .typeError ∧
    (allRetirementEvents (officersCopy rosterCtor)).head?.map (fun e => e.officer.IRLA)
      = some "I1" ∧
    (eventStep ladderABC slotsABC 10 rosterCtor 0).map (fun p => p.isSome)
      = .error .typeError := by
  decide

/-! ## C30: the two views of App.js -/

/-- C30, the code at two failing inputs. On the configured ladder and capacities, for the
roster `rosterApp` on 1 January 2031, `applyCurrentDateFilter` lists `C` under DIG, while the
ledger of `runSimulation` holds for `C` the records of a promotion to DIG and of one to IG on
31 January 2030, so `selectOfficer` shows IG. On the full ladder `rosterFull` (capacities
2, 1, 1) on 1 January 2032 the display lists `C1` under B and the ledger gives A. -/
theorem app_views_disagree :
    (App.applyCurrentDateFilter RANK_ORDER SLOTS 20 rosterApp (some (makeDay 2031 0 1))).map
        (fun rs => ((rs "IG").map (fun o => o.IRLA), (rs "DIG").map (fun o => o.IRLA)))
      = .ok (["D"], ["C"]) ∧
    (App.runSimulation RANK_ORDER SLOTS 20 rosterApp).map (fun P => P "C")
      = .ok [⟨"DIG", App.getRetirementDate "10-01-1970", "G", "g"⟩,
          ⟨"IG", App.getRetirementDate "10-01-1970", "G", "g"⟩] ∧
    App.getRetirementDate "10-01-1970" = some (makeDay 2030 0 31) ∧
    (App.runSimulation RANK_ORDER SLOTS 20 rosterApp).bind
        (fun P => App.selectOfficer P (some (makeDay 2031 0 1))
          ⟨"C", "c", "10-01-1981", "Commandant", 3, .bool false, false⟩) = .ok "IG" ∧
    (App.applyCurrentDateFilter ladderABC slots211 20 rosterFull (some (makeDay 2032 0 1))).map
        (fun rs => ((rs "A").map (fun o => o.IRLA), (rs "B").map (fun o => o.IRLA)))
      = .ok (["B1"], ["C1"]) ∧
    (App.runSimulation ladderABC slots211 20 rosterFull).bind
        (fun P => App.selectOfficer P (some (makeDay 2032 0 1))
          ⟨"C1", "c1", "10-01-1981", "C", 4, .bool false, false⟩) = .ok "A" := by
  decide
/-! ## C31: the two frozen-aware engines compute the same ledger -/

/-- The two frozen-aware engines on a roster whose entries carry a boolean `Frozen` field, no
`Retired` flag and an IRLA that names no inherited property: for every such roster with
distinct IRLAs whose ranks are on the ladder (a ladder of distinct rank names) and every date
`X`, `runFullSimulation(roster, X)` returns and `simulatePromotions(roster)` of
simplified-simulation.js returns the ledger `promotionRecords` of that result: the cascade
that the simplified engine runs for a retiring member who is no longer under their original
rank, where the timeline pass skips the event, promotes nobody. -/
theorem engines_same_ledger (RO : List String) (SLOTS : String → Nat) (hnd : RO.Nodup)
    (fuel : Nat) (officers : List Member) (currentDate : JsDate)
    (hranks : ∀ m ∈ officers, m.Rank ∈ RO)
    (hirla : (officers.map (fun m => m.IRLA)).Nodup)
    (hb : ∀ m ∈ officers, m.Frozen.isBool = true) (hret : ∀ m ∈ officers, m.Retired = false)
    (hkeys : ∀ m ∈ officers, m.IRLA ∉ inheritedKeys)
    (hfuel : officers.length * (RO.length - 1) < fuel) :
    ∃ res, runFullSimulation RO SLOTS fuel officers currentDate = .ok res ∧
      Simplified.simulatePromotions RO SLOTS fuel officers = .ok res.promotionRecords := by
  obtain ⟨res, hres⟩ := runFullSimulation_ok RO SLOTS hnd fuel officers currentDate hranks hkeys
    hfuel
  refine ⟨res, hres, ?_⟩
  unfold runFullSimulation at hres
  split at hres
  · exact absurd hres (by simp)
  rename_i tl htl
  split at hres
  · exact absurd hres (by simp)
  simp only [Except.ok.injEq] at hres
  subst hres
  cases fuel with
  | zero => exact absurd hfuel (Nat.not_lt_zero _)
  | succ n =>
    unfold Simplified.simulatePromotions
    rw [Simplified.simulate_eq_runTimeline RO SLOTS hnd n officers hirla hb hret, htl]

/-- The two engines on the end-to-end scenario, in which `I2` and `I3` have left their
original ranks when their retirement events come. -/
theorem engines_same_ledger_witness :
    ∃ res, runFullSimulation ladderABC slotsABC 10 rosterABC (some (makeDay 2031 5 1))
        = .ok res ∧
      Simplified.simulatePromotions ladderABC slotsABC 10 rosterABC
        = .ok res.promotionRecords :=
  engines_same_ledger ladderABC slotsABC (by decide) 10 rosterABC (some (makeDay 2031 5 1))
    (by decide) (by decide) (by decide) (by decide) (by decide) (by decide)

/-- C31, the code at a failing input. In `rosterRetiredFlag` (distinct IRLAs, ranks on the ladder,
capacities 1, 1, 2) the entry of `I2` carries `Retired: true`. `simulatePromotions` of
simplified-simulation.js resets the flag before it copies the entries into its rank map, and
promotes `I2` to A and `I3` to B when `I1` retires. `runFullSimulation` copies the entry into
its rank structure first and resets the flag on the original afterwards, so the listed copy
of `I2` stays marked retired and is no candidate: its ledger holds nothing for `I2`, and the
one record of `I3` is dated a year later, with `I2` as its cause. -/
theorem engines_differ_on_retired_flag :
    rosterRetiredFlag.map (fun m => (m.IRLA, m.Rank, m.Retired))
      = [("I1", "A", false), ("I2", "B", true), ("I3", "C", false), ("I4", "C", false)] ∧
    (Simplified.simulatePromotions ladderABC slotsABC 10 rosterRetiredFlag).map
        (fun P => (P "I2", P "I3"))
      = .ok ([⟨"A", getRetirementDate "10-01-1970", "I1", "N1"⟩],
          [⟨"B", getRetirementDate "10-01-1970", "I1", "N1"⟩]) ∧
    (runFullSimulation ladderABC slotsABC 10 rosterRetiredFlag (some (makeDay 2031 5 1))).map
        (fun res => (res.promotionRecords "I2", res.promotionRecords "I3"))
      = .ok ([], [⟨"B", getRetirementDate "10-01-1971", "I2", "N2"⟩]) ∧
    (initialTimeline ladderABC rosterRetiredFlag).map
        (fun st => (st.ranks "B").map (fun o => (o.IRLA, o.Retired)))
      = .ok [("I2", true)] := by
  decide

/-! ## C32: promotions climb one rank at a time -/

/-- C32 as stated fails. In `rosterDup` the members `d1` of rank B and `d2` of rank C share the
IRLA `D`, and the ledger is keyed by IRLA: when `I1` retires, `d1` is promoted to A and `d2` to
B, and both records go under `D`. For `d2`, whose original rank is C, the first record of
`promotionRecords[D]` names A, which is not the rank directly above C. -/
theorem promotions_shared_ledger :
    rosterDup.map (fun m => (m.IRLA, m.Name, m.Rank))
      = [("I1", "N1", "A"), ("D", "d1", "B"), ("D", "d2", "C")] ∧
    (runFullSimulation ladderABC slotsABC 10 rosterDup (some (makeDay 2030 5 1))).map
        (fun res => (res.promotionRecords "D").map (fun r => r.rank))
      = .ok ["A", "B"] ∧
    ladderABC.indexOf "A" + 1 ≠ ladderABC.indexOf "C" ∧
    ¬ List.Chain (fun a b => b ∈ ladderABC ∧ ladderABC.indexOf b + 1 = ladderABC.indexOf a) "C"
        ["A", "B"] := by
  refine ⟨by decide, by decide, by decide, ?_⟩
  intro h
  rw [List.chain_cons] at h
  exact absurd h.1.2 (by decide)

/-- C32, amended: for a roster with distinct IRLAs on a ladder of distinct rank names, the ranks that
the records of a member `M` name in `promotionRecords` of `runFullSimulation` form a chain
that starts at `M`'s original rank and goes up the ladder by exactly one position from each
link to the next (the first record names the rank directly above the original rank, each
later record the rank directly above that of the record before it); hence `M` has at most as
many records as the position of the original rank in `RANK_ORDER`. -/
theorem promotions_climb_one_rank (RO : List String) (SLOTS : String → Nat) (hnd : RO.Nodup)
    (fuel : Nat) (officers : List Member) (currentDate : JsDate) (res : SimulationResult)
    (hirla : (officers.map (fun m => m.IRLA)).Nodup)
    (hrun : runFullSimulation RO SLOTS fuel officers currentDate = .ok res) :
    ∀ M ∈ officers,
      List.Chain (fun a b => b ∈ RO ∧ RO.indexOf b + 1 = RO.indexOf a) M.Rank
        ((res.promotionRecords M.IRLA).map (fun r => r.rank)) ∧
      (res.promotionRecords M.IRLA).length ≤ RO.indexOf M.Rank := by
  unfold runFullSimulation at hrun
  split at hrun
  · exact absurd hrun (by simp)
  rename_i tl htl
  split at hrun
  · exact absurd hrun (by simp)
  simp only [Except.ok.injEq] at hrun
  subst hrun
  intro M hM
  have hC := (runTimeline_climbInv RO SLOTS hnd fuel officers tl hirla htl).1 M hM
  refine ⟨hC, ?_⟩
  have := chain_stepUp_length RO _ _ hC
  rw [List.length_map] at this
  exact this

/-- C32, amended, on the configured ladder and the roster `rosterDeep`: `C1` starts in Commandant
(position 3) and its two records name DIG and then IG. -/
theorem promotions_climb_one_rank_witness :
    ∃ res, runFullSimulation RANK_ORDER SLOTS 30 rosterDeep (some (makeDay 2031 0 1)) = .ok res ∧
      (res.promotionRecords "C1").map (fun r => r.rank) = ["DIG", "IG"] ∧
      ∀ M ∈ rosterDeep,
        List.Chain (fun a b => b ∈ RANK_ORDER ∧ RANK_ORDER.indexOf b + 1 = RANK_ORDER.indexOf a)
          M.Rank ((res.promotionRecords M.IRLA).map (fun r => r.rank)) ∧
        (res.promotionRecords M.IRLA).length ≤ RANK_ORDER.indexOf M.Rank := by
  obtain ⟨res, hres⟩ := exists_ok_of_isOk
    (x := runFullSimulation RANK_ORDER SLOTS 30 rosterDeep (some (makeDay 2031 0 1)))
    (by decide)
  have hrec : (runFullSimulation RANK_ORDER SLOTS 30 rosterDeep (some (makeDay 2031 0 1))).map
      (fun res => (res.promotionRecords "C1").map (fun r => r.rank)) = .ok ["DIG", "IG"] := by
    decide
  rw [hres] at hrec
  exact ⟨res, hres, by simpa [Except.map] using hrec,
    promotions_climb_one_rank RANK_ORDER SLOTS (by decide) 30 rosterDeep _ res (by decide) hres⟩

/-! ## C33: rank lists stay in seniority order when the keys follow the ladder -/

/-- Seniority order of the rank lists for a roster whose entries carry a boolean `Frozen` field
and no `Retired` flag: on a ladder of distinct rank names, for such a roster whose members
that are not frozen have distinct `order_index` values and in which each such member of a higher rank has a
smaller `order_index` than each such member of every lower rank, in every rank structure
that the timeline pass of `runFullSimulation` holds (the initial one and the one after each
removal and each promotion of `fillVacancy`), the entries of every rank list that are not
frozen stand in strictly ascending `order_index`; so the first entry that is not frozen, which
is the candidate `fillVacancy` picks, has the lowest `order_index` of the entries of that rank
that are not frozen. -/
theorem rank_lists_stay_sorted (RO : List String) (SLOTS : String → Nat) (hnd : RO.Nodup)
    (fuel : Nat) (officers : List Member) (currentDate : JsDate) (res : SimulationResult)
    (hkeys : ∀ a ∈ officers, ∀ b ∈ officers, a.Frozen.truthy = false → b.Frozen.truthy = false →
      RO.indexOf a.Rank < RO.indexOf b.Rank → a.order_index < b.order_index)
    (huniq : ((officers.filter (fun m => !m.Frozen.truthy)).map (fun m => m.order_index)).Nodup)
    (hb : ∀ m ∈ officers, m.Frozen.isBool = true) (hret : ∀ m ∈ officers, m.Retired = false)
    (hrun : runFullSimulation RO SLOTS fuel officers currentDate = .ok res) :
    ∀ rs ∈ res.timeline.history, ∀ r,
      ((rs r).filter (fun o => !o.Frozen.truthy)).Pairwise
        (fun a b => a.order_index < b.order_index) ∧
      (∀ c ∈ ((rs r).filter (fun o => !o.Frozen.truthy)).head?, ∀ o ∈ rs r, o.Frozen.truthy = false →
        c.order_index ≤ o.order_index) ∧
      (∀ i c, candidateIndex (rs r) = some i → (rs r)[i]? = some c →
        ∀ o ∈ rs r, o.Frozen.truthy = false → c.order_index ≤ o.order_index) := by
  unfold runFullSimulation at hrun
  split at hrun
  · exact absurd hrun (by simp)
  rename_i tl htl
  split at hrun
  · exact absurd hrun (by simp)
  simp only [Except.ok.injEq] at hrun
  subst hrun
  intro rs hrs r
  have hS := (runTimeline_seniority RO SLOTS hnd fuel officers tl hkeys huniq hb hret htl).2 rs hrs
  refine ⟨hS.2.1 r, ?_, ?_⟩
  · intro c hc o ho hof
    have hp := hS.2.1 r
    have hmem : o ∈ (rs r).filter (fun o => !o.Frozen.truthy) :=
      List.mem_filter.2 ⟨ho, by simp [hof]⟩
    cases hl : (rs r).filter (fun o => !o.Frozen.truthy) with
    | nil =>
      rw [hl] at hmem
      exact absurd hmem (List.not_mem_nil _)
    | cons x xs =>
      rw [hl] at hp hmem hc
      simp only [List.head?_cons, Option.mem_def, Option.some.injEq] at hc
      subst hc
      rcases List.mem_cons.1 hmem with e | hx
      · rw [e]
      · exact le_of_lt (List.rel_of_pairwise_cons hp hx)
  · intro i c hi hc
    exact candidate_lowest RO rs r i c hS hi hc

/-- Seniority order on the end-to-end scenario, whose keys 1 (rank A), 2 (rank B), 3 and 4 (rank C) follow
the ladder: the property holds of the seven rank structures of the timeline pass. -/
theorem rank_lists_stay_sorted_witness :
    ∃ res, runFullSimulation ladderABC slotsABC 10 rosterABC (some (makeDay 2031 5 1))
        = .ok res ∧
      res.timeline.history.length = 7 ∧
      ∀ rs ∈ res.timeline.history, ∀ r,
        ((rs r).filter (fun o => !o.Frozen.truthy)).Pairwise
          (fun a b => a.order_index < b.order_index) ∧
        (∀ c ∈ ((rs r).filter (fun o => !o.Frozen.truthy)).head?, ∀ o ∈ rs r, o.Frozen.truthy = false →
          c.order_index ≤ o.order_index) ∧
        (∀ i c, candidateIndex (rs r) = some i → (rs r)[i]? = some c →
          ∀ o ∈ rs r, o.Frozen.truthy = false → c.order_index ≤ o.order_index) := by
  obtain ⟨res, hres⟩ := exists_ok_of_isOk
    (x := runFullSimulation ladderABC slotsABC 10 rosterABC (some (makeDay 2031 5 1)))
    (by decide)
  have hlen : (runFullSimulation ladderABC slotsABC 10 rosterABC
      (some (makeDay 2031 5 1))).map (fun res => res.timeline.history.length) = .ok 7 := by
    decide
  rw [hres] at hlen
  exact ⟨res, hres, by simpa [Except.map] using hlen,
    rank_lists_stay_sorted ladderABC slotsABC (by decide) 10 rosterABC _ res (by decide)
      (by decide) (by decide) (by decide) hres⟩

/-- C33, the code at a failing input. In `rosterNoFlag` the keys follow the ladder (1 in A, 2 in B, 3 and 4
in C) and nobody is frozen; the entry of `I4` carries no `Frozen` field. The copies are filed
under their ranks before `Frozen` is normalised, and the rank comparator answers -1 for
`undefined !== false` whichever entry comes first, so the initial sort leaves rank C as
[I4, I3]: the non-frozen members of C are not in ascending `order_index`, the first of them
is not the one with the lowest `order_index`, and after the promotion made for the first
event it is `I4`, key 4, that stands in B while `I3`, key 3, stays in C. -/
theorem rank_list_unsorted :
    rosterNoFlag.map (fun m => (m.Rank, m.order_index, m.Frozen))
      = [("A", 1, .bool false), ("B", 2, .bool false), ("C", 3, .bool false),
          ("C", 4, .undefined)] ∧
    (∀ a ∈ rosterNoFlag, ∀ b ∈ rosterNoFlag, a.Frozen.truthy = false → b.Frozen.truthy = false →
      ladderABC.indexOf a.Rank < ladderABC.indexOf b.Rank → a.order_index < b.order_index) ∧
    (runFullSimulation ladderABC slotsABC 10 rosterNoFlag (some (makeDay 2030 5 1))).map
        (fun res => res.timeline.history.reverse.head?.map
          (fun rs => ((rs "C").filter (fun o => !o.Frozen.truthy)).map
            (fun o => (o.IRLA, o.order_index))))
      = .ok (some [("I4", 4), ("I3", 3)]) ∧
    (runFullSimulation ladderABC slotsABC 10 rosterNoFlag (some (makeDay 2030 5 1))).map
        (fun res => (res.timeline.history.reverse.take 5).map
          (fun rs => ladderABC.map (fun r => (rs r).map (fun o => o.order_index))))
      = .ok [[[1], [2], [4, 3]], [[], [2], [4, 3]], [[], [], [4, 3]], [[2], [], [4, 3]],
          [[2], [], [3]]] ∧
    (eventStep ladderABC slotsABC 10 rosterNoFlag 0).map (fun p => p.map (fun ss =>
        ladderABC.map (fun r => (ss.2.ranks r).map (fun o => o.order_index))))
      = .ok (some [[2], [4], [3]]) := by
  decide

/-! ## C34: one promotion per rank per retirement on a ladder that starts full -/

/-- One promotion per rank for a roster whose entries carry no `Retired` flag: on a ladder of
distinct rank names, for such a roster with distinct IRLAs in which each
rank of the ladder initially holds exactly `SLOTS[rank]` members, the processing of any single
retirement event in the timeline pass of `runFullSimulation` only appends to the ledger, and
what it appends (counted under any list of distinct keys) is at most one record naming each
rank, at most (number of ranks - 1) records in total, and at most one record under any one
member's IRLA. -/
theorem one_promotion_per_rank (RO : List String) (SLOTS : String → Nat) (hnd : RO.Nodup)
    (fuel : Nat) (officers : List Member) (n : Nat) (keys : List String) (hkeys : keys.Nodup)
    (s s' : TimelineState)
    (hirla : (officers.map (fun m => m.IRLA)).Nodup)
    (hret : ∀ m ∈ officers, m.Retired = false)
    (hfull : ∀ r ∈ RO, (officers.filter (fun m => m.Rank = r)).length = SLOTS r)
    (h : eventStep RO SLOTS fuel officers n = .ok (some (s, s'))) :
    (∀ k, s.records k <+: s'.records k) ∧
    (∀ rank, rankRecordCount keys s'.records rank ≤ rankRecordCount keys s.records rank + 1) ∧
    recordCount keys s'.records ≤ recordCount keys s.records + (RO.length - 1) ∧
    ∀ k, (s'.records k).length ≤ (s.records k).length + 1 := by
  unfold eventStep at h
  split at h
  · exact absurd h (by simp)
  rename_i st0 hst0
  split at h
  · exact absurd h (by simp)
  rename_i s1 hs1
  split at h
  · exact absurd h (by simp)
  rename_i ev hev
  split at h
  · exact absurd h (by simp)
  rename_i s2 hs2
  simp only [Except.ok.injEq, Option.some.injEq, Prod.mk.injEq] at h
  obtain ⟨rfl, rfl⟩ := h
  obtain ⟨hcap, hA, hE⟩ := processTimelineEvents_full RO SLOTS hnd fuel officers hirla hret hfull
    ((allRetirementEvents (officersCopy officers)).take n)
    (fun e he => List.mem_of_mem_take he) st0 s1 hst0 hs1
  exact ⟨processTimelineEvent_appends RO SLOTS fuel ev s1 s2 hs2,
    processTimelineEvent_one_per_rank RO SLOTS hnd fuel officers keys hkeys ev s1 s2 hcap hA hE
      hs2⟩

/-- One promotion per rank on the roster `rosterFull`, which fills the capacities 2, 1, 1: the second event (the
retirement of `A2`, after `B1` and `C1` have moved up) finds two records in the ledger and
leaves three. -/
theorem one_promotion_per_rank_witness :
    ∃ s s', eventStep ladderABC slots211 10 rosterFull 1 = .ok (some (s, s')) ∧
      recordCount ["A1", "A2", "B1", "C1"] s.records = 2 ∧
      recordCount ["A1", "A2", "B1", "C1"] s'.records = 3 ∧
      (∀ k, s.records k <+: s'.records k) ∧
      (∀ rank, rankRecordCount ["A1", "A2", "B1", "C1"] s'.records rank
        ≤ rankRecordCount ["A1", "A2", "B1", "C1"] s.records rank + 1) ∧
      recordCount ["A1", "A2", "B1", "C1"] s'.records
        ≤ recordCount ["A1", "A2", "B1", "C1"] s.records + (ladderABC.length - 1) ∧
      ∀ k, (s'.records k).length ≤ (s.records k).length + 1 := by
  obtain ⟨p, hp⟩ := exists_ok_of_isOk (x := eventStep ladderABC slots211 10 rosterFull 1)
    (by decide)
  have hcount : (eventStep ladderABC slots211 10 rosterFull 1).map (fun p => p.map (fun ss =>
      (recordCount ["A1", "A2", "B1", "C1"] ss.1.records,
        recordCount ["A1", "A2", "B1", "C1"] ss.2.records))) = .ok (some (2, 3)) := by
    decide
  rw [hp] at hcount
  cases p with
  | none => exact absurd hcount (by simp [Except.map])
  | some ss =>
    simp only [Except.map, Option.map_some', Except.ok.injEq, Option.some.injEq,
      Prod.mk.injEq] at hcount
    exact ⟨ss.1, ss.2, hp, hcount.1, hcount.2,
      one_promotion_per_rank ladderABC slots211 (by decide) 10 rosterFull 1
        ["A1", "A2", "B1", "C1"] (by decide) ss.1 ss.2 (by decide) (by decide) (by decide) hp⟩

/-- C34, the code at a failing input. `rosterXLW` fills the ladder X 2, L 1, W 2, and its entry of `l1`
carries `Retired: true`, which the copy filed under L keeps. When `x1` retires, `l1` is no
candidate and X stays one short; the event of `l1` then brings `w1` up to L. The third event,
the retirement of `x2`, finds X with two vacancies: it appends three records, `w1` to X, `w2`
to L and `w2` to X: two records naming X, two records for `w2`, and more than the two that a
ladder of three ranks allows. -/
theorem two_promotions_per_rank :
    (∀ r ∈ ladderXLW, (rosterXLW.filter (fun m => m.Rank = r)).length = slots212 r) ∧
    rosterXLW.map (fun m => (m.IRLA, m.Rank, m.Retired))
      = [("x1", "X", false), ("x2", "X", false), ("l1", "L", true), ("w1", "W", false),
          ("w2", "W", false)] ∧
    (allRetirementEvents (officersCopy rosterXLW)).map (fun e => e.officer.IRLA)
      = ["x1", "l1", "x2", "w1", "w2"] ∧
    (eventStep ladderXLW slots212 10 rosterXLW 2).map (fun p => p.map (fun ss =>
        (recordCount ["x1", "x2", "l1", "w1", "w2"] ss.1.records,
          recordCount ["x1", "x2", "l1", "w1", "w2"] ss.2.records)))
      = .ok (some (1, 4)) ∧
    (eventStep ladderXLW slots212 10 rosterXLW 2).map (fun p => p.map (fun ss =>
        ((ss.2.records "w1").map (fun r => (r.rank, r.causeIRLA)),
          (ss.2.records "w2").map (fun r => (r.rank, r.causeIRLA)))))
      = .ok (some ([("L", "l1"), ("X", "x2")], [("L", "x2"), ("X", "x2")])) ∧
    (eventStep ladderXLW slots212 10 rosterXLW 2).map (fun p => p.map (fun ss =>
        (rankRecordCount ["x1", "x2", "l1", "w1", "w2"] ss.1.records "X",
          rankRecordCount ["x1", "x2", "l1", "w1", "w2"] ss.2.records "X")))
      = .ok (some (0, 2)) := by
  decide

end PromotionForecaster
